import Mathlib

/-!
# buffer-layout: a verification development for `lib/Layout.js`

The layouts of `lib/Layout.js` are embedded as a Lean data type together with
their `decode` and `encode` methods.  Integer codecs (`UInt`, `UIntBE`, `Int`,
`IntBE`) and the aggregates (`Sequence`, `Structure`, `Union`,
`VariantLayout`) are covered; the four floating point codecs are left out,
because their values have no exact counterpart here.

Conventions of the embedding:

* a `Buffer` is the list of its bytes; a write returns the buffer after the
  write together with the exception raised, if any, so that what was written
  before a failure stays visible;
* JavaScript values are the type `Value`; the `number`s are the integers;
* the spans that the constructors compute are numbers of the host, doubles:
  `Number.add` and `Number.mul` round a sum and a product of natural numbers
  as the host does, which leaves them exact up to `2 ^ 53` and makes them
  `Infinity` from `2 ^ 1024 - 2 ^ 970` on;
* objects with an identity that the code compares or mutates (a variant layout,
  the registry of a union) carry a reference, and the registries live in a
  `Store` that is passed to the functions that read them;
* `decode` and `encode` recurse through layouts found at run time (a union
  decodes through whatever its registry holds), so they take a `fuel`
  argument that bounds the depth of the calls; running out of fuel is the
  distinguished error `Err.fuel`, which no JavaScript exception maps to;
* an omitted `offset` is read as `0` by the guard at the head of every method;
  the functions below take the offset after that guard.
-/

namespace BufferLayout

/-! ## Values, errors and buffers -/

/-- Exceptions thrown by the library and by the buffer primitives it calls;
`fuel` is the only one that is not a JavaScript exception. -/
inductive Err where
  | typeError
  | abstract
  | valueOutOfBounds
  | indexOutOfRange
  | variantMismatch
  | unionDefaultEncode
  | spanExceeds
  | fuel
  deriving DecidableEq, Repr

/-- JavaScript values that layouts decode to and encode from. -/
inductive Value where
  | undefined
  | number (n : ℤ)
  | array (xs : List Value)
  | object (props : List (String × Value))

/-- Property list of an object, in insertion order. -/
abbrev Obj := List (String × Value)

/-- Read of an own property of a property list: `undefined` when absent. -/
def Obj.get : Obj → String → Value
  | [], _ => Value.undefined
  | (k, x) :: rest, key => if k = key then x else Obj.get rest key

/-- Whether the property list binds the key. -/
def Obj.has : Obj → String → Bool
  | [], _ => false
  | (k, _) :: rest, key => if k = key then true else Obj.has rest key

/-- Assignment `dest[key] = x`: an existing binding is replaced in place, a new
one is added at the end. -/
def Obj.set : Obj → String → Value → Obj
  | [], key, x => [(key, x)]
  | (k, y) :: rest, key, x =>
    if k = key then (key, x) :: rest else (k, y) :: Obj.set rest key x

/-- Property read `src[key]`: a `TypeError` on `undefined`, `undefined` for a
property that is absent (numbers and arrays have none of the names used here). -/
def Value.getProp : Value → String → Except Err Value
  | Value.undefined, _ => Except.error Err.typeError
  | Value.object props, key => Except.ok (Obj.get props key)
  | _, _ => Except.ok Value.undefined

/-- Deep equality of values, as `assert.deepEqual` and lodash `isEqual` see it:
arrays agree position by position, objects bind the same keys to equal values,
in whatever order the keys were inserted. -/
inductive Value.Equiv : Value → Value → Prop where
  | undefined : Value.Equiv Value.undefined Value.undefined
  | number (n : ℤ) : Value.Equiv (Value.number n) (Value.number n)
  | array (xs ys : List Value) :
      xs.length = ys.length →
      (∀ i, i < xs.length →
        Value.Equiv (xs.getD i Value.undefined) (ys.getD i Value.undefined)) →
      Value.Equiv (Value.array xs) (Value.array ys)
  | object (ps qs : Obj) :
      (∀ k, Obj.has ps k = Obj.has qs k) →
      (∀ k, Value.Equiv (Obj.get ps k) (Obj.get qs k)) →
      Value.Equiv (Value.object ps) (Value.object qs)

/-- Bytes of a buffer, each read as a number below 256. -/
abbrev Buffer := List ℕ

/-- Result of a mutation of a buffer: the buffer after the call and the
exception that ended the call, if any. -/
structure Written where
  buffer : Buffer
  error : Option Err

/-- Value of a byte string read least significant byte first. -/
def leValue : List ℕ → ℕ
  | [] => 0
  | x :: xs => x + 256 * leValue xs

/-- Value of a byte string read most significant byte first. -/
def beValue (bs : List ℕ) : ℕ :=
  bs.foldl (fun acc x => acc * 256 + x) 0

/-- The `n` low bytes of `v`, least significant first. -/
def leBytes : ℕ → ℕ → List ℕ
  | 0, _ => []
  | n + 1, v => v % 256 :: leBytes n (v / 256)

/-- The `n` low bytes of `v`, most significant first. -/
def beBytes (n v : ℕ) : List ℕ :=
  (leBytes n v).reverse

/-- Overwrite of the bytes from `offset` on by `bytes`. -/
def Buffer.splice (b : Buffer) (offset : ℕ) (bytes : List ℕ) : Buffer :=
  b.take offset ++ bytes ++ b.drop (offset + bytes.length)

/-- The `byteLength` bytes from `offset` on. -/
def Buffer.slice (b : Buffer) (offset byteLength : ℕ) : List ℕ :=
  (b.drop offset).take byteLength

/-- Modelled from the spec: `Buffer.prototype.readUIntLE` of the host, which is
not part of this repository.  It reads exactly `byteLength` bytes at `offset`
as an unsigned little-endian integer and throws a `RangeError` when the bytes
do not lie inside the buffer. -/
def Buffer.readUIntLE (b : Buffer) (offset byteLength : ℕ) : Except Err ℤ :=
  if b.length < offset + byteLength then Except.error Err.indexOutOfRange
  else Except.ok (leValue (b.slice offset byteLength) : ℕ)

/-- Modelled from the spec: `Buffer.prototype.readUIntBE` of the host; as
`readUIntLE`, most significant byte first. -/
def Buffer.readUIntBE (b : Buffer) (offset byteLength : ℕ) : Except Err ℤ :=
  if b.length < offset + byteLength then Except.error Err.indexOutOfRange
  else Except.ok (beValue (b.slice offset byteLength) : ℕ)

/-- Two's complement reading of an unsigned value of `byteLength` bytes. -/
def toSigned (byteLength : ℕ) (u : ℕ) : ℤ :=
  if 2 * u < 256 ^ byteLength then (u : ℤ) else (u : ℤ) - 256 ^ byteLength

/-- Two's complement representative of a signed value in `byteLength` bytes. -/
def toUnsigned (byteLength : ℕ) (v : ℤ) : ℕ :=
  (v % 256 ^ byteLength).toNat

/-- Modelled from the spec: `Buffer.prototype.readIntLE` of the host: the
bytes read by `readUIntLE`, taken as a two's complement signed integer. -/
def Buffer.readIntLE (b : Buffer) (offset byteLength : ℕ) : Except Err ℤ :=
  if b.length < offset + byteLength then Except.error Err.indexOutOfRange
  else Except.ok (toSigned byteLength (leValue (b.slice offset byteLength)))

/-- Modelled from the spec: `Buffer.prototype.readIntBE` of the host. -/
def Buffer.readIntBE (b : Buffer) (offset byteLength : ℕ) : Except Err ℤ :=
  if b.length < offset + byteLength then Except.error Err.indexOutOfRange
  else Except.ok (toSigned byteLength (beValue (b.slice offset byteLength)))

/-- Modelled from the spec: `Buffer.prototype.writeUIntLE` of the host.  The
value is checked against the range of the width first, then the offset
against the length of the buffer; the write stores exactly `byteLength`
bytes, least significant first. -/
def Buffer.writeUIntLE (b : Buffer) (value : ℤ) (offset byteLength : ℕ) : Written :=
  if value < 0 ∨ (256 : ℤ) ^ byteLength ≤ value then ⟨b, some Err.valueOutOfBounds⟩
  else if b.length < offset + byteLength then ⟨b, some Err.indexOutOfRange⟩
  else ⟨b.splice offset (leBytes byteLength value.toNat), none⟩

/-- Modelled from the spec: `Buffer.prototype.writeUIntBE` of the host. -/
def Buffer.writeUIntBE (b : Buffer) (value : ℤ) (offset byteLength : ℕ) : Written :=
  if value < 0 ∨ (256 : ℤ) ^ byteLength ≤ value then ⟨b, some Err.valueOutOfBounds⟩
  else if b.length < offset + byteLength then ⟨b, some Err.indexOutOfRange⟩
  else ⟨b.splice offset (beBytes byteLength value.toNat), none⟩

/-- Modelled from the spec: `Buffer.prototype.writeIntLE` of the host: the
signed range of the width is checked, and a negative value is stored in two's
complement. -/
def Buffer.writeIntLE (b : Buffer) (value : ℤ) (offset byteLength : ℕ) : Written :=
  if 2 * value < -(256 : ℤ) ^ byteLength ∨ (256 : ℤ) ^ byteLength ≤ 2 * value then
    ⟨b, some Err.valueOutOfBounds⟩
  else if b.length < offset + byteLength then ⟨b, some Err.indexOutOfRange⟩
  else ⟨b.splice offset (leBytes byteLength (toUnsigned byteLength value)), none⟩

/-- Modelled from the spec: `Buffer.prototype.writeIntBE` of the host. -/
def Buffer.writeIntBE (b : Buffer) (value : ℤ) (offset byteLength : ℕ) : Written :=
  if 2 * value < -(256 : ℤ) ^ byteLength ∨ (256 : ℤ) ^ byteLength ≤ 2 * value then
    ⟨b, some Err.valueOutOfBounds⟩
  else if b.length < offset + byteLength then ⟨b, some Err.indexOutOfRange⟩
  else ⟨b.splice offset (beBytes byteLength (toUnsigned byteLength value)), none⟩

/-- Modelled from the spec: `Buffer.prototype.fill(value, start, end)` of the
host: a `RangeError` when `end` lies past the buffer, nothing written when the
range is empty, else every byte of the range set to the value. -/
def Buffer.fill (b : Buffer) (value start stop : ℕ) : Written :=
  if b.length < stop then ⟨b, some Err.indexOutOfRange⟩
  else if stop ≤ start then ⟨b, none⟩
  else ⟨b.splice start (List.replicate (stop - start) (value % 256)), none⟩

/-! ## Layouts -/

/-- Instances of the classes of `lib/Layout.js`, with the fields their
constructors assign.  `Base` is an instance of the abstract class `Layout`
itself.  A union refers to its registry by the reference `registry`; a
variant layout carries the reference `ref` of the object it is, which is what
`!==` compares. -/
inductive Layout where
  | Base (span : ℕ) (property : Option String)
  | UInt (span : ℕ) (property : Option String)
  | UIntBE (span : ℕ) (property : Option String)
  | Int (span : ℕ) (property : Option String)
  | IntBE (span : ℕ) (property : Option String)
  | Sequence (span : ℕ) (property : Option String) (elt_layout : Layout) (count : ℕ)
  | Structure (span : ℕ) (property : Option String) (fields : List Layout)
  | Union (span : ℕ) (property : Option String) (layout : Layout)
      (discr_layout : Layout) (default_layout : Layout) (registry : ℕ)
  | VariantLayout (ref : ℕ) (span : ℕ) (property : Option String) (union : Layout)
      (variant : ℕ) (layout : Layout)

/-- Field `span` of a layout. -/
def Layout.span : Layout → ℕ
  | .Base span _ => span
  | .UInt span _ => span
  | .UIntBE span _ => span
  | .Int span _ => span
  | .IntBE span _ => span
  | .Sequence span _ _ _ => span
  | .Structure span _ _ => span
  | .Union span _ _ _ _ _ => span
  | .VariantLayout _ span _ _ _ _ => span

/-- Field `property` of a layout; `none` is `undefined`. -/
def Layout.property : Layout → Option String
  | .Base _ property => property
  | .UInt _ property => property
  | .UIntBE _ property => property
  | .Int _ property => property
  | .IntBE _ property => property
  | .Sequence _ property _ _ => property
  | .Structure _ property _ => property
  | .Union _ property _ _ _ _ => property
  | .VariantLayout _ _ property _ _ _ => property

/-- Field `fields` of a layout; `none` when the layout has no such field. -/
def Layout.fields : Layout → Option (List Layout)
  | .Structure _ _ fields => some fields
  | _ => none

/-- Reference of the object, for the layouts whose identity the code compares. -/
def Layout.ref : Layout → Option ℕ
  | .VariantLayout ref _ _ _ _ _ => some ref
  | _ => none

/-- Name under which a property value is used as a key: `undefined` becomes
the string `undefined`. -/
def propKey (property : Option String) : String :=
  property.getD "undefined"

/-- Registries of the unions, all in one table keyed by the reference of the
registry and the variant number, and the next unused reference. -/
structure Store where
  next : ℕ
  registry : List ((ℕ × ℕ) × Layout)

/-- Lookup `registry[variant]` for a value used as key: only a non-negative
number names an entry. -/
def Store.entry (σ : Store) (registry : ℕ) : Value → Option Layout
  | .number n => if 0 ≤ n then σ.registry.lookup (registry, n.toNat) else none
  | _ => none

/-- Argument of `getVariant`: a variant number or a buffer. -/
inductive VariantKey where
  | value (v : Value)
  | buffer (b : Buffer)

/-- Dynamic dispatch of `decode` on a layout found in a field. -/
abbrev Decoder := Layout → Buffer → ℕ → Option Obj → Except Err Value

/-- Dynamic dispatch of `encode` on a layout found in a field. -/
abbrev Encoder := Layout → Value → Buffer → ℕ → Written

/-- Whether a value is `undefined`. -/
def Value.isUndefined : Value → Bool
  | .undefined => true
  | _ => false

/-- Method `UInt.prototype.decode`. -/
def UInt.decode (span : ℕ) (b : Buffer) (offset : ℕ) : Except Err Value :=
  (b.readUIntLE offset span).map Value.number

/-- Method `UInt.prototype.encode`.  The host coerces the source to a number; a
source that is not a number is outside the domain of the codec and is
rejected here. -/
def UInt.encode (span : ℕ) (src : Value) (b : Buffer) (offset : ℕ) : Written :=
  match src with
  | .number v => b.writeUIntLE v offset span
  | _ => ⟨b, some Err.typeError⟩

/-- Method `UIntBE.prototype.decode`. -/
def UIntBE.decode (span : ℕ) (b : Buffer) (offset : ℕ) : Except Err Value :=
  (b.readUIntBE offset span).map Value.number

/-- Method `UIntBE.prototype.encode`. -/
def UIntBE.encode (span : ℕ) (src : Value) (b : Buffer) (offset : ℕ) : Written :=
  match src with
  | .number v => b.writeUIntBE v offset span
  | _ => ⟨b, some Err.typeError⟩

/-- Method `Int.prototype.decode`. -/
def Int.decode (span : ℕ) (b : Buffer) (offset : ℕ) : Except Err Value :=
  (b.readIntLE offset span).map Value.number

/-- Method `Int.prototype.encode`. -/
def Int.encode (span : ℕ) (src : Value) (b : Buffer) (offset : ℕ) : Written :=
  match src with
  | .number v => b.writeIntLE v offset span
  | _ => ⟨b, some Err.typeError⟩

/-- Method `IntBE.prototype.decode`. -/
def IntBE.decode (span : ℕ) (b : Buffer) (offset : ℕ) : Except Err Value :=
  (b.readIntBE offset span).map Value.number

/-- Method `IntBE.prototype.encode`. -/
def IntBE.encode (span : ℕ) (src : Value) (b : Buffer) (offset : ℕ) : Written :=
  match src with
  | .number v => b.writeIntBE v offset span
  | _ => ⟨b, some Err.typeError⟩

/-- Loop of `Sequence.prototype.decode`: `n` more elements from `offset` on. -/
def Sequence.decodeElts (dec : Decoder) (elo : Layout) (b : Buffer) :
    ℕ → ℕ → Except Err (List Value)
  | 0, _ => Except.ok []
  | n + 1, offset =>
    match dec elo b offset none with
    | Except.error e => Except.error e
    | Except.ok x =>
      match Sequence.decodeElts dec elo b n (offset + elo.span) with
      | Except.error e => Except.error e
      | Except.ok rest => Except.ok (x :: rest)

/-- Method `Sequence.prototype.decode`. -/
def Sequence.decode (dec : Decoder) (elo : Layout) (count : ℕ) (b : Buffer) (offset : ℕ) :
    Except Err Value :=
  (Sequence.decodeElts dec elo b count offset).map Value.array

/-- Loop `src.forEach` of `Sequence.prototype.encode`. -/
def Sequence.encodeElts (enc : Encoder) (elo : Layout) : List Value → Buffer → ℕ → Written
  | [], b, _ => ⟨b, none⟩
  | v :: vs, b, offset =>
    match enc elo v b offset with
    | ⟨b1, some e⟩ => ⟨b1, some e⟩
    | ⟨b1, none⟩ => Sequence.encodeElts enc elo vs b1 (offset + elo.span)

/-- Method `Sequence.prototype.encode`: only an array has `forEach`. -/
def Sequence.encode (enc : Encoder) (elo : Layout) (src : Value) (b : Buffer) (offset : ℕ) :
    Written :=
  match src with
  | .array vs => Sequence.encodeElts enc elo vs b offset
  | _ => ⟨b, some Err.typeError⟩

/-- Loop `this.fields.map` of `Structure.prototype.decode`. -/
def Structure.decodeFields (dec : Decoder) (b : Buffer) : List Layout → ℕ → Obj → Except Err Obj
  | [], _, dest => Except.ok dest
  | fd :: rest, offset, dest =>
    match fd.property with
    | none => Structure.decodeFields dec b rest (offset + fd.span) dest
    | some p =>
      match dec fd b offset none with
      | Except.error e => Except.error e
      | Except.ok x => Structure.decodeFields dec b rest (offset + fd.span) (Obj.set dest p x)

/-- Method `Structure.prototype.decode`: an absent `dest` is a fresh empty object. -/
def Structure.decode (dec : Decoder) (fields : List Layout) (b : Buffer) (offset : ℕ)
    (dest : Option Obj) : Except Err Value :=
  (Structure.decodeFields dec b fields offset (dest.getD [])).map Value.object

/-- Loop `this.fields.forEach` of `Structure.prototype.encode`. -/
def Structure.encodeFields (enc : Encoder) (src : Value) : List Layout → Buffer → ℕ → Written
  | [], b, _ => ⟨b, none⟩
  | fd :: rest, b, offset =>
    match fd.property with
    | none => Structure.encodeFields enc src rest b (offset + fd.span)
    | some p =>
      match src.getProp p with
      | Except.error e => ⟨b, some e⟩
      | Except.ok fv =>
        match (if fv.isUndefined then b.fill 0 offset (offset + fd.span)
               else enc fd fv b offset) with
        | ⟨b1, some e⟩ => ⟨b1, some e⟩
        | ⟨b1, none⟩ => Structure.encodeFields enc src rest b1 (offset + fd.span)

/-- Method `Structure.prototype.encode`. -/
def Structure.encode (enc : Encoder) (fields : List Layout) (src : Value) (b : Buffer)
    (offset : ℕ) : Written :=
  Structure.encodeFields enc src fields b offset

/-- Method `Union.prototype.getVariant`, on the fields `discr_layout` and `registry`
of the union. -/
def Union.getVariant (σ : Store) (dec : Decoder) (dlo : Layout) (registry : ℕ)
    (vb : VariantKey) (offset : Option ℕ) : Except Err (Option Layout) :=
  match vb with
  | .value variant => Except.ok (σ.entry registry variant)
  | .buffer b =>
    match dec dlo b (offset.getD 0) none with
    | Except.error e => Except.error e
    | Except.ok variant => Except.ok (σ.entry registry variant)

/-- Method `Union.prototype.decode`, on the fields of the union. -/
def Union.decode (σ : Store) (dec : Decoder) (layout dlo default_layout : Layout)
    (registry : ℕ) (b : Buffer) (offset : ℕ) (dest : Option Obj) : Except Err Value :=
  match dec dlo b offset none with
  | Except.error e => Except.error e
  | Except.ok discr =>
    match σ.entry registry discr with
    | none =>
      match layout.fields with
      | some (f0 :: f1 :: _) =>
        match dec default_layout b (offset + dlo.span) none with
        | Except.error e => Except.error e
        | Except.ok content =>
          Except.ok (Value.object
            (Obj.set (Obj.set (dest.getD []) (propKey f0.property) discr)
              (propKey f1.property) content))
      | _ => Except.error Err.typeError
    | some vlo => dec vlo b offset (some (dest.getD []))

/-- Method `Union.prototype.encode`, on the fields of the union. -/
def Union.encode (enc : Encoder) (dlo default_layout : Layout) (src : Value) (b : Buffer)
    (offset : ℕ) : Written :=
  match src.getProp "variant" with
  | Except.error e => ⟨b, some e⟩
  | Except.ok discr =>
    match src.getProp "content" with
    | Except.error e => ⟨b, some e⟩
    | Except.ok content =>
      if discr.isUndefined || content.isUndefined then ⟨b, some Err.unionDefaultEncode⟩
      else
        match enc dlo discr b offset with
        | ⟨b1, some e⟩ => ⟨b1, some e⟩
        | ⟨b1, none⟩ => enc default_layout content b1 (offset + dlo.span)

/-- Method `VariantLayout.prototype.decode`, on the fields of the variant layout. -/
def VariantLayout.decode (σ : Store) (dec : Decoder) (ref : ℕ) (union layout : Layout)
    (b : Buffer) (offset : ℕ) (dest : Option Obj) : Except Err Value :=
  match union with
  | .Union _ _ _ dlo _ registry =>
    match Union.getVariant σ dec dlo registry (VariantKey.buffer b) (some offset) with
    | Except.error e => Except.error e
    | Except.ok entry =>
      if entry.bind Layout.ref = some ref then dec layout b (offset + dlo.span) dest
      else Except.error Err.variantMismatch
  | _ => Except.error Err.typeError

/-- Method `VariantLayout.prototype.encode`, on the fields of the variant layout. -/
def VariantLayout.encode (enc : Encoder) (union : Layout) (variant : ℕ) (layout : Layout)
    (src : Value) (b : Buffer) (offset : ℕ) : Written :=
  match union with
  | .Union _ _ _ dlo _ _ =>
    match enc dlo (Value.number variant) b offset with
    | ⟨b1, some e⟩ => ⟨b1, some e⟩
    | ⟨b1, none⟩ => enc layout src b1 (offset + dlo.span)
  | _ => ⟨b, some Err.typeError⟩

/-- Method `decode` of a layout, dispatched on its class. -/
def Layout.decode (σ : Store) : ℕ → Decoder
  | 0, _, _, _, _ => Except.error Err.fuel
  | fuel + 1, l, b, offset, dest =>
    match l with
    | .Base _ _ => Except.error Err.abstract
    | .UInt span _ => UInt.decode span b offset
    | .UIntBE span _ => UIntBE.decode span b offset
    | .Int span _ => Int.decode span b offset
    | .IntBE span _ => IntBE.decode span b offset
    | .Sequence _ _ elo count => Sequence.decode (Layout.decode σ fuel) elo count b offset
    | .Structure _ _ fields => Structure.decode (Layout.decode σ fuel) fields b offset dest
    | .Union _ _ layout dlo default_layout registry =>
      Union.decode σ (Layout.decode σ fuel) layout dlo default_layout registry b offset dest
    | .VariantLayout ref _ _ union _ layout =>
      VariantLayout.decode σ (Layout.decode σ fuel) ref union layout b offset dest

/-- Method `encode` of a layout, dispatched on its class. -/
def Layout.encode : ℕ → Encoder
  | 0, _, _, b, _ => ⟨b, some Err.fuel⟩
  | fuel + 1, l, src, b, offset =>
    match l with
    | .Base _ _ => ⟨b, some Err.abstract⟩
    | .UInt span _ => UInt.encode span src b offset
    | .UIntBE span _ => UIntBE.encode span src b offset
    | .Int span _ => Int.encode span src b offset
    | .IntBE span _ => IntBE.encode span src b offset
    | .Sequence _ _ elo _ => Sequence.encode (Layout.encode fuel) elo src b offset
    | .Structure _ _ fields => Structure.encode (Layout.encode fuel) fields src b offset
    | .Union _ _ _ dlo default_layout _ =>
      Union.encode (Layout.encode fuel) dlo default_layout src b offset
    | .VariantLayout _ _ _ union variant layout =>
      VariantLayout.encode (Layout.encode fuel) union variant layout src b offset

/-! ## Constructors -/

/-- Argument given where the constructors expect a number. -/
inductive Arg where
  | undefined
  | string (s : String)
  | nonInteger
  | integer (n : ℤ)

/-- Test `Number.isInteger(x) && 0 < x`, with the number it accepts. -/
def Arg.positiveInteger : Arg → Option ℕ
  | .integer n => if 0 < n then some n.toNat else none
  | _ => none

/-- Test `Number.isInteger(x) && 0 <= x`, with the number it accepts. -/
def Arg.nonNegativeInteger : Arg → Option ℕ
  | .integer n => if 0 ≤ n then some n.toNat else none
  | _ => none

/-- Constructor `Layout(span, property)`, as called by `new` and, through
`Layout.call(this, ...)`, by the constructors of the subclasses: the span it
stores, or the `TypeError` it throws. -/
def Layout.init (span : Arg) : Except Err ℕ :=
  match span.positiveInteger with
  | none => Except.error Err.typeError
  | some n => Except.ok n

/-- Constructor call `new Layout(span, property)`. -/
def Layout.new (span : Arg) (property : Option String) : Except Err Layout :=
  match Layout.init span with
  | Except.error e => Except.error e
  | Except.ok n => Except.ok (Layout.Base n property)

/-- Body shared by the constructors `UInt`, `UIntBE`, `Int` and `IntBE`: the
span they store. -/
def intSpan (span : Arg) : Except Err ℕ :=
  match Layout.init span with
  | Except.error e => Except.error e
  | Except.ok n => if 6 < n then Except.error Err.typeError else Except.ok n

/-- Constructor call `new UInt(span, property)`. -/
def UInt.new (span : Arg) (property : Option String) : Except Err Layout :=
  (intSpan span).map (fun n => Layout.UInt n property)

/-- Constructor call `new UIntBE(span, property)`. -/
def UIntBE.new (span : Arg) (property : Option String) : Except Err Layout :=
  (intSpan span).map (fun n => Layout.UIntBE n property)

/-- Constructor call `new Int(span, property)`. -/
def Int.new (span : Arg) (property : Option String) : Except Err Layout :=
  (intSpan span).map (fun n => Layout.Int n property)

/-- Constructor call `new IntBE(span, property)`. -/
def IntBE.new (span : Arg) (property : Option String) : Except Err Layout :=
  (intSpan span).map (fun n => Layout.IntBE n property)

/-- How far apart the doubles are at `m`: 1 below `2 ^ 53`, and doubled with
every halving that it takes to bring `m` below `2 ^ 53`; `fuel` bounds the
number of halvings. -/
def Number.ulpFrom : ℕ → ℕ → ℕ
  | 0, _ => 1
  | fuel + 1, m => if m < 2 ^ 53 then 1 else 2 * Number.ulpFrom fuel (m / 2)

/-- How far apart the doubles are at `m`: a double has 53 significant bits, so
the doubles from `2 ^ (52 + k)` to `2 ^ (53 + k)` are the multiples of
`2 ^ k`. -/
def Number.ulp (m : ℕ) : ℕ :=
  Number.ulpFrom m m

/-- The double nearest to the natural number `m`, ties to the even one: what
an operator of the host returns when the exact result is `m`.  A result of
`2 ^ 1024` or more stands for `Infinity`: the exponent of a double is at most
1023. -/
def Number.nearest (m : ℕ) : ℕ :=
  let q := m / Number.ulp m
  let r := m % Number.ulp m
  if Number.ulp m < 2 * r ∨ (Number.ulp m = 2 * r ∧ q % 2 = 1) then (q + 1) * Number.ulp m
  else q * Number.ulp m

/-- Operator `a + b` of the host on numbers that are natural numbers: adding
zero leaves a number as it is, and any other sum is the double nearest to the
exact sum. -/
def Number.add (a b : ℕ) : ℕ :=
  if a = 0 then b else if b = 0 then a else Number.nearest (a + b)

/-- Operator `a * b` of the host on numbers that are natural numbers: the
double nearest to the exact product. -/
def Number.mul (a b : ℕ) : ℕ :=
  Number.nearest (a * b)

/-- The number `2 ^ 1024`, the least that stands for `Infinity`. -/
def Number.infinity : ℕ :=
  (2 ^ 256) ^ 4

/-- The number `v` as an argument of a constructor: `Infinity` is a number that
`Number.isInteger` does not accept. -/
def Arg.ofNumber (v : ℕ) : Arg :=
  if v < Number.infinity then Arg.integer (v : ℤ) else Arg.nonInteger

/-- Constructor call `new Sequence(elt_layout, count, property)`; `none` stands for an argument
that is not an instance of `Layout`.  The span is the product `count * elt_layout.span` as the
host computes it. -/
def Sequence.new (elt_layout : Option Layout) (count : Arg) (property : Option String) :
    Except Err Layout :=
  match elt_layout with
  | none => Except.error Err.typeError
  | some elo =>
    match count.positiveInteger with
    | none => Except.error Err.typeError
    | some n =>
      match Layout.init (Arg.ofNumber (Number.mul n elo.span)) with
      | Except.error e => Except.error e
      | Except.ok span => Except.ok (Layout.Sequence span property elo n)

/-- The elements of an array when all of them are instances of `Layout`. -/
def allLayouts : List (Option Layout) → Option (List Layout)
  | [] => some []
  | none :: _ => none
  | some l :: rest =>
    match allLayouts rest with
    | none => none
    | some ls => some (l :: ls)

/-- Constructor call `new Structure(fields, property)`; `none` stands for an argument that is not
an array, and for an element that is not an instance of `Layout`.  The span is what
`fields.reduce` makes of `v + fd.span` from 0: the spans added from the left as the host adds
them. -/
def Structure.new (fields : Option (List (Option Layout))) (property : Option String) :
    Except Err Layout :=
  match fields with
  | none => Except.error Err.typeError
  | some fs =>
    match allLayouts fs with
    | none => Except.error Err.typeError
    | some ls =>
      match Layout.init (Arg.ofNumber ((ls.map Layout.span).foldl Number.add 0)) with
      | Except.error e => Except.error e
      | Except.ok span => Except.ok (Layout.Structure span property ls)

/-- Method `Layout.prototype.replicate`: a copy of the object, which is a new object,
with `property` replaced.  The copy of a union holds the same registry. -/
def Layout.replicate (σ : Store) (l : Layout) (property : Option String) : Layout × Store :=
  match l with
  | .Base span _ => (.Base span property, σ)
  | .UInt span _ => (.UInt span property, σ)
  | .UIntBE span _ => (.UIntBE span property, σ)
  | .Int span _ => (.Int span property, σ)
  | .IntBE span _ => (.IntBE span property, σ)
  | .Sequence span _ elo count => (.Sequence span property elo count, σ)
  | .Structure span _ fields => (.Structure span property fields, σ)
  | .Union span _ layout dlo default_layout registry =>
    (.Union span property layout dlo default_layout registry, σ)
  | .VariantLayout _ span _ union variant layout =>
    (.VariantLayout σ.next span property union variant layout, { σ with next := σ.next + 1 })

/-- Whether the layout is an instance of `UInt` or of `UIntBE`. -/
def Layout.isUnsigned : Layout → Bool
  | .UInt _ _ => true
  | .UIntBE _ _ => true
  | _ => false

/-- Statement `if (undefined === lo.property) lo = lo.replicate(name)` of the
constructor of `Union`. -/
def withDefaultName (σ : Store) (lo : Layout) (name : String) : Layout × Store :=
  match lo.property with
  | none => Layout.replicate σ lo (some name)
  | some _ => (lo, σ)

/-- Constructor call `new Union(discr_layout, default_layout, property)`; the registry of the new
union is a new, empty object. -/
def Union.new (σ : Store) (discr_layout default_layout : Option Layout)
    (property : Option String) : Except Err (Layout × Store) :=
  match discr_layout with
  | none => Except.error Err.typeError
  | some discr =>
    if discr.isUnsigned = false then Except.error Err.typeError
    else
      match default_layout with
      | none => Except.error Err.typeError
      | some dflt =>
        let dlo := withDefaultName σ discr "variant"
        let clo := withDefaultName dlo.2 dflt "content"
        match Structure.new (some [some dlo.1, some clo.1]) none with
        | Except.error e => Except.error e
        | Except.ok layout =>
          match Layout.init (Arg.integer (layout.span : ℤ)) with
          | Except.error e => Except.error e
          | Except.ok span =>
            Except.ok (Layout.Union span property layout discr dflt clo.2.next,
              { clo.2 with next := clo.2.next + 1 })

/-- Constructor call `new VariantLayout(union, variant, layout, property)`; the statement
`this.span += union.discr_layout.span` adds as the host adds. -/
def VariantLayout.new (σ : Store) (union : Option Layout) (variant : Arg)
    (layout : Option Layout) (property : Option String) : Except Err (Layout × Store) :=
  match union with
  | some (.Union uspan uproperty ulayout dlo default_layout registry) =>
    match variant.nonNegativeInteger with
    | none => Except.error Err.typeError
    | some k =>
      match layout with
      | none => Except.error Err.typeError
      | some lo =>
        if default_layout.span < lo.span then Except.error Err.spanExceeds
        else
          match Layout.init (Arg.integer (lo.span : ℤ)) with
          | Except.error e => Except.error e
          | Except.ok span =>
            Except.ok (Layout.VariantLayout σ.next (Number.add span dlo.span) property
              (.Union uspan uproperty ulayout dlo default_layout registry) k lo,
              { σ with next := σ.next + 1 })
  | _ => Except.error Err.typeError

/-- Method `Union.prototype.addVariant`, called on the layout `this`: the new variant
layout and the store in which the registry of the union holds it under its
variant number. -/
def Union.addVariant (σ : Store) (this : Layout) (variant : Arg) (layout : Option Layout)
    (property : Option String) : Except Err (Layout × Store) :=
  match VariantLayout.new σ (some this) variant layout property with
  | Except.error e => Except.error e
  | Except.ok (rv, σ1) =>
    match this, rv with
    | .Union _ _ _ _ _ registry, .VariantLayout _ _ _ _ k _ =>
      Except.ok (rv, { σ1 with registry := ((registry, k), rv) :: σ1.registry })
    | _, _ => Except.error Err.typeError

/-- Field `registry` of a union; `none` when the layout has no such field. -/
def Layout.registry : Layout → Option ℕ
  | .Union _ _ _ _ _ registry => some registry
  | _ => none

/-- Field `discr_layout` of a union; `none` when the layout has no such field. -/
def Layout.discr_layout : Layout → Option Layout
  | .Union _ _ _ dlo _ _ => some dlo
  | _ => none

/-- Field `default_layout` of a union; `none` when the layout has no such field. -/
def Layout.default_layout : Layout → Option Layout
  | .Union _ _ _ _ default_layout _ => some default_layout
  | _ => none

/-- Field `layout` of a union or of a variant layout; `none` when the layout has
no such field. -/
def Layout.layout : Layout → Option Layout
  | .Union _ _ layout _ _ _ => some layout
  | .VariantLayout _ _ _ _ _ layout => some layout
  | _ => none

/-- Field `union` of a variant layout; `none` when the layout has no such field. -/
def Layout.union : Layout → Option Layout
  | .VariantLayout _ _ _ union _ _ => some union
  | _ => none

/-- Field `variant` of a variant layout; `none` when the layout has no such
field. -/
def Layout.variant : Layout → Option ℕ
  | .VariantLayout _ _ _ _ variant _ => some variant
  | _ => none

/-! ## Predicates used in the statements -/

/-- The call that produced `w` from `b` kept the length of the buffer and
every byte below `offset`. -/
def KeepsBelow (b : Buffer) (offset : ℕ) (w : Written) : Prop :=
  w.buffer.length = b.length ∧ ∀ i, i < offset → w.buffer[i]? = b[i]?

/-- Two buffers of the same length hold the same bytes at the positions from
`lo` up to, not including, `hi`. -/
def AgreeOn (b1 b2 : Buffer) (lo hi : ℕ) : Prop :=
  b1.length = b2.length ∧ ∀ i, lo ≤ i → i < hi → b1[i]? = b2[i]?

/-- Layouts as the constructors build them, in a store: the span of a sequence
is `count` times that of its element, the span of a structure is the sum of
those of its fields, the span of a union is that of its discriminator plus that
of its default layout and bounds the span of every variant in its registry,
and the span of a variant layout is that of its payload plus that of the
discriminator of its union.  These are the spans that the constructors store
as long as the sums and products are at most `2 ^ 53`, from where on the host
rounds them. -/
inductive WellFormed (σ : Store) : Layout → Prop where
  | Base (span : ℕ) (p : Option String) : WellFormed σ (Layout.Base span p)
  | UInt (span : ℕ) (p : Option String) : WellFormed σ (Layout.UInt span p)
  | UIntBE (span : ℕ) (p : Option String) : WellFormed σ (Layout.UIntBE span p)
  | Int (span : ℕ) (p : Option String) : WellFormed σ (Layout.Int span p)
  | IntBE (span : ℕ) (p : Option String) : WellFormed σ (Layout.IntBE span p)
  | Sequence (span : ℕ) (p : Option String) (elo : Layout) (count : ℕ) :
      WellFormed σ elo → span = count * elo.span →
      WellFormed σ (Layout.Sequence span p elo count)
  | Structure (span : ℕ) (p : Option String) (fields : List Layout) :
      (∀ fd, fd ∈ fields → WellFormed σ fd) → span = (fields.map Layout.span).sum →
      WellFormed σ (Layout.Structure span p fields)
  | Union (span : ℕ) (p : Option String) (layout dlo dflt : Layout) (registry : ℕ) :
      WellFormed σ dlo → WellFormed σ dflt → span = dlo.span + dflt.span →
      (∀ k vlo, σ.registry.lookup (registry, k) = some vlo → vlo.span ≤ span) →
      WellFormed σ (Layout.Union span p layout dlo dflt registry)
  | VariantLayout (ref span : ℕ) (p : Option String) (us : ℕ) (up : Option String)
      (ul dlo dflt : Layout) (registry variant : ℕ) (lo : Layout) :
      WellFormed σ dlo → WellFormed σ lo → span = lo.span + dlo.span →
      WellFormed σ (Layout.VariantLayout ref span p
        (Layout.Union us up ul dlo dflt registry) variant lo)

/-- Every layout held by a registry of the store is well formed. -/
def Store.WellFormed (σ : Store) : Prop :=
  ∀ key vlo, σ.registry.lookup key = some vlo → BufferLayout.WellFormed σ vlo

/-- A decoder that, on the layout `l`, reads the span of `l` only. -/
def ReadsSpan (dec : Decoder) (l : Layout) : Prop :=
  ∀ (b1 b2 : Buffer) (offset : ℕ) (dest : Option Obj),
    AgreeOn b1 b2 offset (offset + l.span) → dec l b1 offset dest = dec l b2 offset dest

/-- The call that produced `w` from `b` kept the length of the buffer and every
byte outside the positions from `lo` up to, not including, `hi`. -/
def KeepsOutside (b : Buffer) (lo hi : ℕ) (w : Written) : Prop :=
  w.buffer.length = b.length ∧ ∀ i, i < lo ∨ hi ≤ i → w.buffer[i]? = b[i]?

/-- Position `i` lies in the range of a field without a property, for the
fields laid out from `offset` on. -/
def InPadding : List Layout → ℕ → ℕ → Prop
  | [], _, _ => False
  | fd :: rest, offset, i =>
    (fd.property = none ∧ offset ≤ i ∧ i < offset + fd.span) ∨
      InPadding rest (offset + fd.span) i

/-! ## Layouts of the test suite, used to instantiate the statements -/

/-- The union `new Union(u8(), u32())` built in the empty store: its registry
has the reference `0`. -/
def exampleUnion : Layout :=
  Layout.Union 5 none
    (Layout.Structure 5 none [Layout.UInt 1 (some "variant"), Layout.UInt 4 (some "content")])
    (Layout.UInt 1 none) (Layout.UInt 4 none) 0

/-- The variant layout returned by `addVariant(1, u32())` on `exampleUnion`. -/
def exampleVariant : Layout :=
  Layout.VariantLayout 1 5 none exampleUnion 1 (Layout.UInt 4 none)

/-- The store after `new Union(u8(), u32())` and `addVariant(1, u32())`. -/
def exampleStore : Store :=
  ⟨2, [((0, 1), exampleVariant)]⟩

/-! ## Further definitions -/

/-- Whether the layout is one of the four integer codecs. -/
def Layout.isInteger : Layout → Bool
  | .UInt _ _ => true
  | .UIntBE _ _ => true
  | .Int _ _ => true
  | .IntBE _ _ => true
  | _ => false

/-- Method `Union.prototype.addVariant` as a step on the store: the store after
the call, whether the call returned or threw, and its outcome.  The
constructor of `VariantLayout` assigns to no registry, so when it throws the
store is the one before the call; the assignment `this.registry[variant] = rv`
is the statement after it. -/
def Union.addVariantStep (σ : Store) (this : Layout) (variant : Arg) (layout : Option Layout)
    (property : Option String) : Store × Except Err Layout :=
  match VariantLayout.new σ (some this) variant layout property with
  | Except.error e => (σ, Except.error e)
  | Except.ok (rv, σ1) =>
    match this, rv with
    | .Union _ _ _ _ _ registry, .VariantLayout _ _ _ _ k _ =>
      ({ σ1 with registry := ((registry, k), rv) :: σ1.registry }, Except.ok rv)
    | _, _ => (σ1, Except.error Err.typeError)

/-- Body of the function that `Structure.prototype.encode` gives to `forEach`,
for one field: the buffer after it and the exception it raised. -/
def Structure.encodeField (enc : Encoder) (src : Value) (fd : Layout) (b : Buffer)
    (offset : ℕ) : Written :=
  match fd.property with
  | none => ⟨b, none⟩
  | some p =>
    match src.getProp p with
    | Except.error e => ⟨b, some e⟩
    | Except.ok fv =>
      if fv.isUndefined then b.fill 0 offset (offset + fd.span) else enc fd fv b offset


/-- The union of the test "issue#6", `new Union(u8('number'), new Sequence(u8(), 8, 'payload'))`,
built in the empty store. -/
def issue6Union : Layout :=
  Layout.Union 9 none
    (Layout.Structure 9 none
      [Layout.UInt 1 (some "number"), Layout.Sequence 8 (some "payload") (Layout.UInt 1 none) 8])
    (Layout.UInt 1 (some "number")) (Layout.Sequence 8 (some "payload") (Layout.UInt 1 none) 8) 0

/-- The union `new Union(u8(), new Union(u8(), u32()))`, whose default layout is
`exampleUnion`, built after it. -/
def nestedUnion : Layout :=
  Layout.Union 6 none
    (Layout.Structure 6 none
      [Layout.UInt 1 (some "variant"),
        Layout.Union 5 (some "content")
          (Layout.Structure 5 none
            [Layout.UInt 1 (some "variant"), Layout.UInt 4 (some "content")])
          (Layout.UInt 1 none) (Layout.UInt 4 none) 0])
    (Layout.UInt 1 none) exampleUnion 1

/-! ## Fields, classes, reachable registries, `fromArray` -/

/-- Field `elt_layout` of a sequence; `none` when the layout has no such field. -/
def Layout.elt_layout : Layout → Option Layout
  | .Sequence _ _ elt_layout _ => some elt_layout
  | _ => none

/-- Field `count` of a sequence; `none` when the layout has no such field. -/
def Layout.count : Layout → Option ℕ
  | .Sequence _ _ _ count => some count
  | _ => none

/-- Classes of `lib/Layout.js`. -/
inductive Kind where
  | Layout
  | UInt
  | UIntBE
  | Int
  | IntBE
  | Sequence
  | Structure
  | Union
  | VariantLayout
  deriving DecidableEq, Repr

/-- Class of which the layout is a direct instance, `this.constructor`. -/
def Layout.kind : Layout → Kind
  | .Base _ _ => Kind.Layout
  | .UInt _ _ => Kind.UInt
  | .UIntBE _ _ => Kind.UIntBE
  | .Int _ _ => Kind.Int
  | .IntBE _ _ => Kind.IntBE
  | .Sequence _ _ _ _ => Kind.Sequence
  | .Structure _ _ _ => Kind.Structure
  | .Union _ _ _ _ _ _ => Kind.Union
  | .VariantLayout _ _ _ _ _ _ => Kind.VariantLayout

/-- Stores reachable from `σ0` by calls `un.addVariant(variant, layout, property)`
on the union `un`, whatever their arguments, whether they return or throw. -/
inductive Union.Reachable (un : Layout) (σ0 : Store) : Store → Prop where
  | start : Union.Reachable un σ0 σ0
  | call (σ : Store) (variant : Arg) (layout : Option Layout) (property : Option String) :
      Union.Reachable un σ0 σ →
      Union.Reachable un σ0 (Union.addVariantStep σ un variant layout property).1

/-- Layouts whose decode reads up to the last byte of their span: the integer
codecs, a sequence of at least one such element, a structure whose last field
has a property and is such a layout, and a variant layout whose payload is
such a layout. -/
inductive ReadsToEnd : Layout → Prop where
  | UInt (span : ℕ) (p : Option String) : ReadsToEnd (Layout.UInt span p)
  | UIntBE (span : ℕ) (p : Option String) : ReadsToEnd (Layout.UIntBE span p)
  | Int (span : ℕ) (p : Option String) : ReadsToEnd (Layout.Int span p)
  | IntBE (span : ℕ) (p : Option String) : ReadsToEnd (Layout.IntBE span p)
  | Sequence (span : ℕ) (p : Option String) (elo : Layout) (count : ℕ) :
      ReadsToEnd elo → span = (count + 1) * elo.span →
      ReadsToEnd (Layout.Sequence span p elo (count + 1))
  | Structure (span : ℕ) (p : Option String) (pre : List Layout) (last : Layout) (q : String) :
      last.property = some q → ReadsToEnd last →
      span = (pre.map Layout.span).sum + last.span →
      ReadsToEnd (Layout.Structure span p (pre ++ [last]))
  | VariantLayout (ref span : ℕ) (p : Option String) (us : ℕ) (up : Option String)
      (ul dlo dflt : Layout) (registry variant : ℕ) (lo : Layout) :
      ReadsToEnd lo → span = lo.span + dlo.span →
      ReadsToEnd (Layout.VariantLayout ref span p
        (Layout.Union us up ul dlo dflt registry) variant lo)

/-- Loop `this.fields.forEach` of `Structure.prototype.fromArray`: a field with
a property takes the first of the values left, by `values.shift()`, while
there is one. -/
def Structure.fromArrayFields : List Layout → List Value → Obj → Obj
  | [], _, dest => dest
  | fd :: rest, values, dest =>
    match fd.property, values with
    | some p, v :: vs => Structure.fromArrayFields rest vs (Obj.set dest p v)
    | _, _ => Structure.fromArrayFields rest values dest

/-- Method `Structure.prototype.fromArray`, on the field `fields` and an array
`values`; an absent `dest` is a fresh empty object. -/
def Structure.fromArray (fields : List Layout) (values : List Value) (dest : Option Obj) :
    Value :=
  Value.object (Structure.fromArrayFields fields values (dest.getD []))

/-- Method `VariantLayout.prototype.fromArray`, on the field `layout`. -/
def VariantLayout.fromArray (layout : Layout) (values : List Value) (dest : Option Obj) :
    Value :=
  match layout with
  | .Structure _ _ fields => Structure.fromArray fields values dest
  | _ => Value.undefined

/-- Method `fromArray` of a layout, dispatched on its class; the classes that do
not define it inherit `Layout.prototype.fromArray`, which returns `undefined`. -/
def Layout.fromArray : Layout → List Value → Option Obj → Value
  | .Structure _ _ fields, values, dest => Structure.fromArray fields values dest
  | .VariantLayout _ _ _ _ _ layout, values, dest => VariantLayout.fromArray layout values dest
  | _, _, _ => Value.undefined

/-- Properties of the fields that have one, in the order of declaration. -/
def Structure.names (fields : List Layout) : List String :=
  fields.filterMap Layout.property

/-- Assignments `dest[key] = x` made one after the other, in the order of the
list. -/
def Obj.setAll : Obj → List (String × Value) → Obj
  | o, [] => o
  | o, (k, x) :: rest => Obj.setAll (Obj.set o k x) rest

/-! ## Sources that fit, constructed layouts, further examples -/

/-- No list of the source is longer than the count of the sequence that
encodes it.  The relation follows the way `encode` hands the parts of the
source to the layouts: the entries of a list to the element layout of a
sequence, the value of a property to the field of that name, `variant` and
`content` to the two layouts of a union, and the source of a variant layout to
its payload. -/
inductive ListsFit : Layout → Value → Prop where
  | Base (span : ℕ) (p : Option String) (v : Value) : ListsFit (Layout.Base span p) v
  | UInt (span : ℕ) (p : Option String) (v : Value) : ListsFit (Layout.UInt span p) v
  | UIntBE (span : ℕ) (p : Option String) (v : Value) : ListsFit (Layout.UIntBE span p) v
  | Int (span : ℕ) (p : Option String) (v : Value) : ListsFit (Layout.Int span p) v
  | IntBE (span : ℕ) (p : Option String) (v : Value) : ListsFit (Layout.IntBE span p) v
  | Sequence (span : ℕ) (p : Option String) (elo : Layout) (count : ℕ) (vs : List Value) :
      vs.length ≤ count → (∀ v, v ∈ vs → ListsFit elo v) →
      ListsFit (Layout.Sequence span p elo count) (Value.array vs)
  | NoList (span : ℕ) (p : Option String) (elo : Layout) (count : ℕ) (v : Value) :
      (∀ vs, v ≠ Value.array vs) → ListsFit (Layout.Sequence span p elo count) v
  | Structure (span : ℕ) (p : Option String) (fields : List Layout) (src : Value) :
      (∀ fd q x, fd ∈ fields → fd.property = some q → src.getProp q = Except.ok x →
        x ≠ Value.undefined → ListsFit fd x) →
      ListsFit (Layout.Structure span p fields) src
  | Union (span : ℕ) (p : Option String) (layout dlo dflt : Layout) (registry : ℕ)
      (src : Value) :
      (∀ x, src.getProp "variant" = Except.ok x → ListsFit dlo x) →
      (∀ x, src.getProp "content" = Except.ok x → ListsFit dflt x) →
      ListsFit (Layout.Union span p layout dlo dflt registry) src
  | VariantLayout (ref span : ℕ) (p : Option String) (us : ℕ) (up : Option String)
      (ul dlo dflt : Layout) (registry variant : ℕ) (lo : Layout) (src : Value) :
      ListsFit dlo (Value.number (variant : ℤ)) → ListsFit lo src →
      ListsFit (Layout.VariantLayout ref span p
        (Layout.Union us up ul dlo dflt registry) variant lo) src

/-- Layouts that the constructors return when the layouts they are given were
returned by constructors themselves, and the replicas of such layouts. -/
inductive Constructed : Layout → Prop where
  | Layout (span : Arg) (p : Option String) (l : Layout) :
      Layout.new span p = Except.ok l → Constructed l
  | UInt (span : Arg) (p : Option String) (l : Layout) :
      UInt.new span p = Except.ok l → Constructed l
  | UIntBE (span : Arg) (p : Option String) (l : Layout) :
      UIntBE.new span p = Except.ok l → Constructed l
  | Int (span : Arg) (p : Option String) (l : Layout) :
      Int.new span p = Except.ok l → Constructed l
  | IntBE (span : Arg) (p : Option String) (l : Layout) :
      IntBE.new span p = Except.ok l → Constructed l
  | Sequence (elo : Layout) (count : Arg) (p : Option String) (l : Layout) :
      Constructed elo → Sequence.new (some elo) count p = Except.ok l → Constructed l
  | Structure (ls : List Layout) (p : Option String) (l : Layout) :
      (∀ f, f ∈ ls → Constructed f) → Structure.new (some (ls.map some)) p = Except.ok l →
      Constructed l
  | Union (σ0 σ1 : Store) (discr dflt : Layout) (p : Option String) (l : Layout) :
      Constructed discr → Constructed dflt →
      Union.new σ0 (some discr) (some dflt) p = Except.ok (l, σ1) → Constructed l
  | VariantLayout (σ0 σ1 : Store) (un : Layout) (variant : Arg) (lo : Layout)
      (p : Option String) (l : Layout) :
      Constructed un → Constructed lo →
      VariantLayout.new σ0 (some un) variant (some lo) p = Except.ok (l, σ1) → Constructed l
  | replica (σ : Store) (l : Layout) (p : Option String) :
      Constructed l → Constructed (Layout.replicate σ l p).1

/-- The union `new Union(u8(), u8())`, built after `exampleUnion`: its registry
has the reference `1`. -/
def smallUnion : Layout :=
  Layout.Union 2 none
    (Layout.Structure 2 none [Layout.UInt 1 (some "variant"), Layout.UInt 1 (some "content")])
    (Layout.UInt 1 none) (Layout.UInt 1 none) 1

/-- The variant layout returned by a first `addVariant(1, u8())` on `smallUnion`. -/
def firstVariant : Layout :=
  Layout.VariantLayout 2 2 none smallUnion 1 (Layout.UInt 1 none)

/-- The variant layout returned by a second `addVariant(1, u8())` on
`smallUnion`, which takes the place of `firstVariant` in the registry. -/
def secondVariant : Layout :=
  Layout.VariantLayout 3 2 none smallUnion 1 (Layout.UInt 1 none)

/-- The variant layout returned by `addVariant(3, firstVariant)` on
`exampleUnion`. -/
def outerVariant : Layout :=
  Layout.VariantLayout 4 3 none exampleUnion 3 firstVariant

/-- The store after the two unions and the three calls of `addVariant`. -/
def nestedStore : Store :=
  ⟨5, [((0, 3), outerVariant), ((1, 1), secondVariant), ((1, 1), firstVariant)]⟩

/-- The sequence `new Sequence(u8(), 2 ** 53)`. -/
def longSequence : Layout :=
  Layout.Sequence (2 ^ 53) none (Layout.UInt 1 none) (2 ^ 53)

/-! ## Bit fields

`BitStructure` and `BitField` are used by the tests of the repository and are
described by its specification, but `lib/Layout.js` does not define them.  The
definitions of this section follow the specification. -/

/-- Modelled from the spec: a `BitField` of a `BitStructure`, a class that
`lib/Layout.js` does not define.  The field claims the run of `bits` bits of
the word that starts at bit `start`; `value_mask` is the low `bits` ones and
`word_mask` is the value mask shifted into position. -/
structure BitField where
  bits : ℕ
  start : ℕ
  value_mask : ℕ
  word_mask : ℕ
  property : Option String

/-- Modelled from the spec: a `BitStructure`, a class that `lib/Layout.js` does
not define: the unsigned integer layout `word` that physically holds the bits,
the bit order flag `msb`, the span, which is that of the word, and the ordered
list of the bit fields added so far. -/
structure BitStructure where
  word : Layout
  msb : Bool
  span : ℕ
  property : Option String
  fields : List BitField

/-- Modelled from the spec: the number of bits that the fields claim, which is
the allocation pointer of the bit structure. -/
def BitStructure.used (fields : List BitField) : ℕ :=
  (fields.map BitField.bits).sum

/-- Modelled from the spec: constructor call `new BitStructure(word, msb, property)`,
missing from `lib/Layout.js`.  The word must be an unsigned integer layout
(a `TypeError` otherwise) of at most 4 bytes (an `Error` otherwise); the new
bit structure has no field. -/
def BitStructure.new (word : Option Layout) (msb : Bool) (property : Option String) :
    Except Err BitStructure :=
  match word with
  | none => Except.error Err.typeError
  | some w =>
    if w.isUnsigned = false then Except.error Err.typeError
    else if 4 < w.span then Except.error Err.spanExceeds
    else Except.ok ⟨w, msb, w.span, property, []⟩

/-- Modelled from the spec: method `addField(bits, property)` of a
`BitStructure`, missing from `lib/Layout.js`.  It fails if `bits` is not a
positive integer, if the span of the word exceeds 4 bytes, or if the new field
would exceed the bit width `word.span * 8` of the word.  Otherwise it allocates
the next run of `bits` bits, starting at bit 0 and counting up in LSB mode and
at bit 31 and counting down in MSB mode, and returns the new field and the bit
structure that holds it after the fields it had. -/
def BitStructure.addField (bs : BitStructure) (bits : Arg) (property : Option String) :
    Except Err (BitField × BitStructure) :=
  match bits.positiveInteger with
  | none => Except.error Err.typeError
  | some n =>
    if 4 < bs.span then Except.error Err.spanExceeds
    else if bs.span * 8 < BitStructure.used bs.fields + n then Except.error Err.spanExceeds
    else
      let start := if bs.msb then 32 - BitStructure.used bs.fields - n
        else BitStructure.used bs.fields
      let fd : BitField := ⟨n, start, 2 ^ n - 1, (2 ^ n - 1) <<< start, property⟩
      Except.ok (fd, { bs with fields := bs.fields ++ [fd] })

/-- Modelled from the spec: the bit structure after a call
`bs.addField(bits, property)`, whether the call returned or threw. -/
def BitStructure.addFieldStep (bs : BitStructure) (bits : Arg) (property : Option String) :
    BitStructure :=
  match BitStructure.addField bs bits property with
  | Except.error _ => bs
  | Except.ok (_, bs1) => bs1

/-- Modelled from the spec: the bit structures reached from `bs0` by calls of
`addField`, whatever their arguments, whether they return or throw. -/
inductive BitStructure.Reachable (bs0 : BitStructure) : BitStructure → Prop where
  | start : BitStructure.Reachable bs0 bs0
  | call (bs : BitStructure) (bits : Arg) (property : Option String) :
      BitStructure.Reachable bs0 bs →
      BitStructure.Reachable bs0 (BitStructure.addFieldStep bs bits property)

/-- Modelled from the spec: what a bit field extracts from the value of the
word, `(wordValue & word_mask) >>> shift`. -/
def BitField.decode (fd : BitField) (wordValue : ℕ) : ℕ :=
  (wordValue &&& fd.word_mask) >>> fd.start

/-- Modelled from the spec: what a bit field makes of the value of the word on
encoding: it clears the bits of `word_mask` and ORs in
`(value & value_mask) << shift`.  The operators work on 32 bits: the
complement of the mask is taken in 32 bits, and the value is read modulo
`2 ^ 32`. -/
def BitField.encode (fd : BitField) (wordValue : ℕ) (value : ℤ) : ℕ :=
  (wordValue &&& (0xFFFFFFFF ^^^ fd.word_mask))
    ||| (((value % 2 ^ 32).toNat &&& fd.value_mask) <<< fd.start)

/-- Modelled from the spec: the loop over the fields of `decode` of a
`BitStructure`: every field with a property puts what it extracts into the
destination, and fields without a property are skipped. -/
def BitStructure.decodeFields : List BitField → ℕ → Obj → Obj
  | [], _, dest => dest
  | fd :: rest, wordValue, dest =>
    match fd.property with
    | none => BitStructure.decodeFields rest wordValue dest
    | some p =>
      BitStructure.decodeFields rest wordValue
        (Obj.set dest p (Value.number (fd.decode wordValue : ℕ)))

/-- Modelled from the spec: method `decode` of a `BitStructure`, missing from
`lib/Layout.js`: it reads the whole word with `word.decode` and lets the fields
extract their values from it. -/
def BitStructure.decode (bs : BitStructure) (b : Buffer) (offset : ℕ) (dest : Option Obj) :
    Except Err Value :=
  match Layout.decode ⟨0, []⟩ 1 bs.word b offset none with
  | Except.error e => Except.error e
  | Except.ok (Value.number w) =>
    Except.ok (Value.object (BitStructure.decodeFields bs.fields w.toNat (dest.getD [])))
  | Except.ok _ => Except.error Err.typeError

/-- Modelled from the spec: the loop over the fields of `encode` of a
`BitStructure`.  A field without a property is skipped, and so is a field whose
property the source leaves `undefined`: its bits stay as they are.  A value
that is not a number is outside the domain of the codec and is rejected
here. -/
def BitStructure.encodeFields (src : Value) : List BitField → ℕ → Except Err ℕ
  | [], wordValue => Except.ok wordValue
  | fd :: rest, wordValue =>
    match fd.property with
    | none => BitStructure.encodeFields src rest wordValue
    | some p =>
      match src.getProp p with
      | Except.error e => Except.error e
      | Except.ok Value.undefined => BitStructure.encodeFields src rest wordValue
      | Except.ok (Value.number v) =>
        BitStructure.encodeFields src rest (fd.encode wordValue v)
      | Except.ok _ => Except.error Err.typeError

/-- Modelled from the spec: method `encode` of a `BitStructure`, missing from
`lib/Layout.js`, a read-modify-write: it decodes the current value of the
word, lets every named field that the source gives a value replace its bits,
and encodes the combined word again. -/
def BitStructure.encode (bs : BitStructure) (src : Value) (b : Buffer) (offset : ℕ) :
    Written :=
  match Layout.decode ⟨0, []⟩ 1 bs.word b offset none with
  | Except.error e => ⟨b, some e⟩
  | Except.ok (Value.number w) =>
    match BitStructure.encodeFields src bs.fields w.toNat with
    | Except.error e => ⟨b, some e⟩
    | Except.ok w2 => Layout.encode 1 bs.word (Value.number (w2 : ℕ)) b offset
  | Except.ok _ => ⟨b, some Err.typeError⟩

/-- The bits that a field claims: from `start` up to, not including,
`start + bits`. -/
def BitField.claims (fd : BitField) (i : ℕ) : Prop :=
  fd.start ≤ i ∧ i < fd.start + fd.bits

instance BitField.decidableClaims (fd : BitField) (i : ℕ) : Decidable (fd.claims i) :=
  inferInstanceAs (Decidable (fd.start ≤ i ∧ i < fd.start + fd.bits))

/-- The bit structure `new BitStructure(u32())` of the tests "lsb coding" after
`addField(1, 'a1')`, `addField(4, 'b4')`, `addField(11, 'c11')` and
`addField(16, 'd16')`. -/
def lsbCoding : BitStructure :=
  ⟨Layout.UInt 4 none, false, 4, none,
    [⟨1, 0, 1, 1, some "a1"⟩, ⟨4, 1, 15, 30, some "b4"⟩, ⟨11, 5, 2047, 65504, some "c11"⟩,
      ⟨16, 16, 65535, 4294901760, some "d16"⟩]⟩

/-- The bit structure `new BitStructure(u32(), true)` of the test "msb coding"
after the same four calls of `addField`. -/
def msbCoding : BitStructure :=
  ⟨Layout.UInt 4 none, true, 4, none,
    [⟨1, 31, 1, 2147483648, some "a1"⟩, ⟨4, 27, 15, 2013265920, some "b4"⟩,
      ⟨11, 16, 2047, 134152192, some "c11"⟩, ⟨16, 0, 65535, 65535, some "d16"⟩]⟩

/-- The bit structure `new BitStructure(u24())` of the test "gap coding" after
`addField(5, 'a5')`, `addField(13)` and `addField(6, 'b6')`. -/
def lsbGap : BitStructure :=
  ⟨Layout.UInt 3 none, false, 3, none,
    [⟨5, 0, 31, 31, some "a5"⟩, ⟨13, 5, 8191, 262112, none⟩, ⟨6, 18, 63, 16515072, some "b6"⟩]⟩

/-- The bit structure `new BitStructure(u24(), true)` of the test "gap coding"
after the same three calls of `addField`. -/
def msbGap : BitStructure :=
  ⟨Layout.UInt 3 none, true, 3, none,
    [⟨5, 27, 31, 4160749568, some "a5"⟩, ⟨13, 14, 8191, 134201344, none⟩,
      ⟨6, 8, 63, 16128, some "b6"⟩]⟩

/-- The fields are those that calls of `addField` allocate one after the other:
each has a positive number of bits, the value mask and the word mask of its
run, and the start that the bits of the fields before it determine. -/
def BitStructure.Allocated (msb : Bool) (fields : List BitField) : Prop :=
  ∀ pre fd post, fields = pre ++ fd :: post →
    0 < fd.bits ∧ fd.value_mask = 2 ^ fd.bits - 1 ∧
    fd.word_mask = fd.value_mask <<< fd.start ∧
    fd.start = (if msb then 32 - BitStructure.used pre - fd.bits else BitStructure.used pre)

/-- The number that the source gives a field: the value of the property of the
field, when the field has a property and the value is a number. -/
def BitField.given (fd : BitField) (src : Value) : Option ℤ :=
  match fd.property with
  | none => none
  | some p =>
    match src.getProp p with
    | Except.ok (Value.number v) => some v
    | _ => none

theorem sizeOf_get_lt (ps : Obj) (k : String) :
    sizeOf (Obj.get ps k) < 1 + sizeOf ps := by
  induction ps with
  | nil => simp [Obj.get]
  | cons kv rest ih =>
    obtain ⟨k1, y⟩ := kv
    by_cases h : k1 = k
    · simp [Obj.get, h]; omega
    · simp [Obj.get, h]; omega

theorem sizeOf_getD_lt (xs : List Value) (i : ℕ) :
    sizeOf (xs.getD i Value.undefined) < 1 + sizeOf xs := by
  induction xs generalizing i with
  | nil => simp
  | cons x rest ih =>
    cases i with
    | zero => simp; omega
    | succ i =>
      have := ih i
      simp only [List.getD_cons_succ, List.cons.sizeOf_spec]
      omega

theorem Value.Equiv.refl : ∀ v : Value, Value.Equiv v v
  | Value.undefined => Value.Equiv.undefined
  | Value.number n => Value.Equiv.number n
  | Value.array xs =>
    Value.Equiv.array xs xs rfl (fun i _ => Value.Equiv.refl (xs.getD i Value.undefined))
  | Value.object ps =>
    Value.Equiv.object ps ps (fun _ => rfl) (fun k => Value.Equiv.refl (Obj.get ps k))
termination_by v => sizeOf v
decreasing_by
  · simp only [Value.array.sizeOf_spec]
    exact sizeOf_getD_lt xs i
  · simp only [Value.object.sizeOf_spec]
    exact sizeOf_get_lt ps k

theorem Value.Equiv.symm {a b : Value} (h : Value.Equiv a b) : Value.Equiv b a := by
  induction h with
  | undefined => exact Value.Equiv.undefined
  | number n => exact Value.Equiv.number n
  | array xs ys hl _ ih =>
    exact Value.Equiv.array ys xs hl.symm (fun i hi => ih i (by rw [hl]; exact hi))
  | object ps qs hh _ ih =>
    exact Value.Equiv.object qs ps (fun k => (hh k).symm) (fun k => ih k)

theorem Value.Equiv.trans {a b c : Value} (h1 : Value.Equiv a b) (h2 : Value.Equiv b c) :
    Value.Equiv a c := by
  induction h1 generalizing c with
  | undefined => exact h2
  | number n => exact h2
  | array xs ys hl _ ih =>
    cases h2 with
    | array _ zs hl2 h2 =>
      exact Value.Equiv.array xs zs (hl.trans hl2)
        (fun i hi => ih i hi (h2 i (by rw [← hl]; exact hi)))
  | object ps qs hh _ ih =>
    cases h2 with
    | object _ rs hh2 h2 =>
      exact Value.Equiv.object ps rs (fun k => (hh k).trans (hh2 k)) (fun k => ih k (h2 k))
/-! ## Arithmetic of the host -/

theorem ulpFrom_spec (fuel m : ℕ) (h : m < 2 ^ 53 * 2 ^ fuel) :
    (m < 2 ^ 53 ∧ Number.ulpFrom fuel m = 1) ∨
    (∃ k, Number.ulpFrom fuel m = 2 ^ (k + 1) ∧ 2 ^ 52 * Number.ulpFrom fuel m ≤ m ∧
      m < 2 ^ 53 * Number.ulpFrom fuel m) := by
  induction fuel generalizing m with
  | zero =>
    left
    exact ⟨by simpa using h, rfl⟩
  | succ f ih =>
    by_cases hm : m < 2 ^ 53
    · left
      exact ⟨hm, by simp only [Number.ulpFrom, hm, if_true]⟩
    · right
      have hhalf : m / 2 < 2 ^ 53 * 2 ^ f := by
        rw [pow_succ] at h
        omega
      have hu : Number.ulpFrom (f + 1) m = 2 * Number.ulpFrom f (m / 2) := by
        simp only [Number.ulpFrom, hm, if_false]
      rw [hu]
      rcases ih (m / 2) hhalf with ⟨h1, h2⟩ | ⟨k, h1, h2, h3⟩
      · rw [h2]
        refine ⟨0, rfl, ?_, ?_⟩ <;> omega
      · refine ⟨k + 1, ?_, ?_, ?_⟩
        · rw [h1, pow_succ 2 (k + 1)]
          ring
        · generalize Number.ulpFrom f (m / 2) = u at h1 h2 h3
          omega
        · generalize Number.ulpFrom f (m / 2) = u at h1 h2 h3
          omega

theorem ulp_spec (m : ℕ) :
    (m < 2 ^ 53 ∧ Number.ulp m = 1) ∨
    (∃ k, Number.ulp m = 2 ^ (k + 1) ∧ 2 ^ 52 * Number.ulp m ≤ m ∧ m < 2 ^ 53 * Number.ulp m) := by
  apply ulpFrom_spec
  have h1 : m < 2 ^ m := Nat.lt_two_pow m
  have h2 : 1 * 2 ^ m ≤ 2 ^ 53 * 2 ^ m := Nat.mul_le_mul_right _ (Nat.one_le_two_pow)
  omega

theorem ulp_pos (m : ℕ) : 0 < Number.ulp m := by
  rcases ulp_spec m with ⟨_, h⟩ | ⟨k, h, _, _⟩
  · omega
  · rw [h]
    exact Nat.two_pow_pos _

theorem nearest_ge (m : ℕ) : m / Number.ulp m * Number.ulp m ≤ Number.nearest m := by
  unfold Number.nearest
  simp only
  split
  · exact Nat.mul_le_mul_right _ (Nat.le_succ _)
  · exact Nat.le_refl _

theorem nearest_le (m : ℕ) : Number.nearest m ≤ (m / Number.ulp m + 1) * Number.ulp m := by
  unfold Number.nearest
  simp only
  split
  · exact Nat.le_refl _
  · exact Nat.mul_le_mul_right _ (Nat.le_succ _)

/-- Integers up to `2 ^ 53` are doubles. -/
theorem nearest_of_le (m : ℕ) (h : m ≤ 2 ^ 53) : Number.nearest m = m := by
  rcases ulp_spec m with ⟨_, h2⟩ | ⟨k, h1, h2, h3⟩
  · unfold Number.nearest
    simp [h2, Nat.mod_one]
  · have hk : 2 ^ (k + 1) = 2 * 2 ^ k := by rw [pow_succ]; ring
    have hp : 0 < 2 ^ k := Nat.two_pow_pos _
    rw [h1, hk] at h2 h3
    have hk1 : 2 ^ k = 1 := by omega
    have hm : m = 2 ^ 53 := by omega
    have hu : Number.ulp m = 2 := by rw [h1, hk, hk1]
    unfold Number.nearest
    rw [hu, hm]
    decide

theorem nearest_mono (a b : ℕ) (h : a ≤ b) : Number.nearest a ≤ Number.nearest b := by
  rcases ulp_spec a with ⟨ha1, ha2⟩ | ⟨ka, ha1, ha2, ha3⟩
  · have ea : Number.nearest a = a := nearest_of_le a (by omega)
    rcases ulp_spec b with ⟨hb1, hb2⟩ | ⟨kb, hb1, hb2, hb3⟩
    · rw [ea, nearest_of_le b (by omega)]
      exact h
    · have hq : 2 ^ 52 ≤ b / Number.ulp b :=
        (Nat.le_div_iff_mul_le (ulp_pos b)).2 hb2
      have h1 := nearest_ge b
      have h2 : 2 ^ 52 * Number.ulp b ≤ b / Number.ulp b * Number.ulp b :=
        Nat.mul_le_mul_right _ hq
      have h3 : 2 ≤ Number.ulp b := by
        rw [hb1, pow_succ]
        have : 0 < 2 ^ kb := Nat.two_pow_pos _
        omega
      rw [ea]
      generalize Number.ulp b = u at *
      generalize Number.nearest b = nb at *
      generalize b / u * u = c at *
      omega
  · rcases ulp_spec b with ⟨hb1, hb2⟩ | ⟨kb, hb1, hb2, hb3⟩
    · exfalso
      have h3 : 2 ≤ Number.ulp a := by
        rw [ha1, pow_succ]
        have : 0 < 2 ^ ka := Nat.two_pow_pos _
        omega
      generalize Number.ulp a = u at *
      omega
    · have hqa : a / Number.ulp a < 2 ^ 53 :=
        (Nat.div_lt_iff_lt_mul (ulp_pos a)).2 ha3
      have hqb : 2 ^ 52 ≤ b / Number.ulp b :=
        (Nat.le_div_iff_mul_le (ulp_pos b)).2 hb2
      have hkk : ka ≤ kb := by
        by_contra hc
        have hlt : kb + 1 ≤ ka := by omega
        have h4 : 2 ^ (kb + 1 + 1) ≤ 2 ^ (ka + 1) :=
          Nat.pow_le_pow_right (by norm_num) (by omega)
        rw [pow_succ 2 (kb + 1), ← hb1, ← ha1] at h4
        generalize Number.ulp a = ua at *
        generalize Number.ulp b = ub at *
        omega
      rcases Nat.lt_or_ge ka kb with hlt | hge
      · have h4 : 2 ^ (ka + 1 + 1) ≤ 2 ^ (kb + 1) :=
          Nat.pow_le_pow_right (by norm_num) (by omega)
        rw [pow_succ 2 (ka + 1), ← hb1, ← ha1] at h4
        have h5 := nearest_le a
        have h6 := nearest_ge b
        have h7 : (a / Number.ulp a + 1) * Number.ulp a ≤ 2 ^ 53 * Number.ulp a :=
          Nat.mul_le_mul_right _ hqa
        have h8 : 2 ^ 52 * Number.ulp b ≤ b / Number.ulp b * Number.ulp b :=
          Nat.mul_le_mul_right _ hqb
        generalize Number.nearest a = na at *
        generalize Number.nearest b = nb at *
        generalize (a / Number.ulp a + 1) * Number.ulp a = x at *
        generalize b / Number.ulp b * Number.ulp b = y at *
        generalize Number.ulp a = ua at *
        generalize Number.ulp b = ub at *
        omega
      · have hk : ka = kb := by omega
        have hu : Number.ulp a = Number.ulp b := by rw [ha1, hb1, hk]
        have hpos := ulp_pos b
        have hq : a / Number.ulp b ≤ b / Number.ulp b := Nat.div_le_div_right h
        rcases Nat.lt_or_ge (a / Number.ulp b) (b / Number.ulp b) with hlt | hge2
        · have h5 := nearest_le a
          have h6 := nearest_ge b
          rw [hu] at h5
          have h7 : (a / Number.ulp b + 1) * Number.ulp b ≤ b / Number.ulp b * Number.ulp b :=
            Nat.mul_le_mul_right _ hlt
          omega
        · have hqq : a / Number.ulp b = b / Number.ulp b := by omega
          have hr : a % Number.ulp b ≤ b % Number.ulp b := by
            have e1 := Nat.div_add_mod a (Number.ulp b)
            have e2 := Nat.div_add_mod b (Number.ulp b)
            rw [hqq] at e1
            omega
          unfold Number.nearest
          simp only [hu, hqq]
          by_cases hc : Number.ulp b < 2 * (a % Number.ulp b) ∨
              (Number.ulp b = 2 * (a % Number.ulp b) ∧ b / Number.ulp b % 2 = 1)
          · have hc2 : Number.ulp b < 2 * (b % Number.ulp b) ∨
                (Number.ulp b = 2 * (b % Number.ulp b) ∧ b / Number.ulp b % 2 = 1) := by
              rcases hc with hc | ⟨hc, hodd⟩
              · left
                omega
              · rcases Nat.lt_or_ge (a % Number.ulp b) (b % Number.ulp b) with h9 | h9
                · left
                  omega
                · right
                  exact ⟨by omega, hodd⟩
            rw [if_pos hc, if_pos hc2]
          · rw [if_neg hc]
            split
            · exact Nat.mul_le_mul_right _ (Nat.le_succ _)
            · exact Nat.le_refl _

theorem nearest_pos (m : ℕ) (h : 0 < m) : 0 < Number.nearest m := by
  have h1 := nearest_mono 1 m h
  rw [nearest_of_le 1 (by norm_num)] at h1
  exact h1

/-- The double nearest to `2 ^ 1024 - 2 ^ 970`, which is half way between the
largest double and `2 ^ 1024`, is `2 ^ 1024`; the double nearest to the number
before it is the largest double. -/
theorem nearest_at_threshold :
    Number.nearest (2 ^ 1024 - 2 ^ 970) = 2 ^ 1024 ∧
    Number.nearest (2 ^ 1024 - 2 ^ 970 - 1) = 2 ^ 1024 - 2 ^ 971 := by
  constructor <;> decide!

theorem infinity_eq : Number.infinity = 2 ^ 1024 := by
  unfold Number.infinity
  rw [← pow_mul]

/-- The double nearest to `m` is finite exactly when `m` is below
`2 ^ 1024 - 2 ^ 970`. -/
theorem nearest_finite_iff (m : ℕ) :
    Number.nearest m < Number.infinity ↔ m < 2 ^ 1024 - 2 ^ 970 := by
  rw [infinity_eq]
  constructor
  · intro h
    by_contra hc
    have h1 := nearest_mono (2 ^ 1024 - 2 ^ 970) m (Nat.le_of_not_lt hc)
    rw [nearest_at_threshold.1] at h1
    exact absurd h (Nat.not_lt.2 h1)
  · intro h
    have h1 := nearest_mono m (2 ^ 1024 - 2 ^ 970 - 1) (Nat.le_sub_one_of_lt h)
    rw [nearest_at_threshold.2] at h1
    have h2 : ∀ x y : ℕ, 2 ^ x - 2 ^ y < 2 ^ x :=
      fun x y => Nat.sub_lt (Nat.two_pow_pos x) (Nat.two_pow_pos y)
    exact lt_of_le_of_lt h1 (h2 1024 971)

theorem add_comm_number (a b : ℕ) : Number.add a b = Number.add b a := by
  unfold Number.add
  by_cases ha : a = 0
  · by_cases hb : b = 0
    · simp [ha, hb]
    · simp [ha, hb]
  · by_cases hb : b = 0
    · simp [ha, hb]
    · simp [ha, hb, Nat.add_comm]

theorem add_exact (a b : ℕ) (h : a + b ≤ 2 ^ 53) : Number.add a b = a + b := by
  unfold Number.add
  by_cases ha : a = 0
  · simp [ha]
  · by_cases hb : b = 0
    · simp [ha, hb]
    · simp only [ha, hb, if_false]
      exact nearest_of_le _ h

theorem add_ge_two (a b : ℕ) (ha : 1 ≤ a) (hb : 1 ≤ b) : 2 ≤ Number.add a b := by
  unfold Number.add
  have h1 : a ≠ 0 := by omega
  have h2 : b ≠ 0 := by omega
  simp only [h1, h2, if_false]
  have h3 := nearest_mono 2 (a + b) (by omega)
  rw [nearest_of_le 2 (by norm_num)] at h3
  exact h3

theorem add_pos_number (a b : ℕ) (h : 0 < a + b) : 0 < Number.add a b := by
  unfold Number.add
  by_cases ha : a = 0
  · simp only [ha, if_true]
    omega
  · by_cases hb : b = 0
    · simp only [ha, hb, if_false, if_true]
      omega
    · simp only [ha, hb, if_false]
      exact nearest_pos _ h

/-- The span of a variant layout is at most that of a union whose default
layout is at least as long as the payload. -/
theorem add_le_add_number (lo d dflt : ℕ) (hpos : 0 < lo) (h : lo ≤ dflt) :
    Number.add lo d ≤ Number.add d dflt := by
  unfold Number.add
  have h1 : lo ≠ 0 := by omega
  have h2 : dflt ≠ 0 := by omega
  by_cases hd : d = 0
  · simp only [h1, hd, if_false, if_true]
    exact h
  · simp only [h1, h2, hd, if_false]
    exact nearest_mono _ _ (by omega)

theorem foldl_add_exact (spans : List ℕ) (acc : ℕ) (h : acc + spans.sum ≤ 2 ^ 53) :
    spans.foldl Number.add acc = acc + spans.sum := by
  induction spans generalizing acc with
  | nil => simp
  | cons x rest ih =>
    simp only [List.foldl_cons, List.sum_cons] at h ⊢
    rw [add_exact acc x (by omega), ih (acc + x) (by omega)]
    omega

theorem mul_exact (a b : ℕ) (h : a * b ≤ 2 ^ 53) : Number.mul a b = a * b :=
  nearest_of_le _ h

theorem init_ofNumber (v : ℕ) :
    Layout.init (Arg.ofNumber v)
      = if 0 < v ∧ v < Number.infinity then Except.ok v else Except.error Err.typeError := by
  unfold Arg.ofNumber
  by_cases h : v < Number.infinity
  · rw [if_pos h]
    unfold Layout.init Arg.positiveInteger
    by_cases hv : 0 < v
    · have h2 : (0 : ℤ) < (v : ℤ) := by exact_mod_cast hv
      simp only [h2, hv, h, and_self, if_true, Int.toNat_ofNat]
    · have h2 : ¬ (0 : ℤ) < (v : ℤ) := by exact_mod_cast hv
      simp only [h2, hv, false_and, if_false]
  · rw [if_neg h]
    simp only [h, and_false, if_false]
    rfl

theorem lt_infinity (v : ℕ) (h : v ≤ 2 ^ 53) : v < Number.infinity := by
  have h0 : ∀ x y : ℕ, x < y → 2 ^ x < 2 ^ y :=
    fun x y hxy => Nat.pow_lt_pow_right (by norm_num) hxy
  have h1 := h0 53 1024 (by norm_num)
  rw [infinity_eq]
  exact lt_of_le_of_lt h h1

/-- Some values of the rounding: `2 ^ 53 + 1` lies half way between two
doubles and goes to the even one, `2 ^ 53`; `2 ^ 53 + 3` goes to `2 ^ 53 + 4`;
`2 ^ 54 + 2` goes to `2 ^ 54`. -/
theorem nearest_examples :
    Number.nearest 5 = 5 ∧ Number.nearest (2 ^ 53 + 1) = 2 ^ 53 ∧
    Number.nearest (2 ^ 53 + 2) = 2 ^ 53 + 2 ∧ Number.nearest (2 ^ 53 + 3) = 2 ^ 53 + 4 ∧
    Number.nearest (2 ^ 54 + 2) = 2 ^ 54 :=
  ⟨rfl, rfl, rfl, rfl, rfl⟩

/-! ## Bytes and buffers -/

theorem length_leBytes (n v : ℕ) : (leBytes n v).length = n := by
  induction n generalizing v with
  | zero => rfl
  | succ n ih => simp [leBytes, ih]

theorem leValue_leBytes (n v : ℕ) : leValue (leBytes n v) = v % 256 ^ n := by
  induction n generalizing v with
  | zero => simp [leBytes, leValue, Nat.mod_one]
  | succ n ih =>
    simp only [leBytes, leValue, ih]
    rw [pow_succ, mul_comm (256 ^ n) 256, Nat.mod_mul, add_comm]

theorem getElem?_leBytes (n v i : ℕ) (h : i < n) :
    (leBytes n v)[i]? = some (v / 256 ^ i % 256) := by
  induction n generalizing v i with
  | zero => omega
  | succ n ih =>
    cases i with
    | zero => simp [leBytes]
    | succ i =>
      simp only [leBytes, List.getElem?_cons_succ]
      rw [ih _ _ (by omega), Nat.div_div_eq_div_mul, pow_succ, mul_comm]

theorem beValue_append (xs : List ℕ) (x : ℕ) : beValue (xs ++ [x]) = beValue xs * 256 + x := by
  simp [beValue, List.foldl_append]

theorem beValue_reverse (bs : List ℕ) : beValue bs.reverse = leValue bs := by
  induction bs with
  | nil => rfl
  | cons x xs ih => simp [List.reverse_cons, beValue_append, ih, leValue]; ring

theorem beValue_beBytes (n v : ℕ) : beValue (beBytes n v) = v % 256 ^ n := by
  rw [beBytes, beValue_reverse, leValue_leBytes]

theorem length_beBytes (n v : ℕ) : (beBytes n v).length = n := by
  simp [beBytes, length_leBytes]

theorem length_splice (b : Buffer) (offset : ℕ) (bytes : List ℕ)
    (h : offset + bytes.length ≤ b.length) : (b.splice offset bytes).length = b.length := by
  simp [Buffer.splice]; omega

theorem slice_splice (b : Buffer) (offset : ℕ) (bytes : List ℕ)
    (h : offset + bytes.length ≤ b.length) :
    (b.splice offset bytes).slice offset bytes.length = bytes := by
  have h1 : (List.take offset b).length = offset := by simp; omega
  simp only [Buffer.splice, Buffer.slice, List.append_assoc]
  rw [List.drop_append_of_le_length (by omega), List.drop_of_length_le (by omega)]
  simp

theorem getElem?_splice_lt (b : Buffer) (offset : ℕ) (bytes : List ℕ) (i : ℕ)
    (hb : offset + bytes.length ≤ b.length) (h : i < offset) :
    (b.splice offset bytes)[i]? = b[i]? := by
  have h1 : (List.take offset b).length = offset := by simp; omega
  simp only [Buffer.splice, List.append_assoc]
  rw [List.getElem?_append_left (by omega), List.getElem?_take_of_lt h]

theorem getElem?_splice_ge (b : Buffer) (offset : ℕ) (bytes : List ℕ) (i : ℕ)
    (hb : offset + bytes.length ≤ b.length) (h : offset + bytes.length ≤ i) :
    (b.splice offset bytes)[i]? = b[i]? := by
  have h1 : (List.take offset b).length = offset := by simp; omega
  simp only [Buffer.splice]
  rw [List.getElem?_append_right (by simp; omega), List.getElem?_drop]
  congr 1
  simp
  omega

theorem getElem?_splice_mid (b : Buffer) (offset : ℕ) (bytes : List ℕ) (i : ℕ)
    (hb : offset + bytes.length ≤ b.length) (h : i < bytes.length) :
    (b.splice offset bytes)[offset + i]? = bytes[i]? := by
  have h1 : (List.take offset b).length = offset := by simp; omega
  simp only [Buffer.splice, List.append_assoc]
  rw [List.getElem?_append_right (by omega), List.getElem?_append_left (by omega)]
  congr 1
  omega

theorem getElem?_slice (b : Buffer) (offset n i : ℕ) :
    (b.slice offset n)[i]? = if i < n then b[offset + i]? else none := by
  simp only [Buffer.slice, List.getElem?_take, List.getElem?_drop]

theorem slice_congr (b1 b2 : Buffer) (offset n : ℕ)
    (h : ∀ i, offset ≤ i → i < offset + n → b1[i]? = b2[i]?) :
    b1.slice offset n = b2.slice offset n := by
  apply List.ext_getElem?
  intro i
  rw [getElem?_slice, getElem?_slice]
  split
  · exact h _ (by omega) (by omega)
  · rfl

theorem pow256 (n : ℕ) : (256 : ℤ) ^ n = 2 ^ (8 * n) := by
  rw [pow_mul]; norm_num

theorem toSigned_toUnsigned (n : ℕ) (v : ℤ) (h1 : -(256 : ℤ) ^ n ≤ 2 * v)
    (h2 : 2 * v < (256 : ℤ) ^ n) : toSigned n (toUnsigned n v % 256 ^ n) = v := by
  have hpos : (0 : ℤ) < 256 ^ n := by positivity
  have hmod : ((toUnsigned n v : ℕ) : ℤ) = v % 256 ^ n := by
    unfold toUnsigned
    exact Int.toNat_of_nonneg (Int.emod_nonneg _ (ne_of_gt hpos))
  have hlt : toUnsigned n v < 256 ^ n := by
    have : ((toUnsigned n v : ℕ) : ℤ) < ((256 ^ n : ℕ) : ℤ) := by
      rw [hmod]; push_cast; exact Int.emod_lt_of_pos _ hpos
    exact_mod_cast this
  rw [Nat.mod_eq_of_lt hlt]
  unfold toSigned
  by_cases hv : 0 ≤ v
  · have e : v % 256 ^ n = v := Int.emod_eq_of_lt hv (by omega)
    have : 2 * toUnsigned n v < 256 ^ n := by
      have : (2 * (toUnsigned n v : ℕ) : ℤ) < ((256 ^ n : ℕ) : ℤ) := by
        rw [hmod, e]; push_cast; exact h2
      exact_mod_cast this
    rw [if_pos this, hmod, e]
  · have e : v % 256 ^ n = v + 256 ^ n := by
      rw [← Int.add_emod_self]
      exact Int.emod_eq_of_lt (by omega) (by omega)
    have : ¬ 2 * toUnsigned n v < 256 ^ n := by
      intro hc
      have : (2 * (toUnsigned n v : ℕ) : ℤ) < ((256 ^ n : ℕ) : ℤ) := by exact_mod_cast hc
      rw [hmod, e] at this; push_cast at this; omega
    rw [if_neg this, hmod, e]; ring

/-! ## The integer codecs -/

theorem writeUIntLE_ok (b : Buffer) (v : ℤ) (offset n : ℕ) (h0 : 0 ≤ v)
    (h1 : v < (256 : ℤ) ^ n) (hb : offset + n ≤ b.length) :
    b.writeUIntLE v offset n = ⟨b.splice offset (leBytes n v.toNat), none⟩ := by
  unfold Buffer.writeUIntLE
  rw [if_neg (by omega), if_neg (by omega)]

theorem writeUIntBE_ok (b : Buffer) (v : ℤ) (offset n : ℕ) (h0 : 0 ≤ v)
    (h1 : v < (256 : ℤ) ^ n) (hb : offset + n ≤ b.length) :
    b.writeUIntBE v offset n = ⟨b.splice offset (beBytes n v.toNat), none⟩ := by
  unfold Buffer.writeUIntBE
  rw [if_neg (by omega), if_neg (by omega)]

theorem writeIntLE_ok (b : Buffer) (v : ℤ) (offset n : ℕ) (h0 : -(256 : ℤ) ^ n ≤ 2 * v)
    (h1 : 2 * v < (256 : ℤ) ^ n) (hb : offset + n ≤ b.length) :
    b.writeIntLE v offset n = ⟨b.splice offset (leBytes n (toUnsigned n v)), none⟩ := by
  unfold Buffer.writeIntLE
  rw [if_neg (by omega), if_neg (by omega)]

theorem writeIntBE_ok (b : Buffer) (v : ℤ) (offset n : ℕ) (h0 : -(256 : ℤ) ^ n ≤ 2 * v)
    (h1 : 2 * v < (256 : ℤ) ^ n) (hb : offset + n ≤ b.length) :
    b.writeIntBE v offset n = ⟨b.splice offset (beBytes n (toUnsigned n v)), none⟩ := by
  unfold Buffer.writeIntBE
  rw [if_neg (by omega), if_neg (by omega)]

theorem toNat_mod_pow (v : ℤ) (n : ℕ) (h0 : 0 ≤ v) (h1 : v < (256 : ℤ) ^ n) :
    ((v.toNat % 256 ^ n : ℕ) : ℤ) = v := by
  have : v.toNat < 256 ^ n := by
    have : (v.toNat : ℤ) < ((256 ^ n : ℕ) : ℤ) := by
      rw [Int.toNat_of_nonneg h0]; push_cast; exact h1
    exact_mod_cast this
  rw [Nat.mod_eq_of_lt this, Int.toNat_of_nonneg h0]

theorem readUIntLE_splice (b : Buffer) (offset n u : ℕ) (hb : offset + n ≤ b.length) :
    (b.splice offset (leBytes n u)).readUIntLE offset n = Except.ok ((u % 256 ^ n : ℕ) : ℤ) := by
  have hl := length_leBytes n u
  unfold Buffer.readUIntLE
  rw [length_splice _ _ _ (by omega), if_neg (by omega)]
  have := slice_splice b offset (leBytes n u) (by omega)
  rw [hl] at this
  rw [this, leValue_leBytes]

theorem readUIntBE_splice (b : Buffer) (offset n u : ℕ) (hb : offset + n ≤ b.length) :
    (b.splice offset (beBytes n u)).readUIntBE offset n = Except.ok ((u % 256 ^ n : ℕ) : ℤ) := by
  have hl := length_beBytes n u
  unfold Buffer.readUIntBE
  rw [length_splice _ _ _ (by omega), if_neg (by omega)]
  have := slice_splice b offset (beBytes n u) (by omega)
  rw [hl] at this
  rw [this, beValue_beBytes]

theorem readIntLE_splice (b : Buffer) (offset n u : ℕ) (hb : offset + n ≤ b.length) :
    (b.splice offset (leBytes n u)).readIntLE offset n
      = Except.ok (toSigned n (u % 256 ^ n)) := by
  have hl := length_leBytes n u
  unfold Buffer.readIntLE
  rw [length_splice _ _ _ (by omega), if_neg (by omega)]
  have := slice_splice b offset (leBytes n u) (by omega)
  rw [hl] at this
  rw [this, leValue_leBytes]

theorem readIntBE_splice (b : Buffer) (offset n u : ℕ) (hb : offset + n ≤ b.length) :
    (b.splice offset (beBytes n u)).readIntBE offset n
      = Except.ok (toSigned n (u % 256 ^ n)) := by
  have hl := length_beBytes n u
  unfold Buffer.readIntBE
  rw [length_splice _ _ _ (by omega), if_neg (by omega)]
  have := slice_splice b offset (beBytes n u) (by omega)
  rw [hl] at this
  rw [this, beValue_beBytes]

theorem signed_range (n : ℕ) (v : ℤ) (hn : 1 ≤ n)
    (hv : -(2 : ℤ) ^ (8 * n - 1) ≤ v ∧ v < 2 ^ (8 * n - 1)) :
    -(256 : ℤ) ^ n ≤ 2 * v ∧ 2 * v < (256 : ℤ) ^ n := by
  have e : (256 : ℤ) ^ n = 2 * 2 ^ (8 * n - 1) := by
    rw [pow256, ← pow_succ']
    congr 1
    omega
  rw [e]
  omega

/-! ## Writes stay at or above the offset -/

theorem keepsBelow_refl (b : Buffer) (offset : ℕ) (e : Option Err) :
    KeepsBelow b offset ⟨b, e⟩ :=
  ⟨rfl, fun _ _ => rfl⟩

theorem keepsBelow_trans {b : Buffer} {o1 o2 : ℕ} {w1 w2 : Written} (ho : o1 ≤ o2)
    (h1 : KeepsBelow b o1 w1) (h2 : KeepsBelow w1.buffer o2 w2) : KeepsBelow b o1 w2 :=
  ⟨h2.1.trans h1.1, fun i hi => (h2.2 i (by omega)).trans (h1.2 i hi)⟩

theorem keepsBelow_splice (b : Buffer) (offset : ℕ) (bytes : List ℕ)
    (h : offset + bytes.length ≤ b.length) :
    KeepsBelow b offset ⟨b.splice offset bytes, none⟩ :=
  ⟨length_splice b offset bytes h, fun i hi => getElem?_splice_lt b offset bytes i h hi⟩

theorem keepsBelow_writeUIntLE (b : Buffer) (v : ℤ) (offset n : ℕ) :
    KeepsBelow b offset (b.writeUIntLE v offset n) := by
  unfold Buffer.writeUIntLE
  split
  · exact keepsBelow_refl _ _ _
  · split
    · exact keepsBelow_refl _ _ _
    · exact keepsBelow_splice _ _ _ (by rw [length_leBytes]; omega)

theorem keepsBelow_writeUIntBE (b : Buffer) (v : ℤ) (offset n : ℕ) :
    KeepsBelow b offset (b.writeUIntBE v offset n) := by
  unfold Buffer.writeUIntBE
  split
  · exact keepsBelow_refl _ _ _
  · split
    · exact keepsBelow_refl _ _ _
    · exact keepsBelow_splice _ _ _ (by rw [length_beBytes]; omega)

theorem keepsBelow_writeIntLE (b : Buffer) (v : ℤ) (offset n : ℕ) :
    KeepsBelow b offset (b.writeIntLE v offset n) := by
  unfold Buffer.writeIntLE
  split
  · exact keepsBelow_refl _ _ _
  · split
    · exact keepsBelow_refl _ _ _
    · exact keepsBelow_splice _ _ _ (by rw [length_leBytes]; omega)

theorem keepsBelow_writeIntBE (b : Buffer) (v : ℤ) (offset n : ℕ) :
    KeepsBelow b offset (b.writeIntBE v offset n) := by
  unfold Buffer.writeIntBE
  split
  · exact keepsBelow_refl _ _ _
  · split
    · exact keepsBelow_refl _ _ _
    · exact keepsBelow_splice _ _ _ (by rw [length_beBytes]; omega)

theorem keepsBelow_fill (b : Buffer) (value start stop : ℕ) :
    KeepsBelow b start (b.fill value start stop) := by
  unfold Buffer.fill
  split
  · exact keepsBelow_refl _ _ _
  · split
    · exact keepsBelow_refl _ _ _
    · exact keepsBelow_splice _ _ _ (by rw [List.length_replicate]; omega)

theorem keepsBelow_encodeElts (enc : Encoder) (elo : Layout)
    (henc : ∀ l v b offset, KeepsBelow b offset (enc l v b offset)) (vs : List Value)
    (b : Buffer) (offset : ℕ) :
    KeepsBelow b offset (Sequence.encodeElts enc elo vs b offset) := by
  induction vs generalizing b offset with
  | nil => exact keepsBelow_refl _ _ _
  | cons v vs ih =>
    have h1 := henc elo v b offset
    rcases h : enc elo v b offset with ⟨b1, _ | e⟩
    · simp only [Sequence.encodeElts, h]
      rw [h] at h1
      exact keepsBelow_trans (Nat.le_add_right _ _) h1 (ih b1 _)
    · simp only [Sequence.encodeElts, h]
      rw [h] at h1
      exact h1

theorem keepsBelow_encodeFields (enc : Encoder) (src : Value)
    (henc : ∀ l v b offset, KeepsBelow b offset (enc l v b offset)) (fields : List Layout)
    (b : Buffer) (offset : ℕ) :
    KeepsBelow b offset (Structure.encodeFields enc src fields b offset) := by
  induction fields generalizing b offset with
  | nil => exact keepsBelow_refl _ _ _
  | cons fd rest ih =>
    unfold Structure.encodeFields
    cases fd.property with
    | none =>
      exact keepsBelow_trans (Nat.le_add_right _ _) (keepsBelow_refl b offset none) (ih b _)
    | some p =>
      simp only
      cases src.getProp p with
      | error e => exact keepsBelow_refl _ _ _
      | ok fv =>
        simp only
        have h1 : KeepsBelow b offset (if fv.isUndefined then b.fill 0 offset (offset + fd.span)
            else enc fd fv b offset) := by
          split
          · exact keepsBelow_fill _ _ _ _
          · exact henc _ _ _ _
        rcases h : (if fv.isUndefined then b.fill 0 offset (offset + fd.span)
            else enc fd fv b offset) with ⟨b1, _ | e⟩
        · rw [h] at h1
          exact keepsBelow_trans (Nat.le_add_right _ _) h1 (ih b1 _)
        · rw [h] at h1
          exact h1

theorem keepsBelow_unionEncode (enc : Encoder) (dlo dflt : Layout)
    (henc : ∀ l v b offset, KeepsBelow b offset (enc l v b offset)) (src : Value)
    (b : Buffer) (offset : ℕ) :
    KeepsBelow b offset (Union.encode enc dlo dflt src b offset) := by
  unfold Union.encode
  cases src.getProp "variant" with
  | error e => exact keepsBelow_refl _ _ _
  | ok discr =>
    simp only
    cases src.getProp "content" with
    | error e => exact keepsBelow_refl _ _ _
    | ok content =>
      simp only
      split
      · exact keepsBelow_refl _ _ _
      · have h1 := henc dlo discr b offset
        rcases h : enc dlo discr b offset with ⟨b1, _ | e⟩
        · rw [h] at h1
          exact keepsBelow_trans (Nat.le_add_right _ _) h1 (henc _ _ b1 _)
        · rw [h] at h1
          exact h1

theorem keepsBelow_variantEncode (enc : Encoder) (union : Layout) (variant : ℕ)
    (layout : Layout) (henc : ∀ l v b offset, KeepsBelow b offset (enc l v b offset))
    (src : Value) (b : Buffer) (offset : ℕ) :
    KeepsBelow b offset (VariantLayout.encode enc union variant layout src b offset) := by
  unfold VariantLayout.encode
  split
  · rename_i dlo _ _
    have h1 := henc dlo (Value.number variant) b offset
    rcases h : enc dlo (Value.number variant) b offset with ⟨b1, _ | e⟩
    · rw [h] at h1
      exact keepsBelow_trans (Nat.le_add_right _ _) h1 (henc _ _ b1 _)
    · rw [h] at h1
      exact h1
  · exact keepsBelow_refl _ _ _

/-- Whatever the layout and the source, and whether it succeeds or fails,
`encode` keeps the length of the buffer and every byte below `offset`. -/
theorem keepsBelow_encode (fuel : ℕ) (l : Layout) (src : Value) (b : Buffer) (offset : ℕ) :
    KeepsBelow b offset (Layout.encode fuel l src b offset) := by
  induction fuel generalizing l src b offset with
  | zero => exact keepsBelow_refl _ _ _
  | succ fuel ih =>
    cases l with
    | Base span p => exact keepsBelow_refl _ _ _
    | UInt span p =>
      simp only [Layout.encode, UInt.encode]
      split
      · exact keepsBelow_writeUIntLE _ _ _ _
      · exact keepsBelow_refl _ _ _
    | UIntBE span p =>
      simp only [Layout.encode, UIntBE.encode]
      split
      · exact keepsBelow_writeUIntBE _ _ _ _
      · exact keepsBelow_refl _ _ _
    | Int span p =>
      simp only [Layout.encode, Int.encode]
      split
      · exact keepsBelow_writeIntLE _ _ _ _
      · exact keepsBelow_refl _ _ _
    | IntBE span p =>
      simp only [Layout.encode, IntBE.encode]
      split
      · exact keepsBelow_writeIntBE _ _ _ _
      · exact keepsBelow_refl _ _ _
    | Sequence span p elo count =>
      simp only [Layout.encode, Sequence.encode]
      split
      · exact keepsBelow_encodeElts _ _ ih _ _ _
      · exact keepsBelow_refl _ _ _
    | Structure span p fields =>
      simp only [Layout.encode, Structure.encode]
      exact keepsBelow_encodeFields _ _ ih _ _ _
    | Union span p layout dlo dflt registry =>
      simp only [Layout.encode]
      exact keepsBelow_unionEncode _ _ _ ih _ _ _
    | VariantLayout ref span p union variant layout =>
      simp only [Layout.encode]
      exact keepsBelow_variantEncode _ _ _ _ ih _ _ _

/-! ## Decoding reads the span of the layout only -/

theorem agreeOn_refl (b : Buffer) (lo hi : ℕ) : AgreeOn b b lo hi :=
  ⟨rfl, fun _ _ _ => rfl⟩

theorem agreeOn_symm {b1 b2 : Buffer} {lo hi : ℕ} (h : AgreeOn b1 b2 lo hi) :
    AgreeOn b2 b1 lo hi :=
  ⟨h.1.symm, fun i h1 h2 => (h.2 i h1 h2).symm⟩

theorem agreeOn_mono {b1 b2 : Buffer} {lo hi lo2 hi2 : ℕ} (h : AgreeOn b1 b2 lo hi)
    (hlo : lo ≤ lo2) (hhi : hi2 ≤ hi) : AgreeOn b1 b2 lo2 hi2 :=
  ⟨h.1, fun i h1 h2 => h.2 i (by omega) (by omega)⟩

theorem agreeOn_slice {b1 b2 : Buffer} {offset n : ℕ} (h : AgreeOn b1 b2 offset (offset + n)) :
    b1.slice offset n = b2.slice offset n :=
  slice_congr b1 b2 offset n h.2

/-- A call that keeps the bytes below `lo` leaves the buffer in agreement with
the one before the call on every range that ends at or below `lo`. -/
theorem agreeOn_of_keepsBelow {b : Buffer} {w : Written} {lo : ℕ} (h : KeepsBelow b lo w)
    (start : ℕ) : AgreeOn w.buffer b start lo :=
  ⟨h.1, fun i _ hi => h.2 i hi⟩

theorem uintDecode_congr {b1 b2 : Buffer} {offset n : ℕ}
    (h : AgreeOn b1 b2 offset (offset + n)) : UInt.decode n b1 offset = UInt.decode n b2 offset := by
  simp only [UInt.decode, Buffer.readUIntLE, h.1, agreeOn_slice h]

theorem uintBEDecode_congr {b1 b2 : Buffer} {offset n : ℕ}
    (h : AgreeOn b1 b2 offset (offset + n)) :
    UIntBE.decode n b1 offset = UIntBE.decode n b2 offset := by
  simp only [UIntBE.decode, Buffer.readUIntBE, h.1, agreeOn_slice h]

theorem intDecode_congr {b1 b2 : Buffer} {offset n : ℕ}
    (h : AgreeOn b1 b2 offset (offset + n)) : Int.decode n b1 offset = Int.decode n b2 offset := by
  simp only [Int.decode, Buffer.readIntLE, h.1, agreeOn_slice h]

theorem intBEDecode_congr {b1 b2 : Buffer} {offset n : ℕ}
    (h : AgreeOn b1 b2 offset (offset + n)) :
    IntBE.decode n b1 offset = IntBE.decode n b2 offset := by
  simp only [IntBE.decode, Buffer.readIntBE, h.1, agreeOn_slice h]

theorem decodeElts_congr (dec : Decoder) (elo : Layout)
    (hdec : ReadsSpan dec elo) (n : ℕ) (b1 b2 : Buffer) (offset : ℕ)
    (h : AgreeOn b1 b2 offset (offset + n * elo.span)) :
    Sequence.decodeElts dec elo b1 n offset = Sequence.decodeElts dec elo b2 n offset := by
  induction n generalizing offset with
  | zero => rfl
  | succ n ih =>
    have e : (n + 1) * elo.span = elo.span + n * elo.span := by ring
    rw [e] at h
    simp only [Sequence.decodeElts]
    rw [hdec b1 b2 offset none (agreeOn_mono h (le_refl _) (by omega)),
      ih (offset + elo.span) (agreeOn_mono h (by omega) (by omega))]

theorem decodeFields_congr (dec : Decoder) (fields : List Layout)
    (hdec : ∀ fd, fd ∈ fields → ReadsSpan dec fd) (b1 b2 : Buffer) (offset : ℕ) (dest : Obj)
    (h : AgreeOn b1 b2 offset (offset + (fields.map Layout.span).sum)) :
    Structure.decodeFields dec b1 fields offset dest
      = Structure.decodeFields dec b2 fields offset dest := by
  induction fields generalizing offset dest with
  | nil => rfl
  | cons fd rest ih =>
    simp only [List.map_cons, List.sum_cons] at h
    have hrest : ∀ d, Structure.decodeFields dec b1 rest (offset + fd.span) d
        = Structure.decodeFields dec b2 rest (offset + fd.span) d := fun d =>
      ih (fun f hf => hdec f (List.mem_cons_of_mem _ hf)) (offset + fd.span) d
        (agreeOn_mono h (by omega) (by omega))
    simp only [Structure.decodeFields]
    rw [hdec fd (List.mem_cons_self _ _) b1 b2 offset none
      (agreeOn_mono h (le_refl _) (by omega))]
    cases fd.property with
    | none => exact hrest _
    | some p =>
      simp only
      cases dec fd b2 offset none with
      | error e => rfl
      | ok x => exact hrest _

theorem entry_lookup {σ : Store} {registry : ℕ} {discr : Value} {vlo : Layout}
    (h : σ.entry registry discr = some vlo) :
    ∃ k, σ.registry.lookup (registry, k) = some vlo := by
  cases discr with
  | number n =>
    simp only [Store.entry] at h
    split at h
    · exact ⟨_, h⟩
    · exact absurd h (by simp)
  | undefined => exact absurd h (by simp [Store.entry])
  | array xs => exact absurd h (by simp [Store.entry])
  | object ps => exact absurd h (by simp [Store.entry])

theorem unionDecode_congr (σ : Store) (dec : Decoder) (span : ℕ) (layout dlo dflt : Layout)
    (registry : ℕ) (hd : ReadsSpan dec dlo) (hc : ReadsSpan dec dflt)
    (hspan : span = dlo.span + dflt.span)
    (hreg : ∀ k vlo, σ.registry.lookup (registry, k) = some vlo →
      vlo.span ≤ span ∧ ReadsSpan dec vlo)
    (b1 b2 : Buffer) (offset : ℕ) (dest : Option Obj)
    (h : AgreeOn b1 b2 offset (offset + span)) :
    Union.decode σ dec layout dlo dflt registry b1 offset dest
      = Union.decode σ dec layout dlo dflt registry b2 offset dest := by
  simp only [Union.decode]
  rw [hd b1 b2 offset none (agreeOn_mono h (le_refl _) (by omega)),
    hc b1 b2 (offset + dlo.span) none (agreeOn_mono h (by omega) (by omega))]
  cases dec dlo b2 offset none with
  | error e => rfl
  | ok discr =>
    simp only
    cases he : σ.entry registry discr with
    | none => rfl
    | some vlo =>
      simp only
      obtain ⟨k, hk⟩ := entry_lookup he
      obtain ⟨h1, h2⟩ := hreg k vlo hk
      exact h2 b1 b2 offset _ (agreeOn_mono h (le_refl _) (by omega))

theorem variantDecode_congr (σ : Store) (dec : Decoder) (ref span us : ℕ) (up : Option String)
    (ul dlo dflt : Layout) (registry : ℕ) (lo : Layout) (hd : ReadsSpan dec dlo)
    (hl : ReadsSpan dec lo) (hspan : span = lo.span + dlo.span)
    (b1 b2 : Buffer) (offset : ℕ) (dest : Option Obj)
    (h : AgreeOn b1 b2 offset (offset + span)) :
    VariantLayout.decode σ dec ref (Layout.Union us up ul dlo dflt registry) lo b1 offset dest
      = VariantLayout.decode σ dec ref (Layout.Union us up ul dlo dflt registry) lo b2 offset
          dest := by
  simp only [VariantLayout.decode, Union.getVariant, Option.getD_some]
  rw [hd b1 b2 offset none (agreeOn_mono h (le_refl _) (by omega)),
    hl b1 b2 (offset + dlo.span) dest (agreeOn_mono h (by omega) (by omega))]

/-- In a well-formed store, `decode` on a well-formed layout gives the same
result on two buffers of the same length that hold the same bytes in the span
of the layout at `offset`. -/
theorem decode_readsSpan (σ : Store) (hσ : σ.WellFormed) (fuel : ℕ) (l : Layout)
    (hl : WellFormed σ l) : ReadsSpan (Layout.decode σ fuel) l := by
  induction fuel generalizing l with
  | zero => intro b1 b2 offset dest _; rfl
  | succ fuel ih =>
    intro b1 b2 offset dest h
    cases hl with
    | Base span p => rfl
    | UInt span p => exact uintDecode_congr h
    | UIntBE span p => exact uintBEDecode_congr h
    | Int span p => exact intDecode_congr h
    | IntBE span p => exact intBEDecode_congr h
    | Sequence span p elo count helo hspan =>
      simp only [Layout.decode, Sequence.decode]
      rw [decodeElts_congr _ elo (ih elo helo) count b1 b2 offset (by rw [← hspan]; exact h)]
    | Structure span p fields hf hspan =>
      simp only [Layout.decode, Structure.decode]
      rw [decodeFields_congr _ fields (fun fd hfd => ih fd (hf fd hfd)) b1 b2 offset _
        (by rw [← hspan]; exact h)]
    | Union span p layout dlo dflt registry hd hc hspan hreg =>
      simp only [Layout.decode]
      exact unionDecode_congr σ _ span layout dlo dflt registry (ih dlo hd) (ih dflt hc) hspan
        (fun k vlo hk => ⟨hreg k vlo hk, ih vlo (hσ _ vlo hk)⟩) b1 b2 offset dest h
    | VariantLayout ref span p us up ul dlo dflt registry variant lo hd hlo hspan =>
      simp only [Layout.decode]
      exact variantDecode_congr σ _ ref span us up ul dlo dflt registry lo (ih dlo hd)
        (ih lo hlo) hspan b1 b2 offset dest h

/-! ## Objects -/

theorem get_set_eq (o : Obj) (k : String) (x : Value) : Obj.get (Obj.set o k x) k = x := by
  induction o with
  | nil => simp [Obj.set, Obj.get]
  | cons kv rest ih =>
    obtain ⟨k1, y⟩ := kv
    by_cases h : k1 = k
    · simp [Obj.set, Obj.get, h]
    · simp [Obj.set, Obj.get, h, ih]

theorem get_set_ne (o : Obj) (k k2 : String) (x : Value) (h : k ≠ k2) :
    Obj.get (Obj.set o k x) k2 = Obj.get o k2 := by
  induction o with
  | nil => simp [Obj.set, Obj.get, h]
  | cons kv rest ih =>
    obtain ⟨k1, y⟩ := kv
    by_cases h1 : k1 = k
    · subst h1
      simp [Obj.set, Obj.get, h]
    · by_cases h2 : k1 = k2
      · subst h2
        simp [Obj.set, Obj.get, h1]
      · simp [Obj.set, Obj.get, h1, h2, ih]

theorem has_set_eq (o : Obj) (k : String) (x : Value) : Obj.has (Obj.set o k x) k = true := by
  induction o with
  | nil => simp [Obj.set, Obj.has]
  | cons kv rest ih =>
    obtain ⟨k1, y⟩ := kv
    by_cases h : k1 = k
    · simp [Obj.set, Obj.has, h]
    · simp [Obj.set, Obj.has, h, ih]

theorem has_set_ne (o : Obj) (k k2 : String) (x : Value) (h : k ≠ k2) :
    Obj.has (Obj.set o k x) k2 = Obj.has o k2 := by
  induction o with
  | nil => simp [Obj.set, Obj.has, h]
  | cons kv rest ih =>
    obtain ⟨k1, y⟩ := kv
    by_cases h1 : k1 = k
    · subst h1
      simp [Obj.set, Obj.has, h]
    · by_cases h2 : k1 = k2
      · subst h2
        simp [Obj.set, Obj.has, h1]
      · simp [Obj.set, Obj.has, h1, h2, ih]

theorem get_of_not_has (o : Obj) (k : String) (h : Obj.has o k = false) :
    Obj.get o k = Value.undefined := by
  induction o with
  | nil => rfl
  | cons kv rest ih =>
    obtain ⟨k1, y⟩ := kv
    by_cases h1 : k1 = k
    · simp [Obj.has, h1] at h
    · simp only [Obj.has, h1, if_false] at h
      simp [Obj.get, h1, ih h]

/-! ## Round trip of a sequence -/

theorem encodeElts_cons (enc : Encoder) (elo : Layout) (v : Value) (vs : List Value)
    (b : Buffer) (offset : ℕ)
    (h : (Sequence.encodeElts enc elo (v :: vs) b offset).error = none) :
    (enc elo v b offset).error = none ∧
      Sequence.encodeElts enc elo (v :: vs) b offset
        = Sequence.encodeElts enc elo vs (enc elo v b offset).buffer (offset + elo.span) := by
  rcases hw : enc elo v b offset with ⟨b1, _ | e⟩
  · simp only [Sequence.encodeElts, hw] at h ⊢
    exact ⟨trivial, trivial⟩
  · simp [Sequence.encodeElts, hw] at h

theorem sequence_core (enc : Encoder) (dec : Decoder) (elo : Layout)
    (henc : ∀ l v b offset, KeepsBelow b offset (enc l v b offset))
    (hdec : ReadsSpan dec elo) (vs : List Value)
    (hrt : ∀ v, v ∈ vs → ∀ b0 off, (enc elo v b0 off).error = none →
      ∃ y, dec elo (enc elo v b0 off).buffer off none = Except.ok y ∧ Value.Equiv y v)
    (b : Buffer) (offset : ℕ)
    (h : (Sequence.encodeElts enc elo vs b offset).error = none) :
    ∃ ys, Sequence.decodeElts dec elo (Sequence.encodeElts enc elo vs b offset).buffer
        vs.length offset = Except.ok ys ∧
      ys.length = vs.length ∧
      (∀ i, i < ys.length →
        Value.Equiv (ys.getD i Value.undefined) (vs.getD i Value.undefined)) ∧
      (∀ i, i < vs.length →
        dec elo (Sequence.encodeElts enc elo vs b offset).buffer (offset + i * elo.span) none
          = Except.ok (ys.getD i Value.undefined)) := by
  induction vs generalizing b offset with
  | nil => exact ⟨[], rfl, rfl, fun i hi => absurd hi (by simp), fun i hi => absurd hi (by simp)⟩
  | cons v vs ih =>
    obtain ⟨h1, h2⟩ := encodeElts_cons enc elo v vs b offset h
    rw [h2] at h ⊢
    obtain ⟨y, hy, hyv⟩ := hrt v (List.mem_cons_self _ _) b offset h1
    have hkeep := keepsBelow_encodeElts enc elo henc vs (enc elo v b offset).buffer
      (offset + elo.span)
    have hfirst : dec elo (Sequence.encodeElts enc elo vs (enc elo v b offset).buffer
        (offset + elo.span)).buffer offset none = Except.ok y := by
      rw [hdec _ _ offset none (agreeOn_of_keepsBelow hkeep offset)]
      exact hy
    obtain ⟨ys, hys, hlen, heq, hpos⟩ := ih (fun w hw => hrt w (List.mem_cons_of_mem _ hw))
      (enc elo v b offset).buffer (offset + elo.span) h
    refine ⟨y :: ys, ?_, by simp [hlen], ?_, ?_⟩
    · simp only [List.length_cons, Sequence.decodeElts, hfirst, hys]
    · intro i hi
      cases i with
      | zero => exact hyv
      | succ i =>
        simp only [List.getD_cons_succ]
        exact heq i (by simpa using hi)
    · intro i hi
      cases i with
      | zero => simpa using hfirst
      | succ i =>
        have := hpos i (by simpa using hi)
        simp only [List.getD_cons_succ]
        rw [← this]
        congr 1
        ring

/-! ## Round trip of a structure -/

theorem encodeFields_unnamed (enc : Encoder) (src : Value) (fd : Layout) (rest : List Layout)
    (b : Buffer) (offset : ℕ) (hp : fd.property = none) :
    Structure.encodeFields enc src (fd :: rest) b offset
      = Structure.encodeFields enc src rest b (offset + fd.span) := by
  simp only [Structure.encodeFields, hp]

theorem encodeFields_named (enc : Encoder) (ps : Obj) (fd : Layout) (rest : List Layout)
    (b : Buffer) (offset : ℕ) (p : String) (hp : fd.property = some p)
    (hdef : (Obj.get ps p).isUndefined = false)
    (h : (Structure.encodeFields enc (Value.object ps) (fd :: rest) b offset).error = none) :
    (enc fd (Obj.get ps p) b offset).error = none ∧
      Structure.encodeFields enc (Value.object ps) (fd :: rest) b offset
        = Structure.encodeFields enc (Value.object ps) rest
            (enc fd (Obj.get ps p) b offset).buffer (offset + fd.span) := by
  rcases hw : enc fd (Obj.get ps p) b offset with ⟨b1, _ | e⟩
  · refine ⟨rfl, ?_⟩
    simp [Structure.encodeFields, hp, Value.getProp, hdef, hw]
  · simp [Structure.encodeFields, hp, Value.getProp, hdef, hw] at h

theorem structure_core (enc : Encoder) (dec : Decoder) (ps : Obj)
    (henc : ∀ l v b offset, KeepsBelow b offset (enc l v b offset))
    (fields : List Layout)
    (hdec : ∀ fd, fd ∈ fields → ReadsSpan dec fd)
    (hnodup : (fields.filterMap Layout.property).Nodup)
    (hdef : ∀ fd p, fd ∈ fields → fd.property = some p → (Obj.get ps p).isUndefined = false)
    (hrt : ∀ fd p, fd ∈ fields → fd.property = some p → ∀ b0 off,
      (enc fd (Obj.get ps p) b0 off).error = none →
      ∃ y, dec fd (enc fd (Obj.get ps p) b0 off).buffer off none = Except.ok y ∧
        Value.Equiv y (Obj.get ps p))
    (b : Buffer) (offset : ℕ) (dest : Obj)
    (h : (Structure.encodeFields enc (Value.object ps) fields b offset).error = none) :
    ∃ o, Structure.decodeFields dec
        (Structure.encodeFields enc (Value.object ps) fields b offset).buffer fields offset dest
        = Except.ok o ∧
      (∀ k, k ∈ fields.filterMap Layout.property →
        Obj.has o k = true ∧ Value.Equiv (Obj.get o k) (Obj.get ps k)) ∧
      (∀ k, k ∉ fields.filterMap Layout.property →
        Obj.has o k = Obj.has dest k ∧ Obj.get o k = Obj.get dest k) := by
  induction fields generalizing b offset dest with
  | nil =>
    exact ⟨dest, rfl, fun k hk => absurd hk (by simp), fun k _ => ⟨rfl, rfl⟩⟩
  | cons fd rest ih =>
    have hdec2 : ∀ f, f ∈ rest → ReadsSpan dec f := fun f hf => hdec f (List.mem_cons_of_mem _ hf)
    have hdef2 : ∀ f p, f ∈ rest → f.property = some p → (Obj.get ps p).isUndefined = false :=
      fun f p hf => hdef f p (List.mem_cons_of_mem _ hf)
    have hrt2 : ∀ f p, f ∈ rest → f.property = some p → ∀ b0 off,
        (enc f (Obj.get ps p) b0 off).error = none →
        ∃ y, dec f (enc f (Obj.get ps p) b0 off).buffer off none = Except.ok y ∧
          Value.Equiv y (Obj.get ps p) :=
      fun f p hf => hrt f p (List.mem_cons_of_mem _ hf)
    cases hp : fd.property with
    | none =>
      have hnames : (fd :: rest).filterMap Layout.property = rest.filterMap Layout.property := by
        simp [List.filterMap_cons, hp]
      rw [hnames] at hnodup ⊢
      rw [encodeFields_unnamed enc _ fd rest b offset hp] at h ⊢
      obtain ⟨o, ho, h1, h2⟩ := ih hdec2 hnodup hdef2 hrt2 b (offset + fd.span) dest h
      refine ⟨o, ?_, h1, h2⟩
      simp only [Structure.decodeFields, hp]
      exact ho
    | some p =>
      have hnames : (fd :: rest).filterMap Layout.property
          = p :: rest.filterMap Layout.property := by
        simp [List.filterMap_cons, hp]
      rw [hnames] at hnodup ⊢
      obtain ⟨hpn, hnodup2⟩ := List.nodup_cons.mp hnodup
      obtain ⟨h1, h2⟩ := encodeFields_named enc ps fd rest b offset p hp
        (hdef fd p (List.mem_cons_self _ _) hp) h
      rw [h2] at h ⊢
      obtain ⟨y, hy, hyv⟩ := hrt fd p (List.mem_cons_self _ _) hp b offset h1
      have hkeep := keepsBelow_encodeFields enc (Value.object ps) henc rest
        (enc fd (Obj.get ps p) b offset).buffer (offset + fd.span)
      have hfirst : dec fd (Structure.encodeFields enc (Value.object ps) rest
          (enc fd (Obj.get ps p) b offset).buffer (offset + fd.span)).buffer offset none
          = Except.ok y := by
        rw [hdec fd (List.mem_cons_self _ _) _ _ offset none (agreeOn_of_keepsBelow hkeep offset)]
        exact hy
      obtain ⟨o, ho, ho1, ho2⟩ := ih hdec2 hnodup2 hdef2 hrt2
        (enc fd (Obj.get ps p) b offset).buffer (offset + fd.span) (Obj.set dest p y) h
      refine ⟨o, ?_, ?_, ?_⟩
      · simp only [Structure.decodeFields, hp, hfirst]
        exact ho
      · intro k hk
        rcases List.mem_cons.mp hk with hkp | hk
        · subst hkp
          obtain ⟨e1, e2⟩ := ho2 k hpn
          rw [e1, e2, has_set_eq, get_set_eq]
          exact ⟨rfl, hyv⟩
        · exact ho1 k hk
      · intro k hk
        have hkp : p ≠ k := fun e => hk (by rw [e]; exact List.mem_cons_self _ _)
        have hk2 : k ∉ rest.filterMap Layout.property := fun e => hk (List.mem_cons_of_mem _ e)
        obtain ⟨e1, e2⟩ := ho2 k hk2
        rw [e1, e2, has_set_ne _ _ _ _ hkp, get_set_ne _ _ _ _ hkp]
        exact ⟨rfl, rfl⟩

/-! ## Facts used to instantiate the statements -/

theorem wellFormed_empty : Store.WellFormed ⟨0, []⟩ := by
  intro key vlo h
  simp at h

theorem uint_decode_of_encode_ok (σ : Store) (fe fd n : ℕ) (p : Option String) (x : Value)
    (b : Buffer) (offset : ℕ) (dest : Option Obj)
    (h : (Layout.encode (fe + 1) (Layout.UInt n p) x b offset).error = none) :
    ∃ y, Layout.decode σ (fd + 1) (Layout.UInt n p)
        (Layout.encode (fe + 1) (Layout.UInt n p) x b offset).buffer offset dest = Except.ok y ∧
      Value.Equiv y x := by
  cases x with
  | number v =>
    simp only [Layout.encode, UInt.encode] at h ⊢
    by_cases hv : v < 0 ∨ (256 : ℤ) ^ n ≤ v
    · simp [Buffer.writeUIntLE, hv] at h
    · by_cases hb : b.length < offset + n
      · simp [Buffer.writeUIntLE, hv, hb] at h
      · have h0 : 0 ≤ v := by omega
        have h1 : v < (256 : ℤ) ^ n := by omega
        refine ⟨Value.number v, ?_, Value.Equiv.number v⟩
        simp only [Layout.decode, UInt.decode, writeUIntLE_ok b v offset n h0 h1 (by omega),
          readUIntLE_splice b offset n _ (by omega), toNat_mod_pow v n h0 h1]
        rfl
  | undefined => simp [Layout.encode, UInt.encode] at h
  | array xs => simp [Layout.encode, UInt.encode] at h
  | object ps => simp [Layout.encode, UInt.encode] at h

theorem has_iff_mem (ps : Obj) (k : String) : Obj.has ps k = true ↔ k ∈ ps.map Prod.fst := by
  induction ps with
  | nil => simp [Obj.has]
  | cons kv rest ih =>
    obtain ⟨k1, y⟩ := kv
    by_cases h : k1 = k
    · simp [Obj.has, h]
    · have h2 : ¬ k = k1 := fun e => h e.symm
      simp [Obj.has, h, h2, ih]

/-! ## Unions and variants -/

theorem decode_dest_none (σ : Store) (fuel : ℕ) (l : Layout) (b : Buffer) (offset : ℕ) :
    Layout.decode σ fuel l b offset (some []) = Layout.decode σ fuel l b offset none := by
  induction fuel generalizing l b offset with
  | zero => rfl
  | succ fuel ih =>
    cases l with
    | Base span p => rfl
    | UInt span p => rfl
    | UIntBE span p => rfl
    | Int span p => rfl
    | IntBE span p => rfl
    | Sequence span p elo count => rfl
    | Structure span p fields => rfl
    | Union span p layout dlo dflt registry => rfl
    | VariantLayout ref span p union variant layout =>
      simp only [Layout.decode, VariantLayout.decode]
      split
      · split
        · rfl
        · split
          · exact ih _ _ _
          · rfl
      · rfl

theorem decode_unsigned (σ : Store) (f : ℕ) (l : Layout) (hl : l.isUnsigned = true)
    (b : Buffer) (offset : ℕ) (dest : Option Obj) :
    Layout.decode σ (f + 1) l b offset dest = Layout.decode σ 1 l b offset none := by
  cases l with
  | UInt span p => rfl
  | UIntBE span p => rfl
  | Base span p => simp [Layout.isUnsigned] at hl
  | Int span p => simp [Layout.isUnsigned] at hl
  | IntBE span p => simp [Layout.isUnsigned] at hl
  | Sequence span p elo count => simp [Layout.isUnsigned] at hl
  | Structure span p fields => simp [Layout.isUnsigned] at hl
  | Union span p layout dlo dflt registry => simp [Layout.isUnsigned] at hl
  | VariantLayout ref span p union variant layout => simp [Layout.isUnsigned] at hl

theorem encode_unsigned (f : ℕ) (l : Layout) (hl : l.isUnsigned = true) (x : Value)
    (b : Buffer) (offset : ℕ) :
    Layout.encode (f + 1) l x b offset = Layout.encode 1 l x b offset := by
  cases l with
  | UInt span p => rfl
  | UIntBE span p => rfl
  | Base span p => simp [Layout.isUnsigned] at hl
  | Int span p => simp [Layout.isUnsigned] at hl
  | IntBE span p => simp [Layout.isUnsigned] at hl
  | Sequence span p elo count => simp [Layout.isUnsigned] at hl
  | Structure span p fields => simp [Layout.isUnsigned] at hl
  | Union span p layout dlo dflt registry => simp [Layout.isUnsigned] at hl
  | VariantLayout ref span p union variant layout => simp [Layout.isUnsigned] at hl

theorem readsSpan_unsigned (σ : Store) (fuel : ℕ) (l : Layout) (hl : l.isUnsigned = true) :
    ReadsSpan (Layout.decode σ fuel) l := by
  intro b1 b2 offset dest h
  cases fuel with
  | zero => rfl
  | succ fuel =>
    cases l with
    | UInt span p => exact uintDecode_congr h
    | UIntBE span p => exact uintBEDecode_congr h
    | Base span p => simp [Layout.isUnsigned] at hl
    | Int span p => simp [Layout.isUnsigned] at hl
    | IntBE span p => simp [Layout.isUnsigned] at hl
    | Sequence span p elo count => simp [Layout.isUnsigned] at hl
    | Structure span p fields => simp [Layout.isUnsigned] at hl
    | Union span p layout dlo dflt registry => simp [Layout.isUnsigned] at hl
    | VariantLayout ref span p union variant layout => simp [Layout.isUnsigned] at hl

theorem uintBE_decode_of_encode_ok (σ : Store) (fe fd n : ℕ) (p : Option String) (x : Value)
    (b : Buffer) (offset : ℕ) (dest : Option Obj)
    (h : (Layout.encode (fe + 1) (Layout.UIntBE n p) x b offset).error = none) :
    ∃ y, Layout.decode σ (fd + 1) (Layout.UIntBE n p)
        (Layout.encode (fe + 1) (Layout.UIntBE n p) x b offset).buffer offset dest
        = Except.ok y ∧ Value.Equiv y x := by
  cases x with
  | number v =>
    simp only [Layout.encode, UIntBE.encode] at h ⊢
    by_cases hv : v < 0 ∨ (256 : ℤ) ^ n ≤ v
    · simp [Buffer.writeUIntBE, hv] at h
    · by_cases hb : b.length < offset + n
      · simp [Buffer.writeUIntBE, hv, hb] at h
      · have h0 : 0 ≤ v := by omega
        have h1 : v < (256 : ℤ) ^ n := by omega
        refine ⟨Value.number v, ?_, Value.Equiv.number v⟩
        simp only [Layout.decode, UIntBE.decode, writeUIntBE_ok b v offset n h0 h1 (by omega),
          readUIntBE_splice b offset n _ (by omega), toNat_mod_pow v n h0 h1]
        rfl
  | undefined => simp [Layout.encode, UIntBE.encode] at h
  | array xs => simp [Layout.encode, UIntBE.encode] at h
  | object ps => simp [Layout.encode, UIntBE.encode] at h

/-- An unsigned codec that encoded a number decodes that number from the
buffer it wrote. -/
theorem unsigned_decode_of_encode_ok (σ : Store) (fe fd : ℕ) (l : Layout)
    (hl : l.isUnsigned = true) (k : ℤ) (b : Buffer) (offset : ℕ) (dest : Option Obj)
    (h : (Layout.encode (fe + 1) l (Value.number k) b offset).error = none) :
    Layout.decode σ (fd + 1) l (Layout.encode (fe + 1) l (Value.number k) b offset).buffer
      offset dest = Except.ok (Value.number k) := by
  cases l with
  | UInt span p =>
    obtain ⟨y, hy, he⟩ := uint_decode_of_encode_ok σ fe fd span p _ b offset dest h
    cases he
    exact hy
  | UIntBE span p =>
    obtain ⟨y, hy, he⟩ := uintBE_decode_of_encode_ok σ fe fd span p _ b offset dest h
    cases he
    exact hy
  | Base span p => simp [Layout.isUnsigned] at hl
  | Int span p => simp [Layout.isUnsigned] at hl
  | IntBE span p => simp [Layout.isUnsigned] at hl
  | Sequence span p elo count => simp [Layout.isUnsigned] at hl
  | Structure span p fields => simp [Layout.isUnsigned] at hl
  | Union span p layout dlo dflt registry => simp [Layout.isUnsigned] at hl
  | VariantLayout ref span p union variant layout => simp [Layout.isUnsigned] at hl

/-! ## Padding of a structure -/

theorem keepsOutside_refl (b : Buffer) (lo hi : ℕ) (e : Option Err) :
    KeepsOutside b lo hi ⟨b, e⟩ :=
  ⟨rfl, fun _ _ => rfl⟩

theorem keepsOutside_fill (b : Buffer) (value start stop : ℕ) :
    KeepsOutside b start stop (b.fill value start stop) := by
  unfold Buffer.fill
  split
  · exact keepsOutside_refl _ _ _ _
  · split
    · exact keepsOutside_refl _ _ _ _
    · have hl : start + (List.replicate (stop - start) (value % 256)).length ≤ b.length := by
        rw [List.length_replicate]; omega
      refine ⟨length_splice _ _ _ hl, fun i hi => ?_⟩
      rcases hi with hi | hi
      · exact getElem?_splice_lt _ _ _ _ hl hi
      · exact getElem?_splice_ge _ _ _ _ hl (by rw [List.length_replicate]; omega)

theorem inPadding_le (fields : List Layout) (offset i : ℕ) (h : InPadding fields offset i) :
    offset ≤ i := by
  induction fields generalizing offset with
  | nil => exact absurd h (by simp [InPadding])
  | cons fd rest ih =>
    rcases h with h | h
    · exact h.2.1
    · have := ih _ h
      omega

/-- The loop of `Structure.prototype.encode` leaves the bytes below `offset`
and the bytes of every field without a property as they were, whether it
succeeds or fails, provided the `encode` of each field writes inside the span
of that field only. -/
theorem encodeFields_keeps_padding (enc : Encoder) (src : Value) (fields : List Layout)
    (henc : ∀ fd, fd ∈ fields → ∀ v b offset,
      KeepsOutside b offset (offset + fd.span) (enc fd v b offset))
    (b : Buffer) (offset : ℕ) (i : ℕ) (hi : i < offset ∨ InPadding fields offset i) :
    (Structure.encodeFields enc src fields b offset).buffer[i]? = b[i]? := by
  induction fields generalizing b offset with
  | nil => rfl
  | cons fd rest ih =>
    have hnext : ∀ b1, (Structure.encodeFields enc src rest b1 (offset + fd.span)).buffer[i]?
        = b1[i]? := by
      intro b1
      refine ih (fun f hf => henc f (List.mem_cons_of_mem _ hf)) b1 _ ?_
      rcases hi with hi | hi | hi
      · exact Or.inl (by omega)
      · exact Or.inl hi.2.2
      · exact Or.inr hi
    unfold Structure.encodeFields
    cases hp : fd.property with
    | none => exact hnext b
    | some p =>
      have hout : i < offset ∨ offset + fd.span ≤ i := by
        rcases hi with hi | hi | hi
        · exact Or.inl hi
        · rw [hp] at hi
          exact absurd hi.1 (by simp)
        · exact Or.inr (inPadding_le _ _ _ hi)
      simp only
      cases src.getProp p with
      | error e => rfl
      | ok fv =>
        simp only
        have h1 : KeepsOutside b offset (offset + fd.span)
            (if fv.isUndefined then b.fill 0 offset (offset + fd.span)
              else enc fd fv b offset) := by
          split
          · exact keepsOutside_fill _ _ _ _
          · exact henc fd (List.mem_cons_self _ _) _ _ _
        rcases h : (if fv.isUndefined then b.fill 0 offset (offset + fd.span)
            else enc fd fv b offset) with ⟨b1, _ | e⟩
        · rw [h] at h1
          exact (hnext b1).trans (h1.2 i hout)
        · rw [h] at h1
          exact h1.2 i hout

/-! ## Constructors -/

theorem replicate_property (σ : Store) (l : Layout) (p : Option String) :
    (Layout.replicate σ l p).1.property = p := by
  cases l <;> rfl

theorem replicate_span (σ : Store) (l : Layout) (p : Option String) :
    (Layout.replicate σ l p).1.span = l.span := by
  cases l <;> rfl

theorem withDefaultName_property (σ : Store) (lo : Layout) (name : String) :
    (withDefaultName σ lo name).1.property = some (lo.property.getD name) := by
  unfold withDefaultName
  cases hp : lo.property with
  | none => exact replicate_property _ _ _
  | some q => simpa using hp

theorem withDefaultName_span (σ : Store) (lo : Layout) (name : String) :
    (withDefaultName σ lo name).1.span = lo.span := by
  unfold withDefaultName
  cases hp : lo.property with
  | none => exact replicate_span _ _ _
  | some q => rfl

theorem init_nat (n : ℕ) :
    Layout.init (Arg.integer (n : ℤ))
      = if 0 < n then Except.ok n else Except.error Err.typeError := by
  unfold Layout.init Arg.positiveInteger
  by_cases h : 0 < n
  · have h2 : (0 : ℤ) < (n : ℤ) := by exact_mod_cast h
    simp only [h2, h, if_true, Int.toNat_ofNat]
  · have h2 : ¬ (0 : ℤ) < (n : ℤ) := by exact_mod_cast h
    simp only [h2, h, if_false]

/-- Shape of a structure built by the constructor from two layouts. -/
theorem structureNew_pair (f0 f1 layout : Layout) (property : Option String)
    (h : Structure.new (some [some f0, some f1]) property = Except.ok layout) :
    layout = Layout.Structure (Number.add f0.span f1.span) property [f0, f1] ∧
      0 < Number.add f0.span f1.span := by
  have e : Number.add 0 f0.span = f0.span := by simp [Number.add]
  simp only [Structure.new, allLayouts, List.map_cons, List.map_nil, List.foldl_cons,
    List.foldl_nil, e, init_ofNumber] at h
  by_cases hpos : 0 < Number.add f0.span f1.span ∧ Number.add f0.span f1.span < Number.infinity
  · simp only [hpos, and_self, if_true, Except.ok.injEq] at h
    exact ⟨h.symm, hpos.1⟩
  · simp [hpos] at h

/-- Shape of a union built by the constructor: the fields it stores, and the
names of the two fields of its `layout`. -/
theorem unionNew_shape (σ0 σ1 : Store) (discr dflt un : Layout) (property : Option String)
    (h : Union.new σ0 (some discr) (some dflt) property = Except.ok (un, σ1)) :
    ∃ f0 f1 registry,
      un = Layout.Union (Number.add discr.span dflt.span) property
        (Layout.Structure (Number.add discr.span dflt.span) none [f0, f1]) discr dflt
        registry ∧
      f0.property = some (discr.property.getD "variant") ∧
      f1.property = some (dflt.property.getD "content") ∧
      discr.isUnsigned = true ∧ 0 < Number.add discr.span dflt.span := by
  unfold Union.new at h
  cases hu : discr.isUnsigned with
  | false => simp [hu] at h
  | true =>
    simp only [hu, Bool.true_eq_false, if_false] at h
    have hd1 := withDefaultName_property σ0 discr "variant"
    have hd2 := withDefaultName_span σ0 discr "variant"
    generalize withDefaultName σ0 discr "variant" = dlo at h hd1 hd2
    have hc1 := withDefaultName_property dlo.2 dflt "content"
    have hc2 := withDefaultName_span dlo.2 dflt "content"
    generalize withDefaultName dlo.2 dflt "content" = clo at h hc1 hc2
    cases hs : Structure.new (some [some dlo.1, some clo.1]) none with
    | error e => simp [hs] at h
    | ok layout =>
      obtain ⟨hl, hpos⟩ := structureNew_pair _ _ _ _ hs
      rw [hd2, hc2] at hl hpos
      subst hl
      have e : (Layout.Structure (Number.add discr.span dflt.span) none [dlo.1, clo.1]).span
          = Number.add discr.span dflt.span := rfl
      simp only [hs, e, init_nat, hpos, if_true, Except.ok.injEq, Prod.mk.injEq] at h
      exact ⟨_, _, _, h.1.symm, hd1, hc1, rfl, hpos⟩

/-- Shape of the variant layout returned by `addVariant` on a union. -/
theorem addVariant_shape (σ0 σ1 : Store) (uspan : ℕ) (up : Option String)
    (ulayout dlo dflt : Layout) (registry k : ℕ) (lo : Layout) (vp : Option String)
    (v : Layout)
    (h : Union.addVariant σ0 (Layout.Union uspan up ulayout dlo dflt registry)
      (Arg.integer (k : ℤ)) (some lo) vp = Except.ok (v, σ1)) :
    v = Layout.VariantLayout σ0.next (Number.add lo.span dlo.span) vp
        (Layout.Union uspan up ulayout dlo dflt registry) k lo ∧
      σ1 = ⟨σ0.next + 1, ((registry, k), v) :: σ0.registry⟩ ∧
      lo.span ≤ dflt.span ∧ 0 < lo.span := by
  have hk : (0 : ℤ) ≤ (k : ℤ) := Int.ofNat_nonneg k
  simp only [Union.addVariant, VariantLayout.new, Arg.nonNegativeInteger, hk, if_true,
    Int.toNat_ofNat, init_nat] at h
  by_cases hs : dflt.span < lo.span
  · simp [hs] at h
  · by_cases hpos : 0 < lo.span
    · simp only [hs, hpos, if_false, if_true, Except.ok.injEq, Prod.mk.injEq] at h
      obtain ⟨h1, h2⟩ := h
      subst h1
      exact ⟨rfl, h2.symm, by omega, hpos⟩
    · simp [hs, hpos] at h

theorem decode_zero (σ : Store) (l : Layout) (b : Buffer) (offset : ℕ) (dest : Option Obj) :
    Layout.decode σ 0 l b offset dest = Except.error Err.fuel := rfl

theorem encode_zero (l : Layout) (x : Value) (b : Buffer) (offset : ℕ) :
    Layout.encode 0 l x b offset = ⟨b, some Err.fuel⟩ := rfl

theorem exampleUnion_new :
    Union.new ⟨0, []⟩ (some (Layout.UInt 1 none)) (some (Layout.UInt 4 none)) none
      = Except.ok (exampleUnion, ⟨1, []⟩) := rfl

theorem exampleVariant_add :
    Union.addVariant ⟨1, []⟩ exampleUnion (Arg.integer 1) (some (Layout.UInt 4 none)) none
      = Except.ok (exampleVariant, exampleStore) := rfl

/-! ## The constructors build well-formed layouts

The spans of a well-formed layout are exact sums and products, which the
constructors store as long as they are at most `2 ^ 53`. -/

theorem allLayouts_eq (fs : List (Option Layout)) (ls : List Layout)
    (h : allLayouts fs = some ls) : fs = ls.map some := by
  induction fs generalizing ls with
  | nil =>
    simp only [allLayouts, Option.some.injEq] at h
    subst h
    rfl
  | cons f rest ih =>
    cases f with
    | none => simp [allLayouts] at h
    | some l =>
      simp only [allLayouts] at h
      cases hr : allLayouts rest with
      | none => simp [hr] at h
      | some ls2 =>
        simp only [hr, Option.some.injEq] at h
        subst h
        rw [ih ls2 hr]
        rfl

theorem uintNew_wellFormed (σ : Store) (span : Arg) (p : Option String) (l : Layout)
    (h : UInt.new span p = Except.ok l) : WellFormed σ l := by
  unfold UInt.new at h
  cases hs : intSpan span with
  | error e => simp [hs, Except.map] at h
  | ok n =>
    simp only [hs, Except.map, Except.ok.injEq] at h
    subst h
    exact WellFormed.UInt _ _

theorem uintBENew_wellFormed (σ : Store) (span : Arg) (p : Option String) (l : Layout)
    (h : UIntBE.new span p = Except.ok l) : WellFormed σ l := by
  unfold UIntBE.new at h
  cases hs : intSpan span with
  | error e => simp [hs, Except.map] at h
  | ok n =>
    simp only [hs, Except.map, Except.ok.injEq] at h
    subst h
    exact WellFormed.UIntBE _ _

theorem intNew_wellFormed (σ : Store) (span : Arg) (p : Option String) (l : Layout)
    (h : Int.new span p = Except.ok l) : WellFormed σ l := by
  unfold Int.new at h
  cases hs : intSpan span with
  | error e => simp [hs, Except.map] at h
  | ok n =>
    simp only [hs, Except.map, Except.ok.injEq] at h
    subst h
    exact WellFormed.Int _ _

theorem intBENew_wellFormed (σ : Store) (span : Arg) (p : Option String) (l : Layout)
    (h : IntBE.new span p = Except.ok l) : WellFormed σ l := by
  unfold IntBE.new at h
  cases hs : intSpan span with
  | error e => simp [hs, Except.map] at h
  | ok n =>
    simp only [hs, Except.map, Except.ok.injEq] at h
    subst h
    exact WellFormed.IntBE _ _

theorem sequenceNew_wellFormed (σ : Store) (elo : Layout) (count : Arg) (p : Option String)
    (l : Layout) (helo : WellFormed σ elo)
    (hexact : ∀ n, count.positiveInteger = some n → n * elo.span ≤ 2 ^ 53)
    (h : Sequence.new (some elo) count p = Except.ok l) : WellFormed σ l := by
  unfold Sequence.new at h
  cases hc : count.positiveInteger with
  | none => simp [hc] at h
  | some n =>
    simp only [hc, init_ofNumber, mul_exact n elo.span (hexact n hc)] at h
    by_cases hpos : 0 < n * elo.span ∧ n * elo.span < Number.infinity
    · simp only [hpos, and_self, if_true, Except.ok.injEq] at h
      subst h
      exact WellFormed.Sequence _ _ _ _ helo rfl
    · rw [if_neg hpos] at h
      cases h

theorem structureNew_wellFormed (σ : Store) (fs : List (Option Layout)) (p : Option String)
    (l : Layout) (hfs : ∀ f, some f ∈ fs → WellFormed σ f)
    (hexact : ∀ ls, allLayouts fs = some ls → (ls.map Layout.span).sum ≤ 2 ^ 53)
    (h : Structure.new (some fs) p = Except.ok l) : WellFormed σ l := by
  unfold Structure.new at h
  cases ha : allLayouts fs with
  | none => simp [ha] at h
  | some ls =>
    have hsum : (ls.map Layout.span).foldl Number.add 0 = (ls.map Layout.span).sum := by
      rw [foldl_add_exact _ 0 (by simpa using hexact ls ha)]
      simp
    simp only [ha, init_ofNumber, hsum] at h
    by_cases hpos : 0 < (ls.map Layout.span).sum ∧ (ls.map Layout.span).sum < Number.infinity
    · simp only [hpos, and_self, if_true, Except.ok.injEq] at h
      subst h
      refine WellFormed.Structure _ _ _ (fun fd hfd => hfs fd ?_) rfl
      rw [allLayouts_eq fs ls ha]
      exact List.mem_map_of_mem _ hfd
    · rw [if_neg hpos] at h
      cases h

theorem unionNew_wellFormed (σ0 σ1 σ : Store) (discr dflt un : Layout) (p : Option String)
    (registry : ℕ) (hdflt : WellFormed σ dflt)
    (hexact : discr.span + dflt.span ≤ 2 ^ 53)
    (h : Union.new σ0 (some discr) (some dflt) p = Except.ok (un, σ1))
    (hreg : un.registry = some registry)
    (hfresh : ∀ k, σ.registry.lookup (registry, k) = none) : WellFormed σ un := by
  obtain ⟨f0, f1, r, hun, _, _, hu, _⟩ := unionNew_shape σ0 σ1 discr dflt un p h
  subst hun
  cases hreg
  have hd : WellFormed σ discr := by
    cases discr with
    | UInt span q => exact WellFormed.UInt _ _
    | UIntBE span q => exact WellFormed.UIntBE _ _
    | Base span q => simp [Layout.isUnsigned] at hu
    | Int span q => simp [Layout.isUnsigned] at hu
    | IntBE span q => simp [Layout.isUnsigned] at hu
    | Sequence span q elo count => simp [Layout.isUnsigned] at hu
    | Structure span q fields => simp [Layout.isUnsigned] at hu
    | Union span q layout dlo d2 rg => simp [Layout.isUnsigned] at hu
    | VariantLayout ref span q union variant layout => simp [Layout.isUnsigned] at hu
  refine WellFormed.Union _ _ _ _ _ _ hd hdflt (add_exact _ _ hexact) (fun k vlo hk => ?_)
  rw [hfresh k] at hk
  exact absurd hk (by simp)

theorem addVariant_wellFormed (σ0 σ1 σ : Store) (uspan : ℕ) (up : Option String)
    (ulayout dlo dflt : Layout) (registry k : ℕ) (lo : Layout) (vp : Option String)
    (v : Layout) (hdlo : WellFormed σ dlo) (hlo : WellFormed σ lo)
    (hexact : lo.span + dlo.span ≤ 2 ^ 53)
    (h : Union.addVariant σ0 (Layout.Union uspan up ulayout dlo dflt registry)
      (Arg.integer (k : ℤ)) (some lo) vp = Except.ok (v, σ1)) :
    WellFormed σ v ∧ v.span ≤ dlo.span + dflt.span := by
  obtain ⟨hv, _, hle, _⟩ := addVariant_shape σ0 σ1 uspan up ulayout dlo dflt registry k lo vp v h
  subst hv
  refine ⟨WellFormed.VariantLayout _ _ _ _ _ _ _ _ _ _ _ hdlo hlo (add_exact _ _ hexact), ?_⟩
  show Number.add lo.span dlo.span ≤ dlo.span + dflt.span
  rw [add_exact _ _ hexact]
  omega

/-! ## Round trips of the integer codecs -/

/-- C1: for a span `n` in 1..6, a value `0 ≤ v < 2^(8n)` and a buffer that holds
`n` bytes at `offset`, `UInt(n).encode` succeeds and `UInt(n).decode` of the
buffer it leaves returns `v`; the same holds for `UIntBE(n)`. -/
theorem unsigned_round_trip (σ : Store) (fe fd n : ℕ) (p : Option String) (v : ℤ)
    (b : Buffer) (offset : ℕ) (dest : Option Obj)
    (_hn : 1 ≤ n ∧ n ≤ 6) (hv : 0 ≤ v ∧ v < 2 ^ (8 * n)) (hb : offset + n ≤ b.length) :
    ((Layout.encode (fe + 1) (Layout.UInt n p) (Value.number v) b offset).error = none ∧
      Layout.decode σ (fd + 1) (Layout.UInt n p)
        (Layout.encode (fe + 1) (Layout.UInt n p) (Value.number v) b offset).buffer offset dest
        = Except.ok (Value.number v)) ∧
    ((Layout.encode (fe + 1) (Layout.UIntBE n p) (Value.number v) b offset).error = none ∧
      Layout.decode σ (fd + 1) (Layout.UIntBE n p)
        (Layout.encode (fe + 1) (Layout.UIntBE n p) (Value.number v) b offset).buffer offset dest
        = Except.ok (Value.number v)) := by
  have h1 : v < (256 : ℤ) ^ n := by rw [pow256]; exact hv.2
  refine ⟨?_, ?_⟩
  · simp only [Layout.encode, Layout.decode, UInt.encode, UInt.decode,
      writeUIntLE_ok b v offset n hv.1 h1 hb, readUIntLE_splice b offset n _ hb,
      toNat_mod_pow v n hv.1 h1]
    exact ⟨trivial, rfl⟩
  · simp only [Layout.encode, Layout.decode, UIntBE.encode, UIntBE.decode,
      writeUIntBE_ok b v offset n hv.1 h1 hb, readUIntBE_splice b offset n _ hb,
      toNat_mod_pow v n hv.1 h1]
    exact ⟨trivial, rfl⟩

/-- Witness of C1: the value `0x1234` in two bytes at offset 1 of a four byte
buffer. -/
theorem unsigned_round_trip_witness :
    ((Layout.encode 1 (Layout.UInt 2 none) (Value.number 0x1234) [0, 0, 0, 0] 1).error = none ∧
      Layout.decode ⟨0, []⟩ 1 (Layout.UInt 2 none)
        (Layout.encode 1 (Layout.UInt 2 none) (Value.number 0x1234) [0, 0, 0, 0] 1).buffer 1 none
        = Except.ok (Value.number 0x1234)) ∧
    ((Layout.encode 1 (Layout.UIntBE 2 none) (Value.number 0x1234) [0, 0, 0, 0] 1).error = none ∧
      Layout.decode ⟨0, []⟩ 1 (Layout.UIntBE 2 none)
        (Layout.encode 1 (Layout.UIntBE 2 none) (Value.number 0x1234) [0, 0, 0, 0] 1).buffer 1 none
        = Except.ok (Value.number 0x1234)) :=
  unsigned_round_trip ⟨0, []⟩ 0 0 2 none 0x1234 [0, 0, 0, 0] 1 none
    (by decide) (by decide) (by decide)

/-- C2: for a span `n` in 1..6, a value `-2^(8n-1) ≤ v < 2^(8n-1)` and a buffer
that holds `n` bytes at `offset`, `Int(n).encode` succeeds and `Int(n).decode`
of the buffer it leaves returns `v`, negative values included; the same holds
for `IntBE(n)`. -/
theorem signed_round_trip (σ : Store) (fe fd n : ℕ) (p : Option String) (v : ℤ)
    (b : Buffer) (offset : ℕ) (dest : Option Obj)
    (hn : 1 ≤ n ∧ n ≤ 6) (hv : -(2 : ℤ) ^ (8 * n - 1) ≤ v ∧ v < 2 ^ (8 * n - 1))
    (hb : offset + n ≤ b.length) :
    ((Layout.encode (fe + 1) (Layout.Int n p) (Value.number v) b offset).error = none ∧
      Layout.decode σ (fd + 1) (Layout.Int n p)
        (Layout.encode (fe + 1) (Layout.Int n p) (Value.number v) b offset).buffer offset dest
        = Except.ok (Value.number v)) ∧
    ((Layout.encode (fe + 1) (Layout.IntBE n p) (Value.number v) b offset).error = none ∧
      Layout.decode σ (fd + 1) (Layout.IntBE n p)
        (Layout.encode (fe + 1) (Layout.IntBE n p) (Value.number v) b offset).buffer offset dest
        = Except.ok (Value.number v)) := by
  obtain ⟨h0, h1⟩ := signed_range n v hn.1 hv
  refine ⟨?_, ?_⟩
  · simp only [Layout.encode, Layout.decode, Int.encode, Int.decode,
      writeIntLE_ok b v offset n h0 h1 hb, readIntLE_splice b offset n _ hb,
      toSigned_toUnsigned n v h0 h1]
    exact ⟨trivial, rfl⟩
  · simp only [Layout.encode, Layout.decode, IntBE.encode, IntBE.decode,
      writeIntBE_ok b v offset n h0 h1 hb, readIntBE_splice b offset n _ hb,
      toSigned_toUnsigned n v h0 h1]
    exact ⟨trivial, rfl⟩

/-- Witness of C2: the value `-12345` in two bytes at offset 1 of a four byte
buffer. -/
theorem signed_round_trip_witness :
    ((Layout.encode 1 (Layout.Int 2 none) (Value.number (-12345)) [0, 0, 0, 0] 1).error = none ∧
      Layout.decode ⟨0, []⟩ 1 (Layout.Int 2 none)
        (Layout.encode 1 (Layout.Int 2 none) (Value.number (-12345)) [0, 0, 0, 0] 1).buffer 1 none
        = Except.ok (Value.number (-12345))) ∧
    ((Layout.encode 1 (Layout.IntBE 2 none) (Value.number (-12345)) [0, 0, 0, 0] 1).error = none ∧
      Layout.decode ⟨0, []⟩ 1 (Layout.IntBE 2 none)
        (Layout.encode 1 (Layout.IntBE 2 none) (Value.number (-12345)) [0, 0, 0, 0] 1).buffer 1
          none
        = Except.ok (Value.number (-12345))) :=
  signed_round_trip ⟨0, []⟩ 0 0 2 none (-12345) [0, 0, 0, 0] 1 none
    (by decide) (by decide) (by decide)

/-! ## Byte order and two's complement -/

/-- C8: for `n` in 1..6 and `0 ≤ v < 2^(8n)`, `UInt(n).encode` sets byte
`offset + i` to `floor(v / 256^i) mod 256` for every `i < n`, `UIntBE(n).encode`
writes the same byte values in reverse order, and `UIntBE(n).decode` of `n`
bytes is `UInt(n).decode` of those bytes reversed. -/
theorem byte_order (σ : Store) (fe fd n : ℕ) (p : Option String) (v : ℤ) (b : Buffer)
    (offset : ℕ) (_hn : 1 ≤ n ∧ n ≤ 6) (hv : 0 ≤ v ∧ v < 2 ^ (8 * n))
    (hb : offset + n ≤ b.length) :
    (∀ i, i < n →
      ((Layout.encode (fe + 1) (Layout.UInt n p) (Value.number v) b offset).buffer[offset + i]?).map
          (fun (x : ℕ) => (x : ℤ)) = some (v / 256 ^ i % 256)) ∧
    (∀ i, i < n →
      (Layout.encode (fe + 1) (Layout.UIntBE n p) (Value.number v) b offset).buffer[offset + i]?
        = (Layout.encode (fe + 1) (Layout.UInt n p) (Value.number v) b
            offset).buffer[offset + (n - 1 - i)]?) ∧
    (∀ (bs : Buffer) (dest : Option Obj), bs.length = n →
      Layout.decode σ (fd + 1) (Layout.UIntBE n p) bs 0 dest
        = Layout.decode σ (fd + 1) (Layout.UInt n p) bs.reverse 0 dest) := by
  have h1 : v < (256 : ℤ) ^ n := by rw [pow256]; exact hv.2
  have hle := length_leBytes n v.toNat
  have hbe := length_beBytes n v.toNat
  refine ⟨?_, ?_, ?_⟩
  · intro i hi
    simp only [Layout.encode, UInt.encode, writeUIntLE_ok b v offset n hv.1 h1 hb]
    rw [getElem?_splice_mid _ _ _ _ (by omega) (by omega), getElem?_leBytes _ _ _ hi]
    simp only [Option.map_some']
    congr 1
    push_cast
    rw [Int.toNat_of_nonneg hv.1]
  · intro i hi
    simp only [Layout.encode, UInt.encode, UIntBE.encode,
      writeUIntLE_ok b v offset n hv.1 h1 hb, writeUIntBE_ok b v offset n hv.1 h1 hb]
    rw [getElem?_splice_mid _ _ _ _ (by omega) (by omega),
      getElem?_splice_mid _ _ _ _ (by omega) (by omega), beBytes,
      List.getElem?_reverse (by omega), hle]
  · intro bs dest hbs
    simp only [Layout.decode, UInt.decode, UIntBE.decode, Buffer.readUIntBE, Buffer.readUIntLE,
      List.length_reverse, Buffer.slice, List.drop_zero]
    rw [← hbs, List.take_length, ← List.length_reverse bs, List.take_length,
      ← beValue_reverse bs.reverse, List.reverse_reverse]

/-- Witness of C8: the value `0x1234` in two bytes at offset 1 of a four byte
buffer. -/
theorem byte_order_witness :
    (∀ i, i < 2 →
      ((Layout.encode 1 (Layout.UInt 2 none) (Value.number 0x1234) [0, 0, 0, 0]
          1).buffer[1 + i]?).map (fun (x : ℕ) => (x : ℤ)) = some (0x1234 / 256 ^ i % 256)) ∧
    (∀ i, i < 2 →
      (Layout.encode 1 (Layout.UIntBE 2 none) (Value.number 0x1234) [0, 0, 0, 0] 1).buffer[1 + i]?
        = (Layout.encode 1 (Layout.UInt 2 none) (Value.number 0x1234) [0, 0, 0, 0]
            1).buffer[1 + (2 - 1 - i)]?) ∧
    (∀ (bs : Buffer) (dest : Option Obj), bs.length = 2 →
      Layout.decode ⟨0, []⟩ 1 (Layout.UIntBE 2 none) bs 0 dest
        = Layout.decode ⟨0, []⟩ 1 (Layout.UInt 2 none) bs.reverse 0 dest) :=
  byte_order ⟨0, []⟩ 0 0 2 none 0x1234 [0, 0, 0, 0] 1 (by decide) (by decide) (by decide)

/-- C9: for `n` in 1..6 and `-2^(8n-1) ≤ v < 0`, `Int(n).encode(v)` has exactly
the effect of `UInt(n).encode(v + 2^(8n))`, and `IntBE` that of `UIntBE`; so
`UInt(n).decode` of the bytes written by `Int(n).encode(v)` returns
`v + 2^(8n)`. -/
theorem twos_complement (σ : Store) (fe fd n : ℕ) (p : Option String) (v : ℤ) (b : Buffer)
    (offset : ℕ) (hn : 1 ≤ n ∧ n ≤ 6) (hv : -(2 : ℤ) ^ (8 * n - 1) ≤ v ∧ v < 0) :
    Layout.encode (fe + 1) (Layout.Int n p) (Value.number v) b offset
      = Layout.encode (fe + 1) (Layout.UInt n p) (Value.number (v + 2 ^ (8 * n))) b offset ∧
    Layout.encode (fe + 1) (Layout.IntBE n p) (Value.number v) b offset
      = Layout.encode (fe + 1) (Layout.UIntBE n p) (Value.number (v + 2 ^ (8 * n))) b offset ∧
    (offset + n ≤ b.length → ∀ dest : Option Obj,
      Layout.decode σ (fd + 1) (Layout.UInt n p)
        (Layout.encode (fe + 1) (Layout.Int n p) (Value.number v) b offset).buffer offset dest
        = Except.ok (Value.number (v + 2 ^ (8 * n)))) := by
  have hpos : (0 : ℤ) < 2 ^ (8 * n - 1) := by positivity
  obtain ⟨h0, h1⟩ := signed_range n v hn.1 ⟨hv.1, by omega⟩
  have hu0 : 0 ≤ v + 2 ^ (8 * n) := by rw [← pow256]; omega
  have hu1 : v + 2 ^ (8 * n) < (256 : ℤ) ^ n := by rw [← pow256]; omega
  have e : toUnsigned n v = (v + 2 ^ (8 * n)).toNat := by
    unfold toUnsigned
    congr 1
    rw [← pow256, ← Int.add_emod_self]
    exact Int.emod_eq_of_lt (by omega) (by omega)
  have hs : ¬ (2 * v < -(256 : ℤ) ^ n ∨ (256 : ℤ) ^ n ≤ 2 * v) := by omega
  have hu : ¬ (v + 2 ^ (8 * n) < 0 ∨ (256 : ℤ) ^ n ≤ v + 2 ^ (8 * n)) := by omega
  have hLE : Layout.encode (fe + 1) (Layout.Int n p) (Value.number v) b offset
      = Layout.encode (fe + 1) (Layout.UInt n p) (Value.number (v + 2 ^ (8 * n))) b offset := by
    simp only [Layout.encode, Int.encode, UInt.encode, Buffer.writeIntLE, Buffer.writeUIntLE]
    rw [if_neg hs, if_neg hu, e]
  refine ⟨hLE, ?_, ?_⟩
  · simp only [Layout.encode, IntBE.encode, UIntBE.encode, Buffer.writeIntBE,
      Buffer.writeUIntBE]
    rw [if_neg hs, if_neg hu, e]
  · intro hb dest
    rw [hLE]
    simp only [Layout.encode, Layout.decode, UInt.encode, UInt.decode,
      writeUIntLE_ok b _ offset n hu0 hu1 hb, readUIntLE_splice b offset n _ hb,
      toNat_mod_pow _ n hu0 hu1]
    rfl

/-- Witness of C9: the value `-12345` in two bytes at offset 1 of a four byte
buffer. -/
theorem twos_complement_witness :
    Layout.encode 1 (Layout.Int 2 none) (Value.number (-12345)) [0, 0, 0, 0] 1
      = Layout.encode 1 (Layout.UInt 2 none) (Value.number (-12345 + 2 ^ (8 * 2))) [0, 0, 0, 0]
          1 ∧
    Layout.encode 1 (Layout.IntBE 2 none) (Value.number (-12345)) [0, 0, 0, 0] 1
      = Layout.encode 1 (Layout.UIntBE 2 none) (Value.number (-12345 + 2 ^ (8 * 2)))
          [0, 0, 0, 0] 1 ∧
    (1 + 2 ≤ [0, 0, 0, 0].length → ∀ dest : Option Obj,
      Layout.decode ⟨0, []⟩ 1 (Layout.UInt 2 none)
        (Layout.encode 1 (Layout.Int 2 none) (Value.number (-12345)) [0, 0, 0, 0] 1).buffer 1 dest
        = Except.ok (Value.number (-12345 + 2 ^ (8 * 2)))) :=
  twos_complement ⟨0, []⟩ 0 0 2 none (-12345) [0, 0, 0, 0] 1 (by decide) (by decide)

/-! ## Round trips of the aggregates -/

/-- C3: in a well-formed store, take a Structure whose fields are well formed
and carry pairwise distinct property names, and a source object that has
exactly those properties, each with a value on which decode-after-encode holds
for the layout of its field.  After a successful `st.encode(v, b, offset)` the
call `st.decode(b, offset)` returns an object deeply equal to `v`.  Fields
without a property are allowed, and a field may itself be a Structure. -/
theorem structure_round_trip (σ : Store) (hσ : σ.WellFormed) (fe fd span : ℕ)
    (property : Option String) (fields : List Layout) (ps : Obj) (b : Buffer) (offset : ℕ)
    (hwf : ∀ f, f ∈ fields → WellFormed σ f)
    (hnodup : (fields.filterMap Layout.property).Nodup)
    (hexact : ∀ k, Obj.has ps k = true ↔ k ∈ fields.filterMap Layout.property)
    (hdef : ∀ f p, f ∈ fields → f.property = some p → (Obj.get ps p).isUndefined = false)
    (hrt : ∀ f p, f ∈ fields → f.property = some p → ∀ b0 off,
      (Layout.encode fe f (Obj.get ps p) b0 off).error = none →
      ∃ y, Layout.decode σ fd f (Layout.encode fe f (Obj.get ps p) b0 off).buffer off none
          = Except.ok y ∧ Value.Equiv y (Obj.get ps p))
    (henc : (Layout.encode (fe + 1) (Layout.Structure span property fields) (Value.object ps) b
      offset).error = none) :
    ∃ o, Layout.decode σ (fd + 1) (Layout.Structure span property fields)
        (Layout.encode (fe + 1) (Layout.Structure span property fields) (Value.object ps) b
          offset).buffer offset none = Except.ok o ∧
      Value.Equiv o (Value.object ps) := by
  simp only [Layout.encode, Layout.decode, Structure.encode, Structure.decode] at henc ⊢
  obtain ⟨o, ho, h1, h2⟩ := structure_core (Layout.encode fe) (Layout.decode σ fd) ps
    (keepsBelow_encode fe) fields (fun f hf => decode_readsSpan σ hσ fd f (hwf f hf)) hnodup
    hdef hrt b offset [] henc
  refine ⟨Value.object o, ?_, ?_⟩
  · simp only [Option.getD_none, ho]
    rfl
  · refine Value.Equiv.object o ps ?_ ?_
    · intro k
      by_cases hk : k ∈ fields.filterMap Layout.property
      · rw [(h1 k hk).1, (hexact k).mpr hk]
      · rw [(h2 k hk).1]
        have : Obj.has ps k ≠ true := fun e => hk ((hexact k).mp e)
        simpa [Obj.has] using this
    · intro k
      by_cases hk : k ∈ fields.filterMap Layout.property
      · exact (h1 k hk).2
      · have hps : Obj.has ps k = false := by
          have : Obj.has ps k ≠ true := fun e => hk ((hexact k).mp e)
          simpa using this
        rw [(h2 k hk).2, get_of_not_has ps k hps]
        exact Value.Equiv.undefined

/-- Witness of C3: the structure `[u8('a'), Structure([u8('x'), u16('y')], 'st')]`
and the object `{a: 21, st: {x: 1, y: 0x1234}}` in a zeroed buffer of four
bytes. -/
theorem structure_round_trip_witness :
    ∃ o, Layout.decode ⟨0, []⟩ 3
        (Layout.Structure 4 none [Layout.UInt 1 (some "a"),
          Layout.Structure 3 (some "st") [Layout.UInt 1 (some "x"), Layout.UInt 2 (some "y")]])
        (Layout.encode 3
          (Layout.Structure 4 none [Layout.UInt 1 (some "a"),
            Layout.Structure 3 (some "st") [Layout.UInt 1 (some "x"), Layout.UInt 2 (some "y")]])
          (Value.object [("a", Value.number 21),
            ("st", Value.object [("x", Value.number 1), ("y", Value.number 0x1234)])])
          [0, 0, 0, 0] 0).buffer 0 none = Except.ok o ∧
      Value.Equiv o (Value.object [("a", Value.number 21),
        ("st", Value.object [("x", Value.number 1), ("y", Value.number 0x1234)])]) := by
  have hinner : ∀ f, f ∈ [Layout.UInt 1 (some "x"), Layout.UInt 2 (some "y")] →
      WellFormed ⟨0, []⟩ f := by
    intro f hf
    simp only [List.mem_cons, List.mem_singleton, List.not_mem_nil, or_false] at hf
    rcases hf with rfl | rfl
    · exact WellFormed.UInt _ _
    · exact WellFormed.UInt _ _
  refine structure_round_trip ⟨0, []⟩ wellFormed_empty 2 2 4 none _ _ [0, 0, 0, 0] 0
    ?_ (by decide) ?_ ?_ ?_ rfl
  · intro f hf
    simp only [List.mem_cons, List.mem_singleton, List.not_mem_nil, or_false] at hf
    rcases hf with rfl | rfl
    · exact WellFormed.UInt _ _
    · exact WellFormed.Structure _ _ _ hinner rfl
  · intro k
    rw [has_iff_mem]
    exact Iff.rfl
  · intro f p hf hp
    simp only [List.mem_cons, List.mem_singleton, List.not_mem_nil, or_false] at hf
    rcases hf with rfl | rfl
    · cases hp; rfl
    · cases hp; rfl
  · intro f p hf hp b0 off
    simp only [List.mem_cons, List.mem_singleton, List.not_mem_nil, or_false] at hf
    rcases hf with rfl | rfl
    · cases hp
      exact uint_decode_of_encode_ok _ 1 1 1 _ _ b0 off none
    · cases hp
      refine structure_round_trip ⟨0, []⟩ wellFormed_empty 1 1 3 (some "st") _ _ b0 off
        hinner (by decide) ?_ ?_ ?_
      · intro k
        rw [has_iff_mem]
        exact Iff.rfl
      · intro f p hf hp
        simp only [List.mem_cons, List.mem_singleton, List.not_mem_nil, or_false] at hf
        rcases hf with rfl | rfl
        · cases hp; rfl
        · cases hp; rfl
      · intro f p hf hp b1 off1
        simp only [List.mem_cons, List.mem_singleton, List.not_mem_nil, or_false] at hf
        rcases hf with rfl | rfl
        · cases hp
          exact uint_decode_of_encode_ok _ 0 0 1 _ _ b1 off1 none
        · cases hp
          exact uint_decode_of_encode_ok _ 0 0 2 _ _ b1 off1 none

/-- C7: in a well-formed store, take a Sequence whose element layout is well
formed and a list `vs` of exactly `count` values on each of which
decode-after-encode holds for the element layout.  After a successful
`seq.encode(vs, b, offset)` the call `seq.decode(b, offset)` returns a list of
exactly `count` elements deeply equal to `vs`, element `i` being the decode of
the element layout at `offset + i * elt.span`. -/
theorem sequence_round_trip (σ : Store) (hσ : σ.WellFormed) (fe fd span : ℕ)
    (property : Option String) (elt : Layout) (count : ℕ) (vs : List Value) (b : Buffer)
    (offset : ℕ) (dest : Option Obj)
    (helt : WellFormed σ elt) (hlen : vs.length = count)
    (hrt : ∀ v, v ∈ vs → ∀ b0 off, (Layout.encode fe elt v b0 off).error = none →
      ∃ y, Layout.decode σ fd elt (Layout.encode fe elt v b0 off).buffer off none
          = Except.ok y ∧ Value.Equiv y v)
    (henc : (Layout.encode (fe + 1) (Layout.Sequence span property elt count) (Value.array vs) b
      offset).error = none) :
    ∃ ys, Layout.decode σ (fd + 1) (Layout.Sequence span property elt count)
        (Layout.encode (fe + 1) (Layout.Sequence span property elt count) (Value.array vs) b
          offset).buffer offset dest = Except.ok (Value.array ys) ∧
      ys.length = count ∧
      Value.Equiv (Value.array ys) (Value.array vs) ∧
      ∀ i, i < count →
        Layout.decode σ fd elt
          (Layout.encode (fe + 1) (Layout.Sequence span property elt count) (Value.array vs) b
            offset).buffer (offset + i * elt.span) none
          = Except.ok (ys.getD i Value.undefined) := by
  simp only [Layout.encode, Layout.decode, Sequence.encode, Sequence.decode] at henc ⊢
  obtain ⟨ys, hys, hl, heq, hpos⟩ := sequence_core (Layout.encode fe) (Layout.decode σ fd) elt
    (keepsBelow_encode fe) (decode_readsSpan σ hσ fd elt helt) vs hrt b offset henc
  rw [hlen] at hys hl hpos
  refine ⟨ys, ?_, hl, Value.Equiv.array ys vs (by rw [hl, hlen]) heq, hpos⟩
  rw [hys]
  rfl

/-- Witness of C7: the sequence of two `u16` and the list `[0x1234, 7]` at
offset 1 of a zeroed buffer of six bytes. -/
theorem sequence_round_trip_witness :
    ∃ ys, Layout.decode ⟨0, []⟩ 2 (Layout.Sequence 4 none (Layout.UInt 2 none) 2)
        (Layout.encode 2 (Layout.Sequence 4 none (Layout.UInt 2 none) 2)
          (Value.array [Value.number 0x1234, Value.number 7]) [0, 0, 0, 0, 0, 0] 1).buffer 1 none
        = Except.ok (Value.array ys) ∧
      ys.length = 2 ∧
      Value.Equiv (Value.array ys) (Value.array [Value.number 0x1234, Value.number 7]) ∧
      ∀ i, i < 2 →
        Layout.decode ⟨0, []⟩ 1 (Layout.UInt 2 none)
          (Layout.encode 2 (Layout.Sequence 4 none (Layout.UInt 2 none) 2)
            (Value.array [Value.number 0x1234, Value.number 7]) [0, 0, 0, 0, 0, 0] 1).buffer
          (1 + i * (Layout.UInt 2 none).span) none
          = Except.ok (ys.getD i Value.undefined) :=
  sequence_round_trip ⟨0, []⟩ wellFormed_empty 1 1 4 none (Layout.UInt 2 none) 2
    [Value.number 0x1234, Value.number 7] [0, 0, 0, 0, 0, 0] 1 none (WellFormed.UInt _ _) rfl
    (fun v _ b0 off => uint_decode_of_encode_ok _ 0 0 2 none v b0 off none) rfl

/-! ## Decoding through a union -/

/-- C4: when the discriminator read by `un.discr_layout` at `offset` has a
variant layout `v` in the registry of the union `un`, registered by
`addVariant` (so that `v.union` has the discriminator layout and the registry
of `un`), then `un.decode(b, offset, dest)` returns exactly what
`v.decode(b, offset, dest)` returns, which is what the payload layout of `v`
decodes at `offset + un.discr_layout.span`; the default layout is not
consulted. -/
theorem union_dispatch (σ : Store) (F span : ℕ) (p : Option String) (layout dlo dflt : Layout)
    (registry : ℕ) (b : Buffer) (offset : ℕ) (dest : Option Obj) (d : Value)
    (ref vspan : ℕ) (vp : Option String) (us : ℕ) (up : Option String) (ul udflt : Layout)
    (k : ℕ) (payload : Layout)
    (hun : dlo.isUnsigned = true)
    (hd : Layout.decode σ 1 dlo b offset none = Except.ok d)
    (hv : σ.entry registry d = some (Layout.VariantLayout ref vspan vp
      (Layout.Union us up ul dlo udflt registry) k payload)) :
    Layout.decode σ (F + 2) (Layout.Union span p layout dlo dflt registry) b offset dest
      = Layout.decode σ (F + 1) (Layout.VariantLayout ref vspan vp
          (Layout.Union us up ul dlo udflt registry) k payload) b offset dest ∧
    Layout.decode σ (F + 1) (Layout.VariantLayout ref vspan vp
        (Layout.Union us up ul dlo udflt registry) k payload) b offset dest
      = Layout.decode σ F payload b (offset + dlo.span) dest := by
  constructor
  · have h1 : Layout.decode σ (F + 2) (Layout.Union span p layout dlo dflt registry) b offset dest
        = Layout.decode σ (F + 1) (Layout.VariantLayout ref vspan vp
            (Layout.Union us up ul dlo udflt registry) k payload) b offset
            (some (dest.getD [])) := by
      have hd2 := decode_unsigned σ F dlo hun b offset none
      rw [hd] at hd2
      simp only [Layout.decode, Union.decode] at hd2 ⊢
      simp only [hd2, hv]
    rw [h1]
    cases dest with
    | none => exact decode_dest_none σ _ _ b offset
    | some o => rfl
  · cases F with
    | zero =>
      simp only [Layout.decode, VariantLayout.decode, Union.getVariant]
    | succ F =>
      have hd2 := decode_unsigned σ F dlo hun b offset none
      rw [hd] at hd2
      rw [Layout.decode]
      simp only [VariantLayout.decode, Union.getVariant, Option.getD_some, hd2, hv]
      exact if_pos rfl

/-- Witness of C4: the union of the test suite with variant 1 registered, on
the bytes `01 01 01 01 01`: the union decodes to what the variant decodes to,
the number `0x01010101` that the payload layout reads at offset 1. -/
theorem union_dispatch_witness :
    (Layout.decode exampleStore 3 exampleUnion [1, 1, 1, 1, 1] 0 none
      = Layout.decode exampleStore 2 exampleVariant [1, 1, 1, 1, 1] 0 none ∧
    Layout.decode exampleStore 2 exampleVariant [1, 1, 1, 1, 1] 0 none
      = Layout.decode exampleStore 1 (Layout.UInt 4 none) [1, 1, 1, 1, 1]
          (0 + (Layout.UInt 1 none).span) none) ∧
    Layout.decode exampleStore 1 (Layout.UInt 4 none) [1, 1, 1, 1, 1] 1 none
      = Except.ok (Value.number 0x01010101) :=
  ⟨union_dispatch exampleStore 1 5 none _ (Layout.UInt 1 none) (Layout.UInt 4 none) 0
    [1, 1, 1, 1, 1] 0 none (Value.number 1) 1 5 none 5 none _ (Layout.UInt 4 none) 1
    (Layout.UInt 4 none) rfl rfl rfl, rfl⟩

/-- C5: for a union built by `new Union(discr, dflt, property)`, a buffer whose
discriminator `d`, read by `discr` at `offset`, has no entry in the registry
of the union, and a default layout that decodes `c` at
`offset + discr.span`: `un.decode(b, offset, dest)` returns `dest`, a fresh
object when none is given, with the discriminator name bound to `d` and then
the content name bound to `c`.  The discriminator name is the property of
`discr`, or `variant` when it has none; the content name is the property of
`dflt`, or `content` when it has none. -/
theorem union_default_decode (σ0 σ1 σ : Store) (discr dflt un : Layout)
    (property : Option String) (fuel registry : ℕ) (b : Buffer) (offset : ℕ)
    (dest : Option Obj) (d c : Value)
    (hnew : Union.new σ0 (some discr) (some dflt) property = Except.ok (un, σ1))
    (hreg : un.registry = some registry)
    (hd : Layout.decode σ fuel discr b offset none = Except.ok d)
    (hnone : σ.entry registry d = none)
    (hc : Layout.decode σ fuel dflt b (offset + discr.span) none = Except.ok c) :
    Layout.decode σ (fuel + 1) un b offset dest
      = Except.ok (Value.object
          (Obj.set (Obj.set (dest.getD []) (discr.property.getD "variant") d)
            (dflt.property.getD "content") c)) := by
  obtain ⟨f0, f1, r, hun, h0, h1, _⟩ := unionNew_shape σ0 σ1 discr dflt un property hnew
  subst hun
  cases hreg
  simp only [Layout.decode, Union.decode, hd, hnone, Layout.fields, hc, h0, h1, propKey,
    Option.getD_some]

/-- Witness of C5: `new Union(u8('v'), new Sequence(u8(), 2))`, with no variant
registered, on the bytes `07 01 02` and a destination `{destination: 1}`. -/
theorem union_default_decode_witness :
    Layout.decode ⟨1, []⟩ 3
        (Layout.Union 3 none
          (Layout.Structure 3 none [Layout.UInt 1 (some "v"),
            Layout.Sequence 2 (some "content") (Layout.UInt 1 none) 2])
          (Layout.UInt 1 (some "v")) (Layout.Sequence 2 none (Layout.UInt 1 none) 2) 0)
        [7, 1, 2] 0 (some [("destination", Value.number 1)])
      = Except.ok (Value.object
          (Obj.set (Obj.set ((some [("destination", Value.number 1)]).getD [])
            ((Layout.UInt 1 (some "v")).property.getD "variant") (Value.number 7))
            ((Layout.Sequence 2 none (Layout.UInt 1 none) 2).property.getD "content")
            (Value.array [Value.number 1, Value.number 2]))) :=
  union_default_decode ⟨0, []⟩ ⟨1, []⟩ ⟨1, []⟩ (Layout.UInt 1 (some "v"))
    (Layout.Sequence 2 none (Layout.UInt 1 none) 2) _ none 2 0 [7, 1, 2] 0
    (some [("destination", Value.number 1)]) (Value.number 7)
    (Value.array [Value.number 1, Value.number 2]) rfl rfl rfl rfl rfl

/-! ## Encoding through a variant layout -/

/-- C6: let `v` be the variant layout returned by `un.addVariant(k, L)` and
still registered under `k`, and `x` a value on which decode-after-encode holds
for `L`.  A successful `v.encode(x, b, offset)` is the encoding of `k` by
`un.discr_layout` at `offset` followed by the encoding of `x` by `L` at
`offset + un.discr_layout.span`; afterwards `un.discr_layout.decode(b, offset)`
is `k`, and `v.decode(b, offset)` and `un.decode(b, offset)` both return a
value deeply equal to `x`. -/
theorem variant_encode_decode (σ0 σ1 σ : Store) (fe fd uspan : ℕ) (up : Option String)
    (ulayout dlo dflt : Layout) (registry k : ℕ) (lo : Layout) (vp : Option String)
    (v : Layout) (x : Value) (b : Buffer) (offset : ℕ)
    (hun : dlo.isUnsigned = true)
    (hadd : Union.addVariant σ0 (Layout.Union uspan up ulayout dlo dflt registry)
      (Arg.integer (k : ℤ)) (some lo) vp = Except.ok (v, σ1))
    (hreg : σ.entry registry (Value.number k) = some v)
    (hrt : ∀ b0 off, (Layout.encode fe lo x b0 off).error = none →
      ∃ y, Layout.decode σ fd lo (Layout.encode fe lo x b0 off).buffer off none = Except.ok y ∧
        Value.Equiv y x)
    (henc : (Layout.encode (fe + 1) v x b offset).error = none) :
    (Layout.encode fe dlo (Value.number k) b offset).error = none ∧
    Layout.encode (fe + 1) v x b offset
      = Layout.encode fe lo x (Layout.encode fe dlo (Value.number k) b offset).buffer
          (offset + dlo.span) ∧
    Layout.decode σ fd dlo (Layout.encode (fe + 1) v x b offset).buffer offset none
      = Except.ok (Value.number k) ∧
    ∃ y, Value.Equiv y x ∧
      Layout.decode σ (fd + 1) v (Layout.encode (fe + 1) v x b offset).buffer offset none
        = Except.ok y ∧
      Layout.decode σ (fd + 2) (Layout.Union uspan up ulayout dlo dflt registry)
        (Layout.encode (fe + 1) v x b offset).buffer offset none = Except.ok y := by
  obtain ⟨hv, _, _, _⟩ := addVariant_shape σ0 σ1 uspan up ulayout dlo dflt registry k lo vp v hadd
  have hreg2 := hreg
  rw [hv] at hreg2
  have hstep : (Layout.encode fe dlo (Value.number k) b offset).error = none ∧
      Layout.encode (fe + 1) v x b offset
        = Layout.encode fe lo x (Layout.encode fe dlo (Value.number k) b offset).buffer
            (offset + dlo.span) := by
    rw [hv] at henc ⊢
    rcases hw : Layout.encode fe dlo (Value.number k) b offset with ⟨b1, _ | e⟩
    · simp only [Layout.encode, VariantLayout.encode, hw]
      exact ⟨trivial, trivial⟩
    · simp [Layout.encode, VariantLayout.encode, hw] at henc
  obtain ⟨hdisc, hsplit⟩ := hstep
  rw [hsplit] at henc ⊢
  obtain ⟨y, hy, hyx⟩ := hrt _ _ henc
  cases fe with
  | zero => simp [encode_zero] at hdisc
  | succ fe =>
    cases fd with
    | zero => simp [decode_zero] at hy
    | succ fd =>
      have hk1 := unsigned_decode_of_encode_ok σ fe fd dlo hun k b offset none hdisc
      have hkeep := keepsBelow_encode (fe + 1) lo x
        (Layout.encode (fe + 1) dlo (Value.number k) b offset).buffer (offset + dlo.span)
      have hk2 : Layout.decode σ (fd + 1) dlo
          (Layout.encode (fe + 1) lo x
            (Layout.encode (fe + 1) dlo (Value.number k) b offset).buffer
            (offset + dlo.span)).buffer offset none = Except.ok (Value.number k) := by
        rw [readsSpan_unsigned σ (fd + 1) dlo hun _ _ offset none
          (agreeOn_of_keepsBelow hkeep offset)]
        exact hk1
      have hvd : Layout.decode σ (fd + 1 + 1) v
          (Layout.encode (fe + 1) lo x
            (Layout.encode (fe + 1) dlo (Value.number k) b offset).buffer
            (offset + dlo.span)).buffer offset none = Except.ok y := by
        rw [hv, Layout.decode]
        simp only [VariantLayout.decode, Union.getVariant, Option.getD_some, hk2, hreg2]
        exact (if_pos rfl).trans hy
      refine ⟨hdisc, rfl, hk2, y, hyx, hvd, ?_⟩
      have hk3 := decode_unsigned σ (fd + 1) dlo hun
        (Layout.encode (fe + 1) lo x
            (Layout.encode (fe + 1) dlo (Value.number k) b offset).buffer
            (offset + dlo.span)).buffer offset none
      rw [← decode_unsigned σ fd dlo hun _ offset none, hk2] at hk3
      rw [Layout.decode]
      simp only [Union.decode, hk3, hreg, Option.getD_none]
      rw [decode_dest_none]
      exact hvd

/-- Witness of C6: variant 1 of the union of the test suite, with a `u32`
payload, encoding `0x01020304` at offset 1 of a zeroed buffer of six bytes. -/
theorem variant_encode_decode_witness :
    (Layout.encode 1 (Layout.UInt 1 none) (Value.number ((1 : ℕ) : ℤ)) [0, 0, 0, 0, 0, 0]
      1).error = none ∧
    Layout.encode 2 exampleVariant (Value.number 0x01020304) [0, 0, 0, 0, 0, 0] 1
      = Layout.encode 1 (Layout.UInt 4 none) (Value.number 0x01020304)
          (Layout.encode 1 (Layout.UInt 1 none) (Value.number ((1 : ℕ) : ℤ))
            [0, 0, 0, 0, 0, 0] 1).buffer
          (1 + (Layout.UInt 1 none).span) ∧
    Layout.decode exampleStore 1 (Layout.UInt 1 none)
      (Layout.encode 2 exampleVariant (Value.number 0x01020304) [0, 0, 0, 0, 0, 0] 1).buffer 1
      none = Except.ok (Value.number ((1 : ℕ) : ℤ)) ∧
    ∃ y, Value.Equiv y (Value.number 0x01020304) ∧
      Layout.decode exampleStore 2 exampleVariant
        (Layout.encode 2 exampleVariant (Value.number 0x01020304) [0, 0, 0, 0, 0, 0] 1).buffer 1
        none = Except.ok y ∧
      Layout.decode exampleStore 3 exampleUnion
        (Layout.encode 2 exampleVariant (Value.number 0x01020304) [0, 0, 0, 0, 0, 0] 1).buffer 1
        none = Except.ok y :=
  variant_encode_decode ⟨1, []⟩ exampleStore exampleStore 1 1 5 none _ (Layout.UInt 1 none)
    (Layout.UInt 4 none) 0 1 (Layout.UInt 4 none) none exampleVariant (Value.number 0x01020304)
    [0, 0, 0, 0, 0, 0] 1 rfl rfl rfl
    (fun b0 off => uint_decode_of_encode_ok _ 0 0 4 none _ b0 off none) rfl

/-! ## Padding -/

/-- C10: the code at a failing input.  The structure
`new Structure([new Sequence(u8(), 1, 's'), u8()])` has an unnamed second field
whose range is byte 1.  Encoding `{s: [1, 2]}` into the buffer `00 00`
succeeds and leaves `01 02`: `Sequence.prototype.encode` wrote the second
entry of the list past its own span, into the byte of the unnamed field. -/
theorem padding_overwritten_by_long_sequence :
    Sequence.new (some (Layout.UInt 1 none)) (Arg.integer 1) (some "s")
      = Except.ok (Layout.Sequence 1 (some "s") (Layout.UInt 1 none) 1) ∧
    Structure.new (some [some (Layout.Sequence 1 (some "s") (Layout.UInt 1 none) 1),
        some (Layout.UInt 1 none)]) none
      = Except.ok (Layout.Structure 2 none
          [Layout.Sequence 1 (some "s") (Layout.UInt 1 none) 1, Layout.UInt 1 none]) ∧
    Layout.encode 3
        (Layout.Structure 2 none
          [Layout.Sequence 1 (some "s") (Layout.UInt 1 none) 1, Layout.UInt 1 none])
        (Value.object [("s", Value.array [Value.number 1, Value.number 2])]) [0, 0] 0
      = ⟨[1, 2], none⟩ ∧
    ([0, 0] : Buffer)[1]? ≠ ([1, 2] : Buffer)[1]? := by
  refine ⟨rfl, rfl, rfl, by decide⟩

/-! ## Missing properties of a structure source -/

/-- The loop of `Structure.prototype.encode` runs the body on the first field
and, unless that raised an exception, goes on with the fields after it. -/
theorem encodeFields_cons (enc : Encoder) (src : Value) (fd : Layout) (rest : List Layout)
    (b : Buffer) (offset : ℕ) :
    Structure.encodeFields enc src (fd :: rest) b offset
      = if (Structure.encodeField enc src fd b offset).error = none then
          Structure.encodeFields enc src rest (Structure.encodeField enc src fd b offset).buffer
            (offset + fd.span)
        else Structure.encodeField enc src fd b offset := by
  cases hp : fd.property with
  | none => simp [Structure.encodeFields, Structure.encodeField, hp]
  | some p =>
    cases hg : src.getProp p with
    | error e => simp [Structure.encodeFields, Structure.encodeField, hp, hg]
    | ok fv =>
      rcases hw : (if fv.isUndefined then b.fill 0 offset (offset + fd.span)
          else enc fd fv b offset) with ⟨b1, _ | e⟩
      · simp [Structure.encodeFields, Structure.encodeField, hp, hg, hw]
      · simp [Structure.encodeFields, Structure.encodeField, hp, hg, hw]

theorem encodeFields_append (enc : Encoder) (src : Value) (pre rest : List Layout)
    (b : Buffer) (offset : ℕ)
    (h : (Structure.encodeFields enc src (pre ++ rest) b offset).error = none) :
    (Structure.encodeFields enc src pre b offset).error = none ∧
    Structure.encodeFields enc src (pre ++ rest) b offset
      = Structure.encodeFields enc src rest (Structure.encodeFields enc src pre b offset).buffer
          (offset + (pre.map Layout.span).sum) := by
  induction pre generalizing b offset with
  | nil => exact ⟨rfl, by simp [Structure.encodeFields]⟩
  | cons fd pre ih =>
    rw [List.cons_append, encodeFields_cons] at h
    rw [List.cons_append, encodeFields_cons enc src fd (pre ++ rest),
      encodeFields_cons enc src fd pre]
    by_cases hw : (Structure.encodeField enc src fd b offset).error = none
    · rw [if_pos hw] at h
      simp only [if_pos hw, List.map_cons, List.sum_cons]
      obtain ⟨h1, h2⟩ := ih _ _ h
      exact ⟨h1, by rw [h2, Nat.add_assoc]⟩
    · rw [if_neg hw] at h
      exact absurd h hw

theorem fill_ok {b : Buffer} {value start stop : ℕ}
    (h : (b.fill value start stop).error = none) :
    stop ≤ b.length ∧ (b.fill value start stop).buffer.length = b.length ∧
      ∀ i, start ≤ i → i < stop → (b.fill value start stop).buffer[i]? = some (value % 256) := by
  by_cases h1 : b.length < stop
  · simp [Buffer.fill, h1] at h
  · by_cases h2 : stop ≤ start
    · refine ⟨by omega, ?_, fun i hi1 hi2 => absurd hi2 (by omega)⟩
      simp [Buffer.fill, h1, h2]
    · have hl : start + (List.replicate (stop - start) (value % 256)).length ≤ b.length := by
        rw [List.length_replicate]; omega
      have e : b.fill value start stop
          = ⟨b.splice start (List.replicate (stop - start) (value % 256)), none⟩ := by
        simp [Buffer.fill, h1, h2]
      rw [e]
      refine ⟨by omega, length_splice _ _ _ hl, fun i hi1 hi2 => ?_⟩
      have e2 : i = start + (i - start) := by omega
      rw [e2, getElem?_splice_mid _ _ _ _ hl (by rw [List.length_replicate]; omega),
        List.getElem?_replicate]
      have : i - start < stop - start := by omega
      simp [this]

theorem leValue_replicate_zero (n : ℕ) : leValue (List.replicate n 0) = 0 := by
  induction n with
  | zero => rfl
  | succ n ih => simp [List.replicate_succ, leValue, ih]

theorem beValue_replicate_zero (n : ℕ) : beValue (List.replicate n 0) = 0 := by
  rw [← List.reverse_replicate, beValue_reverse, leValue_replicate_zero]

theorem slice_zero (b : Buffer) (offset n : ℕ) (_hb : offset + n ≤ b.length)
    (h : ∀ i, offset ≤ i → i < offset + n → b[i]? = some 0) :
    b.slice offset n = List.replicate n 0 := by
  apply List.ext_getElem?
  intro i
  rw [getElem?_slice, List.getElem?_replicate]
  by_cases hi : i < n
  · rw [if_pos hi, if_pos hi]
    exact h _ (by omega) (by omega)
  · rw [if_neg hi, if_neg hi]

theorem toSigned_zero (n : ℕ) : toSigned n 0 = 0 := by
  unfold toSigned
  have : 2 * 0 < 256 ^ n := by positivity
  rw [if_pos this]
  rfl

/-- An integer codec decodes `0` from a range of zero bytes. -/
theorem integer_decode_zero (σ : Store) (fd : ℕ) (fld : Layout) (hint : fld.isInteger = true)
    (b : Buffer) (offset : ℕ) (dest : Option Obj) (hb : offset + fld.span ≤ b.length)
    (h : ∀ i, offset ≤ i → i < offset + fld.span → b[i]? = some 0) :
    Layout.decode σ (fd + 1) fld b offset dest = Except.ok (Value.number 0) := by
  cases fld with
  | UInt span q =>
    have hs := slice_zero b offset span hb h
    simp only [Layout.decode, UInt.decode, Buffer.readUIntLE]
    rw [if_neg (by simpa [Layout.span] using hb), hs, leValue_replicate_zero]
    rfl
  | UIntBE span q =>
    have hs := slice_zero b offset span hb h
    simp only [Layout.decode, UIntBE.decode, Buffer.readUIntBE]
    rw [if_neg (by simpa [Layout.span] using hb), hs, beValue_replicate_zero]
    rfl
  | Int span q =>
    have hs := slice_zero b offset span hb h
    simp only [Layout.decode, Int.decode, Buffer.readIntLE]
    rw [if_neg (by simpa [Layout.span] using hb), hs, leValue_replicate_zero, toSigned_zero]
    rfl
  | IntBE span q =>
    have hs := slice_zero b offset span hb h
    simp only [Layout.decode, IntBE.decode, Buffer.readIntBE]
    rw [if_neg (by simpa [Layout.span] using hb), hs, beValue_replicate_zero, toSigned_zero]
    rfl
  | Base span q => simp [Layout.isInteger] at hint
  | Sequence span q elo count => simp [Layout.isInteger] at hint
  | Structure span q fields => simp [Layout.isInteger] at hint
  | Union span q layout dlo dflt registry => simp [Layout.isInteger] at hint
  | VariantLayout ref span q union variant layout => simp [Layout.isInteger] at hint

/-- C11: when `st.encode(src, b, offset)` succeeds, every byte in the range of a
field of `st` that has a property for which `src` has no value (the read
`src[property]` is `undefined`) is `0` afterwards, the range starting at
`offset` plus the sum of the spans of the fields before it; and an integer
field decodes `0` there. -/
theorem zero_fill_of_missing (σ : Store) (fe fd span : ℕ) (property : Option String)
    (pre post : List Layout) (fld : Layout) (p : String) (src : Value) (b : Buffer)
    (offset : ℕ)
    (hp : fld.property = some p)
    (hmiss : src.getProp p = Except.ok Value.undefined)
    (henc : (Layout.encode (fe + 1) (Layout.Structure span property (pre ++ fld :: post)) src b
      offset).error = none) :
    (∀ i, offset + (pre.map Layout.span).sum ≤ i →
      i < offset + (pre.map Layout.span).sum + fld.span →
      (Layout.encode (fe + 1) (Layout.Structure span property (pre ++ fld :: post)) src b
        offset).buffer[i]? = some 0) ∧
    (fld.isInteger = true → ∀ dest : Option Obj,
      Layout.decode σ (fd + 1) fld
        (Layout.encode (fe + 1) (Layout.Structure span property (pre ++ fld :: post)) src b
          offset).buffer (offset + (pre.map Layout.span).sum) dest
        = Except.ok (Value.number 0)) := by
  simp only [Layout.encode, Structure.encode] at henc ⊢
  obtain ⟨_, happ⟩ := encodeFields_append (Layout.encode fe) src pre (fld :: post) b offset henc
  rw [happ] at henc ⊢
  generalize (Structure.encodeFields (Layout.encode fe) src pre b offset).buffer = b0 at henc ⊢
  generalize offset + (pre.map Layout.span).sum = o at henc ⊢
  have hstep : Structure.encodeField (Layout.encode fe) src fld b0 o
      = b0.fill 0 o (o + fld.span) := by
    simp [Structure.encodeField, hp, hmiss, Value.isUndefined]
  rw [encodeFields_cons, hstep] at henc ⊢
  by_cases hw : (b0.fill 0 o (o + fld.span)).error = none
  · rw [if_pos hw] at henc ⊢
    obtain ⟨hlen, hfl, hz⟩ := fill_ok hw
    have hkeep := keepsBelow_encodeFields (Layout.encode fe) src (keepsBelow_encode fe) post
      (b0.fill 0 o (o + fld.span)).buffer (o + fld.span)
    have hzero : ∀ i, o ≤ i → i < o + fld.span →
        (Structure.encodeFields (Layout.encode fe) src post
          (b0.fill 0 o (o + fld.span)).buffer (o + fld.span)).buffer[i]? = some 0 := by
      intro i h1 h2
      rw [hkeep.2 i h2, hz i h1 h2]
    refine ⟨hzero, fun hint dest => ?_⟩
    exact integer_decode_zero σ fd fld hint _ o dest (by rw [hkeep.1, hfl]; exact hlen) hzero
  · rw [if_neg hw] at henc
    exact absurd henc hw

/-- Witness of C11: the structure `[u16('u16'), u8('u8'), s16be('s16be')]` of the
test suite, the source `{u16: 0x1234, s16be: -5432}` that lacks `u8`, and a
buffer of five bytes `ff`. -/
theorem zero_fill_of_missing_witness :
    (∀ i, 0 + ([Layout.UInt 2 (some "u16")].map Layout.span).sum ≤ i →
      i < 0 + ([Layout.UInt 2 (some "u16")].map Layout.span).sum
        + (Layout.UInt 1 (some "u8")).span →
      (Layout.encode 2
        (Layout.Structure 5 none
          ([Layout.UInt 2 (some "u16")] ++ Layout.UInt 1 (some "u8")
            :: [Layout.IntBE 2 (some "s16be")]))
        (Value.object [("u16", Value.number 0x1234), ("s16be", Value.number (-5432))])
        [255, 255, 255, 255, 255] 0).buffer[i]? = some 0) ∧
    ((Layout.UInt 1 (some "u8")).isInteger = true → ∀ dest : Option Obj,
      Layout.decode ⟨0, []⟩ 1 (Layout.UInt 1 (some "u8"))
        (Layout.encode 2
          (Layout.Structure 5 none
            ([Layout.UInt 2 (some "u16")] ++ Layout.UInt 1 (some "u8")
              :: [Layout.IntBE 2 (some "s16be")]))
          (Value.object [("u16", Value.number 0x1234), ("s16be", Value.number (-5432))])
          [255, 255, 255, 255, 255] 0).buffer
        (0 + ([Layout.UInt 2 (some "u16")].map Layout.span).sum) dest
        = Except.ok (Value.number 0)) :=
  zero_fill_of_missing ⟨0, []⟩ 1 0 5 none [Layout.UInt 2 (some "u16")]
    [Layout.IntBE 2 (some "s16be")] (Layout.UInt 1 (some "u8")) "u8"
    (Value.object [("u16", Value.number 0x1234), ("s16be", Value.number (-5432))])
    [255, 255, 255, 255, 255] 0 rfl rfl rfl

/-! ## Decoding a structure -/

theorem decodeFields_spec (dec : Decoder) (b : Buffer) (fields : List Layout) (offset : ℕ)
    (dest : Obj)
    (hok : ∀ pre fld post p, fields = pre ++ fld :: post → fld.property = some p →
      ∃ x, dec fld b (offset + (pre.map Layout.span).sum) none = Except.ok x) :
    ∃ o, Structure.decodeFields dec b fields offset dest = Except.ok o ∧
      (∀ pre fld post p, fields = pre ++ fld :: post → fld.property = some p →
        (∀ g, g ∈ post → g.property ≠ some p) →
        Obj.has o p = true ∧
          dec fld b (offset + (pre.map Layout.span).sum) none = Except.ok (Obj.get o p)) ∧
      (∀ k, (∀ g, g ∈ fields → g.property ≠ some k) →
        Obj.has o k = Obj.has dest k ∧ Obj.get o k = Obj.get dest k) := by
  induction fields generalizing offset dest with
  | nil =>
    refine ⟨dest, rfl, ?_, fun k _ => ⟨rfl, rfl⟩⟩
    intro pre fld post p h
    exact absurd h (by simp)
  | cons fd rest ih =>
    have hok2 : ∀ pre fld post p, rest = pre ++ fld :: post → fld.property = some p →
        ∃ x, dec fld b (offset + fd.span + (pre.map Layout.span).sum) none = Except.ok x := by
      intro pre fld post p h hp
      have := hok (fd :: pre) fld post p (by rw [h]; rfl) hp
      simpa [Nat.add_assoc] using this
    cases hp : fd.property with
    | none =>
      obtain ⟨o, ho, h1, h2⟩ := ih (offset + fd.span) dest hok2
      refine ⟨o, by simp only [Structure.decodeFields, hp]; exact ho, ?_, ?_⟩
      · intro pre fld post p h hfp hlast
        cases pre with
        | nil =>
          simp only [List.nil_append, List.cons.injEq] at h
          rw [← h.1, hp] at hfp
          exact absurd hfp (by simp)
        | cons a pre =>
          simp only [List.cons_append, List.cons.injEq] at h
          obtain ⟨ha, hr⟩ := h
          subst ha
          have := h1 pre fld post p hr hfp hlast
          simpa [Nat.add_assoc] using this
      · intro k hk
        exact h2 k (fun g hg => hk g (List.mem_cons_of_mem _ hg))
    | some q =>
      obtain ⟨x, hx⟩ := hok [] fd rest q rfl hp
      simp only [List.map_nil, List.sum_nil, Nat.add_zero] at hx
      obtain ⟨o, ho, h1, h2⟩ := ih (offset + fd.span) (Obj.set dest q x) hok2
      refine ⟨o, by simp only [Structure.decodeFields, hp, hx]; exact ho, ?_, ?_⟩
      · intro pre fld post p h hfp hlast
        cases pre with
        | nil =>
          simp only [List.nil_append, List.cons.injEq] at h
          obtain ⟨hf, hr⟩ := h
          subst hf hr
          rw [hp] at hfp
          cases hfp
          obtain ⟨e1, e2⟩ := h2 q hlast
          rw [e1, e2, has_set_eq, get_set_eq]
          simp only [List.map_nil, List.sum_nil, Nat.add_zero]
          exact ⟨trivial, hx⟩
        | cons a pre =>
          simp only [List.cons_append, List.cons.injEq] at h
          obtain ⟨ha, hr⟩ := h
          subst ha
          have := h1 pre fld post p hr hfp hlast
          simpa [Nat.add_assoc] using this
      · intro k hk
        have hqk : q ≠ k := by
          intro e
          exact hk fd (List.mem_cons_self _ _) (by rw [hp, e])
        obtain ⟨e1, e2⟩ := h2 k (fun g hg => hk g (List.mem_cons_of_mem _ hg))
        rw [e1, e2, has_set_ne _ _ _ _ hqk, get_set_ne _ _ _ _ hqk]
        exact ⟨rfl, rfl⟩

/-- C12, as amended: when the layouts of the fields with a property decode,
`st.decode(b, offset, dest)` returns `dest` (a fresh empty object when `dest`
is not supplied) updated so that, for every field with a property that no
later field carries as well, that property is bound to what the layout of the
field decodes at `offset` plus the sum of the spans of all preceding fields;
the properties that no field names are present or absent as they were in
`dest`, with the values they had. -/
theorem structure_decode (σ : Store) (fuel span : ℕ) (property : Option String)
    (fields : List Layout) (b : Buffer) (offset : ℕ) (dest : Option Obj)
    (hok : ∀ pre fld post p, fields = pre ++ fld :: post → fld.property = some p →
      ∃ x, Layout.decode σ fuel fld b (offset + (pre.map Layout.span).sum) none = Except.ok x) :
    ∃ o, Layout.decode σ (fuel + 1) (Layout.Structure span property fields) b offset dest
        = Except.ok (Value.object o) ∧
      (∀ pre fld post p, fields = pre ++ fld :: post → fld.property = some p →
        (∀ g, g ∈ post → g.property ≠ some p) →
        Obj.has o p = true ∧
          Layout.decode σ fuel fld b (offset + (pre.map Layout.span).sum) none
            = Except.ok (Obj.get o p)) ∧
      (∀ k, (∀ g, g ∈ fields → g.property ≠ some k) →
        Obj.has o k = Obj.has (dest.getD []) k ∧ Obj.get o k = Obj.get (dest.getD []) k) := by
  obtain ⟨o, ho, h1, h2⟩ := decodeFields_spec (Layout.decode σ fuel) b fields offset
    (dest.getD []) hok
  refine ⟨o, ?_, h1, h2⟩
  simp only [Layout.decode, Structure.decode, ho]
  rfl

/-- C12 fails as stated: in `new Structure([u8('a'), u8('a')])` both fields
carry the property `a`; on the bytes `01 02` the first field decodes `1` at
offset 0, but the object returned binds `a` to `2`, the decode of the second
field. -/
theorem structure_decode_same_name :
    Layout.decode ⟨0, []⟩ 2
        (Layout.Structure 2 none [Layout.UInt 1 (some "a"), Layout.UInt 1 (some "a")])
        [1, 2] 0 none = Except.ok (Value.object [("a", Value.number 2)]) ∧
    Layout.decode ⟨0, []⟩ 1 (Layout.UInt 1 (some "a")) [1, 2] 0 none
      = Except.ok (Value.number 1) ∧
    Obj.get [("a", Value.number 2)] "a" ≠ Value.number 1 := by
  refine ⟨rfl, rfl, ?_⟩
  intro h
  simp [Obj.get] at h

theorem structure_decode_witness :
    ∃ o, Layout.decode ⟨0, []⟩ 2
        (Layout.Structure 3 none
          [Layout.UInt 1 (some "a"), Layout.UInt 1 none, Layout.UInt 1 (some "c")])
        [1, 2, 3] 0 (some [("z", Value.number 9)]) = Except.ok (Value.object o) ∧
      (∀ pre fld post p,
        [Layout.UInt 1 (some "a"), Layout.UInt 1 none, Layout.UInt 1 (some "c")]
          = pre ++ fld :: post → fld.property = some p →
        (∀ g, g ∈ post → g.property ≠ some p) →
        Obj.has o p = true ∧
          Layout.decode ⟨0, []⟩ 1 fld [1, 2, 3] (0 + (pre.map Layout.span).sum) none
            = Except.ok (Obj.get o p)) ∧
      (∀ k, (∀ g, g ∈ [Layout.UInt 1 (some "a"), Layout.UInt 1 none, Layout.UInt 1 (some "c")] →
          g.property ≠ some k) →
        Obj.has o k = Obj.has ((some [("z", Value.number 9)] : Option Obj).getD []) k ∧
          Obj.get o k = Obj.get ((some [("z", Value.number 9)] : Option Obj).getD []) k) :=
  structure_decode ⟨0, []⟩ 1 3 none
    [Layout.UInt 1 (some "a"), Layout.UInt 1 none, Layout.UInt 1 (some "c")]
    [1, 2, 3] 0 (some [("z", Value.number 9)]) (by
      intro pre fld post p h hp
      rcases pre with _ | ⟨a, _ | ⟨a2, _ | ⟨a3, pre⟩⟩⟩
      · simp only [List.nil_append, List.cons.injEq] at h
        obtain ⟨rfl, -⟩ := h
        exact ⟨_, rfl⟩
      · simp only [List.cons_append, List.nil_append, List.cons.injEq] at h
        obtain ⟨-, rfl, -⟩ := h
        exact absurd hp (by simp [Layout.property])
      · simp only [List.cons_append, List.nil_append, List.cons.injEq] at h
        obtain ⟨rfl, rfl, rfl, -⟩ := h
        exact ⟨_, rfl⟩
      · simp at h)

/-! ## Sequences given too few or too many entries -/

theorem keepsOutside_encodeElts (enc : Encoder) (elo : Layout)
    (henc : ∀ v b offset, KeepsOutside b offset (offset + elo.span) (enc elo v b offset))
    (vs : List Value) (b : Buffer) (offset : ℕ) :
    KeepsOutside b offset (offset + vs.length * elo.span)
      (Sequence.encodeElts enc elo vs b offset) := by
  induction vs generalizing b offset with
  | nil => exact keepsOutside_refl _ _ _ _
  | cons v vs ih =>
    have h1 := henc v b offset
    have e : offset + (v :: vs).length * elo.span
        = offset + elo.span + vs.length * elo.span := by
      simp only [List.length_cons, Nat.succ_mul]
      omega
    rcases h : enc elo v b offset with ⟨b1, _ | e1⟩
    · simp only [Sequence.encodeElts, h]
      rw [h] at h1
      have h2 := ih b1 (offset + elo.span)
      refine ⟨h2.1.trans h1.1, ?_⟩
      intro i hi
      rw [e] at hi
      rw [h2.2 i (by omega), h1.2 i (by omega)]
    · simp only [Sequence.encodeElts, h]
      rw [h] at h1
      refine ⟨h1.1, ?_⟩
      intro i hi
      rw [e] at hi
      exact h1.2 i (by omega)

/-- C13: the code at a failing input.  The sequence
`new Sequence(new Sequence(u8(), 1), 3)` has span 3; encoding the list
`[[1, 2, 3]]` of one entry into the buffer `00 00 00` succeeds and leaves
`01 02 03`: the bytes 1 and 2, which lie after the one entry supplied, were
written by the encode of that entry, itself a sequence given more entries than
its count. -/
theorem short_sequence_tail_overwritten :
    Sequence.new (some (Layout.Sequence 1 none (Layout.UInt 1 none) 1)) (Arg.integer 3) none
      = Except.ok (Layout.Sequence 3 none (Layout.Sequence 1 none (Layout.UInt 1 none) 1) 3) ∧
    Layout.encode 3
        (Layout.Sequence 3 none (Layout.Sequence 1 none (Layout.UInt 1 none) 1) 3)
        (Value.array [Value.array [Value.number 1, Value.number 2, Value.number 3]])
        [0, 0, 0] 0
      = ⟨[1, 2, 3], none⟩ ∧
    ([0, 0, 0] : Buffer)[1]? ≠ ([1, 2, 3] : Buffer)[1]? ∧
    ([0, 0, 0] : Buffer)[2]? ≠ ([1, 2, 3] : Buffer)[2]? := by
  refine ⟨rfl, rfl, by decide, by decide⟩

/-- C14: the code at a failing input.  The sequence `new Sequence(u8(), 2)`
has span 2; encoding `[1, 2, 3]` into the buffer `00 00 00` leaves
`01 02 03`, while encoding the first two entries `[1, 2]` leaves `01 02 00`:
the third entry was written, at offset 2, the end of the span of the
sequence. -/
theorem long_sequence_not_truncated :
    Sequence.new (some (Layout.UInt 1 none)) (Arg.integer 2) none
      = Except.ok (Layout.Sequence 2 none (Layout.UInt 1 none) 2) ∧
    Layout.encode 2 (Layout.Sequence 2 none (Layout.UInt 1 none) 2)
        (Value.array [Value.number 1, Value.number 2, Value.number 3]) [0, 0, 0] 0
      = ⟨[1, 2, 3], none⟩ ∧
    Layout.encode 2 (Layout.Sequence 2 none (Layout.UInt 1 none) 2)
        (Value.array [Value.number 1, Value.number 2]) [0, 0, 0] 0
      = ⟨[1, 2, 0], none⟩ ∧
    ([0, 0, 0] : Buffer)[2]? ≠ ([1, 2, 3] : Buffer)[2]? := by
  refine ⟨rfl, rfl, rfl, by decide⟩

/-! ## Encoding through the default layout of a union -/

theorem issue6Union_new :
    Union.new ⟨0, []⟩ (some (Layout.UInt 1 (some "number")))
        (some (Layout.Sequence 8 (some "payload") (Layout.UInt 1 none) 8)) none
      = Except.ok (issue6Union, ⟨1, []⟩) := rfl

theorem nestedUnion_new :
    Union.new ⟨1, []⟩ (some (Layout.UInt 1 none)) (some exampleUnion) none
      = Except.ok (nestedUnion, ⟨2, []⟩) := rfl

theorem isUndefined_iff (v : Value) : v.isUndefined = true ↔ v = Value.undefined := by
  cases v <;> simp [Value.isUndefined]

theorem unionEncode_missing (fuel span : ℕ) (property : Option String)
    (layout dlo dflt : Layout) (registry : ℕ) (src discr content : Value) (b : Buffer)
    (offset : ℕ)
    (hd : src.getProp "variant" = Except.ok discr)
    (hc : src.getProp "content" = Except.ok content)
    (h : discr = Value.undefined ∨ content = Value.undefined) :
    Layout.encode (fuel + 1) (Layout.Union span property layout dlo dflt registry) src b offset
      = ⟨b, some Err.unionDefaultEncode⟩ := by
  have e : (discr.isUndefined || content.isUndefined) = true := by
    rcases h with h | h
    · rw [(isUndefined_iff _).2 h]
      rfl
    · rw [(isUndefined_iff content).2 h]
      exact Bool.or_true _
  simp only [Layout.encode, Union.encode, hd, hc, e, if_true]

theorem unionEncode_both (fuel span : ℕ) (property : Option String)
    (layout dlo dflt : Layout) (registry : ℕ) (src discr content : Value) (b : Buffer)
    (offset : ℕ)
    (hd : src.getProp "variant" = Except.ok discr)
    (hc : src.getProp "content" = Except.ok content)
    (h1 : discr ≠ Value.undefined) (h2 : content ≠ Value.undefined) :
    Layout.encode (fuel + 1) (Layout.Union span property layout dlo dflt registry) src b offset
      = if (Layout.encode fuel dlo discr b offset).error = none then
          Layout.encode fuel dflt content (Layout.encode fuel dlo discr b offset).buffer
            (offset + dlo.span)
        else Layout.encode fuel dlo discr b offset := by
  have e1 : discr.isUndefined = false := by
    cases h : discr.isUndefined with
    | false => rfl
    | true => exact absurd ((isUndefined_iff _).1 h) h1
  have e2 : content.isUndefined = false := by
    cases h : content.isUndefined with
    | false => rfl
    | true => exact absurd ((isUndefined_iff _).1 h) h2
  simp only [Layout.encode, Union.encode, hd, hc, e1, e2, Bool.or_self, Bool.false_eq_true,
    if_false]
  rcases hw : Layout.encode fuel dlo discr b offset with ⟨b1, _ | e⟩
  · simp
  · simp

/-- C15, as amended: for a source `src` whose `variant` is `discr` and whose
`content` is `content`, `un.encode(src, b, offset)` fails with the
'must be provided variant and content' error when one of the two is
`undefined`, and then no byte of `b` has been written; otherwise it encodes
`discr` with `un.discr_layout` at `offset` and then `content` with
`un.default_layout` at `offset + un.discr_layout.span`, and it fails with that
error only when one of these two encodes does. -/
theorem union_default_encode (fuel span : ℕ) (property : Option String)
    (layout dlo dflt : Layout) (registry : ℕ) (src discr content : Value) (b : Buffer)
    (offset : ℕ)
    (hd : src.getProp "variant" = Except.ok discr)
    (hc : src.getProp "content" = Except.ok content) :
    (discr = Value.undefined ∨ content = Value.undefined →
      Layout.encode (fuel + 1) (Layout.Union span property layout dlo dflt registry) src b offset
        = ⟨b, some Err.unionDefaultEncode⟩) ∧
    (discr ≠ Value.undefined → content ≠ Value.undefined →
      Layout.encode (fuel + 1) (Layout.Union span property layout dlo dflt registry) src b offset
        = if (Layout.encode fuel dlo discr b offset).error = none then
            Layout.encode fuel dflt content (Layout.encode fuel dlo discr b offset).buffer
              (offset + dlo.span)
          else Layout.encode fuel dlo discr b offset) ∧
    ((Layout.encode (fuel + 1) (Layout.Union span property layout dlo dflt registry) src b
          offset).error = some Err.unionDefaultEncode →
      (discr = Value.undefined ∨ content = Value.undefined) ∨
      (Layout.encode fuel dlo discr b offset).error = some Err.unionDefaultEncode ∨
      (Layout.encode fuel dflt content (Layout.encode fuel dlo discr b offset).buffer
          (offset + dlo.span)).error = some Err.unionDefaultEncode) := by
  refine ⟨unionEncode_missing fuel span property layout dlo dflt registry src discr content b
    offset hd hc, unionEncode_both fuel span property layout dlo dflt registry src discr content
    b offset hd hc, ?_⟩
  intro h
  by_cases h1 : discr = Value.undefined
  · exact Or.inl (Or.inl h1)
  · by_cases h2 : content = Value.undefined
    · exact Or.inl (Or.inr h2)
    · right
      rw [unionEncode_both fuel span property layout dlo dflt registry src discr content b
        offset hd hc h1 h2] at h
      by_cases h3 : (Layout.encode fuel dlo discr b offset).error = none
      · rw [if_pos h3] at h
        exact Or.inr h
      · rw [if_neg h3] at h
        exact Or.inl h

theorem union_default_encode_witness :
    (Value.number 7 = Value.undefined ∨ Value.number 0x01020304 = Value.undefined →
      Layout.encode 2 exampleUnion
          (Value.object [("variant", Value.number 7), ("content", Value.number 0x01020304)])
          [0, 0, 0, 0, 0] 0
        = ⟨[0, 0, 0, 0, 0], some Err.unionDefaultEncode⟩) ∧
    (Value.number 7 ≠ Value.undefined → Value.number 0x01020304 ≠ Value.undefined →
      Layout.encode 2 exampleUnion
          (Value.object [("variant", Value.number 7), ("content", Value.number 0x01020304)])
          [0, 0, 0, 0, 0] 0
        = if (Layout.encode 1 (Layout.UInt 1 none) (Value.number 7) [0, 0, 0, 0, 0] 0).error
              = none then
            Layout.encode 1 (Layout.UInt 4 none) (Value.number 0x01020304)
              (Layout.encode 1 (Layout.UInt 1 none) (Value.number 7) [0, 0, 0, 0, 0] 0).buffer
              (0 + (Layout.UInt 1 none).span)
          else Layout.encode 1 (Layout.UInt 1 none) (Value.number 7) [0, 0, 0, 0, 0] 0) ∧
    ((Layout.encode 2 exampleUnion
          (Value.object [("variant", Value.number 7), ("content", Value.number 0x01020304)])
          [0, 0, 0, 0, 0] 0).error = some Err.unionDefaultEncode →
      (Value.number 7 = Value.undefined ∨ Value.number 0x01020304 = Value.undefined) ∨
      (Layout.encode 1 (Layout.UInt 1 none) (Value.number 7) [0, 0, 0, 0, 0] 0).error
        = some Err.unionDefaultEncode ∨
      (Layout.encode 1 (Layout.UInt 4 none) (Value.number 0x01020304)
          (Layout.encode 1 (Layout.UInt 1 none) (Value.number 7) [0, 0, 0, 0, 0] 0).buffer
          (0 + (Layout.UInt 1 none).span)).error = some Err.unionDefaultEncode) :=
  union_default_encode 1 5 none
    (Layout.Structure 5 none [Layout.UInt 1 (some "variant"), Layout.UInt 4 (some "content")])
    (Layout.UInt 1 none) (Layout.UInt 4 none) 0
    (Value.object [("variant", Value.number 7), ("content", Value.number 0x01020304)])
    (Value.number 7) (Value.number 0x01020304) [0, 0, 0, 0, 0] 0 rfl rfl

/-- C15 fails as stated: the union `new Union(u8(), new Union(u8(), u32()))`
is given the source `{variant: 1, content: {}}`, in which both parts are
present.  The encode fails with the 'must be provided variant and content'
error, raised by the encode of the default layout, after the discriminator `1`
has been written to byte 0. -/
theorem union_encode_error_with_both_parts :
    Union.new ⟨1, []⟩ (some (Layout.UInt 1 none)) (some exampleUnion) none
      = Except.ok (nestedUnion, ⟨2, []⟩) ∧
    (Value.object [("variant", Value.number 1), ("content", Value.object [])]).getProp "variant"
      = Except.ok (Value.number 1) ∧
    (Value.object [("variant", Value.number 1), ("content", Value.object [])]).getProp "content"
      = Except.ok (Value.object []) ∧
    Layout.encode 3 nestedUnion
        (Value.object [("variant", Value.number 1), ("content", Value.object [])])
        [0, 0, 0, 0, 0, 0] 0
      = ⟨[1, 0, 0, 0, 0, 0], some Err.unionDefaultEncode⟩ := by
  refine ⟨rfl, rfl, rfl, rfl⟩

/-- C16: the code at a failing input, that of the test "issue#6".  The union
`new Union(u8('number'), new Sequence(u8(), 8, 'payload'))` decodes the bytes
`00 01 02 03 04 05 06 07 08` to `{number: 0, payload: [1, ..., 8]}`.  Encoding
that object fails with the 'must be provided variant and content' error and
writes nothing, because `Union.prototype.encode` reads `src.variant` and
`src.content`; the object `{variant: 0, content: [1, ..., 8]}` is accepted and
encoded. -/
theorem union_encode_ignores_custom_names :
    Union.new ⟨0, []⟩ (some (Layout.UInt 1 (some "number")))
        (some (Layout.Sequence 8 (some "payload") (Layout.UInt 1 none) 8)) none
      = Except.ok (issue6Union, ⟨1, []⟩) ∧
    Layout.decode ⟨1, []⟩ 3 issue6Union [0, 1, 2, 3, 4, 5, 6, 7, 8] 0 none
      = Except.ok (Value.object [("number", Value.number 0),
          ("payload", Value.array [Value.number 1, Value.number 2, Value.number 3,
            Value.number 4, Value.number 5, Value.number 6, Value.number 7, Value.number 8])]) ∧
    Layout.encode 3 issue6Union
        (Value.object [("number", Value.number 0),
          ("payload", Value.array [Value.number 1, Value.number 2, Value.number 3,
            Value.number 4, Value.number 5, Value.number 6, Value.number 7, Value.number 8])])
        [0, 0, 0, 0, 0, 0, 0, 0, 0] 0
      = ⟨[0, 0, 0, 0, 0, 0, 0, 0, 0], some Err.unionDefaultEncode⟩ ∧
    Layout.encode 3 issue6Union
        (Value.object [("variant", Value.number 0),
          ("content", Value.array [Value.number 1, Value.number 2, Value.number 3,
            Value.number 4, Value.number 5, Value.number 6, Value.number 7, Value.number 8])])
        [0, 0, 0, 0, 0, 0, 0, 0, 0] 0
      = ⟨[0, 1, 2, 3, 4, 5, 6, 7, 8], none⟩ := by
  refine ⟨rfl, rfl, rfl, rfl⟩

/-- C17: for a union built by `new Union(discr, dflt, property)` from layouts
without a property, a discriminator `d` that has no entry in the registry of
the union, and a content `c` on which the default layout satisfies
decode-after-encode: when `un.encode({variant: d, content: c}, b, offset)`
succeeds, `un.decode` at `offset` on the buffer it leaves returns an object
equal to `{variant: d, content: c}`. -/
theorem union_default_round_trip (σ0 σ1 σ : Store) (discr dflt un : Layout)
    (property : Option String) (fe fd registry : ℕ) (d : ℤ) (c : Value) (b : Buffer)
    (offset : ℕ)
    (hnew : Union.new σ0 (some discr) (some dflt) property = Except.ok (un, σ1))
    (hdp : discr.property = none) (hcp : dflt.property = none)
    (hreg : un.registry = some registry)
    (hnone : σ.entry registry (Value.number d) = none)
    (hrt : ∀ b0 off, (Layout.encode fe dflt c b0 off).error = none →
      ∃ y, Layout.decode σ fd dflt (Layout.encode fe dflt c b0 off).buffer off none
          = Except.ok y ∧ Value.Equiv y c)
    (henc : (Layout.encode (fe + 1) un
      (Value.object [("variant", Value.number d), ("content", c)]) b offset).error = none) :
    ∃ o, Layout.decode σ (fd + 1) un
        (Layout.encode (fe + 1) un
          (Value.object [("variant", Value.number d), ("content", c)]) b offset).buffer
        offset none = Except.ok o ∧
      Value.Equiv o (Value.object [("variant", Value.number d), ("content", c)]) := by
  obtain ⟨f0, f1, r, hun, h0, h1, hl, _⟩ := unionNew_shape σ0 σ1 discr dflt un property hnew
  subst hun
  cases hreg
  rw [hdp] at h0
  rw [hcp] at h1
  have hgd : (Value.object [("variant", Value.number d), ("content", c)]).getProp "variant"
      = Except.ok (Value.number d) := rfl
  have hgc : (Value.object [("variant", Value.number d), ("content", c)]).getProp "content"
      = Except.ok c := rfl
  have hc : c ≠ Value.undefined := by
    intro e
    rw [unionEncode_missing fe _ property _ discr dflt registry _ _ _ b offset hgd hgc
      (Or.inr e)] at henc
    simp at henc
  have hboth := unionEncode_both fe (Number.add discr.span dflt.span) property
    (Layout.Structure (Number.add discr.span dflt.span) none [f0, f1]) discr dflt registry _ _ _ b offset
    hgd hgc (by simp) hc
  rw [hboth] at henc ⊢
  by_cases h3 : (Layout.encode fe discr (Value.number d) b offset).error = none
  · rw [if_pos h3] at henc ⊢
    obtain ⟨y, hy, hyc⟩ := hrt _ _ henc
    cases fe with
    | zero => simp [encode_zero] at h3
    | succ fe =>
      cases fd with
      | zero => simp [decode_zero] at hy
      | succ fd =>
        have hd1 := unsigned_decode_of_encode_ok σ fe fd discr hl d b offset none h3
        have hk := keepsBelow_encode (fe + 1) dflt c
          (Layout.encode (fe + 1) discr (Value.number d) b offset).buffer (offset + discr.span)
        have hd2 := readsSpan_unsigned σ (fd + 1) discr hl _ _ offset none
          (agreeOn_of_keepsBelow hk offset)
        rw [hd1] at hd2
        refine ⟨Value.object [("variant", Value.number d), ("content", y)], ?_, ?_⟩
        · simp only [Layout.decode, Union.decode, Layout.fields, h0, h1, propKey,
            Option.getD_some, Option.getD_none] at hd2 hy ⊢
          simp only [hd2, hnone, hy]
          rfl
        · refine Value.Equiv.object _ _ (fun k => rfl) ?_
          intro k
          simp only [Obj.get]
          split
          · exact Value.Equiv.number d
          · split
            · exact hyc
            · exact Value.Equiv.undefined
  · rw [if_neg h3] at henc
    exact absurd henc h3

theorem union_default_round_trip_witness :
    ∃ o, Layout.decode ⟨1, []⟩ 2 exampleUnion
        (Layout.encode 2 exampleUnion
          (Value.object [("variant", Value.number 7), ("content", Value.number 0x01020304)])
          [0, 0, 0, 0, 0] 0).buffer
        0 none = Except.ok o ∧
      Value.Equiv o
        (Value.object [("variant", Value.number 7), ("content", Value.number 0x01020304)]) :=
  union_default_round_trip ⟨0, []⟩ ⟨1, []⟩ ⟨1, []⟩ (Layout.UInt 1 none) (Layout.UInt 4 none)
    exampleUnion none 1 1 0 7 (Value.number 0x01020304) [0, 0, 0, 0, 0] 0 rfl rfl rfl rfl rfl
    (fun b0 off h =>
      ⟨_, unsigned_decode_of_encode_ok ⟨1, []⟩ 0 0 (Layout.UInt 4 none) rfl 0x01020304 b0 off
        none h, Value.Equiv.number _⟩)
    rfl

/-! ## Decoding through a variant layout -/

theorem entry_some (σ : Store) (registry : ℕ) (d : Value) (w : Layout)
    (h : σ.entry registry d = some w) :
    ∃ n : ℕ, d = Value.number (n : ℤ) ∧ σ.registry.lookup (registry, n) = some w := by
  cases d with
  | number n =>
    simp only [Store.entry] at h
    by_cases hn : 0 ≤ n
    · rw [if_pos hn] at h
      refine ⟨n.toNat, ?_, h⟩
      rw [Int.toNat_of_nonneg hn]
    · rw [if_neg hn] at h
      exact absurd h (by simp)
  | undefined => simp [Store.entry] at h
  | array xs => simp [Store.entry] at h
  | object ps => simp [Store.entry] at h

/-- C18, as amended: let `v` be a variant layout and `d` the discriminator read
from `b` at `offset` with `v.union.discr_layout`, in a store where the registry
of `v.union` holds `v` under no number but `v.variant`.  Then
`v.decode(b, offset, dest)` fails with the mismatch error when `d` differs from
`v.variant` or the registry of `v.union` does not hold `v` itself under `d`,
and when `d` equals `v.variant` and the registry holds `v` itself under it, it
returns `v.layout.decode(b, offset + v.union.discr_layout.span, dest)`. -/
theorem variant_decode_revalidation (σ : Store) (fuel ref span : ℕ) (property : Option String)
    (uspan : ℕ) (up : Option String) (ulayout dlo dflt : Layout) (registry k : ℕ)
    (lo : Layout) (b : Buffer) (offset : ℕ) (dest : Option Obj) (d : Value)
    (hd : Layout.decode σ fuel dlo b offset none = Except.ok d)
    (hinv : ∀ j w, σ.registry.lookup (registry, j) = some w → w.ref = some ref → j = k) :
    (d ≠ Value.number (k : ℤ) ∨ (σ.entry registry d).bind Layout.ref ≠ some ref →
      Layout.decode σ (fuel + 1)
          (Layout.VariantLayout ref span property
            (Layout.Union uspan up ulayout dlo dflt registry) k lo) b offset dest
        = Except.error Err.variantMismatch) ∧
    (d = Value.number (k : ℤ) → (σ.entry registry d).bind Layout.ref = some ref →
      Layout.decode σ (fuel + 1)
          (Layout.VariantLayout ref span property
            (Layout.Union uspan up ulayout dlo dflt registry) k lo) b offset dest
        = Layout.decode σ fuel lo b (offset + dlo.span) dest) := by
  have hentry : d ≠ Value.number (k : ℤ) → (σ.entry registry d).bind Layout.ref ≠ some ref := by
    intro hne he
    cases hw : σ.entry registry d with
    | none => simp [hw] at he
    | some w =>
      rw [hw] at he
      obtain ⟨n, hdn, hlook⟩ := entry_some σ registry d w hw
      have := hinv n w hlook he
      exact hne (by rw [hdn, this])
  constructor
  · intro h
    have h2 : (σ.entry registry d).bind Layout.ref ≠ some ref := by
      rcases h with h | h
      · exact hentry h
      · exact h
    simp only [Layout.decode, VariantLayout.decode, Union.getVariant, Option.getD_some, hd]
    exact if_neg h2
  · intro _ h2
    simp only [Layout.decode, VariantLayout.decode, Union.getVariant, Option.getD_some, hd]
    exact if_pos h2

theorem variant_decode_revalidation_witness :
    (Value.number 1 ≠ Value.number ((1 : ℕ) : ℤ) ∨
        (exampleStore.entry 0 (Value.number 1)).bind Layout.ref ≠ some 1 →
      Layout.decode exampleStore 2
          (Layout.VariantLayout 1 5 none
            (Layout.Union 5 none
              (Layout.Structure 5 none
                [Layout.UInt 1 (some "variant"), Layout.UInt 4 (some "content")])
              (Layout.UInt 1 none) (Layout.UInt 4 none) 0) 1 (Layout.UInt 4 none))
          [1, 4, 3, 2, 1] 0 none
        = Except.error Err.variantMismatch) ∧
    (Value.number 1 = Value.number ((1 : ℕ) : ℤ) →
      (exampleStore.entry 0 (Value.number 1)).bind Layout.ref = some 1 →
      Layout.decode exampleStore 2
          (Layout.VariantLayout 1 5 none
            (Layout.Union 5 none
              (Layout.Structure 5 none
                [Layout.UInt 1 (some "variant"), Layout.UInt 4 (some "content")])
              (Layout.UInt 1 none) (Layout.UInt 4 none) 0) 1 (Layout.UInt 4 none))
          [1, 4, 3, 2, 1] 0 none
        = Layout.decode exampleStore 1 (Layout.UInt 4 none) [1, 4, 3, 2, 1]
            (0 + (Layout.UInt 1 none).span) none) :=
  variant_decode_revalidation exampleStore 1 1 5 none 5 none
    (Layout.Structure 5 none [Layout.UInt 1 (some "variant"), Layout.UInt 4 (some "content")])
    (Layout.UInt 1 none) (Layout.UInt 4 none) 0 1 (Layout.UInt 4 none) [1, 4, 3, 2, 1] 0 none
    (Value.number 1) rfl (by
      intro j w h _
      by_contra hne
      have e : (((0 : ℕ), j) == ((0 : ℕ), (1 : ℕ))) = false := by
        simp [hne]
      simp [exampleStore, List.lookup, e] at h)

/-- C18 fails as stated: `un.addVariant(1, u32())` is called twice on
`new Union(u8(), u32())`, so that the registry holds the second variant layout
under 1.  On the bytes `01 01 01 01 01` the discriminator read at offset 0 is
1, the variant of the first variant layout `v`, and `v.layout` decodes
`0x01010101` at offset 1; yet `v.decode(b, 0)` fails with the mismatch
error. -/
theorem variant_decode_replaced :
    Union.addVariant ⟨1, []⟩ exampleUnion (Arg.integer 1) (some (Layout.UInt 4 none)) none
      = Except.ok (exampleVariant, exampleStore) ∧
    Union.addVariant exampleStore exampleUnion (Arg.integer 1) (some (Layout.UInt 4 none)) none
      = Except.ok (Layout.VariantLayout 2 5 none exampleUnion 1 (Layout.UInt 4 none),
          ⟨3, [((0, 1), Layout.VariantLayout 2 5 none exampleUnion 1 (Layout.UInt 4 none)),
            ((0, 1), exampleVariant)]⟩) ∧
    exampleVariant.variant = some 1 ∧
    Layout.decode
        ⟨3, [((0, 1), Layout.VariantLayout 2 5 none exampleUnion 1 (Layout.UInt 4 none)),
          ((0, 1), exampleVariant)]⟩ 1 (Layout.UInt 1 none) [1, 1, 1, 1, 1] 0 none
      = Except.ok (Value.number 1) ∧
    Layout.decode
        ⟨3, [((0, 1), Layout.VariantLayout 2 5 none exampleUnion 1 (Layout.UInt 4 none)),
          ((0, 1), exampleVariant)]⟩ 1 (Layout.UInt 4 none) [1, 1, 1, 1, 1] 1 none
      = Except.ok (Value.number 0x01010101) ∧
    Layout.decode
        ⟨3, [((0, 1), Layout.VariantLayout 2 5 none exampleUnion 1 (Layout.UInt 4 none)),
          ((0, 1), exampleVariant)]⟩ 2 exampleVariant [1, 1, 1, 1, 1] 0 none
      = Except.error Err.variantMismatch := by
  refine ⟨rfl, rfl, rfl, rfl, rfl, rfl⟩

/-! ## Registering a variant -/

/-- The step `Union.addVariantStep` and `Union.addVariant` describe the same
call: the same result, and on success the same store. -/
theorem addVariantStep_eq (σ : Store) (this : Layout) (variant : Arg) (layout : Option Layout)
    (property : Option String) :
    (Union.addVariantStep σ this variant layout property).2
        = (Union.addVariant σ this variant layout property).map Prod.fst ∧
      ∀ v σ1, Union.addVariant σ this variant layout property = Except.ok (v, σ1) →
        (Union.addVariantStep σ this variant layout property).1 = σ1 := by
  unfold Union.addVariantStep Union.addVariant
  cases h : VariantLayout.new σ (some this) variant layout property with
  | error e =>
    refine ⟨rfl, ?_⟩
    intro v σ1 h2
    cases h2
  | ok r =>
    obtain ⟨rv, σ2⟩ := r
    cases this <;> cases rv <;> simp [Except.map]

theorem variantNew_ok (σ : Store) (uspan : ℕ) (up : Option String)
    (ulayout dlo dflt : Layout) (registry : ℕ) (variant : Arg) (layout : Option Layout)
    (property : Option String) (rv : Layout) (σ1 : Store)
    (h : VariantLayout.new σ (some (Layout.Union uspan up ulayout dlo dflt registry)) variant
      layout property = Except.ok (rv, σ1)) :
    ∃ k lo, variant.nonNegativeInteger = some k ∧ layout = some lo ∧ lo.span ≤ dflt.span ∧
      rv = Layout.VariantLayout σ.next (Number.add lo.span dlo.span) property
        (Layout.Union uspan up ulayout dlo dflt registry) k lo ∧
      σ1 = ⟨σ.next + 1, σ.registry⟩ := by
  unfold VariantLayout.new at h
  cases hk : variant.nonNegativeInteger with
  | none => simp [hk] at h
  | some k =>
    cases layout with
    | none => simp [hk] at h
    | some lo =>
      by_cases hs : dflt.span < lo.span
      · simp [hk, hs] at h
      · simp only [hk, hs, if_false, init_nat] at h
        by_cases hpos : 0 < lo.span
        · simp only [hpos, if_true, Except.ok.injEq, Prod.mk.injEq] at h
          exact ⟨k, lo, rfl, rfl, Nat.le_of_not_lt hs, h.1.symm, h.2.symm⟩
        · simp [hpos] at h

/-- The payload of a variant layout that the constructor returns has a positive
span. -/
theorem variantNew_pos (σ : Store) (uspan : ℕ) (up : Option String)
    (ulayout dlo dflt : Layout) (registry : ℕ) (variant : Arg) (lo : Layout)
    (property : Option String) (rv : Layout) (σ1 : Store)
    (h : VariantLayout.new σ (some (Layout.Union uspan up ulayout dlo dflt registry)) variant
      (some lo) property = Except.ok (rv, σ1)) : 0 < lo.span := by
  unfold VariantLayout.new at h
  cases hk : variant.nonNegativeInteger with
  | none => simp [hk] at h
  | some k =>
    by_cases hs : dflt.span < lo.span
    · simp [hk, hs] at h
    · simp only [hk, hs, if_false, init_nat] at h
      by_cases hpos : 0 < lo.span
      · exact hpos
      · simp [hpos] at h

/-- C19: `un.addVariant(k, L, p)` fails with an error if `L.span` exceeds
`un.default_layout.span`, if `k` is not a non-negative integer, or if `L` is
not a layout; and whenever it fails, the store of the registries is the one of
before the call, so that the registry of `un` has no entry added or
replaced. -/
theorem addVariant_validated (σ : Store) (uspan : ℕ) (up : Option String)
    (ulayout dlo dflt : Layout) (registry : ℕ) (variant : Arg) (layout : Option Layout)
    (property : Option String) :
    ((∃ lo, layout = some lo ∧ dflt.span < lo.span) ∨ variant.nonNegativeInteger = none ∨
        layout = none →
      ∃ e, (Union.addVariantStep σ (Layout.Union uspan up ulayout dlo dflt registry) variant
        layout property).2 = Except.error e) ∧
    (∀ e, (Union.addVariantStep σ (Layout.Union uspan up ulayout dlo dflt registry) variant
        layout property).2 = Except.error e →
      (Union.addVariantStep σ (Layout.Union uspan up ulayout dlo dflt registry) variant
        layout property).1 = σ ∧
      ∀ j, (Union.addVariantStep σ (Layout.Union uspan up ulayout dlo dflt registry) variant
        layout property).1.registry.lookup (registry, j) = σ.registry.lookup (registry, j)) := by
  cases h : VariantLayout.new σ (some (Layout.Union uspan up ulayout dlo dflt registry)) variant
      layout property with
  | error e0 =>
    have hstep : Union.addVariantStep σ (Layout.Union uspan up ulayout dlo dflt registry) variant
        layout property = (σ, Except.error e0) := by
      simp only [Union.addVariantStep, h]
    rw [hstep]
    exact ⟨fun _ => ⟨e0, rfl⟩, fun _ _ => ⟨rfl, fun _ => rfl⟩⟩
  | ok r =>
    obtain ⟨rv, σ1⟩ := r
    obtain ⟨k, lo, hk, hl, hs, hrv, _⟩ :=
      variantNew_ok σ uspan up ulayout dlo dflt registry variant layout property rv σ1 h
    subst hrv
    have hstep : (Union.addVariantStep σ (Layout.Union uspan up ulayout dlo dflt registry)
        variant layout property).2
          = Except.ok (Layout.VariantLayout σ.next (Number.add lo.span dlo.span) property
              (Layout.Union uspan up ulayout dlo dflt registry) k lo) := by
      simp only [Union.addVariantStep, h]
    rw [hstep]
    constructor
    · intro hbad
      rcases hbad with ⟨lo2, h1, h2⟩ | h1 | h1
      · rw [hl] at h1
        cases h1
        omega
      · rw [hk] at h1
        cases h1
      · rw [hl] at h1
        cases h1
    · intro e he
      cases he

theorem addVariant_validated_witness :
    ((∃ lo, some (Layout.UInt 6 none) = some lo ∧ (Layout.UInt 4 none).span < lo.span) ∨
        (Arg.integer 1).nonNegativeInteger = none ∨ some (Layout.UInt 6 none) = none →
      ∃ e, (Union.addVariantStep exampleStore exampleUnion (Arg.integer 1)
        (some (Layout.UInt 6 none)) none).2 = Except.error e) ∧
    (∀ e, (Union.addVariantStep exampleStore exampleUnion (Arg.integer 1)
        (some (Layout.UInt 6 none)) none).2 = Except.error e →
      (Union.addVariantStep exampleStore exampleUnion (Arg.integer 1)
        (some (Layout.UInt 6 none)) none).1 = exampleStore ∧
      ∀ j, (Union.addVariantStep exampleStore exampleUnion (Arg.integer 1)
        (some (Layout.UInt 6 none)) none).1.registry.lookup (0, j)
          = exampleStore.registry.lookup (0, j)) :=
  addVariant_validated exampleStore 5 none
    (Layout.Structure 5 none [Layout.UInt 1 (some "variant"), Layout.UInt 4 (some "content")])
    (Layout.UInt 1 none) (Layout.UInt 4 none) 0 (Arg.integer 1) (some (Layout.UInt 6 none)) none

/-- C20: when `un.addVariant(k, L, p)` succeeds it returns a variant layout `v`
with `v.union` the union, `v.variant = k`, `v.layout = L` and `v.property = p`;
afterwards `un.getVariant(k)` returns `v`, and `un.getVariant(j)` for every
number `j` other than `k` returns what it returned before the call. -/
theorem addVariant_registers (σ σ1 : Store) (dec : Decoder) (uspan : ℕ) (up : Option String)
    (ulayout dlo dflt : Layout) (registry k : ℕ) (lo : Layout) (p : Option String) (v : Layout)
    (hadd : Union.addVariant σ (Layout.Union uspan up ulayout dlo dflt registry)
      (Arg.integer (k : ℤ)) (some lo) p = Except.ok (v, σ1)) :
    v.union = some (Layout.Union uspan up ulayout dlo dflt registry) ∧
    v.variant = some k ∧ v.layout = some lo ∧ v.property = p ∧
    Union.getVariant σ1 dec dlo registry (VariantKey.value (Value.number (k : ℤ))) none
      = Except.ok (some v) ∧
    ∀ j : ℤ, j ≠ (k : ℤ) →
      Union.getVariant σ1 dec dlo registry (VariantKey.value (Value.number j)) none
        = Union.getVariant σ dec dlo registry (VariantKey.value (Value.number j)) none := by
  obtain ⟨hv, hσ, _, _⟩ := addVariant_shape σ σ1 uspan up ulayout dlo dflt registry k lo p v hadd
  have hk : (0 : ℤ) ≤ (k : ℤ) := Int.ofNat_nonneg k
  refine ⟨by rw [hv]; rfl, by rw [hv]; rfl, by rw [hv]; rfl, by rw [hv]; rfl, ?_, ?_⟩
  · rw [hσ]
    simp only [Union.getVariant, Store.entry, hk, if_true, Int.toNat_ofNat, List.lookup,
      beq_self_eq_true]
  · intro j hj
    simp only [Union.getVariant, Store.entry]
    by_cases h0 : 0 ≤ j
    · have hne : j.toNat ≠ k := by
        intro e
        apply hj
        rw [← e, Int.toNat_of_nonneg h0]
      have hb : ((registry, j.toNat) == (registry, k)) = false := by
        simp [hne]
      rw [hσ]
      simp only [h0, if_true, List.lookup, hb]
    · simp only [h0, if_false]

theorem addVariant_registers_witness :
    exampleVariant.union = some (Layout.Union 5 none
      (Layout.Structure 5 none [Layout.UInt 1 (some "variant"), Layout.UInt 4 (some "content")])
      (Layout.UInt 1 none) (Layout.UInt 4 none) 0) ∧
    exampleVariant.variant = some 1 ∧ exampleVariant.layout = some (Layout.UInt 4 none) ∧
    exampleVariant.property = none ∧
    Union.getVariant exampleStore (Layout.decode exampleStore 1) (Layout.UInt 1 none) 0
        (VariantKey.value (Value.number ((1 : ℕ) : ℤ))) none
      = Except.ok (some exampleVariant) ∧
    ∀ j : ℤ, j ≠ ((1 : ℕ) : ℤ) →
      Union.getVariant exampleStore (Layout.decode exampleStore 1) (Layout.UInt 1 none) 0
          (VariantKey.value (Value.number j)) none
        = Union.getVariant ⟨1, []⟩ (Layout.decode exampleStore 1) (Layout.UInt 1 none) 0
          (VariantKey.value (Value.number j)) none :=
  addVariant_registers ⟨1, []⟩ exampleStore (Layout.decode exampleStore 1) 5 none
    (Layout.Structure 5 none [Layout.UInt 1 (some "variant"), Layout.UInt 4 (some "content")])
    (Layout.UInt 1 none) (Layout.UInt 4 none) 0 1 (Layout.UInt 4 none) none exampleVariant rfl

/-! ## The registry of a union -/

theorem withDefaultName_store (σ : Store) (lo : Layout) (name : String) :
    (withDefaultName σ lo name).2.registry = σ.registry ∧
      σ.next ≤ (withDefaultName σ lo name).2.next := by
  unfold withDefaultName
  cases lo.property with
  | some q => exact ⟨rfl, Nat.le_refl _⟩
  | none =>
    cases lo <;> first
      | exact ⟨rfl, Nat.le_refl _⟩
      | exact ⟨rfl, Nat.le_succ _⟩

/-- The registry of a new union has a reference that the store has not given
out before, and the construction leaves the registries of the store as they
were. -/
theorem unionNew_store (σ0 σ1 : Store) (discr dflt un : Layout) (property : Option String)
    (h : Union.new σ0 (some discr) (some dflt) property = Except.ok (un, σ1)) :
    ∃ r, un.registry = some r ∧ σ0.next ≤ r ∧ σ1.registry = σ0.registry := by
  unfold Union.new at h
  cases hu : discr.isUnsigned with
  | false => simp [hu] at h
  | true =>
    simp only [hu, Bool.true_eq_false, if_false] at h
    have hd := withDefaultName_store σ0 discr "variant"
    generalize withDefaultName σ0 discr "variant" = dlo at h hd
    have hc := withDefaultName_store dlo.2 dflt "content"
    generalize withDefaultName dlo.2 dflt "content" = clo at h hc
    cases hs : Structure.new (some [some dlo.1, some clo.1]) none with
    | error e => simp [hs] at h
    | ok layout =>
      simp only [hs] at h
      cases hi : Layout.init (Arg.integer (layout.span : ℤ)) with
      | error e => simp [hi] at h
      | ok span =>
        simp only [hi, Except.ok.injEq, Prod.mk.injEq] at h
        obtain ⟨h1, h2⟩ := h
        subst h1 h2
        exact ⟨clo.2.next, rfl, Nat.le_trans hd.2 hc.2, hc.1.trans hd.1⟩

theorem lookup_cons_key (registry k j : ℕ) (v : Layout) (rest : List ((ℕ × ℕ) × Layout)) :
    List.lookup (registry, j) (((registry, k), v) :: rest)
      = if j = k then some v else List.lookup (registry, j) rest := by
  by_cases h : j = k
  · subst h
    simp [List.lookup]
  · have hb : ((registry, j) == (registry, k)) = false := by
      simp [h]
    simp [List.lookup, hb, h]

/-- C21: a union `un` is built by `new Union(discr, dflt, property)` in a store
whose registry references are all older than the next one.  In every store
reached from there by calls of `un.addVariant`, with whatever arguments and
whether they succeed or fail, every layout `v` that the registry of `un`
holds under a key `k` is a variant layout with `v.variant = k`, whose
`v.layout` has a span of at most `dflt.span`, and `v.span <= un.span`. -/
theorem registry_invariant (σ0 σ1 σ : Store) (discr dflt un : Layout)
    (property : Option String) (registry : ℕ)
    (hfresh : ∀ key v, σ0.registry.lookup key = some v → key.1 < σ0.next)
    (hnew : Union.new σ0 (some discr) (some dflt) property = Except.ok (un, σ1))
    (hreg : un.registry = some registry)
    (hreach : Union.Reachable un σ1 σ) :
    ∀ k v, σ.registry.lookup (registry, k) = some v →
      v.variant = some k ∧ (∃ lo, v.layout = some lo ∧ lo.span ≤ dflt.span) ∧
      v.span ≤ un.span := by
  obtain ⟨r, hr, hle, hsame⟩ := unionNew_store σ0 σ1 discr dflt un property hnew
  obtain ⟨f0, f1, r2, hun, _, _, _, _⟩ := unionNew_shape σ0 σ1 discr dflt un property hnew
  rw [hreg] at hr
  cases hr
  induction hreach with
  | start =>
    intro k v h
    rw [hsame] at h
    have := hfresh _ _ h
    exact absurd this (by simpa using hle)
  | call σ2 variant layout p2 _ ih =>
    intro k v h
    subst hun
    cases hreg
    cases hv : VariantLayout.new σ2 (some (Layout.Union (Number.add discr.span dflt.span) property
        (Layout.Structure (Number.add discr.span dflt.span) none [f0, f1]) discr dflt registry))
        variant layout p2 with
    | error e =>
      simp only [Union.addVariantStep, hv] at h
      exact ih k v h
    | ok res =>
      obtain ⟨rv, σ3⟩ := res
      obtain ⟨j, lo, _, hlo, hspan, hrv, hσ3⟩ := variantNew_ok σ2 _ property _ discr dflt registry
        variant layout p2 rv σ3 hv
      subst hlo
      have hpos := variantNew_pos σ2 _ property _ discr dflt registry variant lo p2 rv σ3 hv
      subst hrv hσ3
      simp only [Union.addVariantStep, hv, lookup_cons_key] at h
      by_cases hkj : k = j
      · rw [if_pos hkj] at h
        cases h
        refine ⟨by rw [hkj]; rfl, ⟨lo, rfl, hspan⟩, ?_⟩
        show Number.add lo.span discr.span ≤ Number.add discr.span dflt.span
        exact add_le_add_number _ _ _ hpos hspan
      · rw [if_neg hkj] at h
        exact ih k v h

theorem registry_invariant_witness :
    exampleVariant.variant = some 1 ∧
      (∃ lo, exampleVariant.layout = some lo ∧ lo.span ≤ (Layout.UInt 4 none).span) ∧
      exampleVariant.span ≤ exampleUnion.span :=
  registry_invariant ⟨0, []⟩ ⟨1, []⟩ exampleStore (Layout.UInt 1 none) (Layout.UInt 4 none)
    exampleUnion none 0 (fun _ _ h => absurd h (by simp [List.lookup])) rfl rfl
    (Union.Reachable.call ⟨1, []⟩ (Arg.integer 1) (some (Layout.UInt 4 none)) none
      Union.Reachable.start) 1 exampleVariant rfl

/-- C22: `un.getVariant(k)` with a number `k` returns the entry of the registry
of `un` under `k`, which is `undefined` when there is none (and for every
negative `k`); `un.getVariant(b, offset)` with a buffer `b` returns
`un.getVariant(un.discr_layout.decode(b, offset))`, failing when that decode
fails, and an omitted `offset` is read as 0. -/
theorem getVariant_resolution (σ : Store) (dec : Decoder) (dlo : Layout) (registry : ℕ) :
    (∀ (k : ℤ) (offset : Option ℕ),
      Union.getVariant σ dec dlo registry (VariantKey.value (Value.number k)) offset
        = Except.ok (if 0 ≤ k then σ.registry.lookup (registry, k.toNat) else none)) ∧
    (∀ (b : Buffer) (offset : ℕ),
      Union.getVariant σ dec dlo registry (VariantKey.buffer b) (some offset)
        = (dec dlo b offset none).bind
            (fun d => Union.getVariant σ dec dlo registry (VariantKey.value d) none)) ∧
    (∀ b : Buffer,
      Union.getVariant σ dec dlo registry (VariantKey.buffer b) none
        = Union.getVariant σ dec dlo registry (VariantKey.buffer b) (some 0)) := by
  refine ⟨fun k offset => rfl, ?_, fun b => rfl⟩
  intro b offset
  simp only [Union.getVariant, Option.getD_some]
  cases dec dlo b offset none <;> rfl

/-! ## Reads and writes past the end of the buffer -/

theorem decodeElts_fails_at_last (dec : Decoder) (elo : Layout) (b : Buffer) (n offset : ℕ)
    (h : ∃ e, dec elo b (offset + n * elo.span) none = Except.error e) :
    ∃ e, Sequence.decodeElts dec elo b (n + 1) offset = Except.error e := by
  induction n generalizing offset with
  | zero =>
    obtain ⟨e, he⟩ := h
    simp only [Nat.zero_mul, Nat.add_zero] at he
    exact ⟨e, by simp [Sequence.decodeElts, he]⟩
  | succ n ih =>
    have h2 : ∃ e, dec elo b (offset + elo.span + n * elo.span) none = Except.error e := by
      obtain ⟨e, he⟩ := h
      refine ⟨e, ?_⟩
      rw [← he]
      congr 1
      rw [Nat.succ_mul]
      omega
    obtain ⟨e2, he2⟩ := ih (offset + elo.span) h2
    cases hd : dec elo b offset none with
    | error e => exact ⟨e, by simp [Sequence.decodeElts, hd]⟩
    | ok x =>
      refine ⟨e2, ?_⟩
      rw [Sequence.decodeElts]
      simp only [hd, he2]

theorem decodeFields_fails_at_last (dec : Decoder) (b : Buffer) (pre : List Layout)
    (last : Layout) (q : String) (offset : ℕ) (dest : Obj)
    (hq : last.property = some q)
    (h : ∃ e, dec last b (offset + (pre.map Layout.span).sum) none = Except.error e) :
    ∃ e, Structure.decodeFields dec b (pre ++ [last]) offset dest = Except.error e := by
  induction pre generalizing offset dest with
  | nil =>
    obtain ⟨e, he⟩ := h
    simp only [List.map_nil, List.sum_nil, Nat.add_zero] at he
    exact ⟨e, by simp [Structure.decodeFields, hq, he]⟩
  | cons fd rest ih =>
    have h2 : ∃ e, dec last b (offset + fd.span + (rest.map Layout.span).sum) none
        = Except.error e := by
      obtain ⟨e, he⟩ := h
      refine ⟨e, ?_⟩
      rw [← he]
      congr 1
      simp only [List.map_cons, List.sum_cons]
      omega
    cases hp : fd.property with
    | none =>
      obtain ⟨e, he⟩ := ih (offset + fd.span) dest h2
      exact ⟨e, by simp only [List.cons_append, Structure.decodeFields, hp]; exact he⟩
    | some p =>
      cases hd : dec fd b offset none with
      | error e => exact ⟨e, by simp [Structure.decodeFields, hp, hd]⟩
      | ok x =>
        obtain ⟨e, he⟩ := ih (offset + fd.span) (Obj.set dest p x) h2
        exact ⟨e, by simp only [List.cons_append, Structure.decodeFields, hp, hd]; exact he⟩

theorem readsToEnd_decode_fails (σ : Store) (l : Layout) (hl : ReadsToEnd l) :
    ∀ (fuel : ℕ) (b : Buffer) (offset : ℕ) (dest : Option Obj),
      b.length < offset + l.span → ∃ e, Layout.decode σ fuel l b offset dest = Except.error e := by
  induction hl with
  | UInt span p =>
    intro fuel b offset dest hb
    cases fuel with
    | zero => exact ⟨_, rfl⟩
    | succ fuel =>
      exact ⟨Err.indexOutOfRange, by
        simp only [Layout.decode, UInt.decode, Buffer.readUIntLE]
        rw [if_pos (show b.length < offset + span from hb)]
        rfl⟩
  | UIntBE span p =>
    intro fuel b offset dest hb
    cases fuel with
    | zero => exact ⟨_, rfl⟩
    | succ fuel =>
      exact ⟨Err.indexOutOfRange, by
        simp only [Layout.decode, UIntBE.decode, Buffer.readUIntBE]
        rw [if_pos (show b.length < offset + span from hb)]
        rfl⟩
  | Int span p =>
    intro fuel b offset dest hb
    cases fuel with
    | zero => exact ⟨_, rfl⟩
    | succ fuel =>
      exact ⟨Err.indexOutOfRange, by
        simp only [Layout.decode, Int.decode, Buffer.readIntLE]
        rw [if_pos (show b.length < offset + span from hb)]
        rfl⟩
  | IntBE span p =>
    intro fuel b offset dest hb
    cases fuel with
    | zero => exact ⟨_, rfl⟩
    | succ fuel =>
      exact ⟨Err.indexOutOfRange, by
        simp only [Layout.decode, IntBE.decode, Buffer.readIntBE]
        rw [if_pos (show b.length < offset + span from hb)]
        rfl⟩
  | Sequence span p elo count _ hspan ih =>
    intro fuel b offset dest hb
    cases fuel with
    | zero => exact ⟨_, rfl⟩
    | succ fuel =>
      have hlast := ih fuel b (offset + count * elo.span) none (by
        simp only [Layout.span] at hb
        rw [hspan, Nat.succ_mul] at hb
        omega)
      obtain ⟨e, he⟩ := decodeElts_fails_at_last (Layout.decode σ fuel) elo b count offset hlast
      exact ⟨e, by simp only [Layout.decode, Sequence.decode, he]; rfl⟩
  | Structure span p pre last q hq _ hspan ih =>
    intro fuel b offset dest hb
    cases fuel with
    | zero => exact ⟨_, rfl⟩
    | succ fuel =>
      have hlast := ih fuel b (offset + (pre.map Layout.span).sum) none (by
        simp only [Layout.span] at hb
        rw [hspan] at hb
        omega)
      obtain ⟨e, he⟩ := decodeFields_fails_at_last (Layout.decode σ fuel) b pre last q offset
        (dest.getD []) hq hlast
      exact ⟨e, by simp only [Layout.decode, Structure.decode, he]; rfl⟩
  | VariantLayout ref span p us up ul dlo dflt registry variant lo _ hspan ih =>
    intro fuel b offset dest hb
    cases fuel with
    | zero => exact ⟨_, rfl⟩
    | succ fuel =>
      have hlast := ih fuel b (offset + dlo.span) dest (by
        simp only [Layout.span] at hb
        rw [hspan] at hb
        omega)
      obtain ⟨e, he⟩ := hlast
      simp only [Layout.decode, VariantLayout.decode, Union.getVariant, Option.getD_some]
      cases hd : Layout.decode σ fuel dlo b offset none with
      | error e1 => exact ⟨e1, rfl⟩
      | ok d =>
        simp only []
        by_cases hm : (σ.entry registry d).bind Layout.ref = some ref
        · rw [if_pos hm]
          exact ⟨e, he⟩
        · rw [if_neg hm]
          exact ⟨_, rfl⟩

theorem integer_encode_fails (fuel : ℕ) (l : Layout) (hl : l.isInteger = true) (v : Value)
    (b : Buffer) (offset : ℕ) (hb : b.length < offset + l.span) :
    ∃ e, Layout.encode (fuel + 1) l v b offset = ⟨b, some e⟩ := by
  cases l with
  | UInt span p =>
    cases v with
    | number n =>
      simp only [Layout.encode, UInt.encode, Buffer.writeUIntLE]
      split
      · exact ⟨_, rfl⟩
      · rw [if_pos (show b.length < offset + span from hb)]
        exact ⟨_, rfl⟩
    | undefined => exact ⟨_, rfl⟩
    | array xs => exact ⟨_, rfl⟩
    | object ps => exact ⟨_, rfl⟩
  | UIntBE span p =>
    cases v with
    | number n =>
      simp only [Layout.encode, UIntBE.encode, Buffer.writeUIntBE]
      split
      · exact ⟨_, rfl⟩
      · rw [if_pos (show b.length < offset + span from hb)]
        exact ⟨_, rfl⟩
    | undefined => exact ⟨_, rfl⟩
    | array xs => exact ⟨_, rfl⟩
    | object ps => exact ⟨_, rfl⟩
  | Int span p =>
    cases v with
    | number n =>
      simp only [Layout.encode, Int.encode, Buffer.writeIntLE]
      split
      · exact ⟨_, rfl⟩
      · rw [if_pos (show b.length < offset + span from hb)]
        exact ⟨_, rfl⟩
    | undefined => exact ⟨_, rfl⟩
    | array xs => exact ⟨_, rfl⟩
    | object ps => exact ⟨_, rfl⟩
  | IntBE span p =>
    cases v with
    | number n =>
      simp only [Layout.encode, IntBE.encode, Buffer.writeIntBE]
      split
      · exact ⟨_, rfl⟩
      · rw [if_pos (show b.length < offset + span from hb)]
        exact ⟨_, rfl⟩
    | undefined => exact ⟨_, rfl⟩
    | array xs => exact ⟨_, rfl⟩
    | object ps => exact ⟨_, rfl⟩
  | Base span p => simp [Layout.isInteger] at hl
  | Sequence span p elo count => simp [Layout.isInteger] at hl
  | Structure span p fields => simp [Layout.isInteger] at hl
  | Union span p layout dlo dflt registry => simp [Layout.isInteger] at hl
  | VariantLayout ref span p union variant layout => simp [Layout.isInteger] at hl

theorem integer_decode_fails (σ : Store) (fuel : ℕ) (l : Layout) (hl : l.isInteger = true)
    (b : Buffer) (offset : ℕ) (dest : Option Obj) (hb : b.length < offset + l.span) :
    Layout.decode σ (fuel + 1) l b offset dest = Except.error Err.indexOutOfRange := by
  cases l with
  | UInt span p =>
    simp only [Layout.decode, UInt.decode, Buffer.readUIntLE]
    rw [if_pos (show b.length < offset + span from hb)]
    rfl
  | UIntBE span p =>
    simp only [Layout.decode, UIntBE.decode, Buffer.readUIntBE]
    rw [if_pos (show b.length < offset + span from hb)]
    rfl
  | Int span p =>
    simp only [Layout.decode, Int.decode, Buffer.readIntLE]
    rw [if_pos (show b.length < offset + span from hb)]
    rfl
  | IntBE span p =>
    simp only [Layout.decode, IntBE.decode, Buffer.readIntBE]
    rw [if_pos (show b.length < offset + span from hb)]
    rfl
  | Base span p => simp [Layout.isInteger] at hl
  | Sequence span p elo count => simp [Layout.isInteger] at hl
  | Structure span p fields => simp [Layout.isInteger] at hl
  | Union span p layout dlo dflt registry => simp [Layout.isInteger] at hl
  | VariantLayout ref span p union variant layout => simp [Layout.isInteger] at hl

/-- C23, as amended: for a buffer `b` and an offset with
`offset + L.span > length(b)`: when `L` is an integer codec, `L.decode(b, offset)`
fails with the range error of the buffer, and `L.encode(v, b, offset)` fails
with an error and leaves `b` as it was; and `L.decode(b, offset)` fails with an
error, with whatever fuel, also for every sequence with such elements, every
structure whose last field has a property and is such a layout, and every
variant layout whose payload is such a layout. -/
theorem bounds_checked (σ : Store) (l : Layout) (b : Buffer) (offset : ℕ)
    (hb : b.length < offset + l.span) :
    (l.isInteger = true → ∀ (fuel : ℕ) (dest : Option Obj) (v : Value),
      Layout.decode σ (fuel + 1) l b offset dest = Except.error Err.indexOutOfRange ∧
      ∃ e, Layout.encode (fuel + 1) l v b offset = ⟨b, some e⟩) ∧
    (ReadsToEnd l → ∀ (fuel : ℕ) (dest : Option Obj),
      ∃ e, Layout.decode σ fuel l b offset dest = Except.error e) := by
  constructor
  · intro hl fuel dest v
    exact ⟨integer_decode_fails σ fuel l hl b offset dest hb,
      integer_encode_fails fuel l hl v b offset hb⟩
  · intro hl fuel dest
    exact readsToEnd_decode_fails σ l hl fuel b offset dest hb

theorem bounds_checked_witness :
    ((Layout.UInt 4 none).isInteger = true → ∀ (fuel : ℕ) (dest : Option Obj) (v : Value),
      Layout.decode ⟨0, []⟩ (fuel + 1) (Layout.UInt 4 none) [1, 2] 0 dest
        = Except.error Err.indexOutOfRange ∧
      ∃ e, Layout.encode (fuel + 1) (Layout.UInt 4 none) v [1, 2] 0 = ⟨[1, 2], some e⟩) ∧
    (ReadsToEnd (Layout.UInt 4 none) → ∀ (fuel : ℕ) (dest : Option Obj),
      ∃ e, Layout.decode ⟨0, []⟩ fuel (Layout.UInt 4 none) [1, 2] 0 dest = Except.error e) :=
  bounds_checked ⟨0, []⟩ (Layout.UInt 4 none) [1, 2] 0 (by decide)

/-- C23 fails as stated: `new Structure([u8('a'), u8()])` has span 2, and the
buffer `07` has one byte, so that `offset + span` exceeds its length at offset
0.  The decode returns `{a: 7}` and the encode of `{a: 9}` succeeds and writes
`09`: the unnamed last field is never read or written.  And
`new Sequence(u8(), 3)` fails to encode `[1, 2, 3]` into the buffer `00 00`
only after it has written `01 02`. -/
theorem span_past_end_not_checked :
    Structure.new (some [some (Layout.UInt 1 (some "a")), some (Layout.UInt 1 none)]) none
      = Except.ok (Layout.Structure 2 none [Layout.UInt 1 (some "a"), Layout.UInt 1 none]) ∧
    ([7] : Buffer).length
      < 0 + (Layout.Structure 2 none [Layout.UInt 1 (some "a"), Layout.UInt 1 none]).span ∧
    Layout.decode ⟨0, []⟩ 2
        (Layout.Structure 2 none [Layout.UInt 1 (some "a"), Layout.UInt 1 none]) [7] 0 none
      = Except.ok (Value.object [("a", Value.number 7)]) ∧
    Layout.encode 2
        (Layout.Structure 2 none [Layout.UInt 1 (some "a"), Layout.UInt 1 none])
        (Value.object [("a", Value.number 9)]) [7] 0
      = ⟨[9], none⟩ ∧
    Sequence.new (some (Layout.UInt 1 none)) (Arg.integer 3) none
      = Except.ok (Layout.Sequence 3 none (Layout.UInt 1 none) 3) ∧
    ([0, 0] : Buffer).length < 0 + (Layout.Sequence 3 none (Layout.UInt 1 none) 3).span ∧
    Layout.encode 2 (Layout.Sequence 3 none (Layout.UInt 1 none) 3)
        (Value.array [Value.number 1, Value.number 2, Value.number 3]) [0, 0] 0
      = ⟨[1, 2], some Err.indexOutOfRange⟩ := by
  refine ⟨rfl, by decide, rfl, rfl, rfl, by decide, rfl⟩
/-! ## Spans set by the constructors -/

theorem structureNew_ok (fields : Option (List (Option Layout))) (p : Option String)
    (st : Layout) (h : Structure.new fields p = Except.ok st) :
    ∃ ls, fields = some (ls.map some) ∧ 0 < (ls.map Layout.span).foldl Number.add 0 ∧
      st = Layout.Structure ((ls.map Layout.span).foldl Number.add 0) p ls := by
  cases fields with
  | none => simp [Structure.new] at h
  | some fs =>
    unfold Structure.new at h
    cases ha : allLayouts fs with
    | none => simp [ha] at h
    | some ls =>
      simp only [ha, init_ofNumber] at h
      by_cases hpos : 0 < (ls.map Layout.span).foldl Number.add 0 ∧
          (ls.map Layout.span).foldl Number.add 0 < Number.infinity
      · simp only [hpos, and_self, if_true, Except.ok.injEq] at h
        exact ⟨ls, by rw [allLayouts_eq fs ls ha], hpos.1, h.symm⟩
      · rw [if_neg hpos] at h
        cases h

theorem sequenceNew_ok (elt_layout : Option Layout) (count : Arg) (p : Option String)
    (s : Layout) (h : Sequence.new elt_layout count p = Except.ok s) :
    ∃ elo n, elt_layout = some elo ∧ count.positiveInteger = some n ∧
      0 < Number.mul n elo.span ∧ s = Layout.Sequence (Number.mul n elo.span) p elo n := by
  cases elt_layout with
  | none => simp [Sequence.new] at h
  | some elo =>
    unfold Sequence.new at h
    cases hc : count.positiveInteger with
    | none => simp [hc] at h
    | some n =>
      simp only [hc, init_ofNumber] at h
      by_cases hpos : 0 < Number.mul n elo.span ∧ Number.mul n elo.span < Number.infinity
      · simp only [hpos, and_self, if_true, Except.ok.injEq] at h
        exact ⟨elo, n, rfl, rfl, hpos.1, h.symm⟩
      · rw [if_neg hpos] at h
        cases h

/-- The sequence `new Sequence(u8(), 2 ** 53)`, of span `2 ^ 53`. -/
theorem longSequence_new :
    Sequence.new (some (Layout.UInt 1 none)) (Arg.integer (2 ^ 53)) none
      = Except.ok longSequence := rfl

/-- C24, the claim as it stands fails:
`new Structure([new Sequence(u8(), 2 ** 53), u8()])` has the span `2 ^ 53`,
the double nearest to the sum `2 ^ 53 + 1` of the spans of its fields; and
`new Sequence(u24(), 2 ** 53 + 2)` has the span `27021597764222984`, the double
nearest to the product `27021597764222982`. -/
theorem span_not_exact :
    (∃ st, Structure.new (some [some longSequence, some (Layout.UInt 1 none)]) none
        = Except.ok st ∧
      st.span = 2 ^ 53 ∧
      ([longSequence, Layout.UInt 1 none].map Layout.span).sum = 2 ^ 53 + 1) ∧
    (∃ s, Sequence.new (some (Layout.UInt 3 none)) (Arg.integer (2 ^ 53 + 2)) none
        = Except.ok s ∧
      s.span = 27021597764222984 ∧
      (2 ^ 53 + 2) * (Layout.UInt 3 none).span = 27021597764222982) :=
  ⟨⟨_, rfl, rfl, rfl⟩, ⟨_, rfl, rfl, rfl⟩⟩

/-- C24, as amended: a structure that `new Structure(fields, property)` returns
stores the layouts given and has as span the spans of its fields added from
the left as the host adds them, which is their sum when the sum is at most
`2 ^ 53`; a sequence that `new Sequence(elt_layout, count, property)` returns
stores the element layout and the count given and has as span the product
`count * elt_layout.span` as the host computes it, which is the exact product
when that is at most `2 ^ 53`. -/
theorem span_additivity :
    (∀ (fields : Option (List (Option Layout))) (p : Option String) (st : Layout),
      Structure.new fields p = Except.ok st →
      ∃ ls, fields = some (ls.map some) ∧ st.fields = some ls ∧
        st.span = (ls.map Layout.span).foldl Number.add 0 ∧
        ((ls.map Layout.span).sum ≤ 2 ^ 53 → st.span = (ls.map Layout.span).sum)) ∧
    (∀ (elt_layout : Option Layout) (count : Arg) (p : Option String) (s : Layout),
      Sequence.new elt_layout count p = Except.ok s →
      ∃ (elo : Layout) (n : ℕ), elt_layout = some elo ∧ count = Arg.integer (n : ℤ) ∧
        s.elt_layout = some elo ∧ s.count = some n ∧ s.span = Number.mul n elo.span ∧
        (n * elo.span ≤ 2 ^ 53 → s.span = n * elo.span)) := by
  constructor
  · intro fields p st h
    obtain ⟨ls, h1, _, h2⟩ := structureNew_ok fields p st h
    subst h2
    refine ⟨ls, h1, rfl, rfl, fun hle => ?_⟩
    show (ls.map Layout.span).foldl Number.add 0 = (ls.map Layout.span).sum
    rw [foldl_add_exact _ 0 (by simpa using hle)]
    simp
  · intro elt_layout count p s h
    obtain ⟨elo, n, h1, h2, _, h3⟩ := sequenceNew_ok elt_layout count p s h
    subst h3
    refine ⟨elo, n, h1, ?_, rfl, rfl, rfl, fun hle => mul_exact _ _ hle⟩
    cases count with
    | integer m =>
      simp only [Arg.positiveInteger] at h2
      by_cases hm : 0 < m
      · rw [if_pos hm] at h2
        cases h2
        rw [Int.toNat_of_nonneg (le_of_lt hm)]
      · rw [if_neg hm] at h2
        cases h2
    | undefined => simp [Arg.positiveInteger] at h2
    | string s => simp [Arg.positiveInteger] at h2
    | nonInteger => simp [Arg.positiveInteger] at h2

theorem span_additivity_witness :
    (∃ ls, some [some (Layout.UInt 1 (some "a")), some (Layout.UInt 4 none)] = some (ls.map some) ∧
      (Layout.Structure 5 none [Layout.UInt 1 (some "a"), Layout.UInt 4 none]).fields = some ls ∧
      (Layout.Structure 5 none [Layout.UInt 1 (some "a"), Layout.UInt 4 none]).span
        = (ls.map Layout.span).foldl Number.add 0 ∧
      ((ls.map Layout.span).sum ≤ 2 ^ 53 →
        (Layout.Structure 5 none [Layout.UInt 1 (some "a"), Layout.UInt 4 none]).span
          = (ls.map Layout.span).sum)) ∧
    (∃ (elo : Layout) (n : ℕ), some (Layout.UInt 2 none) = some elo ∧ Arg.integer 3 = Arg.integer (n : ℤ) ∧
      (Layout.Sequence 6 none (Layout.UInt 2 none) 3).elt_layout = some elo ∧
      (Layout.Sequence 6 none (Layout.UInt 2 none) 3).count = some n ∧
      (Layout.Sequence 6 none (Layout.UInt 2 none) 3).span = Number.mul n elo.span ∧
      (n * elo.span ≤ 2 ^ 53 →
        (Layout.Sequence 6 none (Layout.UInt 2 none) 3).span = n * elo.span)) :=
  ⟨span_additivity.1 (some [some (Layout.UInt 1 (some "a")), some (Layout.UInt 4 none)]) none
      (Layout.Structure 5 none [Layout.UInt 1 (some "a"), Layout.UInt 4 none]) rfl,
    span_additivity.2 (some (Layout.UInt 2 none)) (Arg.integer 3) none
      (Layout.Sequence 6 none (Layout.UInt 2 none) 3) rfl⟩

/-- C25, the claim as it stands fails:
`new Union(u8(), new Sequence(u8(), 2 ** 53))` has the span `2 ^ 53`, the
double nearest to the sum `1 + 2 ^ 53` of the spans of its two layouts, and so
has the variant layout that `new VariantLayout(un, 1, new Sequence(u8(),
2 ** 53))` returns for it. -/
theorem union_span_not_exact :
    ∃ un σ1 v σ2,
      Union.new ⟨0, []⟩ (some (Layout.UInt 1 none)) (some longSequence) none
        = Except.ok (un, σ1) ∧
      un.span = 2 ^ 53 ∧ (Layout.UInt 1 none).span + longSequence.span = 2 ^ 53 + 1 ∧
      VariantLayout.new σ1 (some un) (Arg.integer 1) (some longSequence) none
        = Except.ok (v, σ2) ∧
      v.span = 2 ^ 53 :=
  ⟨_, _, _, _, rfl, rfl, rfl, rfl, rfl⟩

/-- C25, as amended: a union that `new Union(discr_layout, default_layout,
property)` returns stores the two layouts given and has as span the sum
`discr_layout.span + default_layout.span` as the host computes it, which is
the exact sum when that is at most `2 ^ 53`; a variant layout that
`new VariantLayout(union, variant, layout, property)` returns stores the union
and the layout given and has as span the sum
`layout.span + union.discr_layout.span` as the host computes it, which is the
exact sum when that is at most `2 ^ 53`. -/
theorem union_variant_span :
    (∀ (σ0 σ1 : Store) (discr_layout default_layout : Option Layout) (p : Option String)
        (un : Layout),
      Union.new σ0 discr_layout default_layout p = Except.ok (un, σ1) →
      ∃ discr dflt, discr_layout = some discr ∧ default_layout = some dflt ∧
        un.discr_layout = some discr ∧ un.default_layout = some dflt ∧
        un.span = Number.add discr.span dflt.span ∧
        (discr.span + dflt.span ≤ 2 ^ 53 → un.span = discr.span + dflt.span)) ∧
    (∀ (σ σ1 : Store) (union : Option Layout) (variant : Arg) (layout : Option Layout)
        (p : Option String) (v : Layout),
      VariantLayout.new σ union variant layout p = Except.ok (v, σ1) →
      ∃ un dlo lo, union = some un ∧ un.discr_layout = some dlo ∧ layout = some lo ∧
        v.union = some un ∧ v.layout = some lo ∧
        v.span = Number.add lo.span dlo.span ∧
        (dlo.span + lo.span ≤ 2 ^ 53 → v.span = dlo.span + lo.span)) := by
  constructor
  · intro σ0 σ1 discr_layout default_layout p un h
    cases discr_layout with
    | none => simp [Union.new] at h
    | some discr =>
      cases default_layout with
      | none =>
        unfold Union.new at h
        by_cases hu : discr.isUnsigned = false
        · simp [hu] at h
        · simp [hu] at h
      | some dflt =>
        obtain ⟨f0, f1, r, hun, _, _, _, _⟩ := unionNew_shape σ0 σ1 discr dflt un p h
        subst hun
        exact ⟨discr, dflt, rfl, rfl, rfl, rfl, rfl, fun hle => add_exact _ _ hle⟩
  · intro σ σ1 union variant layout p v h
    cases union with
    | none => simp [VariantLayout.new] at h
    | some u =>
      cases u with
      | Union uspan up ul dlo dflt registry =>
        obtain ⟨k, lo, _, hl, _, hv, _⟩ :=
          variantNew_ok σ uspan up ul dlo dflt registry variant layout p v σ1 h
        subst hv
        refine ⟨_, dlo, lo, rfl, rfl, hl, rfl, rfl, rfl, fun hle => ?_⟩
        show Number.add lo.span dlo.span = dlo.span + lo.span
        rw [add_exact _ _ (by omega)]
        exact Nat.add_comm _ _
      | Base span q => simp [VariantLayout.new] at h
      | UInt span q => simp [VariantLayout.new] at h
      | UIntBE span q => simp [VariantLayout.new] at h
      | Int span q => simp [VariantLayout.new] at h
      | IntBE span q => simp [VariantLayout.new] at h
      | Sequence span q elo count => simp [VariantLayout.new] at h
      | Structure span q fields => simp [VariantLayout.new] at h
      | VariantLayout ref span q un k lo => simp [VariantLayout.new] at h

theorem union_variant_span_witness :
    (∃ discr dflt, some (Layout.UInt 1 none) = some discr ∧
      some (Layout.UInt 4 none) = some dflt ∧
      exampleUnion.discr_layout = some discr ∧ exampleUnion.default_layout = some dflt ∧
      exampleUnion.span = Number.add discr.span dflt.span ∧
      (discr.span + dflt.span ≤ 2 ^ 53 → exampleUnion.span = discr.span + dflt.span)) ∧
    (∃ un dlo lo, some exampleUnion = some un ∧ un.discr_layout = some dlo ∧
      some (Layout.UInt 4 none) = some lo ∧
      exampleVariant.union = some un ∧ exampleVariant.layout = some lo ∧
      exampleVariant.span = Number.add lo.span dlo.span ∧
      (dlo.span + lo.span ≤ 2 ^ 53 → exampleVariant.span = dlo.span + lo.span)) :=
  ⟨union_variant_span.1 ⟨0, []⟩ ⟨1, []⟩ (some (Layout.UInt 1 none)) (some (Layout.UInt 4 none))
      none exampleUnion rfl,
    union_variant_span.2 ⟨1, []⟩ ⟨2, []⟩ (some exampleUnion) (Arg.integer 1)
      (some (Layout.UInt 4 none)) none exampleVariant rfl⟩

/-! ## Arguments the constructors accept -/

theorem positiveInteger_none_iff (a : Arg) :
    a.positiveInteger = none ↔ ¬ ∃ n : ℤ, 0 < n ∧ a = Arg.integer n := by
  cases a with
  | integer m =>
    simp only [Arg.positiveInteger]
    by_cases hm : 0 < m
    · rw [if_pos hm]
      simp only [reduceCtorEq, false_iff, not_not]
      exact ⟨m, hm, rfl⟩
    · rw [if_neg hm]
      simp only [true_iff]
      rintro ⟨n, hn, e⟩
      cases e
      exact hm hn
  | undefined => simp [Arg.positiveInteger]
  | string s => simp [Arg.positiveInteger]
  | nonInteger => simp [Arg.positiveInteger]

theorem positiveInteger_nat (n : ℕ) (h : 0 < n) :
    (Arg.integer (n : ℤ)).positiveInteger = some n := by
  have h2 : (0 : ℤ) < (n : ℤ) := by exact_mod_cast h
  simp only [Arg.positiveInteger, h2, if_true, Int.toNat_ofNat]

/-- C26: `new Layout(span, property)` fails with a `TypeError` if and only if
`span` is not a positive integer, and fails in no other way; for a positive
integer `span` it returns an instance whose `span` and `property` are the
arguments given, `property` being `undefined` when it is omitted. -/
theorem layout_new (span : Arg) (property : Option String) :
    (Layout.new span property = Except.error Err.typeError ↔
      ¬ ∃ n : ℤ, 0 < n ∧ span = Arg.integer n) ∧
    (∀ e, Layout.new span property = Except.error e → e = Err.typeError) ∧
    (∀ n : ℕ, 0 < n → span = Arg.integer (n : ℤ) →
      ∃ l, Layout.new span property = Except.ok l ∧ l.kind = Kind.Layout ∧ l.span = n ∧
        l.property = property) := by
  refine ⟨?_, ?_, ?_⟩
  · rw [← positiveInteger_none_iff]
    unfold Layout.new Layout.init
    cases span.positiveInteger with
    | none => simp
    | some n => simp
  · intro e h
    unfold Layout.new Layout.init at h
    cases hs : span.positiveInteger with
    | none =>
      simp only [hs, Except.error.injEq] at h
      exact h.symm
    | some n => simp [hs] at h
  · intro n hn hs
    subst hs
    refine ⟨Layout.Base n property, ?_, rfl, rfl, rfl⟩
    simp only [Layout.new, Layout.init, positiveInteger_nat n hn]

theorem layout_new_witness :
    (Layout.new (Arg.integer ((3 : ℕ) : ℤ)) (some "tag") = Except.error Err.typeError ↔
      ¬ ∃ n : ℤ, 0 < n ∧ Arg.integer ((3 : ℕ) : ℤ) = Arg.integer n) ∧
    (∀ e, Layout.new (Arg.integer ((3 : ℕ) : ℤ)) (some "tag") = Except.error e →
      e = Err.typeError) ∧
    (∀ n : ℕ, 0 < n → Arg.integer ((3 : ℕ) : ℤ) = Arg.integer (n : ℤ) →
      ∃ l, Layout.new (Arg.integer ((3 : ℕ) : ℤ)) (some "tag") = Except.ok l ∧
        l.kind = Kind.Layout ∧ l.span = n ∧ l.property = some "tag") :=
  layout_new (Arg.integer ((3 : ℕ) : ℤ)) (some "tag")

theorem intSpan_nat (n : ℕ) (h1 : 1 ≤ n) (h6 : n ≤ 6) :
    intSpan (Arg.integer (n : ℤ)) = Except.ok n := by
  have h : ¬ 6 < n := Nat.not_lt.mpr h6
  simp only [intSpan, Layout.init, positiveInteger_nat n h1, h, if_false]

theorem intSpan_error (span : Arg)
    (h : ¬ ∃ n : ℤ, 1 ≤ n ∧ n ≤ 6 ∧ span = Arg.integer n) :
    intSpan span = Except.error Err.typeError := by
  unfold intSpan Layout.init
  cases hs : span.positiveInteger with
  | none => rfl
  | some n =>
    simp only []
    by_cases h6 : 6 < n
    · rw [if_pos h6]
    · exfalso
      apply h
      cases span with
      | integer m =>
        simp only [Arg.positiveInteger] at hs
        by_cases hm : 0 < m
        · rw [if_pos hm] at hs
          cases hs
          refine ⟨m, hm, ?_, rfl⟩
          have : m.toNat ≤ 6 := Nat.not_lt.mp h6
          omega
        · rw [if_neg hm] at hs
          cases hs
      | undefined => simp [Arg.positiveInteger] at hs
      | string s => simp [Arg.positiveInteger] at hs
      | nonInteger => simp [Arg.positiveInteger] at hs

/-- C27: each of `new UInt(span, property)`, `new UIntBE(span, property)`,
`new Int(span, property)` and `new IntBE(span, property)` returns an instance
of its class with the span and the property given when `span` is an integer
from 1 to 6, and fails with a `TypeError` for every other `span`: greater than
6, or not a positive integer. -/
theorem integer_width (span : Arg) (property : Option String) :
    (∀ n : ℕ, 1 ≤ n → n ≤ 6 → span = Arg.integer (n : ℤ) →
      UInt.new span property = Except.ok (Layout.UInt n property) ∧
      UIntBE.new span property = Except.ok (Layout.UIntBE n property) ∧
      Int.new span property = Except.ok (Layout.Int n property) ∧
      IntBE.new span property = Except.ok (Layout.IntBE n property)) ∧
    ((¬ ∃ n : ℤ, 1 ≤ n ∧ n ≤ 6 ∧ span = Arg.integer n) →
      UInt.new span property = Except.error Err.typeError ∧
      UIntBE.new span property = Except.error Err.typeError ∧
      Int.new span property = Except.error Err.typeError ∧
      IntBE.new span property = Except.error Err.typeError) := by
  constructor
  · intro n h1 h6 hs
    subst hs
    simp only [UInt.new, UIntBE.new, Int.new, IntBE.new, intSpan_nat n h1 h6]
    exact ⟨rfl, rfl, rfl, rfl⟩
  · intro h
    simp only [UInt.new, UIntBE.new, Int.new, IntBE.new, intSpan_error span h]
    exact ⟨rfl, rfl, rfl, rfl⟩

theorem integer_width_witness :
    (∀ n : ℕ, 1 ≤ n → n ≤ 6 → Arg.integer 7 = Arg.integer (n : ℤ) →
      UInt.new (Arg.integer 7) none = Except.ok (Layout.UInt n none) ∧
      UIntBE.new (Arg.integer 7) none = Except.ok (Layout.UIntBE n none) ∧
      Int.new (Arg.integer 7) none = Except.ok (Layout.Int n none) ∧
      IntBE.new (Arg.integer 7) none = Except.ok (Layout.IntBE n none)) ∧
    ((¬ ∃ n : ℤ, 1 ≤ n ∧ n ≤ 6 ∧ Arg.integer 7 = Arg.integer n) →
      UInt.new (Arg.integer 7) none = Except.error Err.typeError ∧
      UIntBE.new (Arg.integer 7) none = Except.error Err.typeError ∧
      Int.new (Arg.integer 7) none = Except.error Err.typeError ∧
      IntBE.new (Arg.integer 7) none = Except.error Err.typeError) :=
  integer_width (Arg.integer 7) none

/-- C28, the claim as it stands fails: `new Sequence(u16(), 2 ** 1023)` is
given a layout and a positive integer, and throws the `TypeError` of the
constructor `Layout`, because the host computes `Infinity` for the span
`2 ** 1023 * 2`. -/
theorem sequence_new_overflow :
    (∃ n : ℤ, 0 < n ∧ Arg.integer (2 ^ 1023) = Arg.integer n) ∧
    Sequence.new (some (Layout.UInt 2 none)) (Arg.integer (2 ^ 1023)) none
      = Except.error Err.typeError := by
  have hp : ∀ x : ℕ, (0 : ℤ) < 2 ^ x := fun x => by positivity
  have hn : ∀ x : ℕ, ((2 : ℤ) ^ x).toNat = 2 ^ x := fun x => by
    have e : ((2 : ℤ) ^ x) = ((2 ^ x : ℕ) : ℤ) := by push_cast; rfl
    rw [e, Int.toNat_ofNat]
  refine ⟨⟨_, hp 1023, rfl⟩, ?_⟩
  have hinf : ¬ (0 < Number.mul (2 ^ 1023) 2 ∧ Number.mul (2 ^ 1023) 2 < Number.infinity) := by
    rintro ⟨_, h⟩
    have h1 := (nearest_finite_iff _).1 h
    have h2 : ¬ ((2 : ℕ) ^ 1023 * 2 < 2 ^ 1024 - 2 ^ 970) := by decide!
    exact h2 h1
  simp only [Sequence.new, Arg.positiveInteger, hp 1023, if_true, hn, init_ofNumber,
    Layout.span]
  rw [if_neg hinf]

/-- C28, as amended: `new Sequence(elt_layout, count, property)` fails with a
`TypeError` if `elt_layout` is not a layout or if `count` is not a positive
integer; for a layout `elt_layout`, whose span is positive as that of every
layout, and a positive integer `count` it returns a sequence that stores
`elt_layout`, `count` and `property` as given when the product
`count * elt_layout.span` is below `2 ^ 1024 - 2 ^ 970`, and fails with a
`TypeError` when the product is that or more, for which the host computes
`Infinity`. -/
theorem sequence_new (elt_layout : Option Layout) (count : Arg) (property : Option String) :
    (elt_layout = none ∨ (¬ ∃ n : ℤ, 0 < n ∧ count = Arg.integer n) →
      Sequence.new elt_layout count property = Except.error Err.typeError) ∧
    (∀ (elo : Layout) (n : ℕ), elt_layout = some elo → 0 < elo.span → 0 < n →
      count = Arg.integer (n : ℤ) →
      (n * elo.span < 2 ^ 1024 - 2 ^ 970 →
        ∃ s, Sequence.new elt_layout count property = Except.ok s ∧ s.kind = Kind.Sequence ∧
          s.elt_layout = some elo ∧ s.count = some n ∧ s.property = property) ∧
      (2 ^ 1024 - 2 ^ 970 ≤ n * elo.span →
        Sequence.new elt_layout count property = Except.error Err.typeError)) := by
  constructor
  · intro h
    cases elt_layout with
    | none => rfl
    | some elo =>
      rcases h with h | h
      · cases h
      · rw [← positiveInteger_none_iff] at h
        simp only [Sequence.new, h]
  · intro elo n he hspan hn hc
    subst he hc
    have hpos : 0 < Number.mul n elo.span := nearest_pos _ (Nat.mul_pos hn hspan)
    have hnew : Sequence.new (some elo) (Arg.integer (n : ℤ)) property
        = if 0 < Number.mul n elo.span ∧ Number.mul n elo.span < Number.infinity then
            Except.ok (Layout.Sequence (Number.mul n elo.span) property elo n)
          else Except.error Err.typeError := by
      simp only [Sequence.new, positiveInteger_nat n hn, init_ofNumber]
      by_cases hc : 0 < Number.mul n elo.span ∧ Number.mul n elo.span < Number.infinity
      · rw [if_pos hc, if_pos hc]
      · rw [if_neg hc, if_neg hc]
    constructor
    · intro hlt
      have hfin : Number.mul n elo.span < Number.infinity := (nearest_finite_iff _).2 hlt
      refine ⟨Layout.Sequence (Number.mul n elo.span) property elo n, ?_, rfl, rfl, rfl, rfl⟩
      rw [hnew, if_pos ⟨hpos, hfin⟩]
    · intro hge
      have hinf : ¬ (0 < Number.mul n elo.span ∧ Number.mul n elo.span < Number.infinity) := by
        rintro ⟨_, h⟩
        exact absurd ((nearest_finite_iff _).1 h) (Nat.not_lt.2 hge)
      rw [hnew, if_neg hinf]

theorem sequence_new_witness :
    (some (Layout.UInt 1 none) = none ∨
        (¬ ∃ n : ℤ, 0 < n ∧ Arg.integer ((4 : ℕ) : ℤ) = Arg.integer n) →
      Sequence.new (some (Layout.UInt 1 none)) (Arg.integer ((4 : ℕ) : ℤ)) (some "id")
        = Except.error Err.typeError) ∧
    (∀ (elo : Layout) (n : ℕ), some (Layout.UInt 1 none) = some elo → 0 < elo.span → 0 < n →
      Arg.integer ((4 : ℕ) : ℤ) = Arg.integer (n : ℤ) →
      (n * elo.span < 2 ^ 1024 - 2 ^ 970 →
        ∃ s, Sequence.new (some (Layout.UInt 1 none)) (Arg.integer ((4 : ℕ) : ℤ)) (some "id")
            = Except.ok s ∧ s.kind = Kind.Sequence ∧
          s.elt_layout = some elo ∧ s.count = some n ∧ s.property = some "id") ∧
      (2 ^ 1024 - 2 ^ 970 ≤ n * elo.span →
        Sequence.new (some (Layout.UInt 1 none)) (Arg.integer ((4 : ℕ) : ℤ)) (some "id")
          = Except.error Err.typeError)) :=
  sequence_new (some (Layout.UInt 1 none)) (Arg.integer ((4 : ℕ) : ℤ)) (some "id")

/-! ## Replicas -/

/-- C29: `L.replicate(p)` returns a layout of the class of `L` whose property is
`p` (`undefined` when `p` is omitted) and whose fields `span`, `elt_layout`,
`count`, `fields`, `discr_layout`, `default_layout`, `registry`, `union`,
`variant` and `layout` are those of `L`; the replica of a variant layout is an
object with a reference that the store has not given out before, and the
registries of the store are as they were. -/
theorem replicate_frame (σ : Store) (l : Layout) (p : Option String) :
    (Layout.replicate σ l p).1.property = p ∧
    (Layout.replicate σ l p).1.kind = l.kind ∧
    (Layout.replicate σ l p).1.span = l.span ∧
    (Layout.replicate σ l p).1.elt_layout = l.elt_layout ∧
    (Layout.replicate σ l p).1.count = l.count ∧
    (Layout.replicate σ l p).1.fields = l.fields ∧
    (Layout.replicate σ l p).1.discr_layout = l.discr_layout ∧
    (Layout.replicate σ l p).1.default_layout = l.default_layout ∧
    (Layout.replicate σ l p).1.registry = l.registry ∧
    (Layout.replicate σ l p).1.union = l.union ∧
    (Layout.replicate σ l p).1.variant = l.variant ∧
    (Layout.replicate σ l p).1.layout = l.layout ∧
    (Layout.replicate σ l p).1.ref = l.ref.map (fun _ => σ.next) ∧
    (Layout.replicate σ l p).2.registry = σ.registry ∧
    σ.next ≤ (Layout.replicate σ l p).2.next := by
  cases l <;>
    exact ⟨rfl, rfl, rfl, rfl, rfl, rfl, rfl, rfl, rfl, rfl, rfl, rfl, rfl, rfl,
      by first | exact Nat.le_refl _ | exact Nat.le_succ _⟩

/-! ## Objects from arrays of values -/

theorem fromArrayFields_nil (fields : List Layout) (dest : Obj) :
    Structure.fromArrayFields fields [] dest = dest := by
  induction fields with
  | nil => rfl
  | cons fd rest ih =>
    cases hp : fd.property with
    | none => simp only [Structure.fromArrayFields, hp, ih]
    | some p => simp only [Structure.fromArrayFields, hp, ih]

/-- The loop of `fromArray` assigns the values, one after the other, to the
properties of the named fields, as far as both lists go. -/
theorem fromArrayFields_eq (fields : List Layout) (values : List Value) (dest : Obj) :
    Structure.fromArrayFields fields values dest
      = Obj.setAll dest ((Structure.names fields).zip values) := by
  induction fields generalizing values dest with
  | nil => rfl
  | cons fd rest ih =>
    cases hp : fd.property with
    | none =>
      have e : Structure.names (fd :: rest) = Structure.names rest := by
        simp only [Structure.names, List.filterMap_cons, hp]
      simp only [Structure.fromArrayFields, hp, e, ih]
    | some p =>
      have e : Structure.names (fd :: rest) = p :: Structure.names rest := by
        simp only [Structure.names, List.filterMap_cons, hp]
      cases values with
      | nil =>
        simp only [Structure.fromArrayFields, hp, fromArrayFields_nil, List.zip_nil_right]
        rfl
      | cons v vs =>
        simp only [Structure.fromArrayFields, hp, e, ih, List.zip_cons_cons]
        rfl

theorem setAll_other (ps : List (String × Value)) (o : Obj) (k : String)
    (h : ∀ pv, pv ∈ ps → pv.1 ≠ k) :
    Obj.has (Obj.setAll o ps) k = Obj.has o k ∧ Obj.get (Obj.setAll o ps) k = Obj.get o k := by
  induction ps generalizing o with
  | nil => exact ⟨rfl, rfl⟩
  | cons pv rest ih =>
    obtain ⟨q, x⟩ := pv
    have hq : q ≠ k := h (q, x) (List.mem_cons_self _ _)
    obtain ⟨e1, e2⟩ := ih (Obj.set o q x) (fun pv hpv => h pv (List.mem_cons_of_mem _ hpv))
    simp only [Obj.setAll]
    rw [e1, e2, has_set_ne _ _ _ _ hq, get_set_ne _ _ _ _ hq]
    exact ⟨rfl, rfl⟩

theorem setAll_last (ps : List (String × Value)) (o : Obj) (i : ℕ) (p : String) (v : Value)
    (hi : ps[i]? = some (p, v))
    (hlast : ∀ j w, i < j → ps[j]? ≠ some (p, w)) :
    Obj.has (Obj.setAll o ps) p = true ∧ Obj.get (Obj.setAll o ps) p = v := by
  induction ps generalizing o i with
  | nil => simp at hi
  | cons pv rest ih =>
    obtain ⟨q, x⟩ := pv
    cases i with
    | zero =>
      simp only [List.getElem?_cons_zero, Option.some.injEq, Prod.mk.injEq] at hi
      obtain ⟨hq, hx⟩ := hi
      subst hq hx
      have hrest : ∀ pv, pv ∈ rest → pv.1 ≠ q := by
        intro pv hpv e
        obtain ⟨n, hn⟩ := List.mem_iff_getElem?.1 hpv
        apply hlast (n + 1) pv.2 (Nat.succ_pos n)
        rw [List.getElem?_cons_succ, hn, ← e]
      obtain ⟨e1, e2⟩ := setAll_other rest (Obj.set o q x) q hrest
      simp only [Obj.setAll]
      rw [e1, e2, has_set_eq, get_set_eq]
      exact ⟨rfl, rfl⟩
    | succ i =>
      rw [List.getElem?_cons_succ] at hi
      simp only [Obj.setAll]
      refine ih (Obj.set o q x) i hi ?_
      intro j w hj hjw
      apply hlast (j + 1) w (Nat.succ_lt_succ hj)
      rw [List.getElem?_cons_succ]
      exact hjw

/-- C30, as amended: `st.fromArray(values, dest)` returns `dest` (a fresh empty
object when omitted) in which the property of the `i`-th named field, in
declaration order and skipping unnamed fields, is bound to `values[i]`, for
every `i` below both the number of named fields and the length of `values`
such that no later named field that receives a value carries the same
property; the properties that no named field receiving a value carries are
present or absent as in `dest`, with the values they had there. -/
theorem structure_fromArray (span : ℕ) (property : Option String) (fields : List Layout)
    (values : List Value) (dest : Option Obj) :
    ∃ o, Layout.fromArray (Layout.Structure span property fields) values dest
        = Value.object o ∧
      (∀ i p v, (Structure.names fields)[i]? = some p → values[i]? = some v →
        (∀ j, i < j → j < values.length → (Structure.names fields)[j]? ≠ some p) →
        Obj.has o p = true ∧ Obj.get o p = v) ∧
      (∀ k, (∀ i, i < values.length → (Structure.names fields)[i]? ≠ some k) →
        Obj.has o k = Obj.has (dest.getD []) k ∧ Obj.get o k = Obj.get (dest.getD []) k) := by
  refine ⟨Structure.fromArrayFields fields values (dest.getD []), rfl, ?_, ?_⟩
  · intro i p v hp hv hlast
    rw [fromArrayFields_eq]
    refine setAll_last _ _ i p v (List.getElem?_zip_eq_some.2 ⟨hp, hv⟩) ?_
    intro j w hj hjw
    obtain ⟨h1, h2⟩ := List.getElem?_zip_eq_some.1 hjw
    obtain ⟨hlt, _⟩ := List.getElem?_eq_some.1 h2
    exact hlast j hj hlt h1
  · intro k hk
    rw [fromArrayFields_eq]
    refine setAll_other _ _ k ?_
    intro pv hpv e
    obtain ⟨n, hn⟩ := List.mem_iff_getElem?.1 hpv
    obtain ⟨h1, h2⟩ := List.getElem?_zip_eq_some.1 hn
    obtain ⟨hlt, _⟩ := List.getElem?_eq_some.1 h2
    exact hk n hlt (by rw [h1, e])

theorem structure_fromArray_witness :
    ∃ o, Layout.fromArray
        (Layout.Structure 3 none
          [Layout.UInt 1 (some "a"), Layout.UInt 1 none, Layout.UInt 1 (some "c")])
        [Value.number 1, Value.number 2, Value.number 3] (some [("z", Value.number 9)])
        = Value.object o ∧
      (∀ i p v,
        (Structure.names
          [Layout.UInt 1 (some "a"), Layout.UInt 1 none, Layout.UInt 1 (some "c")])[i]? = some p →
        [Value.number 1, Value.number 2, Value.number 3][i]? = some v →
        (∀ j, i < j → j < [Value.number 1, Value.number 2, Value.number 3].length →
          (Structure.names
            [Layout.UInt 1 (some "a"), Layout.UInt 1 none, Layout.UInt 1 (some "c")])[j]?
              ≠ some p) →
        Obj.has o p = true ∧ Obj.get o p = v) ∧
      (∀ k, (∀ i, i < [Value.number 1, Value.number 2, Value.number 3].length →
          (Structure.names
            [Layout.UInt 1 (some "a"), Layout.UInt 1 none, Layout.UInt 1 (some "c")])[i]?
              ≠ some k) →
        Obj.has o k = Obj.has ((some [("z", Value.number 9)] : Option Obj).getD []) k ∧
          Obj.get o k = Obj.get ((some [("z", Value.number 9)] : Option Obj).getD []) k) :=
  structure_fromArray 3 none
    [Layout.UInt 1 (some "a"), Layout.UInt 1 none, Layout.UInt 1 (some "c")]
    [Value.number 1, Value.number 2, Value.number 3] (some [("z", Value.number 9)])

/-- C30 fails as stated: in `new Structure([u8('a'), u8('a')])` both fields
carry the property `a`, and `fromArray([1, 2])` returns `{a: 2}`: the property
of the first named field is bound to `values[1]`, not to `values[0]`. -/
theorem fromArray_same_name :
    Layout.fromArray
        (Layout.Structure 2 none [Layout.UInt 1 (some "a"), Layout.UInt 1 (some "a")])
        [Value.number 1, Value.number 2] none
      = Value.object [("a", Value.number 2)] ∧
    (Structure.names [Layout.UInt 1 (some "a"), Layout.UInt 1 (some "a")])[0]? = some "a" ∧
    ([Value.number 1, Value.number 2] : List Value)[0]? = some (Value.number 1) ∧
    Obj.get [("a", Value.number 2)] "a" ≠ Value.number 1 := by
  refine ⟨rfl, rfl, rfl, ?_⟩
  intro h
  simp [Obj.get] at h

/-! ## `fromArray` on the other classes -/

/-- C31: `fromArray` returns `undefined` for every layout that is neither a
structure nor a variant layout (the integer codecs, sequences and unions, in
whatever store), and for a variant layout `v` it returns
`v.layout.fromArray(values, dest)` when `v.layout` is a structure and
`undefined` otherwise. -/
theorem fromArray_non_structure (values : List Value) (dest : Option Obj) :
    (∀ l : Layout, l.kind ≠ Kind.Structure → l.kind ≠ Kind.VariantLayout →
      Layout.fromArray l values dest = Value.undefined) ∧
    (∀ (ref span : ℕ) (p : Option String) (un : Layout) (k : ℕ) (lo : Layout),
      Layout.fromArray (Layout.VariantLayout ref span p un k lo) values dest
        = if lo.kind = Kind.Structure then Layout.fromArray lo values dest
          else Value.undefined) := by
  constructor
  · intro l h1 h2
    cases l with
    | Structure span p fields => exact absurd rfl h1
    | VariantLayout ref span p un k lo => exact absurd rfl h2
    | Base span p => rfl
    | UInt span p => rfl
    | UIntBE span p => rfl
    | Int span p => rfl
    | IntBE span p => rfl
    | Sequence span p elo count => rfl
    | Union span p layout dlo dflt registry => rfl
  · intro ref span p un k lo
    cases lo <;> simp [Layout.fromArray, VariantLayout.fromArray, Layout.kind]

theorem fromArray_non_structure_witness :
    Layout.fromArray exampleUnion [Value.number 1, Value.number 2, Value.number 3] none
      = Value.undefined :=
  (fromArray_non_structure [Value.number 1, Value.number 2, Value.number 3] none).1
    exampleUnion (by decide) (by decide)

/-! ## Failing in the middle of a structure -/

theorem encodeFields_append_if (enc : Encoder) (src : Value) (pre rest : List Layout)
    (b : Buffer) (offset : ℕ) :
    Structure.encodeFields enc src (pre ++ rest) b offset
      = if (Structure.encodeFields enc src pre b offset).error = none then
          Structure.encodeFields enc src rest (Structure.encodeFields enc src pre b offset).buffer
            (offset + (pre.map Layout.span).sum)
        else Structure.encodeFields enc src pre b offset := by
  induction pre generalizing b offset with
  | nil => simp [Structure.encodeFields]
  | cons fd pre ih =>
    rw [List.cons_append, encodeFields_cons enc src fd (pre ++ rest),
      encodeFields_cons enc src fd pre]
    by_cases hw : (Structure.encodeField enc src fd b offset).error = none
    · simp only [if_pos hw, List.map_cons, List.sum_cons]
      rw [ih, Nat.add_assoc]
    · simp only [if_neg hw]

theorem keepsBelow_encodeField (fuel : ℕ) (src : Value) (fd : Layout) (b : Buffer)
    (offset : ℕ) :
    KeepsBelow b offset (Structure.encodeField (Layout.encode fuel) src fd b offset) := by
  cases hp : fd.property with
  | none =>
    simp only [Structure.encodeField, hp]
    exact keepsBelow_refl _ _ _
  | some p =>
    cases hg : src.getProp p with
    | error e =>
      simp only [Structure.encodeField, hp, hg]
      exact keepsBelow_refl _ _ _
    | ok fv =>
      simp only [Structure.encodeField, hp, hg]
      by_cases hu : fv.isUndefined = true
      · rw [if_pos hu]
        exact keepsBelow_fill _ _ _ _
      · rw [if_neg hu]
        exact keepsBelow_encode _ _ _ _ _

/-- C32: when the fields `pre` before a field encode successfully and the
field itself fails (its `encode`, its zero fill, or the read of its property),
`st.encode(src, b, offset)` fails, and the buffer it leaves is the one left by
the failing field on top of the encoding of the fields `pre`: at every
position below the failing field it holds what a successful encode of the
fields `pre` writes.  So there are a structure, a source and a buffer for
which the encode raises an error and leaves a buffer that differs from the one
before the call. -/
theorem no_rollback (fe spre span : ℕ) (ppre property : Option String)
    (pre post : List Layout) (fld : Layout) (src : Value) (b : Buffer) (offset : ℕ)
    (hpre : (Layout.encode (fe + 1) (Layout.Structure spre ppre pre) src b offset).error = none)
    (hfail : (Structure.encodeField (Layout.encode fe) src fld
      (Layout.encode (fe + 1) (Layout.Structure spre ppre pre) src b offset).buffer
      (offset + (pre.map Layout.span).sum)).error ≠ none) :
    (Layout.encode (fe + 1) (Layout.Structure span property (pre ++ fld :: post)) src b
        offset).error ≠ none ∧
    Layout.encode (fe + 1) (Layout.Structure span property (pre ++ fld :: post)) src b offset
      = Structure.encodeField (Layout.encode fe) src fld
          (Layout.encode (fe + 1) (Layout.Structure spre ppre pre) src b offset).buffer
          (offset + (pre.map Layout.span).sum) ∧
    (∀ i, i < offset + (pre.map Layout.span).sum →
      (Layout.encode (fe + 1) (Layout.Structure span property (pre ++ fld :: post)) src b
          offset).buffer[i]?
        = (Layout.encode (fe + 1) (Layout.Structure spre ppre pre) src b offset).buffer[i]?) ∧
    ∃ (st : Layout) (src0 : Value) (b0 : Buffer),
      (Layout.encode 2 st src0 b0 0).error ≠ none ∧ (Layout.encode 2 st src0 b0 0).buffer ≠ b0 := by
  have hpre2 : (Structure.encodeFields (Layout.encode fe) src pre b offset).error = none := hpre
  have heq : Layout.encode (fe + 1) (Layout.Structure span property (pre ++ fld :: post)) src b
      offset
      = Structure.encodeField (Layout.encode fe) src fld
          (Layout.encode (fe + 1) (Layout.Structure spre ppre pre) src b offset).buffer
          (offset + (pre.map Layout.span).sum) := by
    show Structure.encodeFields (Layout.encode fe) src (pre ++ fld :: post) b offset = _
    rw [encodeFields_append_if, if_pos hpre2, encodeFields_cons]
    exact if_neg hfail
  refine ⟨by rw [heq]; exact hfail, heq, ?_, ?_⟩
  · intro i hi
    rw [heq]
    exact (keepsBelow_encodeField fe src fld _ _).2 i hi
  · refine ⟨Layout.Structure 2 none [Layout.UInt 1 (some "a"), Layout.UInt 1 (some "b")],
      Value.object [("a", Value.number 1), ("b", Value.number 256)], [0, 0], ?_, ?_⟩
    · decide
    · decide

theorem no_rollback_witness :
    (Layout.encode 2
        (Layout.Structure 2 none ([Layout.UInt 1 (some "a")] ++ Layout.UInt 1 (some "b") :: []))
        (Value.object [("a", Value.number 1), ("b", Value.number 256)]) [0, 0] 0).error ≠ none ∧
    Layout.encode 2
        (Layout.Structure 2 none ([Layout.UInt 1 (some "a")] ++ Layout.UInt 1 (some "b") :: []))
        (Value.object [("a", Value.number 1), ("b", Value.number 256)]) [0, 0] 0
      = Structure.encodeField (Layout.encode 1)
          (Value.object [("a", Value.number 1), ("b", Value.number 256)])
          (Layout.UInt 1 (some "b"))
          (Layout.encode 2 (Layout.Structure 1 none [Layout.UInt 1 (some "a")])
            (Value.object [("a", Value.number 1), ("b", Value.number 256)]) [0, 0] 0).buffer
          (0 + ([Layout.UInt 1 (some "a")].map Layout.span).sum) ∧
    (∀ i, i < 0 + ([Layout.UInt 1 (some "a")].map Layout.span).sum →
      (Layout.encode 2
          (Layout.Structure 2 none ([Layout.UInt 1 (some "a")] ++ Layout.UInt 1 (some "b") :: []))
          (Value.object [("a", Value.number 1), ("b", Value.number 256)]) [0, 0] 0).buffer[i]?
        = (Layout.encode 2 (Layout.Structure 1 none [Layout.UInt 1 (some "a")])
            (Value.object [("a", Value.number 1), ("b", Value.number 256)]) [0, 0]
            0).buffer[i]?) ∧
    ∃ (st : Layout) (src0 : Value) (b0 : Buffer),
      (Layout.encode 2 st src0 b0 0).error ≠ none ∧ (Layout.encode 2 st src0 b0 0).buffer ≠ b0 :=
  no_rollback 1 1 2 none none [Layout.UInt 1 (some "a")] [] (Layout.UInt 1 (some "b"))
    (Value.object [("a", Value.number 1), ("b", Value.number 256)]) [0, 0] 0 rfl (by decide)

/-! ## Replicas and the identity of variant layouts -/

theorem replicate_encode (σ : Store) (fuel : ℕ) (l : Layout) (p : Option String) (v : Value)
    (b : Buffer) (offset : ℕ) :
    Layout.encode fuel (Layout.replicate σ l p).1 v b offset = Layout.encode fuel l v b offset := by
  cases fuel with
  | zero => rfl
  | succ fuel => cases l <;> rfl

theorem replicate_decode (σ : Store) (fuel : ℕ) (l : Layout) (p : Option String)
    (h : l.kind ≠ Kind.VariantLayout) (b : Buffer) (offset : ℕ) (dest : Option Obj) :
    Layout.decode (Layout.replicate σ l p).2 fuel (Layout.replicate σ l p).1 b offset dest
      = Layout.decode (Layout.replicate σ l p).2 fuel l b offset dest := by
  cases fuel with
  | zero => rfl
  | succ fuel =>
    cases l with
    | VariantLayout ref span q un k lo => exact absurd rfl h
    | Base span q => rfl
    | UInt span q => rfl
    | UIntBE span q => rfl
    | Int span q => rfl
    | IntBE span q => rfl
    | Sequence span q elo count => rfl
    | Structure span q fields => rfl
    | Union span q layout dlo dflt registry => rfl

/-- A variant layout whose reference no entry of the registry of its union
carries never decodes: it fails in reading the discriminator, or with the
mismatch error. -/
theorem unregistered_decode (σ : Store) (fuel ref span : ℕ) (p : Option String) (un : Layout)
    (k : ℕ) (lo : Layout) (b : Buffer) (offset : ℕ) (dest : Option Obj)
    (h : ∀ key w, σ.registry.lookup key = some w → w.ref ≠ some ref) :
    ∃ e, Layout.decode σ fuel (Layout.VariantLayout ref span p un k lo) b offset dest
      = Except.error e := by
  cases fuel with
  | zero => exact ⟨_, rfl⟩
  | succ fuel =>
    cases un with
    | Union us up ul dlo dflt registry =>
      simp only [Layout.decode, VariantLayout.decode, Union.getVariant, Option.getD_some]
      cases hd : Layout.decode σ fuel dlo b offset none with
      | error e => exact ⟨e, rfl⟩
      | ok d =>
        simp only []
        have hne : (σ.entry registry d).bind Layout.ref ≠ some ref := by
          cases hw : σ.entry registry d with
          | none => simp
          | some w =>
            obtain ⟨n, _, hl⟩ := entry_some σ registry d w hw
            simpa using h _ w hl
        rw [if_neg hne]
        exact ⟨_, rfl⟩
    | Base s q => exact ⟨_, rfl⟩
    | UInt s q => exact ⟨_, rfl⟩
    | UIntBE s q => exact ⟨_, rfl⟩
    | Int s q => exact ⟨_, rfl⟩
    | IntBE s q => exact ⟨_, rfl⟩
    | Sequence s q elo count => exact ⟨_, rfl⟩
    | Structure s q fields => exact ⟨_, rfl⟩
    | VariantLayout r s q u j l2 => exact ⟨_, rfl⟩

/-- C36, as amended: for every layout `L` and property `p`,
`L.replicate(p).encode(v, b, offset)` leaves the buffer, and raises the error,
that `L.encode(v, b, offset)` does; for every layout `L` other than a variant
layout, `L.replicate(p).decode(b, offset)` returns what `L.decode(b, offset)`
returns, or fails as it fails; the replica of a variant layout is a new object,
which the registry of the union does not hold, and its `decode` never returns
a value. -/
theorem replica_equivalence (σ : Store) (l : Layout) (p : Option String) :
    (∀ (fuel : ℕ) (v : Value) (b : Buffer) (offset : ℕ),
      Layout.encode fuel (Layout.replicate σ l p).1 v b offset
        = Layout.encode fuel l v b offset) ∧
    (l.kind ≠ Kind.VariantLayout → ∀ (fuel : ℕ) (b : Buffer) (offset : ℕ) (dest : Option Obj),
      Layout.decode (Layout.replicate σ l p).2 fuel (Layout.replicate σ l p).1 b offset dest
        = Layout.decode (Layout.replicate σ l p).2 fuel l b offset dest) ∧
    (l.kind = Kind.VariantLayout →
      (∀ key w r, σ.registry.lookup key = some w → w.ref = some r → r < σ.next) →
      ∀ (fuel : ℕ) (b : Buffer) (offset : ℕ) (dest : Option Obj),
        ∃ e, Layout.decode (Layout.replicate σ l p).2 fuel (Layout.replicate σ l p).1 b offset
          dest = Except.error e) := by
  refine ⟨fun fuel v b offset => replicate_encode σ fuel l p v b offset,
    fun h fuel b offset dest => replicate_decode σ fuel l p h b offset dest, ?_⟩
  intro hk hfresh fuel b offset dest
  cases l with
  | VariantLayout ref span q un k lo =>
    refine unregistered_decode _ fuel σ.next span p un k lo b offset dest ?_
    intro key w hw he
    have := hfresh key w σ.next hw he
    exact absurd this (Nat.lt_irrefl _)
  | Base s q => simp [Layout.kind] at hk
  | UInt s q => simp [Layout.kind] at hk
  | UIntBE s q => simp [Layout.kind] at hk
  | Int s q => simp [Layout.kind] at hk
  | IntBE s q => simp [Layout.kind] at hk
  | Sequence s q elo count => simp [Layout.kind] at hk
  | Structure s q fields => simp [Layout.kind] at hk
  | Union s q layout dlo dflt registry => simp [Layout.kind] at hk

theorem replica_equivalence_witness :
    (∀ (fuel : ℕ) (v : Value) (b : Buffer) (offset : ℕ),
      Layout.encode fuel (Layout.replicate exampleStore exampleVariant (some "x")).1 v b offset
        = Layout.encode fuel exampleVariant v b offset) ∧
    (exampleVariant.kind ≠ Kind.VariantLayout →
      ∀ (fuel : ℕ) (b : Buffer) (offset : ℕ) (dest : Option Obj),
      Layout.decode (Layout.replicate exampleStore exampleVariant (some "x")).2 fuel
          (Layout.replicate exampleStore exampleVariant (some "x")).1 b offset dest
        = Layout.decode (Layout.replicate exampleStore exampleVariant (some "x")).2 fuel
          exampleVariant b offset dest) ∧
    (exampleVariant.kind = Kind.VariantLayout →
      (∀ key w r, exampleStore.registry.lookup key = some w → w.ref = some r →
        r < exampleStore.next) →
      ∀ (fuel : ℕ) (b : Buffer) (offset : ℕ) (dest : Option Obj),
        ∃ e, Layout.decode (Layout.replicate exampleStore exampleVariant (some "x")).2 fuel
          (Layout.replicate exampleStore exampleVariant (some "x")).1 b offset dest
            = Except.error e) :=
  replica_equivalence exampleStore exampleVariant (some "x")

/-- C36 fails as stated: `v = un.addVariant(1, u32())` on
`new Union(u8(), u32())` decodes the bytes `01 04 03 02 01` to `0x01020304`,
while `v.replicate('x').decode` fails on them with the mismatch error: the
registry holds `v`, not the replica. -/
theorem replica_of_variant_mismatch :
    Layout.replicate exampleStore exampleVariant (some "x")
      = (Layout.VariantLayout 2 5 (some "x") exampleUnion 1 (Layout.UInt 4 none),
          ⟨3, [((0, 1), exampleVariant)]⟩) ∧
    Layout.decode ⟨3, [((0, 1), exampleVariant)]⟩ 2 exampleVariant [1, 4, 3, 2, 1] 0 none
      = Except.ok (Value.number 0x01020304) ∧
    Layout.decode ⟨3, [((0, 1), exampleVariant)]⟩ 2
        (Layout.VariantLayout 2 5 (some "x") exampleUnion 1 (Layout.UInt 4 none))
        [1, 4, 3, 2, 1] 0 none
      = Except.error Err.variantMismatch := by
  refine ⟨rfl, rfl, rfl⟩

theorem unsigned_decode_in_bounds (σ : Store) (fuel : ℕ) (l : Layout)
    (hl : l.isUnsigned = true) (b : Buffer) (offset : ℕ) (dest : Option Obj)
    (hb : offset + l.span ≤ b.length) :
    ∃ n : ℤ, Layout.decode σ (fuel + 1) l b offset dest = Except.ok (Value.number n) := by
  cases l with
  | UInt span p =>
    have h : ¬ b.length < offset + span := Nat.not_lt.mpr hb
    exact ⟨_, by simp only [Layout.decode, UInt.decode, Buffer.readUIntLE, if_neg h]; rfl⟩
  | UIntBE span p =>
    have h : ¬ b.length < offset + span := Nat.not_lt.mpr hb
    exact ⟨_, by simp only [Layout.decode, UIntBE.decode, Buffer.readUIntBE, if_neg h]; rfl⟩
  | Base span p => simp [Layout.isUnsigned] at hl
  | Int span p => simp [Layout.isUnsigned] at hl
  | IntBE span p => simp [Layout.isUnsigned] at hl
  | Sequence span p elo count => simp [Layout.isUnsigned] at hl
  | Structure span p fields => simp [Layout.isUnsigned] at hl
  | Union span p layout dlo dflt registry => simp [Layout.isUnsigned] at hl
  | VariantLayout ref span p union variant layout => simp [Layout.isUnsigned] at hl

/-- C37, as amended: let `v` be a variant layout of a union whose discriminator
is an unsigned integer, and `b`, `offset` such that the discriminator lies
inside the buffer, where it reads `d`.  Then `v.decode(b, offset, dest)`
returns a value if and only if the entry of the registry under `d` is `v`
itself and `v.layout.decode(b, offset + v.union.discr_layout.span, dest)`
returns a value, which is then the value returned; when the entry is not `v`
itself it fails with the mismatch error.  Hence a variant layout that the
registry of its union does not hold (never registered, or displaced by a
later registration) fails with the mismatch error on every such buffer. -/
theorem variant_decode_identity (σ : Store) (fuel ref span : ℕ) (p : Option String)
    (uspan : ℕ) (up : Option String) (ul dlo dflt : Layout) (registry k : ℕ) (lo : Layout)
    (b : Buffer) (offset : ℕ) (dest : Option Obj)
    (hun : dlo.isUnsigned = true) (hb : offset + dlo.span ≤ b.length) :
    ∃ d, Layout.decode σ (fuel + 1) dlo b offset none = Except.ok d ∧
      ((∃ x, Layout.decode σ (fuel + 2)
          (Layout.VariantLayout ref span p (Layout.Union uspan up ul dlo dflt registry) k lo)
          b offset dest = Except.ok x) ↔
        ((σ.entry registry d).bind Layout.ref = some ref ∧
          ∃ x, Layout.decode σ (fuel + 1) lo b (offset + dlo.span) dest = Except.ok x)) ∧
      ((σ.entry registry d).bind Layout.ref = some ref →
        Layout.decode σ (fuel + 2)
          (Layout.VariantLayout ref span p (Layout.Union uspan up ul dlo dflt registry) k lo)
          b offset dest = Layout.decode σ (fuel + 1) lo b (offset + dlo.span) dest) ∧
      ((σ.entry registry d).bind Layout.ref ≠ some ref →
        Layout.decode σ (fuel + 2)
          (Layout.VariantLayout ref span p (Layout.Union uspan up ul dlo dflt registry) k lo)
          b offset dest = Except.error Err.variantMismatch) ∧
      ((∀ j w, σ.registry.lookup (registry, j) = some w → w.ref ≠ some ref) →
        Layout.decode σ (fuel + 2)
          (Layout.VariantLayout ref span p (Layout.Union uspan up ul dlo dflt registry) k lo)
          b offset dest = Except.error Err.variantMismatch) := by
  obtain ⟨n, hn⟩ := unsigned_decode_in_bounds σ fuel dlo hun b offset none hb
  have hyes : (σ.entry registry (Value.number n)).bind Layout.ref = some ref →
      Layout.decode σ (fuel + 2)
        (Layout.VariantLayout ref span p (Layout.Union uspan up ul dlo dflt registry) k lo)
        b offset dest = Layout.decode σ (fuel + 1) lo b (offset + dlo.span) dest := by
    intro h
    simp only [Layout.decode, VariantLayout.decode, Union.getVariant, Option.getD_some] at hn ⊢
    simp only [hn]
    exact if_pos h
  have hno : (σ.entry registry (Value.number n)).bind Layout.ref ≠ some ref →
      Layout.decode σ (fuel + 2)
        (Layout.VariantLayout ref span p (Layout.Union uspan up ul dlo dflt registry) k lo)
        b offset dest = Except.error Err.variantMismatch := by
    intro h
    simp only [Layout.decode, VariantLayout.decode, Union.getVariant, Option.getD_some] at hn ⊢
    simp only [hn]
    exact if_neg h
  refine ⟨Value.number n, hn, ?_, hyes, hno, ?_⟩
  · constructor
    · rintro ⟨x, hx⟩
      by_cases h : (σ.entry registry (Value.number n)).bind Layout.ref = some ref
      · rw [hyes h] at hx
        exact ⟨h, x, hx⟩
      · rw [hno h] at hx
        cases hx
    · rintro ⟨h, x, hx⟩
      exact ⟨x, by rw [hyes h, hx]⟩
  · intro h
    apply hno
    cases hw : σ.entry registry (Value.number n) with
    | none => simp
    | some w =>
      obtain ⟨m, _, hl⟩ := entry_some σ registry _ w hw
      simpa using h m w hl

theorem variant_decode_identity_witness :
    ∃ d, Layout.decode exampleStore (0 + 1) (Layout.UInt 1 none) [1, 4, 3, 2, 1] 0 none
        = Except.ok d ∧
      ((∃ x, Layout.decode exampleStore (0 + 2)
          (Layout.VariantLayout 1 5 none
            (Layout.Union 5 none
              (Layout.Structure 5 none
                [Layout.UInt 1 (some "variant"), Layout.UInt 4 (some "content")])
              (Layout.UInt 1 none) (Layout.UInt 4 none) 0) 1 (Layout.UInt 4 none))
          [1, 4, 3, 2, 1] 0 none = Except.ok x) ↔
        ((exampleStore.entry 0 d).bind Layout.ref = some 1 ∧
          ∃ x, Layout.decode exampleStore (0 + 1) (Layout.UInt 4 none) [1, 4, 3, 2, 1]
            (0 + (Layout.UInt 1 none).span) none = Except.ok x)) ∧
      ((exampleStore.entry 0 d).bind Layout.ref = some 1 →
        Layout.decode exampleStore (0 + 2)
          (Layout.VariantLayout 1 5 none
            (Layout.Union 5 none
              (Layout.Structure 5 none
                [Layout.UInt 1 (some "variant"), Layout.UInt 4 (some "content")])
              (Layout.UInt 1 none) (Layout.UInt 4 none) 0) 1 (Layout.UInt 4 none))
          [1, 4, 3, 2, 1] 0 none
          = Layout.decode exampleStore (0 + 1) (Layout.UInt 4 none) [1, 4, 3, 2, 1]
              (0 + (Layout.UInt 1 none).span) none) ∧
      ((exampleStore.entry 0 d).bind Layout.ref ≠ some 1 →
        Layout.decode exampleStore (0 + 2)
          (Layout.VariantLayout 1 5 none
            (Layout.Union 5 none
              (Layout.Structure 5 none
                [Layout.UInt 1 (some "variant"), Layout.UInt 4 (some "content")])
              (Layout.UInt 1 none) (Layout.UInt 4 none) 0) 1 (Layout.UInt 4 none))
          [1, 4, 3, 2, 1] 0 none = Except.error Err.variantMismatch) ∧
      ((∀ j w, exampleStore.registry.lookup (0, j) = some w → w.ref ≠ some 1) →
        Layout.decode exampleStore (0 + 2)
          (Layout.VariantLayout 1 5 none
            (Layout.Union 5 none
              (Layout.Structure 5 none
                [Layout.UInt 1 (some "variant"), Layout.UInt 4 (some "content")])
              (Layout.UInt 1 none) (Layout.UInt 4 none) 0) 1 (Layout.UInt 4 none))
          [1, 4, 3, 2, 1] 0 none = Except.error Err.variantMismatch) :=
  variant_decode_identity exampleStore 0 1 5 none 5 none
    (Layout.Structure 5 none [Layout.UInt 1 (some "variant"), Layout.UInt 4 (some "content")])
    (Layout.UInt 1 none) (Layout.UInt 4 none) 0 1 (Layout.UInt 4 none) [1, 4, 3, 2, 1] 0 none
    rfl (by decide)

/-- C37 fails as stated: `v = un.addVariant(1, new Layout(4))` on
`new Union(u8(), u32())` is the entry of the registry under 1, and the buffer
`01 00 00 00 00` holds the discriminator 1 and the whole span of `v`; yet
`v.decode(b, 0)` fails, with the error 'Layout is abstract' of its payload. -/
theorem registered_variant_decode_fails :
    Layout.new (Arg.integer 4) none = Except.ok (Layout.Base 4 none) ∧
    Union.addVariant ⟨1, []⟩ exampleUnion (Arg.integer 1) (some (Layout.Base 4 none)) none
      = Except.ok (Layout.VariantLayout 1 5 none exampleUnion 1 (Layout.Base 4 none),
          ⟨2, [((0, 1), Layout.VariantLayout 1 5 none exampleUnion 1 (Layout.Base 4 none))]⟩) ∧
    Layout.decode
        ⟨2, [((0, 1), Layout.VariantLayout 1 5 none exampleUnion 1 (Layout.Base 4 none))]⟩ 1
        (Layout.UInt 1 none) [1, 0, 0, 0, 0] 0 none = Except.ok (Value.number 1) ∧
    ((⟨2, [((0, 1), Layout.VariantLayout 1 5 none exampleUnion 1 (Layout.Base 4 none))]⟩ :
        Store).entry 0 (Value.number 1)).bind Layout.ref = some 1 ∧
    0 + (Layout.VariantLayout 1 5 none exampleUnion 1 (Layout.Base 4 none)).span
      ≤ ([1, 0, 0, 0, 0] : Buffer).length ∧
    Layout.decode
        ⟨2, [((0, 1), Layout.VariantLayout 1 5 none exampleUnion 1 (Layout.Base 4 none))]⟩ 3
        (Layout.VariantLayout 1 5 none exampleUnion 1 (Layout.Base 4 none))
        [1, 0, 0, 0, 0] 0 none = Except.error Err.abstract := by
  refine ⟨rfl, rfl, rfl, rfl, by decide, rfl⟩

/-! ## Decoding a union through its registry -/

/-- Every entry that calls of `un.addVariant` leave in the registry of a new
union `un` is a variant layout of `un`, held under its own variant number. -/
theorem reachable_entries (σ0 σ1 σ : Store) (discr dflt un : Layout)
    (property : Option String) (registry : ℕ)
    (hfresh : ∀ key v, σ0.registry.lookup key = some v → key.1 < σ0.next)
    (hnew : Union.new σ0 (some discr) (some dflt) property = Except.ok (un, σ1))
    (hreg : un.registry = some registry)
    (hreach : Union.Reachable un σ1 σ) :
    ∀ k v, σ.registry.lookup (registry, k) = some v →
      ∃ ref span p lo, v = Layout.VariantLayout ref span p un k lo := by
  obtain ⟨r, hr, hle, hsame⟩ := unionNew_store σ0 σ1 discr dflt un property hnew
  obtain ⟨f0, f1, r2, hun, _, _, _, _⟩ := unionNew_shape σ0 σ1 discr dflt un property hnew
  rw [hreg] at hr
  cases hr
  induction hreach with
  | start =>
    intro k v h
    rw [hsame] at h
    have := hfresh _ _ h
    exact absurd this (by simpa using hle)
  | call σ2 variant layout p2 _ ih =>
    intro k v h
    subst hun
    cases hreg
    cases hv : VariantLayout.new σ2 (some (Layout.Union (Number.add discr.span dflt.span) property
        (Layout.Structure (Number.add discr.span dflt.span) none [f0, f1]) discr dflt registry))
        variant layout p2 with
    | error e =>
      simp only [Union.addVariantStep, hv] at h
      exact ih k v h
    | ok res =>
      obtain ⟨rv, σ3⟩ := res
      obtain ⟨j, lo, _, _, _, hrv, hσ3⟩ := variantNew_ok σ2 _ property _ discr dflt registry
        variant layout p2 rv σ3 hv
      subst hrv hσ3
      simp only [Union.addVariantStep, hv, lookup_cons_key] at h
      by_cases hkj : k = j
      · rw [if_pos hkj] at h
        cases h
        exact ⟨_, _, _, _, by rw [hkj]⟩
      · rw [if_neg hkj] at h
        exact ih k v h

/-- C38, as amended: let `un` be a union built by `new Union(discr, dflt,
property)` and a store in which every entry of the registry of `un` under a
number `k` is a variant layout of `un` with variant `k`, as `un.addVariant`
leaves them.  When the registry has an entry for the discriminator read from
the buffer, the re-validation of that entry succeeds and `un.decode(b, offset,
dest)` is the decode of the payload layout of the entry at
`offset + discr.span`; so `un.decode` fails only with the error of a failing
decode of the discriminator, of the default layout or of that payload. -/
theorem union_decode_revalidation (σ0 σ1 σ : Store) (discr dflt un : Layout)
    (property : Option String) (registry fuel : ℕ) (b : Buffer) (offset : ℕ)
    (dest : Option Obj)
    (hnew : Union.new σ0 (some discr) (some dflt) property = Except.ok (un, σ1))
    (hreg : un.registry = some registry)
    (hinv : ∀ k v, σ.registry.lookup (registry, k) = some v →
      ∃ ref span p lo, v = Layout.VariantLayout ref span p un k lo) :
    (∀ d v, Layout.decode σ (fuel + 1) discr b offset none = Except.ok d →
      σ.entry registry d = some v →
      ∃ lo, v.layout = some lo ∧
        Layout.decode σ (fuel + 3) un b offset dest
          = Layout.decode σ (fuel + 1) lo b (offset + discr.span) (some (dest.getD []))) ∧
    (∀ e, Layout.decode σ (fuel + 3) un b offset dest = Except.error e →
      Layout.decode σ (fuel + 1) discr b offset none = Except.error e ∨
      (∃ d, Layout.decode σ (fuel + 1) discr b offset none = Except.ok d ∧
        σ.entry registry d = none ∧
        Layout.decode σ (fuel + 2) dflt b (offset + discr.span) none = Except.error e) ∨
      (∃ d v lo, Layout.decode σ (fuel + 1) discr b offset none = Except.ok d ∧
        σ.entry registry d = some v ∧ v.layout = some lo ∧
        Layout.decode σ (fuel + 1) lo b (offset + discr.span) (some (dest.getD []))
          = Except.error e)) := by
  obtain ⟨f0, f1, r, hun, h0, h1, hl, _⟩ := unionNew_shape σ0 σ1 discr dflt un property hnew
  subst hun
  cases hreg
  have hd2 : Layout.decode σ (fuel + 2) discr b offset none
      = Layout.decode σ (fuel + 1) discr b offset none := by
    rw [decode_unsigned σ (fuel + 1) discr hl, decode_unsigned σ fuel discr hl]
  have hentry : ∀ d v, Layout.decode σ (fuel + 1) discr b offset none = Except.ok d →
      σ.entry registry d = some v →
      ∃ lo, v.layout = some lo ∧
        Layout.decode σ (fuel + 3) (Layout.Union (Number.add discr.span dflt.span) property
            (Layout.Structure (Number.add discr.span dflt.span) none [f0, f1]) discr dflt
            registry)
          b offset dest
          = Layout.decode σ (fuel + 1) lo b (offset + discr.span) (some (dest.getD [])) := by
    intro d v hd hv
    obtain ⟨n, _, hlook⟩ := entry_some σ registry d v hv
    obtain ⟨ref, span, p, lo, hshape⟩ := hinv n v hlook
    refine ⟨lo, by rw [hshape]; rfl, ?_⟩
    have hbind : (σ.entry registry d).bind Layout.ref = some ref := by
      rw [hv, hshape]
      rfl
    rw [Layout.decode]
    simp only [Union.decode, hd2, hd, hv]
    rw [hshape, Layout.decode]
    simp only [VariantLayout.decode, Union.getVariant, Option.getD_some, hd]
    exact if_pos hbind
  refine ⟨hentry, ?_⟩
  intro e he
  cases hd : Layout.decode σ (fuel + 1) discr b offset none with
  | error e1 =>
    left
    rw [Layout.decode] at he
    simp only [Union.decode, hd2, hd] at he
    cases he
    rfl
  | ok d =>
    right
    cases hv : σ.entry registry d with
    | none =>
      left
      refine ⟨d, rfl, hv, ?_⟩
      rw [Layout.decode] at he
      simp only [Union.decode, hd2, hd, hv, Layout.fields] at he
      cases hc : Layout.decode σ (fuel + 2) dflt b (offset + discr.span) none with
      | error e2 =>
        simp only [hc] at he
        cases he
        rfl
      | ok c => simp [hc] at he
    | some v =>
      right
      obtain ⟨lo, hlo, heq⟩ := hentry d v hd hv
      exact ⟨d, v, lo, rfl, hv, hlo, by rw [← heq]; exact he⟩

theorem union_decode_revalidation_witness :
    (∀ d v, Layout.decode exampleStore (0 + 1) (Layout.UInt 1 none) [1, 4, 3, 2, 1] 0 none
        = Except.ok d →
      exampleStore.entry 0 d = some v →
      ∃ lo, v.layout = some lo ∧
        Layout.decode exampleStore (0 + 3) exampleUnion [1, 4, 3, 2, 1] 0 none
          = Layout.decode exampleStore (0 + 1) lo [1, 4, 3, 2, 1]
              (0 + (Layout.UInt 1 none).span) (some ((none : Option Obj).getD []))) ∧
    (∀ e, Layout.decode exampleStore (0 + 3) exampleUnion [1, 4, 3, 2, 1] 0 none
        = Except.error e →
      Layout.decode exampleStore (0 + 1) (Layout.UInt 1 none) [1, 4, 3, 2, 1] 0 none
        = Except.error e ∨
      (∃ d, Layout.decode exampleStore (0 + 1) (Layout.UInt 1 none) [1, 4, 3, 2, 1] 0 none
          = Except.ok d ∧
        exampleStore.entry 0 d = none ∧
        Layout.decode exampleStore (0 + 2) (Layout.UInt 4 none) [1, 4, 3, 2, 1]
          (0 + (Layout.UInt 1 none).span) none = Except.error e) ∨
      (∃ d v lo, Layout.decode exampleStore (0 + 1) (Layout.UInt 1 none) [1, 4, 3, 2, 1] 0 none
          = Except.ok d ∧
        exampleStore.entry 0 d = some v ∧ v.layout = some lo ∧
        Layout.decode exampleStore (0 + 1) lo [1, 4, 3, 2, 1] (0 + (Layout.UInt 1 none).span)
          (some ((none : Option Obj).getD [])) = Except.error e)) :=
  union_decode_revalidation ⟨0, []⟩ ⟨1, []⟩ exampleStore (Layout.UInt 1 none)
    (Layout.UInt 4 none) exampleUnion none 0 0 [1, 4, 3, 2, 1] 0 none rfl rfl
    (reachable_entries ⟨0, []⟩ ⟨1, []⟩ exampleStore (Layout.UInt 1 none) (Layout.UInt 4 none)
      exampleUnion none 0 (fun _ _ h => absurd h (by simp [List.lookup])) rfl rfl
      (Union.Reachable.call ⟨1, []⟩ (Arg.integer 1) (some (Layout.UInt 4 none)) none
        Union.Reachable.start))

/-- C38 fails as stated: after `un = new Union(u8(), u32())`,
`un2 = new Union(u8(), u8())`, `w = un2.addVariant(1, u8())`, a second
`un2.addVariant(1, u8())` and `un.addVariant(3, w)`, the registry of `un` was
populated through `addVariant` only, and `un.decode` of the bytes
`03 01 09 00 00` fails with the mismatch error: the entry under 3 passes its
re-validation, and its payload `w`, no longer the entry of `un2` under 1,
fails its own. -/
theorem union_decode_mismatch_from_payload :
    Union.new ⟨1, []⟩ (some (Layout.UInt 1 none)) (some (Layout.UInt 1 none)) none
      = Except.ok (smallUnion, ⟨2, []⟩) ∧
    Union.addVariant ⟨2, []⟩ smallUnion (Arg.integer 1) (some (Layout.UInt 1 none)) none
      = Except.ok (firstVariant, ⟨3, [((1, 1), firstVariant)]⟩) ∧
    Union.addVariant ⟨3, [((1, 1), firstVariant)]⟩ smallUnion (Arg.integer 1)
        (some (Layout.UInt 1 none)) none
      = Except.ok (secondVariant, ⟨4, [((1, 1), secondVariant), ((1, 1), firstVariant)]⟩) ∧
    Union.addVariant ⟨4, [((1, 1), secondVariant), ((1, 1), firstVariant)]⟩ exampleUnion
        (Arg.integer 3) (some firstVariant) none
      = Except.ok (outerVariant, nestedStore) ∧
    Layout.decode nestedStore 4 exampleUnion [3, 1, 9, 0, 0] 0 none
      = Except.error Err.variantMismatch := by
  refine ⟨rfl, rfl, rfl, rfl, rfl⟩

/-! ## Writes stay inside the span -/

theorem keepsOutside_widen {b : Buffer} {lo hi lo2 hi2 : ℕ} {w : Written}
    (h : KeepsOutside b lo hi w) (hlo : lo2 ≤ lo) (hhi : hi ≤ hi2) :
    KeepsOutside b lo2 hi2 w :=
  ⟨h.1, fun i hi3 => h.2 i (by omega)⟩

theorem keepsOutside_step {b : Buffer} {lo hi : ℕ} {w1 w2 : Written}
    (h1 : KeepsOutside b lo hi w1) (h2 : KeepsOutside w1.buffer lo hi w2) :
    KeepsOutside b lo hi w2 :=
  ⟨h2.1.trans h1.1, fun i hi3 => (h2.2 i hi3).trans (h1.2 i hi3)⟩

theorem keepsOutside_splice (b : Buffer) (offset : ℕ) (bytes : List ℕ)
    (h : offset + bytes.length ≤ b.length) :
    KeepsOutside b offset (offset + bytes.length) ⟨b.splice offset bytes, none⟩ := by
  refine ⟨length_splice b offset bytes h, fun i hi => ?_⟩
  rcases hi with hi | hi
  · exact getElem?_splice_lt b offset bytes i h hi
  · exact getElem?_splice_ge b offset bytes i h hi

theorem keepsOutside_writeUIntLE (b : Buffer) (v : ℤ) (offset n : ℕ) :
    KeepsOutside b offset (offset + n) (b.writeUIntLE v offset n) := by
  unfold Buffer.writeUIntLE
  split
  · exact keepsOutside_refl _ _ _ _
  · split
    · exact keepsOutside_refl _ _ _ _
    · have h := keepsOutside_splice b offset (leBytes n v.toNat) (by rw [length_leBytes]; omega)
      rw [length_leBytes] at h
      exact h

theorem keepsOutside_writeUIntBE (b : Buffer) (v : ℤ) (offset n : ℕ) :
    KeepsOutside b offset (offset + n) (b.writeUIntBE v offset n) := by
  unfold Buffer.writeUIntBE
  split
  · exact keepsOutside_refl _ _ _ _
  · split
    · exact keepsOutside_refl _ _ _ _
    · have h := keepsOutside_splice b offset (beBytes n v.toNat) (by rw [length_beBytes]; omega)
      rw [length_beBytes] at h
      exact h

theorem keepsOutside_writeIntLE (b : Buffer) (v : ℤ) (offset n : ℕ) :
    KeepsOutside b offset (offset + n) (b.writeIntLE v offset n) := by
  unfold Buffer.writeIntLE
  split
  · exact keepsOutside_refl _ _ _ _
  · split
    · exact keepsOutside_refl _ _ _ _
    · have h := keepsOutside_splice b offset (leBytes n (toUnsigned n v))
        (by rw [length_leBytes]; omega)
      rw [length_leBytes] at h
      exact h

theorem keepsOutside_writeIntBE (b : Buffer) (v : ℤ) (offset n : ℕ) :
    KeepsOutside b offset (offset + n) (b.writeIntBE v offset n) := by
  unfold Buffer.writeIntBE
  split
  · exact keepsOutside_refl _ _ _ _
  · split
    · exact keepsOutside_refl _ _ _ _
    · have h := keepsOutside_splice b offset (beBytes n (toUnsigned n v))
        (by rw [length_beBytes]; omega)
      rw [length_beBytes] at h
      exact h

theorem keepsOutside_encodeElts_fit (enc : Encoder) (elo : Layout) (vs : List Value)
    (henc : ∀ v, v ∈ vs → ∀ b offset, KeepsOutside b offset (offset + elo.span)
      (enc elo v b offset))
    (b : Buffer) (offset : ℕ) :
    KeepsOutside b offset (offset + vs.length * elo.span)
      (Sequence.encodeElts enc elo vs b offset) := by
  induction vs generalizing b offset with
  | nil => exact keepsOutside_refl _ _ _ _
  | cons v vs ih =>
    have h1 := henc v (List.mem_cons_self _ _) b offset
    have e : offset + (v :: vs).length * elo.span
        = offset + elo.span + vs.length * elo.span := by
      simp only [List.length_cons, Nat.succ_mul]
      omega
    rcases h : enc elo v b offset with ⟨b1, _ | e1⟩
    · simp only [Sequence.encodeElts, h]
      rw [h] at h1
      have h2 := ih (fun x hx => henc x (List.mem_cons_of_mem _ hx)) b1 (offset + elo.span)
      rw [e]
      exact keepsOutside_step (keepsOutside_widen h1 (Nat.le_refl _) (by omega))
        (keepsOutside_widen h2 (by omega) (Nat.le_refl _))
    · simp only [Sequence.encodeElts, h]
      rw [h] at h1
      rw [e]
      exact keepsOutside_widen h1 (Nat.le_refl _) (by omega)

theorem keepsOutside_encodeField (enc : Encoder) (src : Value) (fd : Layout)
    (henc : ∀ q x, fd.property = some q → src.getProp q = Except.ok x → x ≠ Value.undefined →
      ∀ b offset, KeepsOutside b offset (offset + fd.span) (enc fd x b offset))
    (b : Buffer) (offset : ℕ) :
    KeepsOutside b offset (offset + fd.span) (Structure.encodeField enc src fd b offset) := by
  cases hp : fd.property with
  | none =>
    simp only [Structure.encodeField, hp]
    exact keepsOutside_refl _ _ _ _
  | some q =>
    cases hg : src.getProp q with
    | error e =>
      simp only [Structure.encodeField, hp, hg]
      exact keepsOutside_refl _ _ _ _
    | ok fv =>
      simp only [Structure.encodeField, hp, hg]
      by_cases hu : fv.isUndefined = true
      · rw [if_pos hu]
        exact keepsOutside_fill _ _ _ _
      · rw [if_neg hu]
        exact henc q fv hp hg (fun e => hu ((isUndefined_iff fv).2 e)) b offset

theorem keepsOutside_encodeFields (enc : Encoder) (src : Value) (fields : List Layout)
    (henc : ∀ fd, fd ∈ fields → ∀ q x, fd.property = some q → src.getProp q = Except.ok x →
      x ≠ Value.undefined →
      ∀ b offset, KeepsOutside b offset (offset + fd.span) (enc fd x b offset))
    (b : Buffer) (offset : ℕ) :
    KeepsOutside b offset (offset + (fields.map Layout.span).sum)
      (Structure.encodeFields enc src fields b offset) := by
  induction fields generalizing b offset with
  | nil => exact keepsOutside_refl _ _ _ _
  | cons fd rest ih =>
    have h1 := keepsOutside_encodeField enc src fd (henc fd (List.mem_cons_self _ _)) b offset
    have e : offset + ((fd :: rest).map Layout.span).sum
        = offset + fd.span + (rest.map Layout.span).sum := by
      simp only [List.map_cons, List.sum_cons]
      omega
    rw [encodeFields_cons, e]
    by_cases hw : (Structure.encodeField enc src fd b offset).error = none
    · rw [if_pos hw]
      have h2 := ih (fun f hf => henc f (List.mem_cons_of_mem _ hf))
        (Structure.encodeField enc src fd b offset).buffer (offset + fd.span)
      exact keepsOutside_step (keepsOutside_widen h1 (Nat.le_refl _) (by omega))
        (keepsOutside_widen h2 (by omega) (Nat.le_refl _))
    · rw [if_neg hw]
      exact keepsOutside_widen h1 (Nat.le_refl _) (by omega)

theorem keepsOutside_pair (enc : Encoder) (l1 l2 : Layout) (v1 v2 : Value) (b : Buffer)
    (offset : ℕ)
    (h1 : ∀ b offset, KeepsOutside b offset (offset + l1.span) (enc l1 v1 b offset))
    (h2 : ∀ b offset, KeepsOutside b offset (offset + l2.span) (enc l2 v2 b offset)) :
    KeepsOutside b offset (offset + (l1.span + l2.span))
      (match enc l1 v1 b offset with
        | ⟨b1, some e⟩ => ⟨b1, some e⟩
        | ⟨b1, none⟩ => enc l2 v2 b1 (offset + l1.span)) := by
  have ha := h1 b offset
  rcases h : enc l1 v1 b offset with ⟨b1, _ | e⟩
  · simp only []
    rw [h] at ha
    have hb := h2 b1 (offset + l1.span)
    exact keepsOutside_step (keepsOutside_widen ha (Nat.le_refl _) (by omega))
      (keepsOutside_widen hb (by omega) (by omega))
  · simp only []
    rw [h] at ha
    exact keepsOutside_widen ha (Nat.le_refl _) (by omega)

/-- For a layout as the constructors build it and a source in which no list is
longer than the count of the sequence that encodes it, `encode` keeps the
length of the buffer and every byte outside the span of the layout, whether it
succeeds or fails. -/
theorem keepsOutside_encode (σ : Store) (fuel : ℕ) (l : Layout) (src : Value)
    (hl : WellFormed σ l) (hfit : ListsFit l src) (b : Buffer) (offset : ℕ) :
    KeepsOutside b offset (offset + l.span) (Layout.encode fuel l src b offset) := by
  induction fuel generalizing l src b offset with
  | zero => exact keepsOutside_refl _ _ _ _
  | succ fuel ih =>
    cases hl with
    | Base span p => exact keepsOutside_refl _ _ _ _
    | UInt span p =>
      simp only [Layout.encode, UInt.encode]
      split
      · exact keepsOutside_writeUIntLE _ _ _ _
      · exact keepsOutside_refl _ _ _ _
    | UIntBE span p =>
      simp only [Layout.encode, UIntBE.encode]
      split
      · exact keepsOutside_writeUIntBE _ _ _ _
      · exact keepsOutside_refl _ _ _ _
    | Int span p =>
      simp only [Layout.encode, Int.encode]
      split
      · exact keepsOutside_writeIntLE _ _ _ _
      · exact keepsOutside_refl _ _ _ _
    | IntBE span p =>
      simp only [Layout.encode, IntBE.encode]
      split
      · exact keepsOutside_writeIntBE _ _ _ _
      · exact keepsOutside_refl _ _ _ _
    | Sequence span p elo count helo hspan =>
      cases hfit with
      | Sequence _ _ _ _ vs hlen hvs =>
        simp only [Layout.encode, Sequence.encode]
        have h := keepsOutside_encodeElts_fit (Layout.encode fuel) elo vs
          (fun v hv b2 o2 => ih elo v helo (hvs v hv) b2 o2) b offset
        refine keepsOutside_widen h (Nat.le_refl _) ?_
        show offset + vs.length * elo.span ≤ offset + span
        rw [hspan]
        exact Nat.add_le_add_left (Nat.mul_le_mul_right _ hlen) _
      | NoList _ _ _ _ _ hv =>
        cases src with
        | array vs => exact absurd rfl (hv vs)
        | undefined => exact keepsOutside_refl _ _ _ _
        | number n => exact keepsOutside_refl _ _ _ _
        | object ps => exact keepsOutside_refl _ _ _ _
    | Structure span p fields hf hspan =>
      cases hfit with
      | Structure _ _ _ _ hsrc =>
        simp only [Layout.encode, Structure.encode]
        have h := keepsOutside_encodeFields (Layout.encode fuel) src fields
          (fun fd hfd q x hq hx hne b2 o2 => ih fd x (hf fd hfd) (hsrc fd q x hfd hq hx hne) b2 o2)
          b offset
        rw [← hspan] at h
        exact h
    | Union span p layout dlo dflt registry hd hc hspan hreg =>
      cases hfit with
      | Union _ _ _ _ _ _ _ hv hcn =>
        simp only [Layout.encode, Union.encode]
        cases hgd : src.getProp "variant" with
        | error e => exact keepsOutside_refl _ _ _ _
        | ok discr =>
          cases hgc : src.getProp "content" with
          | error e => exact keepsOutside_refl _ _ _ _
          | ok content =>
            simp only []
            split
            · exact keepsOutside_refl _ _ _ _
            · have h := keepsOutside_pair (Layout.encode fuel) dlo dflt discr content b offset
                (fun b2 o2 => ih dlo discr hd (hv discr hgd) b2 o2)
                (fun b2 o2 => ih dflt content hc (hcn content hgc) b2 o2)
              rw [← hspan] at h
              exact h
    | VariantLayout ref span p us up ul dlo dflt registry variant lo hd hlo hspan =>
      cases hfit with
      | VariantLayout _ _ _ _ _ _ _ _ _ _ _ _ hk hsrc =>
        simp only [Layout.encode, VariantLayout.encode]
        have h := keepsOutside_pair (Layout.encode fuel) dlo lo (Value.number (variant : ℤ)) src
          b offset
          (fun b2 o2 => ih dlo _ hd hk b2 o2)
          (fun b2 o2 => ih lo src hlo hsrc b2 o2)
        rw [Nat.add_comm dlo.span lo.span, ← hspan] at h
        exact h

/-- C39: for a layout `L` as the constructors build it (the span of a
sequence, a structure, a union and a variant layout being the product or the
sum that its constructor computes) and a source in which no list is longer than the count of
the sequence that encodes it, `L.encode(v, b, offset)` leaves the length of
`b` and every byte of `b` outside `[offset, offset + L.span)` unchanged,
whether it succeeds or fails; a variant layout returned by `un.addVariant`
leaves every byte outside `[offset, offset + un.span)` unchanged. -/
theorem encode_inside_span (σ : Store) (fuel : ℕ) (l : Layout) (src : Value) (b : Buffer)
    (offset : ℕ) (hl : WellFormed σ l) (hfit : ListsFit l src) :
    KeepsOutside b offset (offset + l.span) (Layout.encode fuel l src b offset) ∧
    (∀ (σ0 σ1 : Store) (uspan : ℕ) (up : Option String) (ul dlo dflt : Layout)
        (registry k : ℕ) (lo : Layout) (vp : Option String),
      Union.addVariant σ0 (Layout.Union uspan up ul dlo dflt registry) (Arg.integer (k : ℤ))
        (some lo) vp = Except.ok (l, σ1) →
      uspan = dlo.span + dflt.span →
      KeepsOutside b offset (offset + uspan) (Layout.encode fuel l src b offset)) := by
  have h := keepsOutside_encode σ fuel l src hl hfit b offset
  refine ⟨h, ?_⟩
  intro σ0 σ1 uspan up ul dlo dflt registry k lo vp hadd hus
  obtain ⟨hv, _, hle, _⟩ := addVariant_shape σ0 σ1 uspan up ul dlo dflt registry k lo vp l hadd
  refine keepsOutside_widen h (Nat.le_refl _) ?_
  subst hv
  have hx : Number.add lo.span dlo.span = lo.span + dlo.span := by
    cases hl with
    | VariantLayout _ _ _ _ _ _ _ _ _ _ _ _ _ hs => exact hs
  rw [hus]
  show offset + Number.add lo.span dlo.span ≤ offset + (dlo.span + dflt.span)
  rw [hx]
  omega

theorem encode_inside_span_witness :
    KeepsOutside [9, 9, 9, 9, 9, 9] 0 (0 + exampleVariant.span)
        (Layout.encode 2 exampleVariant (Value.number 7) [9, 9, 9, 9, 9, 9] 0) ∧
    (∀ (σ0 σ1 : Store) (uspan : ℕ) (up : Option String) (ul dlo dflt : Layout)
        (registry k : ℕ) (lo : Layout) (vp : Option String),
      Union.addVariant σ0 (Layout.Union uspan up ul dlo dflt registry) (Arg.integer (k : ℤ))
        (some lo) vp = Except.ok (exampleVariant, σ1) →
      uspan = dlo.span + dflt.span →
      KeepsOutside [9, 9, 9, 9, 9, 9] 0 (0 + uspan)
        (Layout.encode 2 exampleVariant (Value.number 7) [9, 9, 9, 9, 9, 9] 0)) :=
  encode_inside_span exampleStore 2 exampleVariant (Value.number 7) [9, 9, 9, 9, 9, 9] 0
    (WellFormed.VariantLayout 1 5 none 5 none
      (Layout.Structure 5 none [Layout.UInt 1 (some "variant"), Layout.UInt 4 (some "content")])
      (Layout.UInt 1 none) (Layout.UInt 4 none) 0 1 (Layout.UInt 4 none)
      (WellFormed.UInt _ _) (WellFormed.UInt _ _) rfl)
    (ListsFit.VariantLayout 1 5 none 5 none
      (Layout.Structure 5 none [Layout.UInt 1 (some "variant"), Layout.UInt 4 (some "content")])
      (Layout.UInt 1 none) (Layout.UInt 4 none) 0 1 (Layout.UInt 4 none) (Value.number 7)
      (ListsFit.UInt _ _ _) (ListsFit.UInt _ _ _))

/-! ## Positive spans -/

theorem intSpan_pos (span : Arg) (n : ℕ) (h : intSpan span = Except.ok n) : 1 ≤ n := by
  unfold intSpan Layout.init at h
  cases hs : span.positiveInteger with
  | none => simp [hs] at h
  | some m =>
    simp only [hs] at h
    by_cases h6 : 6 < m
    · simp [h6] at h
    · simp only [h6, if_false, Except.ok.injEq] at h
      subst h
      cases span with
      | integer z =>
        simp only [Arg.positiveInteger] at hs
        by_cases hz : 0 < z
        · rw [if_pos hz] at hs
          cases hs
          omega
        · rw [if_neg hz] at hs
          cases hs
      | undefined => simp [Arg.positiveInteger] at hs
      | string s => simp [Arg.positiveInteger] at hs
      | nonInteger => simp [Arg.positiveInteger] at hs

theorem init_pos (span : Arg) (n : ℕ) (h : Layout.init span = Except.ok n) : 1 ≤ n := by
  unfold Layout.init at h
  cases hs : span.positiveInteger with
  | none => simp [hs] at h
  | some m =>
    simp only [hs, Except.ok.injEq] at h
    subst h
    cases span with
    | integer z =>
      simp only [Arg.positiveInteger] at hs
      by_cases hz : 0 < z
      · rw [if_pos hz] at hs
        cases hs
        omega
      · rw [if_neg hz] at hs
        cases hs
    | undefined => simp [Arg.positiveInteger] at hs
    | string s => simp [Arg.positiveInteger] at hs
    | nonInteger => simp [Arg.positiveInteger] at hs

/-- What holds of every constructed layout: its span is at least 1, the two
layouts of a union have spans of at least 1, which the host adds up to its
span, and the span of a variant layout is at least 2. -/
theorem constructed_spans (l : Layout) (h : Constructed l) :
    1 ≤ l.span ∧
    (∀ us up ul dlo dflt r, l = Layout.Union us up ul dlo dflt r →
      1 ≤ dlo.span ∧ 1 ≤ dflt.span ∧ us = Number.add dlo.span dflt.span) ∧
    (l.kind = Kind.VariantLayout → 2 ≤ l.span) := by
  induction h with
  | Layout span p l hnew =>
    unfold Layout.new at hnew
    cases hi : Layout.init span with
    | error e => simp [hi] at hnew
    | ok n =>
      simp only [hi, Except.ok.injEq] at hnew
      subst hnew
      exact ⟨init_pos span n hi, fun _ _ _ _ _ _ e => (by cases e), fun e => (by cases e)⟩
  | UInt span p l hnew =>
    unfold UInt.new at hnew
    cases hi : intSpan span with
    | error e => simp [hi, Except.map] at hnew
    | ok n =>
      simp only [hi, Except.map, Except.ok.injEq] at hnew
      subst hnew
      exact ⟨intSpan_pos span n hi, fun _ _ _ _ _ _ e => (by cases e), fun e => (by cases e)⟩
  | UIntBE span p l hnew =>
    unfold UIntBE.new at hnew
    cases hi : intSpan span with
    | error e => simp [hi, Except.map] at hnew
    | ok n =>
      simp only [hi, Except.map, Except.ok.injEq] at hnew
      subst hnew
      exact ⟨intSpan_pos span n hi, fun _ _ _ _ _ _ e => (by cases e), fun e => (by cases e)⟩
  | Int span p l hnew =>
    unfold Int.new at hnew
    cases hi : intSpan span with
    | error e => simp [hi, Except.map] at hnew
    | ok n =>
      simp only [hi, Except.map, Except.ok.injEq] at hnew
      subst hnew
      exact ⟨intSpan_pos span n hi, fun _ _ _ _ _ _ e => (by cases e), fun e => (by cases e)⟩
  | IntBE span p l hnew =>
    unfold IntBE.new at hnew
    cases hi : intSpan span with
    | error e => simp [hi, Except.map] at hnew
    | ok n =>
      simp only [hi, Except.map, Except.ok.injEq] at hnew
      subst hnew
      exact ⟨intSpan_pos span n hi, fun _ _ _ _ _ _ e => (by cases e), fun e => (by cases e)⟩
  | Sequence elo count p l _ hnew _ =>
    obtain ⟨elo2, n, he, _, hpos, hl⟩ := sequenceNew_ok (some elo) count p l hnew
    subst hl
    exact ⟨hpos, fun _ _ _ _ _ _ e => (by cases e), fun e => (by cases e)⟩
  | Structure ls p l _ hnew _ =>
    obtain ⟨ls2, _, hpos, hl⟩ := structureNew_ok (some (ls.map some)) p l hnew
    subst hl
    exact ⟨hpos, fun _ _ _ _ _ _ e => (by cases e), fun e => (by cases e)⟩
  | Union σ0 σ1 discr dflt p l _ _ hnew ihd ihc =>
    obtain ⟨f0, f1, r, hun, _, _, _, _⟩ := unionNew_shape σ0 σ1 discr dflt l p hnew
    subst hun
    refine ⟨?_, ?_, fun e => (by cases e)⟩
    · show 1 ≤ Number.add discr.span dflt.span
      have := add_ge_two _ _ ihd.1 ihc.1
      omega
    · intro us up ul dlo dflt2 r2 e
      cases e
      exact ⟨ihd.1, ihc.1, rfl⟩
  | VariantLayout σ0 σ1 un variant lo p l _ _ hnew ihu ihl =>
    cases un with
    | Union uspan up ul dlo dflt registry =>
      obtain ⟨k, lo2, _, hlo, _, hv, _⟩ :=
        variantNew_ok σ0 uspan up ul dlo dflt registry variant (some lo) p l σ1 hnew
      cases hlo
      subst hv
      have hd := (ihu.2.1 uspan up ul dlo dflt registry rfl).1
      have hl := ihl.1
      refine ⟨?_, fun _ _ _ _ _ _ e => (by cases e), fun _ => ?_⟩
      · show 1 ≤ Number.add lo.span dlo.span
        have := add_ge_two _ _ hl hd
        omega
      · show 2 ≤ Number.add lo.span dlo.span
        exact add_ge_two _ _ hl hd
    | Base span q => simp [VariantLayout.new] at hnew
    | UInt span q => simp [VariantLayout.new] at hnew
    | UIntBE span q => simp [VariantLayout.new] at hnew
    | Int span q => simp [VariantLayout.new] at hnew
    | IntBE span q => simp [VariantLayout.new] at hnew
    | Sequence span q elo count => simp [VariantLayout.new] at hnew
    | Structure span q fields => simp [VariantLayout.new] at hnew
    | VariantLayout ref span q u k l2 => simp [VariantLayout.new] at hnew
  | replica σ l p _ ih =>
    obtain ⟨h1, h2, h3⟩ := ih
    cases l with
    | Union us up ul dlo dflt r =>
      refine ⟨h1, ?_, fun e => (by cases e)⟩
      intro us2 up2 ul2 dlo2 dflt2 r2 e
      simp only [Layout.replicate, Layout.Union.injEq] at e
      obtain ⟨e1, _, _, e4, e5, _⟩ := e
      subst e1 e4 e5
      exact h2 us up ul dlo dflt r rfl
    | VariantLayout ref span q un k lo =>
      exact ⟨h1, fun _ _ _ _ _ _ e => (by cases e), fun _ => h3 rfl⟩
    | Base span q => exact ⟨h1, fun _ _ _ _ _ _ e => (by cases e), fun e => (by cases e)⟩
    | UInt span q => exact ⟨h1, fun _ _ _ _ _ _ e => (by cases e), fun e => (by cases e)⟩
    | UIntBE span q => exact ⟨h1, fun _ _ _ _ _ _ e => (by cases e), fun e => (by cases e)⟩
    | Int span q => exact ⟨h1, fun _ _ _ _ _ _ e => (by cases e), fun e => (by cases e)⟩
    | IntBE span q => exact ⟨h1, fun _ _ _ _ _ _ e => (by cases e), fun e => (by cases e)⟩
    | Sequence span q elo count =>
      exact ⟨h1, fun _ _ _ _ _ _ e => (by cases e), fun e => (by cases e)⟩
    | Structure span q fields =>
      exact ⟨h1, fun _ _ _ _ _ _ e => (by cases e), fun e => (by cases e)⟩

/-- C40: every layout that a constructor returns, from layouts that
constructors returned, and every replica of such a layout, has a span of at
least 1, and of at least 2 when it is a union or a variant layout;
`new Structure([])` is rejected with a `TypeError`. -/
theorem span_positive (l : Layout) (h : Constructed l) :
    1 ≤ l.span ∧
    (l.kind = Kind.Union ∨ l.kind = Kind.VariantLayout → 2 ≤ l.span) ∧
    (∀ p, Structure.new (some []) p = Except.error Err.typeError) := by
  obtain ⟨h1, h2, h3⟩ := constructed_spans l h
  refine ⟨h1, ?_, fun p => rfl⟩
  intro hk
  rcases hk with hk | hk
  · cases l with
    | Union us up ul dlo dflt r =>
      obtain ⟨a, b, c⟩ := h2 us up ul dlo dflt r rfl
      show 2 ≤ us
      rw [c]
      exact add_ge_two _ _ a b
    | Base span q => cases hk
    | UInt span q => cases hk
    | UIntBE span q => cases hk
    | Int span q => cases hk
    | IntBE span q => cases hk
    | Sequence span q elo count => cases hk
    | Structure span q fields => cases hk
    | VariantLayout ref span q un k lo => cases hk
  · exact h3 hk

theorem span_positive_witness :
    1 ≤ exampleVariant.span ∧
    (exampleVariant.kind = Kind.Union ∨ exampleVariant.kind = Kind.VariantLayout →
      2 ≤ exampleVariant.span) ∧
    (∀ p, Structure.new (some []) p = Except.error Err.typeError) :=
  span_positive exampleVariant
    (Constructed.VariantLayout ⟨1, []⟩ ⟨2, []⟩ exampleUnion
      (Arg.integer 1) (Layout.UInt 4 none) none exampleVariant
      (Constructed.Union ⟨0, []⟩ ⟨1, []⟩ (Layout.UInt 1 none) (Layout.UInt 4 none) none
        exampleUnion (Constructed.UInt (Arg.integer 1) none _ rfl)
        (Constructed.UInt (Arg.integer 4) none _ rfl) rfl)
      (Constructed.UInt (Arg.integer 4) none _ rfl) rfl)

/-! ## Allocation of bit fields -/

theorem used_append (xs ys : List BitField) :
    BitStructure.used (xs ++ ys) = BitStructure.used xs + BitStructure.used ys := by
  simp [BitStructure.used]

theorem used_cons (x : BitField) (xs : List BitField) :
    BitStructure.used (x :: xs) = x.bits + BitStructure.used xs := by
  simp [BitStructure.used]

theorem allocated_nil (msb : Bool) : BitStructure.Allocated msb [] := by
  intro pre fd post h
  exact absurd h (by simp)

theorem allocated_concat (msb : Bool) (fields : List BitField) (fd : BitField)
    (h : BitStructure.Allocated msb fields)
    (hfd : 0 < fd.bits ∧ fd.value_mask = 2 ^ fd.bits - 1 ∧
      fd.word_mask = fd.value_mask <<< fd.start ∧
      fd.start = (if msb then 32 - BitStructure.used fields - fd.bits
        else BitStructure.used fields)) :
    BitStructure.Allocated msb (fields ++ [fd]) := by
  intro pre x post hx
  rcases List.eq_nil_or_concat post with hp | ⟨post2, y, hp⟩
  · subst hp
    obtain ⟨h1, h2⟩ := List.append_inj' hx rfl
    simp only [List.cons.injEq, and_true] at h2
    subst h1 h2
    exact hfd
  · subst hp
    have e : fields ++ [fd] = (pre ++ x :: post2) ++ [y] := by
      rw [hx]
      simp
    obtain ⟨h1, _⟩ := List.append_inj' e rfl
    exact h pre x post2 h1

theorem allocated_init (msb : Bool) (fields : List BitField) (fd : BitField)
    (h : BitStructure.Allocated msb (fields ++ [fd])) :
    BitStructure.Allocated msb fields ∧
      fd.start = (if msb then 32 - BitStructure.used fields - fd.bits
        else BitStructure.used fields) := by
  constructor
  · intro pre x post hx
    exact h pre x (post ++ [fd]) (by rw [hx]; simp)
  · exact (h fields fd [] rfl).2.2.2

/-- What the constructor and the calls of `addField` keep true of a bit
structure. -/
theorem reachable_allocated (word : Option Layout) (msb : Bool) (property : Option String)
    (bs0 bs : BitStructure)
    (hnew : BitStructure.new word msb property = Except.ok bs0)
    (hreach : BitStructure.Reachable bs0 bs) :
    bs.msb = msb ∧ bs.span ≤ 4 ∧ bs.word.isUnsigned = true ∧ bs.span = bs.word.span ∧
      BitStructure.used bs.fields ≤ bs.span * 8 ∧ BitStructure.Allocated msb bs.fields := by
  induction hreach with
  | start =>
    cases word with
    | none => simp [BitStructure.new] at hnew
    | some w =>
      unfold BitStructure.new at hnew
      cases hu : w.isUnsigned with
      | false => simp [hu] at hnew
      | true =>
        by_cases h4 : 4 < w.span
        · simp [hu, h4] at hnew
        · simp only [hu, h4, Bool.true_eq_false, if_false, Except.ok.injEq] at hnew
          subst hnew
          exact ⟨rfl, Nat.not_lt.mp h4, hu, rfl, Nat.zero_le _, allocated_nil msb⟩
  | call bs1 bits p _ ih =>
    obtain ⟨h1, h2, h3, h4, h5, h6⟩ := ih
    unfold BitStructure.addFieldStep BitStructure.addField
    cases hb : bits.positiveInteger with
    | none => exact ⟨h1, h2, h3, h4, h5, h6⟩
    | some n =>
      have hn : 0 < n := by
        cases bits with
        | integer z =>
          simp only [Arg.positiveInteger] at hb
          by_cases hz : 0 < z
          · rw [if_pos hz] at hb
            cases hb
            omega
          · rw [if_neg hz] at hb
            cases hb
        | undefined => simp [Arg.positiveInteger] at hb
        | string s => simp [Arg.positiveInteger] at hb
        | nonInteger => simp [Arg.positiveInteger] at hb
      simp only []
      by_cases ha : 4 < bs1.span
      · simp only [if_pos ha]
        exact ⟨h1, h2, h3, h4, h5, h6⟩
      · by_cases hc : bs1.span * 8 < BitStructure.used bs1.fields + n
        · simp only [if_neg ha, if_pos hc]
          exact ⟨h1, h2, h3, h4, h5, h6⟩
        · simp only [if_neg ha, if_neg hc]
          refine ⟨h1, h2, h3, h4, ?_, ?_⟩
          · rw [used_append]
            simp only [BitStructure.used, List.map_cons, List.map_nil, List.sum_cons,
              List.sum_nil, Nat.add_zero] at hc ⊢
            omega
          · refine allocated_concat msb bs1.fields _ h6 ⟨hn, rfl, rfl, ?_⟩
            rw [h1]

theorem claims_iff_testBit (fd : BitField)
    (hv : fd.value_mask = 2 ^ fd.bits - 1) (hw : fd.word_mask = fd.value_mask <<< fd.start)
    (i : ℕ) : fd.word_mask.testBit i = true ↔ fd.claims i := by
  rw [hw, hv, Nat.testBit_shiftLeft, Nat.testBit_two_pow_sub_one]
  simp only [BitField.claims, Bool.and_eq_true, decide_eq_true_eq, ge_iff_le]
  constructor
  · rintro ⟨h1, h2⟩
    exact ⟨h1, by omega⟩
  · rintro ⟨h1, h2⟩
    exact ⟨h1, by omega⟩

theorem allocated_start_le (msb : Bool) (fields pre post : List BitField) (fd : BitField)
    (h : BitStructure.Allocated msb fields) (hf : fields = pre ++ fd :: post)
    (h32 : BitStructure.used fields ≤ 32) :
    fd.start + fd.bits ≤ 32 ∧
      fd.start = (if msb then 32 - BitStructure.used pre - fd.bits
        else BitStructure.used pre) ∧
      BitStructure.used pre + fd.bits ≤ 32 := by
  obtain ⟨_, _, _, hs⟩ := h pre fd post hf
  have hu : BitStructure.used pre + fd.bits ≤ BitStructure.used fields := by
    rw [hf, used_append, used_cons]
    omega
  refine ⟨?_, hs, by omega⟩
  rw [hs]
  cases msb with
  | true =>
    simp only [if_true]
    omega
  | false =>
    simp only [Bool.false_eq_true, if_false]
    omega

theorem allocated_disjoint (msb : Bool) (fields pre mid post : List BitField)
    (fd fd2 : BitField) (h : BitStructure.Allocated msb fields)
    (hf : fields = pre ++ fd :: (mid ++ fd2 :: post))
    (h32 : BitStructure.used fields ≤ 32) (i : ℕ) :
    ¬ (fd.claims i ∧ fd2.claims i) := by
  obtain ⟨_, hs1, hu1⟩ := allocated_start_le msb fields pre (mid ++ fd2 :: post) fd h hf h32
  have hf2 : fields = (pre ++ fd :: mid) ++ fd2 :: post := by
    rw [hf]
    simp
  obtain ⟨_, hs2, hu2⟩ := allocated_start_le msb fields (pre ++ fd :: mid) post fd2 h hf2 h32
  rw [used_append, used_cons] at hs2 hu2
  rintro ⟨⟨a1, a2⟩, ⟨b1, b2⟩⟩
  cases msb with
  | true =>
    simp only [if_true] at hs1 hs2
    omega
  | false =>
    simp only [Bool.false_eq_true, if_false] at hs1 hs2
    omega

theorem allocated_cover (msb : Bool) (fields : List BitField)
    (h : BitStructure.Allocated msb fields) (h32 : BitStructure.used fields ≤ 32) (i : ℕ) :
    (∃ fd, fd ∈ fields ∧ fd.claims i) ↔
      (if msb then 32 - BitStructure.used fields ≤ i ∧ i < 32
        else i < BitStructure.used fields) := by
  induction fields using List.reverseRecOn with
  | nil =>
    cases msb with
    | true => simp [BitStructure.used]
    | false => simp [BitStructure.used]
  | append_singleton fields fd ih =>
    obtain ⟨hinit, hs⟩ := allocated_init msb fields fd h
    rw [used_append, used_cons] at h32 ⊢
    have hu0 : BitStructure.used ([] : List BitField) = 0 := rfl
    rw [hu0] at h32 ⊢
    have ih2 := ih hinit (by omega)
    have hmem : (∃ x, x ∈ fields ++ [fd] ∧ x.claims i) ↔
        ((∃ x, x ∈ fields ∧ x.claims i) ∨ fd.claims i) := by
      constructor
      · rintro ⟨x, hx, hc⟩
        rcases List.mem_append.1 hx with hx | hx
        · exact Or.inl ⟨x, hx, hc⟩
        · rw [List.mem_singleton] at hx
          subst hx
          exact Or.inr hc
      · rintro (⟨x, hx, hc⟩ | hc)
        · exact ⟨x, List.mem_append_left _ hx, hc⟩
        · exact ⟨fd, List.mem_append_right _ (List.mem_singleton_self _), hc⟩
    rw [hmem, ih2]
    simp only [BitField.claims]
    cases msb with
    | true =>
      simp only [if_true] at hs ⊢
      omega
    | false =>
      simp only [Bool.false_eq_true, if_false] at hs ⊢
      omega

/-- C33: for a bit structure built by `new BitStructure(word, msb)` and any
calls of `addField`, the fields claim at most `word.span * 8` bits of a word of
at most 4 bytes; each field has as value mask the low `bits` ones, starts
where the fields before it end, from bit 0 upward in LSB mode and from bit 31
downward in MSB mode, and has as word mask exactly the bits of its run; the
word masks of two fields share no bit, and together they are exactly the bits
claimed: the low ones in LSB mode, the ones down from bit 31 in MSB mode. -/
theorem bit_field_allocation (word : Option Layout) (msb : Bool) (property : Option String)
    (bs0 bs : BitStructure)
    (hnew : BitStructure.new word msb property = Except.ok bs0)
    (hreach : BitStructure.Reachable bs0 bs) :
    bs.msb = msb ∧ bs.span ≤ 4 ∧ BitStructure.used bs.fields ≤ bs.span * 8 ∧
    (∀ pre fd post, bs.fields = pre ++ fd :: post →
      fd.value_mask = 2 ^ fd.bits - 1 ∧
      fd.start = (if msb then 32 - BitStructure.used pre - fd.bits
        else BitStructure.used pre) ∧
      ∀ i, fd.word_mask.testBit i = true ↔ fd.start ≤ i ∧ i < fd.start + fd.bits) ∧
    (∀ pre fd mid fd2 post, bs.fields = pre ++ fd :: (mid ++ fd2 :: post) →
      fd.word_mask &&& fd2.word_mask = 0) ∧
    (∀ i, (∃ fd, fd ∈ bs.fields ∧ fd.word_mask.testBit i = true) ↔
      (if msb then 32 - BitStructure.used bs.fields ≤ i ∧ i < 32
        else i < BitStructure.used bs.fields)) := by
  obtain ⟨h1, h2, _, _, h5, h6⟩ := reachable_allocated word msb property bs0 bs hnew hreach
  have h32 : BitStructure.used bs.fields ≤ 32 := by omega
  refine ⟨h1, h2, h5, ?_, ?_, ?_⟩
  · intro pre fd post hf
    obtain ⟨_, hv, hw, hs⟩ := h6 pre fd post hf
    exact ⟨hv, hs, fun i => claims_iff_testBit fd hv hw i⟩
  · intro pre fd mid fd2 post hf
    obtain ⟨_, hv, hw, _⟩ := h6 pre fd (mid ++ fd2 :: post) hf
    obtain ⟨_, hv2, hw2, _⟩ := h6 (pre ++ fd :: mid) fd2 post (by rw [hf]; simp)
    apply Nat.eq_of_testBit_eq
    intro i
    rw [Nat.testBit_land, Nat.zero_testBit]
    cases ha : fd.word_mask.testBit i with
    | false => rfl
    | true =>
      cases hb : fd2.word_mask.testBit i with
      | false => rfl
      | true =>
        exact absurd ⟨(claims_iff_testBit fd hv hw i).1 ha,
          (claims_iff_testBit fd2 hv2 hw2 i).1 hb⟩
          (allocated_disjoint msb bs.fields pre mid post fd fd2 h6 hf h32 i)
  · intro i
    rw [← allocated_cover msb bs.fields h6 h32 i]
    constructor
    · rintro ⟨fd, hm, ht⟩
      obtain ⟨pre, post, hf⟩ := List.append_of_mem hm
      obtain ⟨_, hv, hw, _⟩ := h6 pre fd post hf
      exact ⟨fd, hm, (claims_iff_testBit fd hv hw i).1 ht⟩
    · rintro ⟨fd, hm, hc⟩
      obtain ⟨pre, post, hf⟩ := List.append_of_mem hm
      obtain ⟨_, hv, hw, _⟩ := h6 pre fd post hf
      exact ⟨fd, hm, (claims_iff_testBit fd hv hw i).2 hc⟩

/-! ## Coding of bit fields -/

theorem bitField_encode_testBit (fd : BitField)
    (hv : fd.value_mask = 2 ^ fd.bits - 1) (hw : fd.word_mask = fd.value_mask <<< fd.start)
    (w : ℕ) (v : ℤ) (i : ℕ) (hi : i < 32) :
    (fd.encode w v).testBit i
      = if fd.claims i then ((v % 2 ^ 32).toNat).testBit (i - fd.start) else w.testBit i := by
  have e : (0xFFFFFFFF : ℕ) = 2 ^ 32 - 1 := by norm_num
  unfold BitField.encode
  rw [hw, hv, e]
  simp only [Nat.testBit_lor, Nat.testBit_land, Nat.testBit_xor, Nat.testBit_shiftLeft,
    Nat.testBit_two_pow_sub_one]
  have h32 : decide (i < 32) = true := by simpa using hi
  rw [h32]
  by_cases hc : fd.claims i
  · rw [if_pos hc]
    obtain ⟨h1, h2⟩ := hc
    have d1 : decide (i ≥ fd.start) = true := by simpa using h1
    have d2 : decide (i - fd.start < fd.bits) = true := by
      simp only [decide_eq_true_eq]
      omega
    rw [d1, d2]
    simp
  · rw [if_neg hc]
    have d : (decide (i ≥ fd.start) && decide (i - fd.start < fd.bits)) = false := by
      cases h1 : decide (i ≥ fd.start) with
      | false => rfl
      | true =>
        cases h2 : decide (i - fd.start < fd.bits) with
        | false => rfl
        | true =>
          exfalso
          apply hc
          simp only [decide_eq_true_eq, ge_iff_le] at h1 h2
          exact ⟨h1, by omega⟩
    have d3 : (decide (i ≥ fd.start) &&
        (((v % 2 ^ 32).toNat).testBit (i - fd.start) && decide (i - fd.start < fd.bits)))
        = false := by
      cases h1 : decide (i ≥ fd.start) with
      | false => rfl
      | true =>
        cases h2 : decide (i - fd.start < fd.bits) with
        | false => simp
        | true => simp [h1, h2] at d
    rw [d, d3]
    simp

/-- One round of the loop of `encode`: when the loop succeeds, the field at the
head replaced its bits if the source gives it a number and left the word as it
was otherwise, and the loop went on with the fields after it. -/
theorem bitEncodeFields_cons (src : Value) (fd : BitField) (rest : List BitField) (w0 w : ℕ)
    (h : BitStructure.encodeFields src (fd :: rest) w0 = Except.ok w) :
    BitStructure.encodeFields src rest
      (match fd.given src with
        | some v => fd.encode w0 v
        | none => w0) = Except.ok w := by
  unfold BitStructure.encodeFields at h
  unfold BitField.given
  cases hp : fd.property with
  | none =>
    simp only [hp] at h ⊢
    exact h
  | some p =>
    simp only [hp] at h ⊢
    cases hg : src.getProp p with
    | error e => simp [hg] at h
    | ok x =>
      cases x with
      | undefined =>
        simp only [hg] at h ⊢
        exact h
      | number v =>
        simp only [hg] at h ⊢
        exact h
      | array xs => simp [hg] at h
      | object ps => simp [hg] at h

theorem bitEncodeFields_outside (src : Value) (fields : List BitField)
    (hall : ∀ fd, fd ∈ fields → fd.value_mask = 2 ^ fd.bits - 1 ∧
      fd.word_mask = fd.value_mask <<< fd.start)
    (w0 w : ℕ) (h : BitStructure.encodeFields src fields w0 = Except.ok w) (i : ℕ)
    (hi : i < 32) (hout : ∀ fd, fd ∈ fields → ¬ fd.claims i) :
    w.testBit i = w0.testBit i := by
  induction fields generalizing w0 with
  | nil =>
    simp only [BitStructure.encodeFields, Except.ok.injEq] at h
    rw [h]
  | cons fd rest ih =>
    have h2 := bitEncodeFields_cons src fd rest w0 w h
    have hrest := ih (fun f hf => hall f (List.mem_cons_of_mem _ hf)) _ h2
      (fun f hf => hout f (List.mem_cons_of_mem _ hf))
    rw [hrest]
    cases hg : fd.given src with
    | none => rfl
    | some v =>
      simp only []
      obtain ⟨hv, hw⟩ := hall fd (List.mem_cons_self _ _)
      rw [bitField_encode_testBit fd hv hw w0 v i hi, if_neg (hout fd (List.mem_cons_self _ _))]

/-- After the loop of `encode`, a bit that a field claims is the bit of the
number that the source gives the field, and the bit of the word before the
loop when the source gives it none. -/
theorem bitEncodeFields_claimed (src : Value) (pre post : List BitField) (fd : BitField)
    (hall : ∀ f, f ∈ pre ++ fd :: post → f.value_mask = 2 ^ f.bits - 1 ∧
      f.word_mask = f.value_mask <<< f.start)
    (hdisj : ∀ p1 f1 mid f2 p2, pre ++ fd :: post = p1 ++ f1 :: (mid ++ f2 :: p2) →
      ∀ i, ¬ (f1.claims i ∧ f2.claims i))
    (w0 w : ℕ) (h : BitStructure.encodeFields src (pre ++ fd :: post) w0 = Except.ok w)
    (i : ℕ) (hi : i < 32) (hc : fd.claims i) :
    w.testBit i = match fd.given src with
      | some v => ((v % 2 ^ 32).toNat).testBit (i - fd.start)
      | none => w0.testBit i := by
  induction pre generalizing w0 with
  | nil =>
    simp only [List.nil_append] at h hall hdisj
    have h2 := bitEncodeFields_cons src fd post w0 w h
    have hout : ∀ f, f ∈ post → ¬ f.claims i := by
      intro f hf hfc
      obtain ⟨mid, p2, hp⟩ := List.append_of_mem hf
      exact hdisj [] fd mid f p2 (by rw [hp]; rfl) i ⟨hc, hfc⟩
    rw [bitEncodeFields_outside src post (fun f hf => hall f (List.mem_cons_of_mem _ hf)) _ w h2
      i hi hout]
    cases hg : fd.given src with
    | none => rfl
    | some v =>
      simp only []
      obtain ⟨hv, hw⟩ := hall fd (List.mem_cons_self _ _)
      rw [bitField_encode_testBit fd hv hw w0 v i hi, if_pos hc]
  | cons a pre ih =>
    rw [List.cons_append] at h
    have h2 := bitEncodeFields_cons src a (pre ++ fd :: post) w0 w h
    have hrest := ih (fun f hf => hall f (List.mem_cons_of_mem _ hf))
      (fun p1 f1 mid f2 p2 hp => hdisj (a :: p1) f1 mid f2 p2 (by rw [List.cons_append, hp]; rfl))
      _ h2
    rw [hrest]
    cases hg : fd.given src with
    | none =>
      simp only []
      cases ha : a.given src with
      | none => rfl
      | some v =>
        simp only []
        obtain ⟨hv, hw⟩ := hall a (List.mem_cons_self _ _)
        have hna : ¬ a.claims i := fun hac => hdisj [] a pre fd post rfl i ⟨hac, hc⟩
        rw [bitField_encode_testBit a hv hw w0 v i hi, if_neg hna]
    | some v => rfl

theorem bitStructure_encode_ok (bs : BitStructure) (hu : bs.word.isUnsigned = true)
    (src : Value) (b : Buffer) (offset : ℕ)
    (henc : (BitStructure.encode bs src b offset).error = none) :
    ∃ (w0 : ℤ) (w : ℕ),
      Layout.decode ⟨0, []⟩ 1 bs.word b offset none = Except.ok (Value.number w0) ∧
      BitStructure.encodeFields src bs.fields w0.toNat = Except.ok w ∧
      Layout.decode ⟨0, []⟩ 1 bs.word (BitStructure.encode bs src b offset).buffer offset none
        = Except.ok (Value.number (w : ℕ)) := by
  unfold BitStructure.encode at henc ⊢
  cases hd : Layout.decode ⟨0, []⟩ 1 bs.word b offset none with
  | error e => simp [hd] at henc
  | ok x =>
    cases x with
    | number w0 =>
      simp only [hd] at henc ⊢
      cases hf : BitStructure.encodeFields src bs.fields w0.toNat with
      | error e => simp [hf] at henc
      | ok w =>
        simp only [hf] at henc ⊢
        exact ⟨w0, w, rfl, hf,
          unsigned_decode_of_encode_ok ⟨0, []⟩ 0 0 bs.word hu (w : ℕ) b offset none henc⟩
    | undefined => simp [hd] at henc
    | array xs => simp [hd] at henc
    | object ps => simp [hd] at henc

theorem not_claims_testBit (fd : BitField)
    (hv : fd.value_mask = 2 ^ fd.bits - 1) (hw : fd.word_mask = fd.value_mask <<< fd.start)
    (i : ℕ) (hc : ¬ fd.claims i) : fd.word_mask.testBit i = false := by
  cases h : fd.word_mask.testBit i with
  | false => rfl
  | true => exact absurd ((claims_iff_testBit fd hv hw i).1 h) hc

theorem shifted_testBit_of_not_claims (fd : BitField) (x i : ℕ) (hc : ¬ fd.claims i) :
    (decide (i ≥ fd.start) && (x.testBit (i - fd.start) && decide (i - fd.start < fd.bits)))
      = false := by
  cases h1 : decide (i ≥ fd.start) with
  | false => rfl
  | true =>
    cases h2 : decide (i - fd.start < fd.bits) with
    | false => simp
    | true =>
      exfalso
      apply hc
      simp only [decide_eq_true_eq, ge_iff_le] at h1 h2
      exact ⟨h1, by omega⟩

/-- C35: a bit structure built by `new BitStructure(word, msb)` and calls of
`addField` encodes by read-modify-write.  When `bs.encode(src, b, offset)`
succeeds, the word `w` then held by the buffer has, in the bits of the word
mask of every field that the source gives a number `v`, the bits of
`(v & value_mask)` shifted into position, and in the bits of the word mask of
every other field (without a property, or with a property that the source
leaves `undefined`) the bits that the word `w0` held by the buffer before the
call had there. -/
theorem bit_field_read_modify_write (word : Option Layout) (msb : Bool)
    (property : Option String) (bs0 bs : BitStructure) (src : Value) (b : Buffer) (offset : ℕ)
    (hnew : BitStructure.new word msb property = Except.ok bs0)
    (hreach : BitStructure.Reachable bs0 bs)
    (henc : (BitStructure.encode bs src b offset).error = none) :
    ∃ (w0 : ℤ) (w : ℕ),
      Layout.decode ⟨0, []⟩ 1 bs.word b offset none = Except.ok (Value.number w0) ∧
      Layout.decode ⟨0, []⟩ 1 bs.word (BitStructure.encode bs src b offset).buffer offset none
        = Except.ok (Value.number (w : ℕ)) ∧
      ∀ pre fd post, bs.fields = pre ++ fd :: post →
        (∀ v, fd.given src = some v →
          w &&& fd.word_mask = ((v % 2 ^ 32).toNat &&& fd.value_mask) <<< fd.start) ∧
        (fd.given src = none → w &&& fd.word_mask = w0.toNat &&& fd.word_mask) := by
  obtain ⟨_, h4, hu, _, h5, h6⟩ := reachable_allocated word msb property bs0 bs hnew hreach
  have h32 : BitStructure.used bs.fields ≤ 32 := by omega
  obtain ⟨w0, w, hd0, hf, hd1⟩ := bitStructure_encode_ok bs hu src b offset henc
  refine ⟨w0, w, hd0, hd1, ?_⟩
  intro pre fd post hfields
  obtain ⟨_, hv, hw, _⟩ := h6 pre fd post hfields
  obtain ⟨hle, _, _⟩ := allocated_start_le msb bs.fields pre post fd h6 hfields h32
  have hall : ∀ f, f ∈ pre ++ fd :: post → f.value_mask = 2 ^ f.bits - 1 ∧
      f.word_mask = f.value_mask <<< f.start := by
    intro f hm
    rw [← hfields] at hm
    obtain ⟨p1, p2, hp⟩ := List.append_of_mem hm
    obtain ⟨_, a, c, _⟩ := h6 p1 f p2 hp
    exact ⟨a, c⟩
  have hdisj : ∀ p1 f1 mid f2 p2, pre ++ fd :: post = p1 ++ f1 :: (mid ++ f2 :: p2) →
      ∀ i, ¬ (f1.claims i ∧ f2.claims i) := by
    intro p1 f1 mid f2 p2 hp i
    exact allocated_disjoint msb bs.fields p1 mid p2 f1 f2 h6 (by rw [hfields, hp]) h32 i
  rw [hfields] at hf
  have hbit : ∀ i, fd.claims i → w.testBit i = match fd.given src with
      | some v => ((v % 2 ^ 32).toNat).testBit (i - fd.start)
      | none => w0.toNat.testBit i := by
    intro i hc
    exact bitEncodeFields_claimed src pre post fd hall hdisj w0.toNat w hf i
      (by have := hc.2; omega) hc
  constructor
  · intro v hg
    apply Nat.eq_of_testBit_eq
    intro i
    rw [Nat.testBit_land, Nat.testBit_shiftLeft, Nat.testBit_land, hv,
      Nat.testBit_two_pow_sub_one]
    by_cases hc : fd.claims i
    · have hb := hbit i hc
      rw [hg] at hb
      simp only [] at hb
      have ht : (fd.value_mask <<< fd.start).testBit i = true := by
        rw [← hw]
        exact (claims_iff_testBit fd hv hw i).2 hc
      rw [hw, ht, hb]
      obtain ⟨c1, c2⟩ := hc
      have d1 : decide (i ≥ fd.start) = true := by simpa using c1
      have d2 : decide (i - fd.start < fd.bits) = true := by
        simp only [decide_eq_true_eq]
        omega
      rw [d1, d2]
      simp
    · rw [not_claims_testBit fd hv hw i hc, shifted_testBit_of_not_claims fd _ i hc]
      simp
  · intro hg
    apply Nat.eq_of_testBit_eq
    intro i
    rw [Nat.testBit_land, Nat.testBit_land]
    by_cases hc : fd.claims i
    · have hb := hbit i hc
      rw [hg] at hb
      simp only [] at hb
      rw [hb]
    · rw [not_claims_testBit fd hv hw i hc]
      simp

theorem bitDecodeFields_spec (fields : List BitField) (w : ℕ) (dest : Obj) :
    (∀ k, (∃ fd, fd ∈ fields ∧ fd.property = some k) →
      Obj.has (BitStructure.decodeFields fields w dest) k = true ∧
      ∃ fd, fd ∈ fields ∧ fd.property = some k ∧
        Obj.get (BitStructure.decodeFields fields w dest) k
          = Value.number (fd.decode w : ℕ)) ∧
    (∀ k, (∀ fd, fd ∈ fields → fd.property ≠ some k) →
      Obj.has (BitStructure.decodeFields fields w dest) k = Obj.has dest k ∧
      Obj.get (BitStructure.decodeFields fields w dest) k = Obj.get dest k) := by
  induction fields generalizing dest with
  | nil =>
    refine ⟨?_, fun k _ => ⟨rfl, rfl⟩⟩
    rintro k ⟨fd, hm, _⟩
    exact absurd hm (by simp)
  | cons fd rest ih =>
    constructor
    · intro k hk
      by_cases hr : ∃ f, f ∈ rest ∧ f.property = some k
      · cases hp : fd.property with
        | none =>
          simp only [BitStructure.decodeFields, hp]
          obtain ⟨a, f, hf, hfp, hg⟩ := (ih dest).1 k hr
          exact ⟨a, f, List.mem_cons_of_mem _ hf, hfp, hg⟩
        | some p =>
          simp only [BitStructure.decodeFields, hp]
          obtain ⟨a, f, hf, hfp, hg⟩ := (ih (Obj.set dest p (Value.number (fd.decode w : ℕ)))).1 k hr
          exact ⟨a, f, List.mem_cons_of_mem _ hf, hfp, hg⟩
      · have hfd : fd.property = some k := by
          obtain ⟨f, hm, hfp⟩ := hk
          rcases List.mem_cons.1 hm with e | e
          · rw [← e]
            exact hfp
          · exact absurd ⟨f, e, hfp⟩ hr
        have hnone : ∀ f, f ∈ rest → f.property ≠ some k := fun f hf e => hr ⟨f, hf, e⟩
        simp only [BitStructure.decodeFields, hfd]
        obtain ⟨e1, e2⟩ := (ih (Obj.set dest k (Value.number (fd.decode w : ℕ)))).2 k hnone
        rw [e1, e2, has_set_eq, get_set_eq]
        exact ⟨rfl, fd, List.mem_cons_self _ _, hfd, rfl⟩
    · intro k hk
      have hrest : ∀ f, f ∈ rest → f.property ≠ some k :=
        fun f hf => hk f (List.mem_cons_of_mem _ hf)
      cases hp : fd.property with
      | none =>
        simp only [BitStructure.decodeFields, hp]
        exact (ih dest).2 k hrest
      | some p =>
        have hpk : p ≠ k := by
          intro e
          exact hk fd (List.mem_cons_self _ _) (by rw [hp, e])
        simp only [BitStructure.decodeFields, hp]
        obtain ⟨e1, e2⟩ := (ih (Obj.set dest p (Value.number (fd.decode w : ℕ)))).2 k hrest
        rw [e1, e2, has_set_ne _ _ _ _ hpk, get_set_ne _ _ _ _ hpk]
        exact ⟨rfl, rfl⟩

/-- C34: take a bit structure built by `new BitStructure(word, msb)`, in
either bit order, and calls of `addField`, and a source object that has
exactly the properties of the named fields, each with a number `v` with
`0 <= v < 2 ^ bits`; this covers every bit structure whose fields are all
named.  After a successful `bs.encode(src, b, offset)`, the call
`bs.decode(b, offset)` returns an object equal to `src`, in which the property
of each field is `(w & word_mask) >>> start` for the word `w` that the buffer
holds. -/
theorem bit_field_round_trip (word : Option Layout) (msb : Bool) (property : Option String)
    (bs0 bs : BitStructure) (ps : Obj) (b : Buffer) (offset : ℕ)
    (hnew : BitStructure.new word msb property = Except.ok bs0)
    (hreach : BitStructure.Reachable bs0 bs)
    (hvals : ∀ fd p, fd ∈ bs.fields → fd.property = some p →
      ∃ v : ℕ, Obj.get ps p = Value.number (v : ℕ) ∧ v < 2 ^ fd.bits)
    (hexact : ∀ k, Obj.has ps k = true ↔ ∃ fd, fd ∈ bs.fields ∧ fd.property = some k)
    (henc : (BitStructure.encode bs (Value.object ps) b offset).error = none) :
    ∃ (w : ℕ) (o : Obj),
      Layout.decode ⟨0, []⟩ 1 bs.word
          (BitStructure.encode bs (Value.object ps) b offset).buffer offset none
        = Except.ok (Value.number (w : ℕ)) ∧
      BitStructure.decode bs (BitStructure.encode bs (Value.object ps) b offset).buffer offset
          none = Except.ok (Value.object o) ∧
      Value.Equiv (Value.object o) (Value.object ps) ∧
      ∀ fd p, fd ∈ bs.fields → fd.property = some p →
        Obj.get o p = Value.number (((w &&& fd.word_mask) >>> fd.start : ℕ) : ℕ) := by
  obtain ⟨_, h4, hu, _, h5, h6⟩ := reachable_allocated word msb property bs0 bs hnew hreach
  have h32 : BitStructure.used bs.fields ≤ 32 := by omega
  obtain ⟨w0, w, hd0, hf, hd1⟩ := bitStructure_encode_ok bs hu (Value.object ps) b offset henc
  have hfield : ∀ fd p, fd ∈ bs.fields → fd.property = some p →
      Value.number (fd.decode w : ℕ) = Obj.get ps p := by
    intro fd p hm hp
    obtain ⟨v, hv1, hv2⟩ := hvals fd p hm hp
    obtain ⟨pre, post, hfields⟩ := List.append_of_mem hm
    obtain ⟨_, hv, hw, _⟩ := h6 pre fd post hfields
    obtain ⟨hle, _, _⟩ := allocated_start_le msb bs.fields pre post fd h6 hfields h32
    have hall : ∀ f, f ∈ pre ++ fd :: post → f.value_mask = 2 ^ f.bits - 1 ∧
        f.word_mask = f.value_mask <<< f.start := by
      intro f hm2
      rw [← hfields] at hm2
      obtain ⟨p1, p2, hp2⟩ := List.append_of_mem hm2
      obtain ⟨_, a, c, _⟩ := h6 p1 f p2 hp2
      exact ⟨a, c⟩
    have hdisj : ∀ p1 f1 mid f2 p2, pre ++ fd :: post = p1 ++ f1 :: (mid ++ f2 :: p2) →
        ∀ i, ¬ (f1.claims i ∧ f2.claims i) := by
      intro p1 f1 mid f2 p2 hp2 i
      exact allocated_disjoint msb bs.fields p1 mid p2 f1 f2 h6 (by rw [hfields, hp2]) h32 i
    have hg : fd.given (Value.object ps) = some (v : ℤ) := by
      simp only [BitField.given, hp, Value.getProp, hv1]
    have hx : (((v : ℕ) : ℤ) % 2 ^ 32).toNat = v := by
      have hlt : v < 2 ^ 32 :=
        lt_of_lt_of_le hv2 (Nat.pow_le_pow_right (by norm_num) (by omega))
      have h0 : (0 : ℤ) ≤ (v : ℤ) := Int.ofNat_nonneg v
      have h1 : ((v : ℕ) : ℤ) < 2 ^ 32 := by exact_mod_cast hlt
      rw [Int.emod_eq_of_lt h0 h1, Int.toNat_ofNat]
    rw [hfields] at hf
    rw [hv1]
    congr 2
    apply Nat.eq_of_testBit_eq
    intro j
    unfold BitField.decode
    rw [Nat.testBit_shiftRight, Nat.testBit_land]
    by_cases hj : j < fd.bits
    · have hc : fd.claims (fd.start + j) := ⟨Nat.le_add_right _ _, by omega⟩
      have hb := bitEncodeFields_claimed (Value.object ps) pre post fd hall hdisj w0.toNat w hf
        (fd.start + j) (by omega) hc
      rw [hg] at hb
      simp only [hx, Nat.add_sub_cancel_left] at hb
      rw [hb, (claims_iff_testBit fd hv hw _).2 hc]
      simp
    · have hc : ¬ fd.claims (fd.start + j) := by
        rintro ⟨_, c2⟩
        omega
      rw [not_claims_testBit fd hv hw _ hc]
      have hvj : v.testBit j = false :=
        Nat.testBit_lt_two_pow
          (lt_of_lt_of_le hv2 (Nat.pow_le_pow_right (by norm_num) (by omega)))
      rw [hvj]
      simp
  obtain ⟨s1, s2⟩ := bitDecodeFields_spec bs.fields w []
  refine ⟨w, BitStructure.decodeFields bs.fields w [], hd1, ?_, ?_, ?_⟩
  · unfold BitStructure.decode
    simp only [hd1, Int.toNat_ofNat, Option.getD_none]
  · refine Value.Equiv.object _ _ ?_ ?_
    · intro k
      by_cases hk : ∃ fd, fd ∈ bs.fields ∧ fd.property = some k
      · rw [(s1 k hk).1, (hexact k).2 hk]
      · have hnone : ∀ fd, fd ∈ bs.fields → fd.property ≠ some k :=
          fun fd hm e => hk ⟨fd, hm, e⟩
        rw [(s2 k hnone).1]
        have : Obj.has ps k ≠ true := fun e => hk ((hexact k).1 e)
        simpa [Obj.has] using this
    · intro k
      by_cases hk : ∃ fd, fd ∈ bs.fields ∧ fd.property = some k
      · obtain ⟨_, fd, hm, hp, hg⟩ := s1 k hk
        rw [hg, hfield fd k hm hp]
        exact Value.Equiv.refl _
      · have hnone : ∀ fd, fd ∈ bs.fields → fd.property ≠ some k :=
          fun fd hm e => hk ⟨fd, hm, e⟩
        have hps : Obj.has ps k = false := by
          have : Obj.has ps k ≠ true := fun e => hk ((hexact k).1 e)
          simpa using this
        rw [(s2 k hnone).2, get_of_not_has ps k hps]
        exact Value.Equiv.undefined
  · intro fd p hm hp
    obtain ⟨_, f2, hm2, hp2, hg⟩ := s1 p ⟨fd, hm, hp⟩
    rw [hg, hfield f2 p hm2 hp2, ← hfield fd p hm hp]
    rfl

/-- The bit structure of the test "lsb coding" is what four calls of
`addField` make of `new BitStructure(u32())`. -/
theorem lsbCoding_reachable :
    BitStructure.Reachable ⟨Layout.UInt 4 none, false, 4, none, []⟩ lsbCoding :=
  BitStructure.Reachable.call _ (Arg.integer 16) (some "d16")
    (BitStructure.Reachable.call _ (Arg.integer 11) (some "c11")
      (BitStructure.Reachable.call _ (Arg.integer 4) (some "b4")
        (BitStructure.Reachable.call _ (Arg.integer 1) (some "a1")
          BitStructure.Reachable.start)))

/-- The bit structure of the test "msb coding" is what four calls of
`addField` make of `new BitStructure(u32(), true)`. -/
theorem msbCoding_reachable :
    BitStructure.Reachable ⟨Layout.UInt 4 none, true, 4, none, []⟩ msbCoding :=
  BitStructure.Reachable.call _ (Arg.integer 16) (some "d16")
    (BitStructure.Reachable.call _ (Arg.integer 11) (some "c11")
      (BitStructure.Reachable.call _ (Arg.integer 4) (some "b4")
        (BitStructure.Reachable.call _ (Arg.integer 1) (some "a1")
          BitStructure.Reachable.start)))

theorem bit_field_allocation_witness :
    lsbCoding.msb = false ∧ lsbCoding.span ≤ 4 ∧
    BitStructure.used lsbCoding.fields ≤ lsbCoding.span * 8 ∧
    (∀ pre fd post, lsbCoding.fields = pre ++ fd :: post →
      fd.value_mask = 2 ^ fd.bits - 1 ∧
      fd.start = (if false then 32 - BitStructure.used pre - fd.bits
        else BitStructure.used pre) ∧
      ∀ i, fd.word_mask.testBit i = true ↔ fd.start ≤ i ∧ i < fd.start + fd.bits) ∧
    (∀ pre fd mid fd2 post, lsbCoding.fields = pre ++ fd :: (mid ++ fd2 :: post) →
      fd.word_mask &&& fd2.word_mask = 0) ∧
    (∀ i, (∃ fd, fd ∈ lsbCoding.fields ∧ fd.word_mask.testBit i = true) ↔
      (if false then 32 - BitStructure.used lsbCoding.fields ≤ i ∧ i < 32
        else i < BitStructure.used lsbCoding.fields)) :=
  bit_field_allocation (some (Layout.UInt 4 none)) false none
    ⟨Layout.UInt 4 none, false, 4, none, []⟩ lsbCoding rfl lsbCoding_reachable

theorem bit_field_round_trip_witness :
    ∃ (w : ℕ) (o : Obj),
      Layout.decode ⟨0, []⟩ 1 msbCoding.word
          (BitStructure.encode msbCoding
            (Value.object [("a1", Value.number 1), ("b4", Value.number 9),
              ("c11", Value.number 1265), ("d16", Value.number 35409)])
            [0, 0, 0, 0] 0).buffer 0 none
        = Except.ok (Value.number (w : ℕ)) ∧
      BitStructure.decode msbCoding
          (BitStructure.encode msbCoding
            (Value.object [("a1", Value.number 1), ("b4", Value.number 9),
              ("c11", Value.number 1265), ("d16", Value.number 35409)])
            [0, 0, 0, 0] 0).buffer 0 none = Except.ok (Value.object o) ∧
      Value.Equiv (Value.object o)
        (Value.object [("a1", Value.number 1), ("b4", Value.number 9),
          ("c11", Value.number 1265), ("d16", Value.number 35409)]) ∧
      ∀ fd p, fd ∈ msbCoding.fields → fd.property = some p →
        Obj.get o p = Value.number (((w &&& fd.word_mask) >>> fd.start : ℕ) : ℕ) :=
  bit_field_round_trip (some (Layout.UInt 4 none)) true none
    ⟨Layout.UInt 4 none, true, 4, none, []⟩ msbCoding
    [("a1", Value.number 1), ("b4", Value.number 9),
      ("c11", Value.number 1265), ("d16", Value.number 35409)]
    [0, 0, 0, 0] 0 rfl msbCoding_reachable
    (by
      intro fd p hm hp
      simp only [msbCoding, List.mem_cons, List.mem_singleton, List.not_mem_nil,
        or_false] at hm
      rcases hm with rfl | rfl | rfl | rfl
      · cases hp
        exact ⟨1, rfl, by norm_num⟩
      · cases hp
        exact ⟨9, rfl, by norm_num⟩
      · cases hp
        exact ⟨1265, rfl, by norm_num⟩
      · cases hp
        exact ⟨35409, rfl, by norm_num⟩)
    (by
      intro k
      simp only [msbCoding, Obj.has, List.mem_cons, List.mem_singleton, List.not_mem_nil,
        or_false]
      constructor
      · intro h
        by_cases h1 : "a1" = k
        · exact ⟨_, Or.inl rfl, by rw [h1]⟩
        · by_cases h2 : "b4" = k
          · exact ⟨_, Or.inr (Or.inl rfl), by rw [h2]⟩
          · by_cases h3 : "c11" = k
            · exact ⟨_, Or.inr (Or.inr (Or.inl rfl)), by rw [h3]⟩
            · by_cases h4 : "d16" = k
              · exact ⟨_, Or.inr (Or.inr (Or.inr rfl)), by rw [h4]⟩
              · simp [h1, h2, h3, h4] at h
      · rintro ⟨fd, hm, hp⟩
        rcases hm with rfl | rfl | rfl | rfl
        · cases hp
          simp
        · cases hp
          simp
        · cases hp
          simp
        · cases hp
          simp)
    rfl

theorem bit_field_read_modify_write_witness :
    ∃ (w0 : ℤ) (w : ℕ),
      Layout.decode ⟨0, []⟩ 1 lsbCoding.word [255, 255, 255, 255] 0 none
        = Except.ok (Value.number w0) ∧
      Layout.decode ⟨0, []⟩ 1 lsbCoding.word
          (BitStructure.encode lsbCoding
            (Value.object [("a1", Value.number 0), ("c11", Value.number 1265)])
            [255, 255, 255, 255] 0).buffer 0 none
        = Except.ok (Value.number (w : ℕ)) ∧
      ∀ pre fd post, lsbCoding.fields = pre ++ fd :: post →
        (∀ v, fd.given (Value.object [("a1", Value.number 0), ("c11", Value.number 1265)])
            = some v →
          w &&& fd.word_mask = ((v % 2 ^ 32).toNat &&& fd.value_mask) <<< fd.start) ∧
        (fd.given (Value.object [("a1", Value.number 0), ("c11", Value.number 1265)]) = none →
          w &&& fd.word_mask = w0.toNat &&& fd.word_mask) :=
  bit_field_read_modify_write (some (Layout.UInt 4 none)) false none
    ⟨Layout.UInt 4 none, false, 4, none, []⟩ lsbCoding
    (Value.object [("a1", Value.number 0), ("c11", Value.number 1265)])
    [255, 255, 255, 255] 0 rfl lsbCoding_reachable rfl

/-! ## The coding tests of the bit structures -/

/-- The test "lsb coding": on a buffer of `FF` bytes the fields decode to
`{a1: 1, b4: 15, c11: 0x7FF, d16: 0xFFFF}`, and encoding
`{a1: 0, b4: 9, c11: 0x4F1, d16: 0x8a51}` leaves the bytes `32 9e 51 8a`. -/
theorem lsbCoding_test :
    BitStructure.decode lsbCoding [255, 255, 255, 255] 0 none
      = Except.ok (Value.object [("a1", Value.number 1), ("b4", Value.number 15),
          ("c11", Value.number 2047), ("d16", Value.number 65535)]) ∧
    BitStructure.encode lsbCoding
        (Value.object [("a1", Value.number 0), ("b4", Value.number 9),
          ("c11", Value.number 1265), ("d16", Value.number 35409)])
        [255, 255, 255, 255] 0 = ⟨[0x32, 0x9e, 0x51, 0x8a], none⟩ :=
  ⟨rfl, rfl⟩

/-- The test "msb coding": the same source leaves the bytes `51 8a f1 4c`. -/
theorem msbCoding_test :
    BitStructure.decode msbCoding [255, 255, 255, 255] 0 none
      = Except.ok (Value.object [("a1", Value.number 1), ("b4", Value.number 15),
          ("c11", Value.number 2047), ("d16", Value.number 65535)]) ∧
    BitStructure.encode msbCoding
        (Value.object [("a1", Value.number 0), ("b4", Value.number 9),
          ("c11", Value.number 1265), ("d16", Value.number 35409)])
        [255, 255, 255, 255] 0 = ⟨[0x51, 0x8a, 0xf1, 0x4c], none⟩ :=
  ⟨rfl, rfl⟩

/-- The bit structures of the test "gap coding" are what the calls of
`addField` make of `new BitStructure(u24())` and of
`new BitStructure(u24(), true)`. -/
theorem gap_reachable :
    BitStructure.Reachable ⟨Layout.UInt 3 none, false, 3, none, []⟩ lsbGap ∧
    BitStructure.Reachable ⟨Layout.UInt 3 none, true, 3, none, []⟩ msbGap :=
  ⟨BitStructure.Reachable.call _ (Arg.integer 6) (some "b6")
    (BitStructure.Reachable.call _ (Arg.integer 13) none
      (BitStructure.Reachable.call _ (Arg.integer 5) (some "a5")
        BitStructure.Reachable.start)),
   BitStructure.Reachable.call _ (Arg.integer 6) (some "b6")
    (BitStructure.Reachable.call _ (Arg.integer 13) none
      (BitStructure.Reachable.call _ (Arg.integer 5) (some "a5")
        BitStructure.Reachable.start))⟩

/-- The test "gap coding" on a word of 24 bits, as the allocation from bit 31
downward and the read-modify-write encoding make it.  On a buffer of `A5`
bytes the LSB structure decodes to `{a5: 5, b6: 41}`, as the test expects; the
MSB structure decodes to `{a5: 0, b6: 37}`, where the test expects
`{a5: 20, b6: 37}`, the five bits from the top of the word of 24 bits; and
encoding `{a5: 5, b6: 41}` leaves the bytes `a5 a5 a5`, with the bits of the
field that has no property as they were, where the test expects `05 00 a4`. -/
theorem gap_coding_test :
    BitStructure.decode lsbGap [0xA5, 0xA5, 0xA5] 0 none
      = Except.ok (Value.object [("a5", Value.number 5), ("b6", Value.number 41)]) ∧
    BitStructure.decode msbGap [0xA5, 0xA5, 0xA5] 0 none
      = Except.ok (Value.object [("a5", Value.number 0), ("b6", Value.number 37)]) ∧
    BitStructure.encode lsbGap
        (Value.object [("a5", Value.number 5), ("b6", Value.number 41)])
        [0xA5, 0xA5, 0xA5] 0 = ⟨[0xA5, 0xA5, 0xA5], none⟩ :=
  ⟨rfl, rfl, rfl⟩
end BufferLayout
